import Mathlib

/-!
# Seam editor: dependency graph, traversal orders and frame evaluation

A shallow embedding of `src/src/seam/editor.cpp`.

* Node pointers (`IEventNode*`) and pin pointers (`Pin*`) are natural numbers; the
  objects they point to live in the total maps `Editor.node` and `Editor.pin`.
* A `PinInput*` / `PinOutput*` is the pair of the owning node and the slot index in
  that node's input / output pin array.
* `assert` is active: a failed assertion stops the call (`Res.assertFail`) with the
  state reached so far.
* The recursive functions take a `fuel` argument bounding the recursion depth;
  `none` / `Res.outOfFuel` means the bound was hit.
* The order fields are `int16_t`. The definitions named as in the source compute the
  orders in unbounded integers; the definitions with the suffix `16`
  (`RecalculateUpdateOrder16`, ..., `Connect16`, `Disconnect16`, `run16`) are the same
  code with every stored order converted to 16 bits (`narrow16`). The two give the same
  update orders while no parent-chain has more than 32767 edges, and the same draw
  orders while none has more than 32767 visual nodes (`run16_fresh`); on a chain of
  32769 nodes, or of 32768 visual nodes, a stored order wraps to -32768.
-/

namespace Seam

abbrev NodeId := Nat
abbrev PinId := Nat

/-- Modelled from the spec: `PinFlags` is declared in a header that is not among the
sources; the spec gives a pin a direction, input or output, mutually exclusive.
`(pin->flags & PinFlags::INPUT) == PinFlags::INPUT` is `dir = PinDir.input`. -/
inductive PinDir where
  | input
  | output
  deriving DecidableEq, Repr

/-- Modelled from the spec: `Pin` (declared outside the sources) carries a value type
identifier and a direction. -/
structure Pin where
  type : Nat
  dir : PinDir
  deriving DecidableEq, Repr

/-- Slot of a node's input pin array: `PinInput::pin` is a `Pin*`. -/
structure PinInput where
  pin : PinId
  deriving DecidableEq, Repr

/-- Slot of a node's output pin array: `pin` is the address of the embedded `Pin`,
`connections` the fan-out (`std::vector<PinInput>`). -/
structure PinOutput where
  pin : PinId
  connections : List PinInput
  deriving DecidableEq, Repr

/-- Entry of a `parents` / `children` vector. -/
structure NodeConnection where
  node : NodeId
  conn_count : Nat
  deriving DecidableEq, Repr

structure IEventNode where
  id : Nat
  is_visual : Bool
  updates_over_time : Bool
  update_order : Int
  draw_order : Int
  dirty : Bool
  parents : List NodeConnection
  children : List NodeConnection
  pin_inputs : List PinInput
  pin_outputs : List PinOutput
  deriving DecidableEq, Repr

/-- A `Link` is the pair `(PinInput*, PinOutput*)`; each pointer is (node, slot). -/
structure Link where
  first : NodeId × Nat
  second : NodeId × Nat
  deriving DecidableEq, Repr

structure PinToNode where
  pin : PinId
  node : NodeId
  deriving DecidableEq, Repr

/-- The editor together with the memory its pointers refer to. -/
structure Editor where
  node : NodeId → IEventNode
  pin : PinId → Pin
  nodes : List NodeId
  links : List Link
  visible_nodes : List NodeId
  nodes_update_over_time : List NodeId
  nodes_to_draw : List NodeId
  pins_to_nodes : List PinToNode

/-- Outcome of a call: normal return, failed `assert`, or recursion bound hit. -/
inductive Res (σ α : Type) where
  | ok (a : α) (s : σ)
  | assertFail (s : σ)
  | outOfFuel

/-- Write one node object. -/
def Editor.setNode (s : Editor) (n : NodeId) (v : IEventNode) : Editor :=
  { s with node := Function.update s.node n v }

/-- Replace the `links` vector. -/
def Editor.setLinks (s : Editor) (l : List Link) : Editor :=
  { s with links := l }

/-- Replace the `children` vector of node `n`. -/
def Editor.setChildren (s : Editor) (n : NodeId) (cs : List NodeConnection) : Editor :=
  s.setNode n { s.node n with children := cs }

/-- Replace the `parents` vector of node `n`. -/
def Editor.setParents (s : Editor) (n : NodeId) (ps : List NodeConnection) : Editor :=
  s.setNode n { s.node n with parents := ps }

def Editor.setUpdateOrder (s : Editor) (n : NodeId) (v : Int) : Editor :=
  s.setNode n { s.node n with update_order := v }

def Editor.setDrawOrder (s : Editor) (n : NodeId) (v : Int) : Editor :=
  s.setNode n { s.node n with draw_order := v }

/-! ## Traversal-order calculator -/

/-- The loop `for (auto x : conns) acc = std::max(acc, f(x.node));` with the state
threaded through the calls. -/
def maxLoop (f : Editor → NodeId → Option (Int × Editor)) :
    List NodeConnection → Int → Editor → Option (Int × Editor)
  | [], acc, s => some (acc, s)
  | c :: cs, acc, s =>
    match f s c.node with
    | none => none
    | some (v, s1) => maxLoop f cs (max acc v) s1

/-- The loop `for (auto x : conns) f(x.node);`. -/
def eachLoop (f : Editor → NodeId → Option (Int × Editor)) :
    List NodeConnection → Editor → Option Editor
  | [], s => some s
  | c :: cs, s =>
    match f s c.node with
    | none => none
    | some (_, s1) => eachLoop f cs s1

/-- `Editor::RecalculateUpdateOrder` (editor.cpp 480-505), the orders being unbounded
integers; `RecalculateUpdateOrder16` has the store at its width of 16 bits. -/
def RecalculateUpdateOrder : Nat → Editor → NodeId → Option (Int × Editor)
  | 0, _, _ => none
  | fuel + 1, s, node =>
    if (s.node node).update_order ≠ -1 then
      some ((s.node node).update_order, s)
    else
      match maxLoop (RecalculateUpdateOrder fuel) (s.node node).parents (-1) s with
      | none => none
      | some (max_parents_update_order, s1) =>
        let s2 := s1.setUpdateOrder node (max_parents_update_order + 1)
        match eachLoop (RecalculateUpdateOrder fuel) (s2.node node).children s2 with
        | none => none
        | some s3 => some ((s3.node node).update_order, s3)

/-- `Editor::RecalculateDrawOrder` (editor.cpp 507-532), the orders being unbounded
integers; `RecalculateDrawOrder16` has the store at its width of 16 bits. -/
def RecalculateDrawOrder : Nat → Editor → NodeId → Option (Int × Editor)
  | 0, _, _ => none
  | fuel + 1, s, node =>
    if (s.node node).draw_order ≠ -1 then
      some ((s.node node).draw_order, s)
    else
      match maxLoop (RecalculateDrawOrder fuel) (s.node node).parents 0 s with
      | none => none
      | some (max_parents_draw_order, s1) =>
        let is_visual : Int := if (s1.node node).is_visual then 1 else 0
        let s2 := s1.setDrawOrder node (max_parents_draw_order + is_visual)
        match eachLoop (RecalculateDrawOrder fuel) (s2.node node).children s2 with
        | none => none
        | some s3 => some ((s3.node node).draw_order, s3)

/-- The loop `for (auto child : node->children) InvalidateChildren(child.node, ..)`. -/
def invLoop (f : Editor → NodeId → Option Editor) :
    List NodeConnection → Editor → Option Editor
  | [], s => some s
  | c :: cs, s =>
    match f s c.node with
    | none => none
    | some s1 => invLoop f cs s1

/-- `Editor::InvalidateChildren` (editor.cpp 534-550). -/
def InvalidateChildren : Nat → Editor → NodeId → Bool → Bool → Option Editor
  | 0, _, _, _, _ => none
  | fuel + 1, s, node, recalc_update, recalc_draw =>
    let needs_update_invalidated := recalc_update && decide ((s.node node).update_order ≠ -1)
    let needs_draw_invalidated := recalc_draw && decide ((s.node node).draw_order ≠ -1)
    if !needs_update_invalidated && !needs_draw_invalidated then
      some s
    else
      let s1 := s.setUpdateOrder node (if recalc_update then -1 else (s.node node).update_order)
      let s2 := s1.setDrawOrder node (if recalc_draw then -1 else (s1.node node).draw_order)
      invLoop (fun t c => InvalidateChildren fuel t c recalc_update recalc_draw)
        (s2.node node).children s2

/-- `Editor::RecalculateTraversalOrder` (editor.cpp 552-563). -/
def RecalculateTraversalOrder (fuel : Nat) (s : Editor) (node : NodeId)
    (recalc_update recalc_draw : Bool) : Option Editor :=
  match InvalidateChildren fuel s node recalc_update recalc_draw with
  | none => none
  | some s1 =>
    match (if recalc_update then (RecalculateUpdateOrder fuel s1 node).map Prod.snd
           else some s1) with
    | none => none
    | some s2 =>
      if recalc_draw then (RecalculateDrawOrder fuel s2 node).map Prod.snd else some s2

/-! ## Pin lookup -/

/-- Index of the first element satisfying `p` (the `for` loops of `FindPinInput` and
`FindPinOutput` stop at the first match). -/
def findSlot {α : Type} (p : α → Bool) : List α → Option Nat
  | [] => none
  | x :: xs => if p x then some 0 else (findSlot p xs).map (· + 1)

/-- `Editor::FindPinInput` (editor.cpp 570-580): the slot of `node` whose `pin`
pointer is `pin`, or null. -/
def FindPinInput (s : Editor) (node : NodeId) (pin : PinId) : Option Nat :=
  findSlot (fun x => decide (x.pin = pin)) (s.node node).pin_inputs

/-- `Editor::FindPinOutput` (editor.cpp 582-592). -/
def FindPinOutput (s : Editor) (node : NodeId) (pin : PinId) : Option Nat :=
  findSlot (fun x => decide (x.pin = pin)) (s.node node).pin_outputs

/-- The halving loop shared by `std::lower_bound` and `std::upper_bound`:
`goRight x` tells that the answer lies after `x`. -/
def boundLoop {α : Type} [Inhabited α] (goRight : α → Bool) (a : List α) :
    Nat → Nat → Nat → Nat
  | 0, first, _ => first
  | fuel + 1, first, count =>
    if count = 0 then first
    else
      let step := count / 2
      let it := first + step
      if goRight (a.getD it default) then boundLoop goRight a fuel (it + 1) (count - (step + 1))
      else boundLoop goRight a fuel first step

instance : Inhabited PinToNode := ⟨⟨0, 0⟩⟩

/-- `Editor::MapPinToNode` (editor.cpp 565-568); `none` is `nullptr`. The comparison of
a `PinToNode` entry with a pin is declared outside the sources; as the spec has the
index ordered by pin identity, an entry is less than a pin when its pin identity is. -/
def MapPinToNode (s : Editor) (pin : PinId) : Option NodeId :=
  let it := boundLoop (fun e => decide (e.pin < pin)) s.pins_to_nodes
    s.pins_to_nodes.length 0 s.pins_to_nodes.length
  match s.pins_to_nodes.get? it with
  | some e => if e.pin = pin then some e.node else none
  | none => none

/-! ## Connection manager -/

/-- Modelled from the spec: `IEventNode::AddChild` / `IEventNode::AddParent` are defined
outside the sources. Per the spec, the first link between two nodes appends a new
adjacency entry with `connection_count = 1`, otherwise the existing entry's count is
incremented; the result tells whether a new entry was created. -/
def addConn (n : NodeId) : List NodeConnection → Bool × List NodeConnection
  | [] => (true, [⟨n, 1⟩])
  | c :: cs =>
    if c.node = n then (false, ⟨c.node, c.conn_count + 1⟩ :: cs)
    else ((addConn n cs).1, c :: (addConn n cs).2)

/-- Modelled from the spec: `parent->AddChild(child)`, see `addConn`. -/
def AddChild (s : Editor) (parent child : NodeId) : Bool × Editor :=
  ((addConn child (s.node parent).children).1,
   s.setChildren parent (addConn child (s.node parent).children).2)

/-- Modelled from the spec: `child->AddParent(parent)`, see `addConn`. -/
def AddParent (s : Editor) (child parent : NodeId) : Bool × Editor :=
  ((addConn parent (s.node child).parents).1,
   s.setParents child (addConn parent (s.node child).parents).2)

/-- The blocks at editor.cpp 442-451 and 453-462: `std::find` the entry for `n`
(`none` when the assertion `it != end()` fails); erase it when its count is 1
(result `true`: rearranged), otherwise decrement the count. -/
def removeConn (n : NodeId) : List NodeConnection → Option (Bool × List NodeConnection)
  | [] => none
  | c :: cs =>
    if c.node = n then
      (if c.conn_count = 1 then some (true, cs)
       else some (false, ⟨c.node, c.conn_count - 1⟩ :: cs))
    else
      match removeConn n cs with
      | none => none
      | some r => some (r.1, c :: r.2)

/-- `pin_out->connections.push_back(*pin_in)` (editor.cpp 382). -/
def Editor.pushConnection (s : Editor) (parent : NodeId) (slot : Nat) (x : PinInput) : Editor :=
  s.setNode parent { s.node parent with
    pin_outputs := (s.node parent).pin_outputs.modify
      (fun o => ⟨o.pin, o.connections ++ [x]⟩) slot }

/-- `pin_out->connections.erase(it)` for the first entry equal to `x`
(editor.cpp 425-427). -/
def Editor.eraseConnection (s : Editor) (parent : NodeId) (slot : Nat) (x : PinInput) : Editor :=
  s.setNode parent { s.node parent with
    pin_outputs := (s.node parent).pin_outputs.modify
      (fun o => ⟨o.pin, o.connections.erase x⟩) slot }

instance : Inhabited PinInput := ⟨⟨0⟩⟩
instance : Inhabited PinOutput := ⟨⟨0, []⟩⟩

/-- `Editor::Connect(IEventNode*, Pin*, IEventNode*, Pin*)` (editor.cpp 363-399). -/
def Connect (fuel : Nat) (s : Editor) (parent : NodeId) (pin_co : PinId)
    (child : NodeId) (pin_ci : PinId) : Res Editor Bool :=
  if (s.pin pin_ci).dir ≠ PinDir.input then Res.assertFail s
  else if (s.pin pin_co).dir ≠ PinDir.output then Res.assertFail s
  else if (s.pin pin_co).type ≠ (s.pin pin_ci).type then Res.assertFail s
  else
    match FindPinInput s child pin_ci, FindPinOutput s parent pin_co with
    | some pin_in, some pin_out =>
      let s1 := s.pushConnection parent pin_out ((s.node child).pin_inputs.getD pin_in default)
      let s2 := s1.setLinks (s1.links ++ [⟨(child, pin_in), (parent, pin_out)⟩])
      let is_new_child := (AddChild s2 parent child).1
      let s3 := (AddChild s2 parent child).2
      let is_new_parent := (AddParent s3 child parent).1
      let s4 := (AddParent s3 child parent).2
      let rearranged := is_new_parent || is_new_child
      if rearranged then
        match RecalculateTraversalOrder fuel s4 child true true with
        | none => Res.outOfFuel
        | some s5 => Res.ok true s5
      else Res.ok true s4
    | _, _ => Res.assertFail s

/-- `Editor::Connect(Pin*, Pin*)` (editor.cpp 401-408). -/
def ConnectPins (fuel : Nat) (s : Editor) (pin_out pin_in : PinId) : Res Editor Bool :=
  match MapPinToNode s pin_in, MapPinToNode s pin_out with
  | some node_in, some node_out => Connect fuel s node_out pin_out node_in pin_in
  | _, _ => Res.assertFail s

/-- `Editor::Disconnect(IEventNode*, Pin*, IEventNode*, Pin*)` (editor.cpp 410-470). -/
def Disconnect (fuel : Nat) (s : Editor) (parent : NodeId) (pin_co : PinId)
    (child : NodeId) (pin_ci : PinId) : Res Editor Bool :=
  if (s.pin pin_ci).dir ≠ PinDir.input then Res.assertFail s
  else if (s.pin pin_co).dir ≠ PinDir.output then Res.assertFail s
  else if (s.pin pin_co).type ≠ (s.pin pin_ci).type then Res.assertFail s
  else
    match FindPinInput s child pin_ci, FindPinOutput s parent pin_co with
    | some pin_in, some pin_out =>
      let x := (s.node child).pin_inputs.getD pin_in default
      if x ∉ ((s.node parent).pin_outputs.getD pin_out default).connections then Res.assertFail s
      else
        let s1 := s.eraseConnection parent pin_out x
        let l : Link := ⟨(child, pin_in), (parent, pin_out)⟩
        if l ∉ s1.links then Res.assertFail s1
        else
          let s2 := s1.setLinks (s1.links.erase l)
          match removeConn child (s2.node parent).children with
          | none => Res.assertFail s2
          | some (r1, cs) =>
            let s3 := s2.setChildren parent cs
            match removeConn parent (s3.node child).parents with
            | none => Res.assertFail s3
            | some (r2, ps) =>
              let s4 := s3.setParents child ps
              let rearranged := r1 || r2
              if rearranged then
                match RecalculateTraversalOrder fuel s4 child true true with
                | none => Res.outOfFuel
                | some s5 => Res.ok true s5
              else Res.ok true s4
    | _, _ => Res.assertFail s

/-- `Editor::Disconnect(Pin*, Pin*)` (editor.cpp 472-478). -/
def DisconnectPins (fuel : Nat) (s : Editor) (pin_out pin_in : PinId) : Res Editor Bool :=
  match MapPinToNode s pin_out, MapPinToNode s pin_in with
  | some node_out, some node_in => Disconnect fuel s node_out pin_out node_in pin_in
  | _, _ => Res.assertFail s

/-! ## Frame scheduler -/

/-- The editor during one call of `Editor::Update`, with the log of the
`IEventNode::Update` invocations made so far in that call (oldest first). A node's
computation is external; it is taken not to touch the editor's data. -/
structure Frame where
  ed : Editor
  calls : List NodeId

/-- The parent loop of `UpdateVisibleNodeGraph` (editor.cpp 40-45). -/
def walkLoop (f : Frame → NodeId → Res Frame Unit) :
    List NodeConnection → Int → Frame → Res Frame Unit
  | [], _, fr => Res.ok () fr
  | p :: ps, last_update_order, fr =>
    if ¬ (last_update_order ≤ (fr.ed.node p.node).update_order) then Res.assertFail fr
    else
      match f fr p.node with
      | Res.ok _ fr1 => walkLoop f ps (fr.ed.node p.node).update_order fr1
      | Res.assertFail fr1 => Res.assertFail fr1
      | Res.outOfFuel => Res.outOfFuel

/-- `Editor::UpdateVisibleNodeGraph` (editor.cpp 37-57). -/
def UpdateVisibleNodeGraph : Nat → Frame → NodeId → Res Frame Unit
  | 0, _, _ => Res.outOfFuel
  | fuel + 1, fr, n =>
    match walkLoop (UpdateVisibleNodeGraph fuel) (fr.ed.node n).parents (-1) fr with
    | Res.ok _ fr1 =>
      if (fr1.ed.node n).dirty then
        let ed2 := fr1.ed.setNode n { fr1.ed.node n with dirty := false }
        let ed3 : Editor :=
          if (ed2.node n).is_visual then { ed2 with nodes_to_draw := ed2.nodes_to_draw ++ [n] }
          else ed2
        Res.ok () ⟨ed3, fr1.calls ++ [n]⟩
      else Res.ok () fr1
    | Res.assertFail fr1 => Res.assertFail fr1
    | Res.outOfFuel => Res.outOfFuel

/-- The loop `for (auto n : nodes_update_over_time) n->dirty = true;`
(editor.cpp 64-69). -/
def seedDirty : List NodeId → Editor → Editor
  | [], s => s
  | n :: ns, s => seedDirty ns (s.setNode n { s.node n with dirty := true })

/-- The loop `for (auto n : visible_nodes) UpdateVisibleNodeGraph(n);`
(editor.cpp 71-73). -/
def visitLoop (fuel : Nat) : List NodeId → Frame → Res Frame Unit
  | [], fr => Res.ok () fr
  | n :: ns, fr =>
    match UpdateVisibleNodeGraph fuel fr n with
    | Res.ok _ fr1 => visitLoop fuel ns fr1
    | Res.assertFail fr1 => Res.assertFail fr1
    | Res.outOfFuel => Res.outOfFuel

/-- The state in which the visible nodes are walked: draw list cleared and the
time-driven nodes dirtied (editor.cpp 61-69). -/
def dirtySeedPhase (s : Editor) : Editor :=
  seedDirty s.nodes_update_over_time { s with nodes_to_draw := [] }

/-- `Editor::Update` (editor.cpp 59-74). -/
def Update (fuel : Nat) (s : Editor) : Res Frame Unit :=
  visitLoop fuel (dirtySeedPhase s).visible_nodes ⟨dirtySeedPhase s, []⟩

/-- Modelled from the spec: `IEventNode::CompareDrawOrder` is declared outside the
sources; the spec sorts the draw list ascending by `draw_order`. -/
def CompareDrawOrder (s : Editor) (a b : NodeId) : Bool :=
  decide ((s.node a).draw_order < (s.node b).draw_order)

/-- The node-drawing part of `Editor::Draw` (editor.cpp 24-27): the order in which
`n->Draw()` is called. `std::sort` is rendered by a sort with the same comparison. -/
def Draw (s : Editor) : List NodeId :=
  s.nodes_to_draw.insertionSort (fun a b => (s.node a).draw_order ≤ (s.node b).draw_order)

/-! ## Node creation -/

/-- `Editor::CreateAndAdd(NodeId)` (editor.cpp 313-357). `created` is the result of
`factory.Create(node_id)`: `none` for `nullptr`, otherwise the address of the new
node and the object the factory built there. `std::sort(pins_to_nodes)` uses the
comparison of `PinToNode`, declared outside the sources; as the spec has the index
re-sorted by pin identity, it is rendered by a sort by pin identity. -/
def CreateAndAdd (s : Editor) (node_id : Nat) (created : Option (NodeId × IEventNode)) :
    Editor × Option NodeId :=
  match created with
  | none => (s, none)
  | some (node, obj) =>
    let s1 := s.setNode node { obj with id := node_id }
    let s2 : Editor := { s1 with nodes := s1.nodes ++ [node] }
    let s3 : Editor :=
      if (s2.node node).is_visual then
        let it := boundLoop (fun e => !(CompareDrawOrder s2 node e)) s2.visible_nodes
          s2.visible_nodes.length 0 s2.visible_nodes.length
        { s2 with visible_nodes := s2.visible_nodes.insertIdx it node }
      else s2
    let s4 : Editor :=
      if (s3.node node).updates_over_time then
        { s3 with nodes_update_over_time := s3.nodes_update_over_time ++ [node] }
      else s3
    let ins := (s4.node node).pin_inputs.map (fun i => PinToNode.mk i.pin node)
    let outs := (s4.node node).pin_outputs.map (fun o => PinToNode.mk o.pin node)
    let s5 : Editor :=
      { s4 with pins_to_nodes :=
          (s4.pins_to_nodes ++ ins ++ outs).insertionSort (fun a b => a.pin ≤ b.pin) }
    (s5, some node)

/-! ## Specification vocabulary -/

/-- One of the two cached order fields of a node, with the start value of the
maximum over the parents and the node's own increment. -/
structure OrderField where
  get : IEventNode → Int
  set : IEventNode → Int → IEventNode
  init : Int
  inc : IEventNode → Int

/-- The field `update_order`: start value -1, increment 1. -/
def updateField : OrderField :=
  ⟨fun n => n.update_order, fun n v => { n with update_order := v }, -1, fun _ => 1⟩

/-- The field `draw_order`: start value 0, increment `is_visual`. -/
def drawField : OrderField :=
  ⟨fun n => n.draw_order, fun n v => { n with draw_order := v }, 0,
   fun n => if n.is_visual then 1 else 0⟩

/-- The common shape of `RecalculateUpdateOrder` and `RecalculateDrawOrder`; the two
are shown equal to its instances (`RecalculateUpdateOrder_eq`,
`RecalculateDrawOrder_eq`). -/
def recalcOrder (F : OrderField) : Nat → Editor → NodeId → Option (Int × Editor)
  | 0, _, _ => none
  | fuel + 1, s, node =>
    if F.get (s.node node) ≠ -1 then
      some (F.get (s.node node), s)
    else
      match maxLoop (recalcOrder F fuel) (s.node node).parents F.init s with
      | none => none
      | some (m, s1) =>
        let s2 := s1.setNode node (F.set (s1.node node) (m + F.inc (s1.node node)))
        match eachLoop (recalcOrder F fuel) (s2.node node).children s2 with
        | none => none
        | some s3 => some (F.get (s3.node node), s3)

/-- A node object with both order fields blanked out. -/
def IEventNode.strip (n : IEventNode) : IEventNode :=
  { n with update_order := 0, draw_order := 0 }

/-- The laws an order field obeys. -/
structure OrderField.Lawful (F : OrderField) : Prop where
  get_set : ∀ n v, F.get (F.set n v) = v
  set_get : ∀ n, F.set n (F.get n) = n
  set_set : ∀ n v w, F.set (F.set n v) w = F.set n w
  strip_set : ∀ n v, (F.set n v).strip = n.strip
  inc_strip : ∀ n m, n.strip = m.strip → F.inc n = F.inc m
  inc_nonneg : ∀ n, 0 ≤ F.init + F.inc n
  init_ge : -1 ≤ F.init
  inc_ge : ∀ n, 0 ≤ F.inc n
  full : ∀ n : IEventNode, n.update_order = -1 → n.draw_order = -1 → F.get n = -1

/-- The value of field `F` of node `n`. -/
def Editor.ord (s : Editor) (F : OrderField) (n : NodeId) : Int := F.get (s.node n)

/-- The order values of the parents of `n`, in list order. -/
def parentOrds (F : OrderField) (s : Editor) (n : NodeId) : List Int :=
  (s.node n).parents.map (fun p => s.ord F p.node)

/-- Node `n` holds the value its recalculation would store: the maximum, from the
start value, of the parents' orders, plus the node's increment. -/
def OrdEq (F : OrderField) (s : Editor) (n : NodeId) : Prop :=
  s.ord F n = (parentOrds F s n).foldl max F.init + F.inc (s.node n)

/-- Every node with a computed order has parents with computed orders and holds
the right value. -/
def PInv (F : OrderField) (s : Editor) : Prop :=
  ∀ n, s.ord F n ≠ -1 → (∀ p ∈ (s.node n).parents, s.ord F p.node ≠ -1) ∧ OrdEq F s n

/-- The editor with field `F` blanked out in every node. -/
def Editor.eraseF (s : Editor) (F : OrderField) : Editor :=
  { s with node := fun n => F.set (s.node n) 0 }

/-- The editor with both order fields blanked out in every node. -/
def Editor.eraseOrders (s : Editor) : Editor :=
  { s with node := fun n => (s.node n).strip }

/-- Computed orders are kept from `s` to `t`. -/
def Mono (F : OrderField) (s t : Editor) : Prop :=
  ∀ n, s.ord F n ≠ -1 → t.ord F n = s.ord F n

/-- Every node whose order was computed between `s` and `t` has all its children
computed in `t`. -/
def NewGood (F : OrderField) (s t : Editor) : Prop :=
  ∀ n, t.ord F n ≠ -1 → s.ord F n = -1 → ∀ c ∈ (t.node n).children, t.ord F c.node ≠ -1

/-- What a stretch of the recalculation does to a state satisfying `PInv`. -/
def Step (F : OrderField) (s t : Editor) : Prop :=
  t.eraseF F = s.eraseF F ∧ PInv F t ∧ Mono F s t ∧ NewGood F s t

/-- The contract of one recalculation call. -/
def CallSpec (F : OrderField) (f : Editor → NodeId → Option (Int × Editor)) : Prop :=
  ∀ s X v t, PInv F s → f s X = some (v, t) →
    Step F s t ∧ t.ord F X ≠ -1 ∧ v = t.ord F X

/-- Both order fields of `n` hold the sentinel. -/
def FullInv (s : Editor) (n : NodeId) : Prop :=
  (s.node n).update_order = -1 ∧ (s.node n).draw_order = -1

instance (s : Editor) (n : NodeId) : Decidable (FullInv s n) := by
  unfold FullInv; infer_instance

/-- Node `n` was invalidated between `s` and `t`. -/
def NewInv (s t : Editor) (n : NodeId) : Prop := ¬ FullInv s n ∧ FullInv t n

/-- What a stretch of `InvalidateChildren(_, true, true)` started on the nodes `R`
does: only order fields change, a node is left alone or fully invalidated, the
children of an invalidated node are invalid, and an invalidated node is a start node
or a child of an invalidated node. -/
def IStep (R : NodeId → Prop) (s t : Editor) : Prop :=
  t.eraseOrders = s.eraseOrders ∧
  (∀ n, t.node n = s.node n ∨ FullInv t n) ∧
  (∀ n, NewInv s t n → ∀ c ∈ (t.node n).children, FullInv t c.node) ∧
  (∀ n, NewInv s t n → R n ∨ ∃ m, NewInv s t m ∧ ∃ c ∈ (t.node m).children, c.node = n)

/-! ## Adjacency invariants -/

/-- The count of the first entry for node `n`, if there is one (`std::find`). -/
def findConn : List NodeConnection → NodeId → Option Nat
  | [], _ => none
  | c :: cs, n => if c.node = n then some c.conn_count else findConn cs n

/-- Node `a` lists `b` as a child with count `k` exactly when `b` lists `a` as a
parent with count `k` (in terms of the entries found). -/
def AdjSym (s : Editor) : Prop :=
  ∀ a b, findConn (s.node a).children b = findConn (s.node b).parents a

/-- No adjacency list names a node twice. -/
def AdjNodup (s : Editor) : Prop :=
  ∀ a, ((s.node a).children.map (fun c => c.node)).Nodup ∧
       ((s.node a).parents.map (fun c => c.node)).Nodup

/-- Node `n` has a parent or a child. -/
def Connected (s : Editor) (n : NodeId) : Prop :=
  (s.node n).parents ≠ [] ∨ (s.node n).children ≠ []

/-- The invariant of the connection manager and the traversal-order calculator. -/
structure WF (s : Editor) : Prop where
  sym : AdjSym s
  nodup : AdjNodup s
  valid : ∀ n, Connected s n → (s.node n).update_order ≠ -1 ∧ (s.node n).draw_order ≠ -1
  upd : ∀ n, (s.node n).update_order ≠ -1 → OrdEq updateField s n
  drw : ∀ n, (s.node n).draw_order ≠ -1 → OrdEq drawField s n

/-- Freshly created nodes: no adjacency, both orders invalid, nothing linked. -/
def Fresh (s : Editor) : Prop :=
  s.links = [] ∧ ∀ n, (s.node n).parents = [] ∧ (s.node n).children = [] ∧
    (s.node n).update_order = -1 ∧ (s.node n).draw_order = -1 ∧
    ∀ o ∈ (s.node n).pin_outputs, o.connections = []

/-- A call of the four-argument `Connect` or `Disconnect`. -/
inductive Op where
  | connect (parent : NodeId) (pin_co : PinId) (child : NodeId) (pin_ci : PinId)
  | disconnect (parent : NodeId) (pin_co : PinId) (child : NodeId) (pin_ci : PinId)
  deriving DecidableEq, Repr

/-- The two nodes a call names. -/
def Op.endpoints : Op → List NodeId
  | Op.connect a _ b _ => [a, b]
  | Op.disconnect a _ b _ => [a, b]

/-- The state after a call that reported success (`none` otherwise). -/
def okState : Res Editor Bool → Option Editor
  | Res.ok true s => some s
  | _ => none

/-- One call, run with recursion bound `fuel`. -/
def applyOp (s : Editor) (fuel : Nat) : Op → Option Editor
  | Op.connect a pco b pci => okState (Connect fuel s a pco b pci)
  | Op.disconnect a pco b pci => okState (Disconnect fuel s a pco b pci)

/-- A sequence of calls, each with its own recursion bound, all reporting success. -/
def run : Editor → List (Nat × Op) → Option Editor
  | s, [] => some s
  | s, (fuel, op) :: ops =>
    match applyOp s fuel op with
    | none => none
    | some t => run t ops

/-- The update order the claim prescribes: 1 + the maximum of the parents' update
orders, or 0 without parents. -/
def updateOrderRule (s : Editor) (n : NodeId) : Int :=
  match (s.node n).parents.map (fun p => (s.node p.node).update_order) with
  | [] => 0
  | x :: xs => 1 + xs.foldl max x

/-- The draw order the claim prescribes: the maximum of the parents' draw orders plus
1 for a visual node; without parents 1 for a visual and 0 for a non-visual node. -/
def drawOrderRule (s : Editor) (n : NodeId) : Int :=
  match (s.node n).parents.map (fun p => (s.node p.node).draw_order) with
  | [] => if (s.node n).is_visual then 1 else 0
  | x :: xs => xs.foldl max x + (if (s.node n).is_visual then 1 else 0)

/-! ## The states inside `Connect` and `Disconnect` -/

/-- The state `Connect` has reached after editor.cpp 381-391 (fan-out entry, link and
adjacency recorded), for the input slot `pin_in` and the output slot `pin_out`. -/
def connectEdge (s : Editor) (parent : NodeId) (pin_out : Nat) (child : NodeId)
    (pin_in : Nat) : Editor :=
  let s1 := s.pushConnection parent pin_out ((s.node child).pin_inputs.getD pin_in default)
  let s2 := s1.setLinks (s1.links ++ [⟨(child, pin_in), (parent, pin_out)⟩])
  (AddParent (AddChild s2 parent child).2 child parent).2

/-- The state `Disconnect` has reached after editor.cpp 423-462, where `cs` and `ps`
are the adjacency lists left by the two removal blocks. -/
def disconnectEdge (s : Editor) (parent : NodeId) (pin_out : Nat) (child : NodeId)
    (pin_in : Nat) (cs ps : List NodeConnection) : Editor :=
  let s1 := s.eraseConnection parent pin_out ((s.node child).pin_inputs.getD pin_in default)
  let s2 := s1.setLinks (s1.links.erase ⟨(child, pin_in), (parent, pin_out)⟩)
  let s3 := s2.setChildren parent cs
  s3.setParents child ps

/-- The flag `rearranged` of `Connect` (editor.cpp 390-392). -/
def connectRearranged (s : Editor) (parent : NodeId) (pin_out : Nat) (child : NodeId)
    (pin_in : Nat) : Bool :=
  let s1 := s.pushConnection parent pin_out ((s.node child).pin_inputs.getD pin_in default)
  let s2 := s1.setLinks (s1.links ++ [⟨(child, pin_in), (parent, pin_out)⟩])
  (AddParent (AddChild s2 parent child).2 child parent).1 || (AddChild s2 parent child).1

/-! ## A sample editor -/

/-- Fresh nodes for the examples: node `n` owns the input pins `4n`, `4n+1` and the
output pins `4n+2`, `4n+3`; the pins of the nodes 0-9 have value type 0, those of the
nodes 10-19 value type 1, and so on; odd nodes are visual; every node is dirty.
Nothing is connected. -/
def demo : Editor where
  node := fun n =>
    { id := 0, is_visual := decide (n % 2 = 1), updates_over_time := false,
      update_order := -1, draw_order := -1, dirty := true, parents := [], children := [],
      pin_inputs := [⟨4 * n⟩, ⟨4 * n + 1⟩],
      pin_outputs := [⟨4 * n + 2, []⟩, ⟨4 * n + 3, []⟩] }
  pin := fun p => ⟨p / 40, if p % 4 < 2 then PinDir.input else PinDir.output⟩
  nodes := []
  links := []
  visible_nodes := []
  nodes_update_over_time := []
  nodes_to_draw := []
  pins_to_nodes := []

/-- The update and draw orders of the first `k` nodes. -/
def ordersOf (s : Editor) (k : Nat) : List (Int × Int) :=
  (List.range k).map (fun n => ((s.node n).update_order, (s.node n).draw_order))

/-- The count the entry for `n` has after one more connection. -/
def bump : Option Nat → Nat
  | some k => k + 1
  | none => 1

/-- The count the entry for `n` has after one disconnection (gone when it was 1). -/
def drop : Option Nat → Option Nat
  | some k => if k = 1 then none else some (k - 1)
  | none => none

/-- The number of links recorded between an output pin of `a` and an input pin
of `b`. -/
def linkCount (s : Editor) (a b : NodeId) : Nat :=
  s.links.countP (fun l => decide (l.second.1 = a) && decide (l.first.1 = b))

/-- Node `a` has an adjacency entry for `b` exactly when links from `a` to `b` are
recorded, and its count is their number. -/
def LinkInv (s : Editor) : Prop :=
  ∀ a b, findConn (s.node a).children b =
    if linkCount s a b = 0 then none else some (linkCount s a b)

/-- Calls of `Connect(parent, _, child, _)`, one per listed (recursion bound, output
pin, input pin). -/
def connectCalls (parent child : NodeId) (l : List (Nat × PinId × PinId)) : List (Nat × Op) :=
  l.map (fun c => (c.1, Op.connect parent c.2.1 child c.2.2))

/-- Calls of `Disconnect(parent, _, child, _)`, one per listed (recursion bound, output
pin, input pin). -/
def disconnectCalls (parent child : NodeId) (l : List (Nat × PinId × PinId)) :
    List (Nat × Op) :=
  l.map (fun c => (c.1, Op.disconnect parent c.2.1 child c.2.2))

/-- The entries of an adjacency list that name node `n`. -/
def entriesFor (l : List NodeConnection) (n : NodeId) : List NodeConnection :=
  l.filter (fun c => decide (c.node = n))

/-! ## Frame vocabulary -/

/-- Node `a` is an ancestor of `n`: a parent, or an ancestor of a parent. -/
inductive Ancestor (s : Editor) : NodeId → NodeId → Prop where
  | parent {n : NodeId} {p : NodeConnection} :
      p ∈ (s.node n).parents → Ancestor s p.node n
  | step {a n : NodeId} {p : NodeConnection} :
      p ∈ (s.node n).parents → Ancestor s a p.node → Ancestor s a n

/-- The function `r` ranks the dependency graph: every parent has a smaller rank than
its child. A graph with such a ranking has no cycle. -/
def Ranked (s : Editor) (r : NodeId → Nat) : Prop :=
  ∀ n, ∀ p ∈ (s.node n).parents, r p.node < r n

/-- Every parents list is in non-decreasing update order, starting from -1 or more
(what the assertion at editor.cpp 42 checks). -/
def ParentsSorted (s : Editor) : Prop :=
  ∀ n, List.Chain (fun a b : Int => a ≤ b) (-1)
    ((s.node n).parents.map (fun p => (s.node p.node).update_order))

/-- The property `P` holds of the frame a call ended in, be it by returning or by a
failed assertion. -/
def ResP (P : Frame → Prop) : Res Frame Unit → Prop
  | Res.ok _ fr => P fr
  | Res.assertFail fr => P fr
  | Res.outOfFuel => True

/-- The call returned (no failed assertion, recursion bound not hit). -/
def Res.returned : Res Frame Unit → Prop
  | Res.ok _ _ => True
  | _ => False

/-- What holds of a frame during the walk that began in state `s0` (the state after
the dirty-seed phase). -/
structure FrameInv (s0 : Editor) (fr : Frame) : Prop where
  same : ∀ n, (fr.ed.node n).parents = (s0.node n).parents ∧
    (fr.ed.node n).is_visual = (s0.node n).is_visual ∧
    (fr.ed.node n).update_order = (s0.node n).update_order
  lists : fr.ed.visible_nodes = s0.visible_nodes ∧
    fr.ed.nodes_update_over_time = s0.nodes_update_over_time
  nodup : fr.calls.Nodup
  clean : ∀ n ∈ fr.calls, (fr.ed.node n).dirty = false
  stays : ∀ n, (s0.node n).dirty = false → (fr.ed.node n).dirty = false
  logged : ∀ n, (s0.node n).dirty = true → (fr.ed.node n).dirty = false → n ∈ fr.calls
  ordered : ∀ pre n post, fr.calls = pre ++ n :: post →
    ∀ a, Ancestor s0 a n → (s0.node a).dirty = true → a ∈ pre
  drawn : fr.ed.nodes_to_draw =
    s0.nodes_to_draw ++ fr.calls.filter (fun n => (s0.node n).is_visual)

/-- Node `n` and all its ancestors are clean. -/
def AncClean (s0 : Editor) (fr : Frame) (n : NodeId) : Prop :=
  (fr.ed.node n).dirty = false ∧ ∀ a, Ancestor s0 a n → (fr.ed.node a).dirty = false

/-- Clean nodes of `fr` are clean in `fr2`. -/
def CleanMono (fr fr2 : Frame) : Prop :=
  ∀ n, (fr.ed.node n).dirty = false → (fr2.ed.node n).dirty = false

/-- The outcome of a stretch of the walk started in frame `fr`: on return the
invariant holds, clean nodes stayed clean and `Q` holds; on a failed assertion the
invariant holds. -/
def WalkPost (s0 : Editor) (fr : Frame) (Q : Frame → Prop) : Res Frame Unit → Prop
  | Res.ok _ fr2 => FrameInv s0 fr2 ∧ CleanMono fr fr2 ∧ Q fr2
  | Res.assertFail fr2 => FrameInv s0 fr2
  | Res.outOfFuel => True

/-- The contract of one call of `UpdateVisibleNodeGraph`, as a property of the
function `f`. -/
def WalkSpec (s0 : Editor) (f : Frame → NodeId → Res Frame Unit) : Prop :=
  ∀ fr n, FrameInv s0 fr → WalkPost s0 fr (fun fr2 => AncClean s0 fr2 n) (f fr n)

/-- The sample editor after `CreateAndAdd` of the nodes 0, 1, 2, 3, node 2 being
time-driven: the visible nodes are the visual nodes 1 and 3. -/
def demoNodes : Editor :=
  let s0 := (CreateAndAdd demo 0 (some (0, demo.node 0))).1
  let s1 := (CreateAndAdd s0 1 (some (1, demo.node 1))).1
  let s2 := (CreateAndAdd s1 2 (some (2, { demo.node 2 with updates_over_time := true }))).1
  (CreateAndAdd s2 3 (some (3, demo.node 3))).1

/-- The calls wiring the sample graph 0 -> 1, 2 -> 1, 0 -> 3. -/
def demoWiring : List (Nat × Op) :=
  [(5, Op.connect 0 2 1 4), (5, Op.connect 2 10 1 5), (5, Op.connect 0 3 3 12)]

/-- The log of computations and the draw list of a frame that returned. -/
def frameLog : Res Frame Unit → Option (List NodeId × List NodeId)
  | Res.ok _ fr => some (fr.calls, fr.ed.nodes_to_draw)
  | _ => none

/-- The sample editor after `CreateAndAdd` of the non-visual node 0 and the visual
node 1 only: node 1 is the one visible node. -/
def demoPair : Editor :=
  (CreateAndAdd (CreateAndAdd demo 0 (some (0, demo.node 0))).1 1 (some (1, demo.node 1))).1

/-- The editor a frame that returned leaves behind. -/
def frameEditor : Res Frame Unit → Option Editor
  | Res.ok _ fr => some fr.ed
  | _ => none

/-! ## Vocabulary for frames and termination -/

/-- No adjacency list names a node of `P`. -/
def Shielded (s : Editor) (P : NodeId → Prop) : Prop :=
  ∀ m c, (c ∈ (s.node m).parents ∨ c ∈ (s.node m).children) → ¬ P c.node

/-- Every node with adjacency, and every node named in an adjacency list, is in
the list `L`. -/
def Supported (s : Editor) (L : List NodeId) : Prop :=
  (∀ n, Connected s n → n ∈ L) ∧
  ∀ m c, (c ∈ (s.node m).parents ∨ c ∈ (s.node m).children) → c.node ∈ L

/-- The number of nodes of `L` whose field `F` is still to be computed. -/
def invalidCount (F : OrderField) (s : Editor) (L : List NodeId) : Nat :=
  L.countP (fun n => decide (s.ord F n = -1))

/-- The number of nodes of `L` with an order field that is not the sentinel. -/
def validCount (s : Editor) (L : List NodeId) : Nat :=
  L.countP (fun n => decide (¬ FullInv s n))

/-- The pin pair is already linked: the input pin is in the fan-out of the output pin,
or the link of the two pin slots is recorded. -/
def linked (s : Editor) (parent : NodeId) (pin_co : PinId) (child : NodeId) (pin_ci : PinId) :
    Bool :=
  match FindPinInput s child pin_ci, FindPinOutput s parent pin_co with
  | some i, some j =>
    decide ((s.node child).pin_inputs.getD i default ∈
      ((s.node parent).pin_outputs.getD j default).connections) ||
    decide ((⟨(child, i), (parent, j)⟩ : Link) ∈ s.links)
  | _, _ => false

/-- The adjacency, fan-out and pins of the first `k` nodes, and the link list. -/
def graphOf (s : Editor) (k : Nat) :
    List (List NodeConnection × List NodeConnection × List PinOutput) × List Link :=
  ((List.range k).map (fun n =>
    ((s.node n).parents, (s.node n).children, (s.node n).pin_outputs)), s.links)

/-! ## Vocabulary for the pin index -/

/-- A sequence of `CreateAndAdd` calls: each item is the type id passed and what the
factory returned for it. -/
def createAll : Editor → List (Nat × Option (NodeId × IEventNode)) → Editor
  | s, [] => s
  | s, (node_id, created) :: rest => createAll (CreateAndAdd s node_id created).1 rest

/-- The index entries of one node: one per input pin, then one per output pin. -/
def pinEntries (node : NodeId) (obj : IEventNode) : List PinToNode :=
  obj.pin_inputs.map (fun i => PinToNode.mk i.pin node) ++
    obj.pin_outputs.map (fun o => PinToNode.mk o.pin node)

/-- The index entries of all the nodes a sequence of `CreateAndAdd` calls added. -/
def allEntries : List (Nat × Option (NodeId × IEventNode)) → List PinToNode
  | [] => []
  | (_, none) :: rest => allEntries rest
  | (_, some (node, obj)) :: rest => pinEntries node obj ++ allEntries rest

/-- The addresses of the nodes a sequence of `CreateAndAdd` calls added. -/
def addedNodes : List (Nat × Option (NodeId × IEventNode)) → List NodeId
  | [] => []
  | (_, none) :: rest => addedNodes rest
  | (_, some (node, _)) :: rest => node :: addedNodes rest

/-- Sample `CreateAndAdd` calls: node 1 is added first, then the factory fails once,
then node 0 is added. -/
def demoCalls : List (Nat × Option (NodeId × IEventNode)) :=
  [(11, some (1, demo.node 1)), (7, none), (10, some (0, demo.node 0))]

/-! ## Vocabulary for failed disconnections -/

/-- The input pin is in the fan-out list of the output pin, both pins being found on
the nodes named (what the `std::find` at editor.cpp 425 looks for). -/
def inFanOut (s : Editor) (parent : NodeId) (pin_co : PinId) (child : NodeId) (pin_ci : PinId) :
    Bool :=
  match FindPinInput s child pin_ci, FindPinOutput s parent pin_co with
  | some i, some j =>
    decide ((s.node child).pin_inputs.getD i default ∈
      ((s.node parent).pin_outputs.getD j default).connections)
  | _, _ => false

/-! ## What a frame may touch -/

/-- Frame `fr` differs from frame `fr0` only on the nodes of `P`: no field of a node
but `dirty` differs, the nodes outside `P` are the same objects, the computations
logged and the draw list entries are those of `fr0` or nodes of `P`, and the other
containers of the editor are the same. -/
structure OnlyOn (P : NodeId → Prop) (fr0 fr : Frame) : Prop where
  fields : ∀ n, { fr.ed.node n with dirty := false } = { fr0.ed.node n with dirty := false }
  rest : ∀ n, ¬ P n → fr.ed.node n = fr0.ed.node n
  logged : ∀ n ∈ fr.calls, n ∈ fr0.calls ∨ P n
  drawn : ∀ n ∈ fr.ed.nodes_to_draw, n ∈ fr0.ed.nodes_to_draw ∨ P n
  lists : fr.ed.visible_nodes = fr0.ed.visible_nodes ∧
    fr.ed.nodes_update_over_time = fr0.ed.nodes_update_over_time ∧
    fr.ed.links = fr0.ed.links ∧ fr.ed.nodes = fr0.ed.nodes ∧
    fr.ed.pins_to_nodes = fr0.ed.pins_to_nodes ∧ fr.ed.pin = fr0.ed.pin

/-- Calls wiring 0 -> 3 and 1 -> 3 and then 2 -> 0, which raises the update order of
node 0 above that of node 1. -/
def unsortedWiring : List (Nat × Op) :=
  [(5, Op.connect 0 2 3 12), (5, Op.connect 1 6 3 13), (5, Op.connect 2 10 0 0)]

/-- The frame a call ended in by a failed assertion. -/
def frameAborted : Res Frame Unit → Option (List NodeId)
  | Res.assertFail fr => some fr.calls
  | _ => none

/-! ## Vocabulary for invalidation with any flag pair -/

/-- Node `n` is a descendant of `a`: a child, or a descendant of a child (along the
`children` lists). -/
inductive Descendant (s : Editor) : NodeId → NodeId → Prop where
  | child {a : NodeId} {c : NodeConnection} :
      c ∈ (s.node a).children → Descendant s a c.node
  | step {a n : NodeId} {c : NodeConnection} :
      c ∈ (s.node a).children → Descendant s c.node n → Descendant s a n

/-- What a stretch of `InvalidateChildren(_, recalc_update, recalc_draw)` does: only
order fields change, a field that is not requested changes nowhere, a node that
changes is in `R`, and a field that changes holds the sentinel afterwards. -/
structure InvEff (recalc_update recalc_draw : Bool) (R : NodeId → Prop) (s t : Editor) :
    Prop where
  frame : t.eraseOrders = s.eraseOrders
  upd : recalc_update = false → ∀ n, (t.node n).update_order = (s.node n).update_order
  drw : recalc_draw = false → ∀ n, (t.node n).draw_order = (s.node n).draw_order
  within : ∀ n, t.node n ≠ s.node n → R n
  cleared : ∀ n,
    ((t.node n).update_order ≠ (s.node n).update_order → (t.node n).update_order = -1) ∧
    ((t.node n).draw_order ≠ (s.node n).draw_order → (t.node n).draw_order = -1)

/-- The number of nodes of `L` that `InvalidateChildren` with these flags would still
invalidate. -/
def pendingCount (recalc_update recalc_draw : Bool) (s : Editor) (L : List NodeId) : Nat :=
  L.countP (fun n => (recalc_update && decide ((s.node n).update_order ≠ -1)) ||
    (recalc_draw && decide ((s.node n).draw_order ≠ -1)))

/-! ## Vocabulary for termination in any state -/

/-- From `s` to `t` nothing but field `F` changed, and every node whose `F` was
computed in `s` still has it computed in `t`. -/
def Keeps (F : OrderField) (s t : Editor) : Prop :=
  t.eraseF F = s.eraseF F ∧ ∀ n, s.ord F n ≠ -1 → t.ord F n ≠ -1

/-! ## Vocabulary for cycles -/

/-- Every node of `C` has field `F` still to compute and has a parent in `C`: the
recalculation of a node of `C` asks for a node of `C` before it stores anything. -/
def Unfounded (F : OrderField) (C : NodeId → Prop) (s : Editor) : Prop :=
  ∀ z, C z → s.ord F z = -1 ∧ ∃ p ∈ (s.node z).parents, C p.node

/-- The nodes on the paths from `child` down to `parent`: the cycle the edge
`parent -> child` closes. -/
def onCycle (s : Editor) (parent child : NodeId) (z : NodeId) : Prop :=
  (z = child ∨ Ancestor s child z) ∧ (z = parent ∨ Ancestor s z parent)

/-! ## Vocabulary for longest paths -/

/-- `Editor::Connect(IEventNode*, Pin*, IEventNode*, Pin*)` (editor.cpp 363-399) as
compiled with `NDEBUG`, where `assert` expands to nothing: the null check of editor.cpp
377 is reached and returns false. The states passed through when both pins are found
are those of `Connect` (`connectEdge`, `connectRearranged`). -/
def ConnectNoAssert (fuel : Nat) (s : Editor) (parent : NodeId) (pin_co : PinId)
    (child : NodeId) (pin_ci : PinId) : Res Editor Bool :=
  match FindPinInput s child pin_ci, FindPinOutput s parent pin_co with
  | some pin_in, some pin_out =>
    if connectRearranged s parent pin_out child pin_in then
      match RecalculateTraversalOrder fuel (connectEdge s parent pin_out child pin_in) child
          true true with
      | none => Res.outOfFuel
      | some s5 => Res.ok true s5
    else Res.ok true (connectEdge s parent pin_out child pin_in)
  | _, _ => Res.ok false s

/-! ## Frames stopped at the assertion -/

/-- The sample editor after `CreateAndAdd` of the nodes 0, 1, 2, 3, node 3 being
time-driven: the visible nodes are the visual nodes 1 and 3. -/
def timedNodes : Editor :=
  let s0 := (CreateAndAdd demo 0 (some (0, demo.node 0))).1
  let s1 := (CreateAndAdd s0 1 (some (1, demo.node 1))).1
  let s2 := (CreateAndAdd s1 2 (some (2, demo.node 2))).1
  (CreateAndAdd s2 3 (some (3, { demo.node 3 with updates_over_time := true }))).1

/-- The log of computations of a frame a call ended in by a failed assertion, and the
dirty flags its editor holds for the first `k` nodes. -/
def abortedFrame (k : Nat) : Res Frame Unit → Option (List NodeId × List Bool)
  | Res.assertFail fr => some (fr.calls, (List.range k).map (fun n => (fr.ed.node n).dirty))
  | _ => none

/-! ## The order fields at their width of 16 bits -/

end Seam

namespace Seam

theorem updateField_lawful : updateField.Lawful := by
  constructor <;> intros <;> simp_all [updateField, IEventNode.strip]

theorem drawField_lawful : drawField.Lawful := by
  constructor <;> intros <;> simp_all [drawField, IEventNode.strip]
  all_goals split <;> simp

theorem RecalculateUpdateOrder_eq (fuel : Nat) :
    RecalculateUpdateOrder fuel = recalcOrder updateField fuel := by
  induction fuel with
  | zero => funext s n; rfl
  | succ k ih =>
    funext s n
    simp only [RecalculateUpdateOrder, recalcOrder, ih]
    rfl

theorem RecalculateDrawOrder_eq (fuel : Nat) :
    RecalculateDrawOrder fuel = recalcOrder drawField fuel := by
  induction fuel with
  | zero => funext s n; rfl
  | succ k ih =>
    funext s n
    simp only [RecalculateDrawOrder, recalcOrder, ih]
    rfl

theorem eraseF_strip {F : OrderField} (hF : F.Lawful) {s t : Editor}
    (h : t.eraseF F = s.eraseF F) (n : NodeId) : (t.node n).strip = (s.node n).strip := by
  have h1 : F.set (t.node n) 0 = F.set (s.node n) 0 := congrArg (fun e => e.node n) h
  have h2 := congrArg IEventNode.strip h1
  rwa [hF.strip_set, hF.strip_set] at h2

theorem strip_parents {a b : IEventNode} (h : a.strip = b.strip) : a.parents = b.parents := by
  have := congrArg IEventNode.parents h
  simpa [IEventNode.strip] using this

theorem strip_children {a b : IEventNode} (h : a.strip = b.strip) : a.children = b.children := by
  have := congrArg IEventNode.children h
  simpa [IEventNode.strip] using this

theorem step_refl {F : OrderField} {s : Editor} (h : PInv F s) : Step F s s :=
  ⟨rfl, h, fun _ _ => rfl, fun _ h1 h2 => absurd h2 h1⟩

theorem step_trans {F : OrderField} (hF : F.Lawful) {s t u : Editor}
    (h1 : Step F s t) (h2 : Step F t u) : Step F s u := by
  obtain ⟨e1, _, m1, g1⟩ := h1
  obtain ⟨e2, p2, m2, g2⟩ := h2
  refine ⟨e2.trans e1, p2, ?_, ?_⟩
  · intro n hn
    have := m1 n hn
    rw [m2 n (by rw [this]; exact hn), this]
  · intro n hu hs c hc
    by_cases ht : t.ord F n = -1
    · exact g2 n hu ht c hc
    · have hc2 : c ∈ (t.node n).children := by
        rw [← strip_children (eraseF_strip hF e2 n)]; exact hc
      have := g1 n ht hs c hc2
      rw [m2 _ this]; exact this

theorem maxLoop_spec {F : OrderField} (hF : F.Lawful)
    {f : Editor → NodeId → Option (Int × Editor)} (hf : CallSpec F f) :
    ∀ (l : List NodeConnection) (acc : Int) (s : Editor) (m : Int) (t : Editor),
      PInv F s → maxLoop f l acc s = some (m, t) →
      Step F s t ∧ (∀ c ∈ l, t.ord F c.node ≠ -1) ∧
        m = (l.map (fun c => t.ord F c.node)).foldl max acc := by
  intro l
  induction l with
  | nil =>
    intro acc s m t hs h
    simp only [maxLoop, Option.some.injEq, Prod.mk.injEq] at h
    obtain ⟨rfl, rfl⟩ := h
    exact ⟨step_refl hs, by simp, by simp⟩
  | cons c cs ih =>
    intro acc s m t hs h
    simp only [maxLoop] at h
    cases hc : f s c.node with
    | none => simp [hc] at h
    | some r =>
      obtain ⟨v, sa⟩ := r
      simp only [hc] at h
      obtain ⟨st1, hv1, hv2⟩ := hf s c.node v sa hs hc
      obtain ⟨st2, hall, hm⟩ := ih (max acc v) sa m t st1.2.1 h
      have hkeep : t.ord F c.node = sa.ord F c.node := st2.2.2.1 _ hv1
      refine ⟨step_trans hF st1 st2, ?_, ?_⟩
      · intro d hd
        rcases List.mem_cons.1 hd with rfl | hd
        · rw [hkeep]; exact hv1
        · exact hall d hd
      · simp only [List.map_cons, List.foldl_cons]
        rw [hkeep, ← hv2]; exact hm

theorem eachLoop_spec {F : OrderField} (hF : F.Lawful)
    {f : Editor → NodeId → Option (Int × Editor)} (hf : CallSpec F f) :
    ∀ (l : List NodeConnection) (s : Editor) (t : Editor),
      PInv F s → eachLoop f l s = some t →
      Step F s t ∧ (∀ c ∈ l, t.ord F c.node ≠ -1) := by
  intro l
  induction l with
  | nil =>
    intro s t hs h
    simp only [eachLoop, Option.some.injEq] at h
    subst h
    exact ⟨step_refl hs, by simp⟩
  | cons c cs ih =>
    intro s t hs h
    simp only [eachLoop] at h
    cases hc : f s c.node with
    | none => simp [hc] at h
    | some r =>
      obtain ⟨v, sa⟩ := r
      simp only [hc] at h
      obtain ⟨st1, hv1, _⟩ := hf s c.node v sa hs hc
      obtain ⟨st2, hall⟩ := ih sa t st1.2.1 h
      have hkeep : t.ord F c.node = sa.ord F c.node := st2.2.2.1 _ hv1
      refine ⟨step_trans hF st1 st2, ?_⟩
      intro d hd
      rcases List.mem_cons.1 hd with rfl | hd
      · rw [hkeep]; exact hv1
      · exact hall d hd


theorem foldl_max_ge_init (l : List Int) (a : Int) : a ≤ l.foldl max a := by
  induction l generalizing a with
  | nil => simp
  | cons x xs ih => exact le_trans (le_max_left a x) (ih (max a x))

theorem foldl_max_ge_mem (l : List Int) (a : Int) : ∀ x ∈ l, x ≤ l.foldl max a := by
  induction l generalizing a with
  | nil => simp
  | cons y ys ih =>
    intro x hx
    rcases List.mem_cons.1 hx with rfl | hx
    · exact le_trans (le_max_right a x) (foldl_max_ge_init ys (max a x))
    · exact ih (max a y) x hx

theorem mono_valid {F : OrderField} {s t : Editor} (h : Mono F s t) {n : NodeId}
    (hn : s.ord F n ≠ -1) : t.ord F n ≠ -1 := by
  rw [h n hn]; exact hn

theorem mono_trans {F : OrderField} {s t u : Editor} (h1 : Mono F s t) (h2 : Mono F t u) :
    Mono F s u := by
  intro n hn
  rw [h2 n (mono_valid h1 hn), h1 n hn]

theorem setNode_node (s : Editor) (n : NodeId) (v : IEventNode) (m : NodeId) :
    (s.setNode n v).node m = if m = n then v else s.node m := by
  simp [Editor.setNode, Function.update_apply]

/-- Storing the computed value in a node whose parents are all computed. -/
theorem set_step {F : OrderField} (hF : F.Lawful) {s : Editor} (X : NodeId)
    (hs : PInv F s) (hp : ∀ p ∈ (s.node X).parents, s.ord F p.node ≠ -1) :
    let t := s.setNode X (F.set (s.node X)
      ((parentOrds F s X).foldl max F.init + F.inc (s.node X)))
    t.eraseF F = s.eraseF F ∧ PInv F t ∧ Mono F s t ∧ t.ord F X ≠ -1 ∧
      (∀ n, t.ord F n ≠ -1 → s.ord F n = -1 → n = X) := by
  intro t
  by_cases hX : s.ord F X = -1
  · -- the node is still to be computed
    have hne : ∀ n, s.ord F n ≠ -1 → n ≠ X := fun n hn e => hn (e ▸ hX)
    have hnode : ∀ n, n ≠ X → t.node n = s.node n := by
      intro n hn; simp [t, setNode_node, hn]
    have hord : ∀ n, n ≠ X → t.ord F n = s.ord F n := by
      intro n hn; simp [Editor.ord, hnode n hn]
    have hXnode : t.node X = F.set (s.node X)
        ((parentOrds F s X).foldl max F.init + F.inc (s.node X)) := by
      simp [t, setNode_node]
    have hstrip : ∀ n, (t.node n).strip = (s.node n).strip := by
      intro n
      by_cases hn : n = X
      · subst hn; rw [hXnode, hF.strip_set]
      · rw [hnode n hn]
    have hpar : ∀ n, (t.node n).parents = (s.node n).parents :=
      fun n => strip_parents (hstrip n)
    have hXord : t.ord F X = (parentOrds F s X).foldl max F.init + F.inc (s.node X) := by
      simp [Editor.ord, hXnode, hF.get_set]
    have hXvalid : t.ord F X ≠ -1 := by
      rw [hXord]
      have h1 := foldl_max_ge_init (parentOrds F s X) F.init
      have h2 := hF.inc_nonneg (s.node X)
      omega
    have hpo : ∀ n, (∀ p ∈ (s.node n).parents, s.ord F p.node ≠ -1) →
        parentOrds F t n = parentOrds F s n := by
      intro n hn
      simp only [parentOrds, hpar n]
      apply List.map_congr_left
      intro p hpm
      exact hord _ (hne _ (hn p hpm))
    refine ⟨?_, ?_, ?_, hXvalid, ?_⟩
    · simp only [Editor.eraseF]
      congr 1
      funext n
      by_cases hn : n = X
      · subst hn; rw [hXnode, hF.set_set]
      · rw [hnode n hn]
    · intro n hn
      by_cases hnX : n = X
      · subst hnX
        refine ⟨?_, ?_⟩
        · intro p hpm
          rw [hpar] at hpm
          rw [hord _ (hne _ (hp p hpm))]; exact hp p hpm
        · simp only [OrdEq]
          rw [hpo n hp, hXord, hF.inc_strip _ _ (hstrip n)]
      · rw [hord n hnX] at hn
        obtain ⟨h1, h2⟩ := hs n hn
        refine ⟨?_, ?_⟩
        · intro p hpm
          rw [hpar] at hpm
          rw [hord _ (hne _ (h1 p hpm))]; exact h1 p hpm
        · simp only [OrdEq] at h2 ⊢
          rw [hpo n h1, hord n hnX, hnode n hnX]; exact h2
    · intro n hn
      exact hord n (hne n hn)
    · intro n hn1 hn2
      by_contra hne2
      rw [hord n hne2] at hn1
      exact hn1 hn2
  · -- the node was computed by an inner call: the store writes the same value
    have heq : s.ord F X = (parentOrds F s X).foldl max F.init + F.inc (s.node X) :=
      (hs X hX).2
    have hts : t = s := by
      simp only [t, Editor.setNode]
      rw [← heq]
      simp only [Editor.ord]
      rw [hF.set_get, Function.update_eq_self]
    rw [hts]
    exact ⟨rfl, hs, fun _ _ => rfl, hX, fun n h1 h2 => absurd h2 h1⟩

theorem recalcOrder_spec {F : OrderField} (hF : F.Lawful) (fuel : Nat) :
    CallSpec F (recalcOrder F fuel) := by
  induction fuel with
  | zero => intro s X v t _ h; simp [recalcOrder] at h
  | succ k ih =>
    intro s X v t hs h
    simp only [recalcOrder] at h
    by_cases hX : F.get (s.node X) ≠ -1
    · rw [if_pos hX] at h
      simp only [Option.some.injEq, Prod.mk.injEq] at h
      obtain ⟨rfl, rfl⟩ := h
      exact ⟨step_refl hs, hX, rfl⟩
    · rw [if_neg hX] at h
      cases h1 : maxLoop (recalcOrder F k) (s.node X).parents F.init s with
      | none => simp [h1] at h
      | some r =>
        obtain ⟨m, s1⟩ := r
        simp only [h1] at h
        obtain ⟨st1, hpv, hm⟩ := maxLoop_spec hF ih _ _ _ _ _ hs h1
        have hpar1 : (s1.node X).parents = (s.node X).parents :=
          strip_parents (eraseF_strip hF st1.1 X)
        have hm2 : m = (parentOrds F s1 X).foldl max F.init := by
          rw [hm, parentOrds, hpar1]
        have hpv1 : ∀ p ∈ (s1.node X).parents, s1.ord F p.node ≠ -1 := by
          rw [hpar1]; exact hpv
        obtain ⟨e2, p2, m2, v2, n2⟩ := set_step hF X st1.2.1 hpv1
        rw [← hm2] at e2 p2 m2 v2 n2
        generalize hs2 : s1.setNode X (F.set (s1.node X) (m + F.inc (s1.node X))) = s2
          at h e2 p2 m2 v2 n2
        cases h3 : eachLoop (recalcOrder F k) (s2.node X).children s2 with
        | none => simp [h3] at h
        | some s3 =>
          simp only [h3, Option.some.injEq, Prod.mk.injEq] at h
          obtain ⟨rfl, rfl⟩ := h
          obtain ⟨st3, hcv⟩ := eachLoop_spec hF ih _ _ _ p2 h3
          refine ⟨⟨?_, st3.2.1, ?_, ?_⟩, mono_valid st3.2.2.1 v2, rfl⟩
          · exact st3.1.trans (e2.trans st1.1)
          · exact mono_trans (mono_trans st1.2.2.1 m2) st3.2.2.1
          · intro n hn3 hn0 c hc
            by_cases hn2 : s2.ord F n = -1
            · exact st3.2.2.2 n hn3 hn2 c hc
            · by_cases hn1 : s1.ord F n = -1
              · have hnX := n2 n hn2 hn1
                subst hnX
                have : c ∈ (s2.node n).children := by
                  rw [← strip_children (eraseF_strip hF st3.1 n)]; exact hc
                exact hcv c this
              · have hc1 : c ∈ (s1.node n).children := by
                  rw [← strip_children (eraseF_strip hF e2 n),
                    ← strip_children (eraseF_strip hF st3.1 n)]; exact hc
                have := st1.2.2.2 n hn1 hn0 c hc1
                exact mono_valid st3.2.2.1 (mono_valid m2 this)


theorem eraseOrders_strip {s t : Editor} (h : t.eraseOrders = s.eraseOrders) (n : NodeId) :
    (t.node n).strip = (s.node n).strip :=
  congrArg (fun e => e.node n) h

theorem istep_fullInv_mono {R : NodeId → Prop} {s t : Editor} (h : IStep R s t) {n : NodeId}
    (hn : FullInv s n) : FullInv t n := by
  rcases h.2.1 n with e | e
  · unfold FullInv at hn ⊢; rw [e]; exact hn
  · exact e

theorem istep_refl (R : NodeId → Prop) (s : Editor) : IStep R s s :=
  ⟨rfl, fun _ => Or.inl rfl, fun _ h => absurd h.2 h.1, fun _ h => absurd h.2 h.1⟩

theorem istep_weaken {R Q : NodeId → Prop} {s t : Editor} (h : IStep R s t)
    (hRQ : ∀ n, R n → Q n) : IStep Q s t :=
  ⟨h.1, h.2.1, h.2.2.1, fun n hn => (h.2.2.2 n hn).imp (hRQ n) id⟩

theorem istep_trans {R : NodeId → Prop} {s t u : Editor}
    (h1 : IStep R s t) (h2 : IStep R t u) : IStep R s u := by
  have hch : ∀ n, (u.node n).children = (t.node n).children :=
    fun n => strip_children (eraseOrders_strip h2.1 n)
  refine ⟨h2.1.trans h1.1, ?_, ?_, ?_⟩
  · intro n
    rcases h2.2.1 n with e | e
    · rcases h1.2.1 n with e1 | e1
      · exact Or.inl (e.trans e1)
      · exact Or.inr (istep_fullInv_mono h2 e1)
    · exact Or.inr e
  · intro n hn c hc
    by_cases ht : FullInv t n
    · have := h1.2.2.1 n ⟨hn.1, ht⟩ c (by rw [← hch]; exact hc)
      exact istep_fullInv_mono h2 this
    · exact h2.2.2.1 n ⟨ht, hn.2⟩ c hc
  · intro n hn
    by_cases ht : FullInv t n
    · rcases h1.2.2.2 n ⟨hn.1, ht⟩ with r | ⟨m, hm, c, hc, hcn⟩
      · exact Or.inl r
      · exact Or.inr ⟨m, ⟨hm.1, istep_fullInv_mono h2 hm.2⟩, c, by rw [hch]; exact hc, hcn⟩
    · rcases h2.2.2.2 n ⟨ht, hn.2⟩ with r | ⟨m, hm, c, hc, hcn⟩
      · exact Or.inl r
      · exact Or.inr ⟨m, ⟨fun hs => hm.1 (istep_fullInv_mono h1 hs), hm.2⟩, c, hc, hcn⟩

/-- The contract of one call `InvalidateChildren(X, true, true)`. -/
theorem invLoop_spec {f : Editor → NodeId → Option Editor}
    (hf : ∀ s X t, f s X = some t → IStep (fun n => n = X) s t ∧ FullInv t X) :
    ∀ (l : List NodeConnection) (s t : Editor), invLoop f l s = some t →
      IStep (fun n => ∃ c ∈ l, c.node = n) s t ∧ ∀ c ∈ l, FullInv t c.node := by
  intro l
  induction l with
  | nil =>
    intro s t h
    simp only [invLoop, Option.some.injEq] at h
    subst h
    exact ⟨istep_refl _ _, by simp⟩
  | cons c cs ih =>
    intro s t h
    simp only [invLoop] at h
    cases hc : f s c.node with
    | none => simp [hc] at h
    | some sa =>
      simp only [hc] at h
      obtain ⟨st1, hv1⟩ := hf s c.node sa hc
      obtain ⟨st2, hall⟩ := ih sa t h
      refine ⟨istep_trans (istep_weaken st1 ?_) (istep_weaken st2 ?_), ?_⟩
      · intro n hn; exact ⟨c, List.mem_cons_self _ _, hn.symm⟩
      · rintro n ⟨d, hd, hdn⟩; exact ⟨d, List.mem_cons_of_mem _ hd, hdn⟩
      · intro d hd
        rcases List.mem_cons.1 hd with rfl | hd
        · exact istep_fullInv_mono st2 hv1
        · exact hall d hd

theorem InvalidateChildren_spec (fuel : Nat) :
    ∀ s X t, InvalidateChildren fuel s X true true = some t →
      IStep (fun n => n = X) s t ∧ FullInv t X := by
  induction fuel with
  | zero => intro s X t h; simp [InvalidateChildren] at h
  | succ k ih =>
    intro s X t h
    simp only [InvalidateChildren, Bool.true_and, ite_true] at h
    by_cases hX : FullInv s X
    · have hcond : (!decide ((s.node X).update_order ≠ -1) &&
          !decide ((s.node X).draw_order ≠ -1)) = true := by
        simp [hX.1, hX.2]
      rw [if_pos hcond] at h
      simp only [Option.some.injEq] at h
      subst h
      exact ⟨istep_refl _ _, hX⟩
    · have hcond : ¬ (!decide ((s.node X).update_order ≠ -1) &&
          !decide ((s.node X).draw_order ≠ -1)) = true := by
        intro hc
        simp only [Bool.and_eq_true, Bool.not_eq_true', decide_eq_false_iff_not,
          not_not] at hc
        exact hX hc
      rw [if_neg hcond] at h
      generalize hs2 : (s.setUpdateOrder X (-1)).setDrawOrder X (-1) = s2 at h
      have hnode : ∀ n, s2.node n =
          if n = X then { s.node X with update_order := -1, draw_order := -1 }
          else s.node n := by
        intro n
        subst hs2
        by_cases hn : n = X
        · subst hn; simp [Editor.setDrawOrder, Editor.setUpdateOrder, setNode_node]
        · simp [Editor.setDrawOrder, Editor.setUpdateOrder, setNode_node, hn]
      have hX2 : FullInv s2 X := by simp [FullInv, hnode]
      have hother : ∀ n, n ≠ X → s2.node n = s.node n := by
        intro n hn; rw [hnode, if_neg hn]
      have he2 : s2.eraseOrders = s.eraseOrders := by
        subst hs2
        simp only [Editor.eraseOrders, Editor.setDrawOrder, Editor.setUpdateOrder,
          Editor.setNode]
        congr 1
        funext n
        by_cases hn : n = X
        · subst hn; simp [IEventNode.strip]
        · simp [Function.update_apply, hn]
      obtain ⟨st, hall⟩ := invLoop_spec
        (f := fun t c => InvalidateChildren k t c true true) (fun a b c habc => ih a b c habc)
        _ _ _ h
      have hXt : FullInv t X := istep_fullInv_mono st hX2
      refine ⟨⟨st.1.trans he2, ?_, ?_, ?_⟩, hXt⟩
      · intro n
        rcases st.2.1 n with e | e
        · by_cases hn : n = X
          · subst hn; exact Or.inr hXt
          · exact Or.inl (e.trans (hother n hn))
        · exact Or.inr e
      · intro n hn c hc
        by_cases hnX : n = X
        · subst hnX
          apply hall c
          rw [← strip_children (eraseOrders_strip st.1 n)]; exact hc
        · have : ¬ FullInv s2 n := by
            unfold FullInv; rw [hother n hnX]; exact hn.1
          exact st.2.2.1 n ⟨this, hn.2⟩ c hc
      · intro n hn
        by_cases hnX : n = X
        · exact Or.inl hnX
        · right
          have h2 : ¬ FullInv s2 n := by
            unfold FullInv; rw [hother n hnX]; exact hn.1
          rcases st.2.2.2 n ⟨h2, hn.2⟩ with ⟨c, hc, hcn⟩ | ⟨m, hm, c, hc, hcn⟩
          · refine ⟨X, ⟨hX, hXt⟩, c, ?_, hcn⟩
            rw [strip_children (eraseOrders_strip st.1 X)]; exact hc
          · have hmX : m ≠ X := fun e => hm.1 (e ▸ hX2)
            refine ⟨m, ⟨?_, hm.2⟩, c, hc, hcn⟩
            have := hm.1
            unfold FullInv at this ⊢
            rw [hother m hmX] at this; exact this


theorem eraseOrders_of_eraseF {F : OrderField} (hF : F.Lawful) {s t : Editor}
    (h : t.eraseF F = s.eraseF F) : t.eraseOrders = s.eraseOrders := by
  have hs := eraseF_strip hF h
  cases s; cases t
  simp only [Editor.eraseF, Editor.mk.injEq] at h
  simp only [Editor.eraseOrders, Editor.mk.injEq]
  refine ⟨?_, h.2.1, h.2.2.1, h.2.2.2.1, h.2.2.2.2.1, h.2.2.2.2.2.1, h.2.2.2.2.2.2.1,
    h.2.2.2.2.2.2.2⟩
  funext n
  exact hs n

theorem eraseF_update_draw {s t : Editor} (h : t.eraseF updateField = s.eraseF updateField)
    (n : NodeId) : t.ord drawField n = s.ord drawField n := by
  have := congrArg (fun e => (e.node n).draw_order) h
  simpa [Editor.eraseF, updateField, Editor.ord, drawField] using this

theorem eraseF_draw_update {s t : Editor} (h : t.eraseF drawField = s.eraseF drawField)
    (n : NodeId) : t.ord updateField n = s.ord updateField n := by
  have := congrArg (fun e => (e.node n).update_order) h
  simpa [Editor.eraseF, updateField, Editor.ord, drawField] using this

theorem pinv_transfer {F : OrderField} (hF : F.Lawful) {s t : Editor}
    (h1 : ∀ n, t.ord F n = s.ord F n) (h2 : ∀ n, (t.node n).strip = (s.node n).strip)
    (h : PInv F s) : PInv F t := by
  intro n hn
  rw [h1] at hn
  obtain ⟨ha, hb⟩ := h n hn
  have hp : (t.node n).parents = (s.node n).parents := strip_parents (h2 n)
  refine ⟨?_, ?_⟩
  · intro p hpm
    rw [hp] at hpm
    rw [h1]; exact ha p hpm
  · simp only [OrdEq, parentOrds] at hb ⊢
    rw [h1, hp, hF.inc_strip _ _ (h2 n)]
    simp only [h1]
    exact hb

theorem fullInv_ord {F : OrderField} (hF : F.Lawful) {s : Editor} {n : NodeId}
    (h : FullInv s n) : s.ord F n = -1 :=
  hF.full _ h.1 h.2

/-- After the invalidation the remaining computed orders are consistent. -/
theorem PInv_after_invalidate {F : OrderField} (hF : F.Lawful) {R : NodeId → Prop}
    {g gi : Editor} {X : NodeId} (hi : IStep R g gi) (hX : FullInv gi X)
    (H1 : ∀ n, n ≠ X → g.ord F n ≠ -1 →
      (∀ p ∈ (g.node n).parents, g.ord F p.node ≠ -1) ∧ OrdEq F g n)
    (H3 : ∀ n, ∀ p ∈ (g.node n).parents, ∃ c ∈ (g.node p.node).children, c.node = n) :
    PInv F gi := by
  have hstrip := eraseOrders_strip hi.1
  have hkeep : ∀ n, gi.ord F n ≠ -1 → gi.node n = g.node n := by
    intro n hn
    rcases hi.2.1 n with e | e
    · exact e
    · exact absurd (fullInv_ord hF e) hn
  intro n hn
  have hnode := hkeep n hn
  have hnX : n ≠ X := fun e => hn (e ▸ fullInv_ord hF hX)
  have hg : g.ord F n ≠ -1 := by
    have : gi.ord F n = g.ord F n := by simp [Editor.ord, hnode]
    rw [← this]; exact hn
  obtain ⟨ha, hb⟩ := H1 n hnX hg
  have hpv : ∀ p ∈ (g.node n).parents, gi.ord F p.node ≠ -1 ∧ gi.node p.node = g.node p.node := by
    intro p hpm
    rcases hi.2.1 p.node with e | e
    · refine ⟨?_, e⟩
      have : gi.ord F p.node = g.ord F p.node := by simp [Editor.ord, e]
      rw [this]; exact ha p hpm
    · exfalso
      have hnew : NewInv g gi p.node :=
        ⟨fun hfull => ha p hpm (fullInv_ord hF hfull), e⟩
      obtain ⟨c, hc, hcn⟩ := H3 n p hpm
      have hc2 : c ∈ (gi.node p.node).children := by
        rw [strip_children (hstrip p.node)]; exact hc
      have := hi.2.2.1 p.node hnew c hc2
      rw [hcn] at this
      exact hn (fullInv_ord hF this)
  refine ⟨?_, ?_⟩
  · intro p hpm
    rw [hnode] at hpm
    exact (hpv p hpm).1
  · simp only [OrdEq, parentOrds] at hb ⊢
    rw [hnode]
    have : (g.node n).parents.map (fun p => gi.ord F p.node) =
        (g.node n).parents.map (fun p => g.ord F p.node) := by
      apply List.map_congr_left
      intro p hpm
      simp [Editor.ord, (hpv p hpm).2]
    rw [this]
    have h0 : gi.ord F n = g.ord F n := by simp [Editor.ord, hnode]
    rw [h0]; exact hb

/-- Every invalidated node is computed again by the recalculation started at `X`. -/
theorem revalidate {F : OrderField} (_hF : F.Lawful) {g gi g1 t : Editor} {X : NodeId}
    (r : NodeId → Nat)
    (hi : IStep (fun n => n = X) g gi)
    (h01 : ∀ n, FullInv gi n → g1.ord F n = -1)
    (hch : ∀ n, (t.node n).children = (gi.node n).children)
    (hst : Step F g1 t) (hXt : t.ord F X ≠ -1)
    (H2 : ∀ m, ∀ c ∈ (g.node m).children, ¬ FullInv g m → c.node ≠ X → r m < r c.node) :
    ∀ n, NewInv g gi n → t.ord F n ≠ -1 := by
  have key : ∀ k n, r n = k → NewInv g gi n → t.ord F n ≠ -1 := by
    intro k
    induction k using Nat.strong_induction_on with
    | _ k ih =>
      intro n hk hn
      by_cases hnX : n = X
      · rw [hnX]; exact hXt
      · rcases hi.2.2.2 n hn with e | ⟨m, hm, c, hc, hcn⟩
        · exact absurd e hnX
        · have hcg : c ∈ (g.node m).children := by
            rw [← strip_children (eraseOrders_strip hi.1 m)]; exact hc
          have hlt : r m < r n := by
            have := H2 m c hcg hm.1 (by rw [hcn]; exact hnX)
            rwa [hcn] at this
          have hmt := ih (r m) (by omega) m rfl hm
          have := hst.2.2.2 m hmt (h01 m hm.2) c (by rw [hch]; exact hc)
          rwa [hcn] at this
  intro n hn
  exact key (r n) n rfl hn


/-- What `RecalculateTraversalOrder(X, true, true)` achieves on a graph `g` in which
every node but `X` is consistent and `r` ranks the computed part of the graph. -/
theorem RecalculateTraversalOrder_spec (fuel : Nat) (g : Editor) (X : NodeId) (t : Editor)
    (r : NodeId → Nat)
    (H1u : ∀ n, n ≠ X → g.ord updateField n ≠ -1 →
      (∀ p ∈ (g.node n).parents, g.ord updateField p.node ≠ -1) ∧ OrdEq updateField g n)
    (H1d : ∀ n, n ≠ X → g.ord drawField n ≠ -1 →
      (∀ p ∈ (g.node n).parents, g.ord drawField p.node ≠ -1) ∧ OrdEq drawField g n)
    (H2 : ∀ m, ∀ c ∈ (g.node m).children, ¬ FullInv g m → c.node ≠ X → r m < r c.node)
    (H3 : ∀ n, ∀ p ∈ (g.node n).parents, ∃ c ∈ (g.node p.node).children, c.node = n)
    (h : RecalculateTraversalOrder fuel g X true true = some t) :
    t.eraseOrders = g.eraseOrders ∧ PInv updateField t ∧ PInv drawField t ∧
      t.ord updateField X ≠ -1 ∧ t.ord drawField X ≠ -1 ∧
      (∀ n, g.ord updateField n ≠ -1 → t.ord updateField n ≠ -1) ∧
      (∀ n, g.ord drawField n ≠ -1 → t.ord drawField n ≠ -1) := by
  simp only [RecalculateTraversalOrder, ite_true] at h
  cases hinv : InvalidateChildren fuel g X true true with
  | none => simp [hinv] at h
  | some gi =>
    simp only [hinv] at h
    cases hu : RecalculateUpdateOrder fuel gi X with
    | none => simp [hu] at h
    | some ru =>
      obtain ⟨vu, gu⟩ := ru
      simp only [hu, Option.map_some'] at h
      cases hd : RecalculateDrawOrder fuel gu X with
      | none => simp [hd] at h
      | some rd =>
        obtain ⟨vd, t1⟩ := rd
        simp only [hd, Option.map_some', Option.some.injEq] at h
        subst h
        obtain ⟨hi, hXi⟩ := InvalidateChildren_spec fuel g X gi hinv
        have hPu := PInv_after_invalidate updateField_lawful hi hXi H1u H3
        have hPd := PInv_after_invalidate drawField_lawful hi hXi H1d H3
        rw [RecalculateUpdateOrder_eq] at hu
        rw [RecalculateDrawOrder_eq] at hd
        obtain ⟨stu, hXu, _⟩ := recalcOrder_spec updateField_lawful fuel gi X vu gu hPu hu
        have hsu := eraseF_strip updateField_lawful stu.1
        have hdu := eraseF_update_draw stu.1
        have hPd2 : PInv drawField gu := pinv_transfer drawField_lawful hdu hsu hPd
        obtain ⟨std, hXd, _⟩ := recalcOrder_spec drawField_lawful fuel gu X vd t1 hPd2 hd
        have hsd := eraseF_strip drawField_lawful std.1
        have hud := eraseF_draw_update std.1
        have hPu2 : PInv updateField t1 := pinv_transfer updateField_lawful hud hsd stu.2.1
        have hru := revalidate updateField_lawful r hi
          (fun n hn => fullInv_ord updateField_lawful hn)
          (fun n => strip_children (hsu n)) stu hXu H2
        have hrd := revalidate drawField_lawful r hi
          (fun n hn => by rw [hdu]; exact fullInv_ord drawField_lawful hn)
          (fun n => (strip_children (hsd n)).trans (strip_children (hsu n))) std hXd H2
        refine ⟨?_, hPu2, std.2.1, ?_, hXd, ?_, ?_⟩
        · exact (eraseOrders_of_eraseF drawField_lawful std.1).trans
            ((eraseOrders_of_eraseF updateField_lawful stu.1).trans hi.1)
        · rw [hud]; exact hXu
        · intro n hn
          rw [hud]
          rcases hi.2.1 n with e | e
          · apply mono_valid stu.2.2.1
            have : gi.ord updateField n = g.ord updateField n := by simp [Editor.ord, e]
            rw [this]; exact hn
          · exact hru n ⟨fun hf => hn (fullInv_ord updateField_lawful hf), e⟩
        · intro n hn
          rcases hi.2.1 n with e | e
          · apply mono_valid std.2.2.1
            rw [hdu]
            have : gi.ord drawField n = g.ord drawField n := by simp [Editor.ord, e]
            rw [this]; exact hn
          · exact hrd n ⟨fun hf => hn (fullInv_ord drawField_lawful hf), e⟩


theorem findConn_of_mem {l : List NodeConnection} {c : NodeConnection} (h : c ∈ l) :
    ∃ k, findConn l c.node = some k := by
  induction l with
  | nil => simp at h
  | cons d ds ih =>
    simp only [findConn]
    by_cases hd : d.node = c.node
    · exact ⟨d.conn_count, by simp [hd]⟩
    · rcases List.mem_cons.1 h with rfl | h
      · exact absurd rfl hd
      · simpa [hd] using ih h

theorem mem_of_findConn {l : List NodeConnection} {n : NodeId} {k : Nat}
    (h : findConn l n = some k) : (⟨n, k⟩ : NodeConnection) ∈ l := by
  induction l with
  | nil => simp [findConn] at h
  | cons d ds ih =>
    simp only [findConn] at h
    by_cases hd : d.node = n
    · simp only [hd, ite_true, Option.some.injEq] at h
      subst h; subst hd
      exact List.mem_cons_self _ _
    · simp only [hd, ite_false] at h
      exact List.mem_cons_of_mem _ (ih h)

theorem findConn_eq_none {l : List NodeConnection} {n : NodeId} :
    findConn l n = none ↔ n ∉ l.map (fun c => c.node) := by
  induction l with
  | nil => simp [findConn]
  | cons d ds ih =>
    simp only [findConn, List.map_cons, List.mem_cons, not_or]
    by_cases hd : d.node = n
    · simp [hd]
    · simp only [hd, ite_false, ih]
      constructor
      · intro h; exact ⟨fun e => hd e.symm, h⟩
      · intro h; exact h.2

theorem findConn_of_mem_nodup {l : List NodeConnection} {c : NodeConnection}
    (hnd : (l.map (fun c => c.node)).Nodup) (h : c ∈ l) :
    findConn l c.node = some c.conn_count := by
  induction l with
  | nil => simp at h
  | cons d ds ih =>
    simp only [List.map_cons, List.nodup_cons] at hnd
    simp only [findConn]
    rcases List.mem_cons.1 h with rfl | h
    · simp
    · have : d.node ≠ c.node := by
        intro e
        apply hnd.1
        rw [e]
        exact List.mem_map_of_mem (fun c => c.node) h
      simp only [this, ite_false]
      exact ih hnd.2 h

/-- In a symmetric adjacency, a parent entry has a matching child entry. -/
theorem adjSym_child_of_parent {s : Editor} (h : AdjSym s) {n : NodeId} {p : NodeConnection}
    (hp : p ∈ (s.node n).parents) : ∃ c ∈ (s.node p.node).children, c.node = n := by
  obtain ⟨k, hk⟩ := findConn_of_mem hp
  rw [← h] at hk
  exact ⟨⟨n, k⟩, mem_of_findConn hk, rfl⟩

theorem adjSym_parent_of_child {s : Editor} (h : AdjSym s) {m : NodeId} {c : NodeConnection}
    (hc : c ∈ (s.node m).children) : ∃ p ∈ (s.node c.node).parents, p.node = m := by
  obtain ⟨k, hk⟩ := findConn_of_mem hc
  rw [h] at hk
  exact ⟨⟨m, k⟩, mem_of_findConn hk, rfl⟩

theorem connected_of_parent {s : Editor} {n : NodeId} {p : NodeConnection}
    (hp : p ∈ (s.node n).parents) : Connected s n :=
  Or.inl (List.ne_nil_of_mem hp)

theorem connected_of_child {s : Editor} {n : NodeId} {c : NodeConnection}
    (hc : c ∈ (s.node n).children) : Connected s n :=
  Or.inr (List.ne_nil_of_mem hc)

theorem wf_pinv_update {s : Editor} (h : WF s) : PInv updateField s := by
  intro n hn
  refine ⟨?_, h.upd n hn⟩
  intro p hp
  obtain ⟨c, hc, _⟩ := adjSym_child_of_parent h.sym hp
  exact (h.valid _ (connected_of_child hc)).1

theorem wf_pinv_draw {s : Editor} (h : WF s) : PInv drawField s := by
  intro n hn
  refine ⟨?_, h.drw n hn⟩
  intro p hp
  obtain ⟨c, hc, _⟩ := adjSym_child_of_parent h.sym hp
  exact (h.valid _ (connected_of_child hc)).2

theorem ordEq_nonneg {F : OrderField} (hF : F.Lawful) {s : Editor} {n : NodeId}
    (h : OrdEq F s n) : 0 ≤ s.ord F n := by
  rw [h]
  have h1 := foldl_max_ge_init (parentOrds F s n) F.init
  have h2 := hF.inc_nonneg (s.node n)
  omega

/-- The update order strictly increases from a parent to a child. -/
theorem wf_rank {s : Editor} (h : WF s) {m : NodeId} {c : NodeConnection}
    (hc : c ∈ (s.node m).children) :
    ((s.node m).update_order).toNat < ((s.node c.node).update_order).toNat := by
  obtain ⟨p, hp, hpm⟩ := adjSym_parent_of_child h.sym hc
  have hvm := (h.valid _ (connected_of_child hc)).1
  have hvc := (h.valid _ (connected_of_parent hp)).1
  have h0 : 0 ≤ s.ord updateField m := ordEq_nonneg updateField_lawful (h.upd m hvm)
  have hle : s.ord updateField m ≤ (parentOrds updateField s c.node).foldl max updateField.init := by
    apply foldl_max_ge_mem
    simp only [parentOrds, List.mem_map]
    exact ⟨p, hp, by rw [hpm]⟩
  have heq := h.upd _ hvc
  simp only [OrdEq] at heq
  have h1 : updateField.inc (s.node c.node) = 1 := rfl
  rw [h1] at heq
  have e1 : s.ord updateField m = (s.node m).update_order := rfl
  have e2 : s.ord updateField c.node = (s.node c.node).update_order := rfl
  rw [e1] at h0 hle
  rw [e2] at heq
  omega


/-- The adjacency of `g` differs from that of the consistent state `s` only in an edge
into `B`; the recalculation rooted at `B` then restores the invariant. -/
theorem WF_after_recalc {s g t : Editor} {B : NodeId} {fuel : Nat} (hs : WF s)
    (hord : ∀ n, (g.node n).update_order = (s.node n).update_order ∧
      (g.node n).draw_order = (s.node n).draw_order ∧
      (g.node n).is_visual = (s.node n).is_visual)
    (hpar : ∀ n, n ≠ B → (g.node n).parents = (s.node n).parents)
    (hchild : ∀ m, ∀ c ∈ (g.node m).children, c.node ≠ B →
      ∃ d ∈ (s.node m).children, d.node = c.node)
    (hsym : AdjSym g) (hnd : AdjNodup g)
    (hconn : ∀ n, Connected g n →
      Connected s n ∨ n = B ∨ ∃ p ∈ (g.node B).parents, p.node = n)
    (h : RecalculateTraversalOrder fuel g B true true = some t) :
    WF t ∧ t.eraseOrders = g.eraseOrders ∧
      (∀ n, (s.node n).update_order ≠ -1 → (t.node n).update_order ≠ -1) ∧
      (∀ n, (s.node n).draw_order ≠ -1 → (t.node n).draw_order ≠ -1) ∧
      (t.node B).update_order ≠ -1 ∧ (t.node B).draw_order ≠ -1 ∧
      (∀ p ∈ (g.node B).parents,
        (t.node p.node).update_order ≠ -1 ∧ (t.node p.node).draw_order ≠ -1) := by
  have hou : ∀ n, g.ord updateField n = s.ord updateField n := fun n => (hord n).1
  have hod : ∀ n, g.ord drawField n = s.ord drawField n := fun n => (hord n).2.1
  have H1 : ∀ F : OrderField, PInv F s → (∀ n, g.ord F n = s.ord F n) →
      (∀ n, F.inc (g.node n) = F.inc (s.node n)) →
      ∀ n, n ≠ B → g.ord F n ≠ -1 →
      (∀ p ∈ (g.node n).parents, g.ord F p.node ≠ -1) ∧ OrdEq F g n := by
    intro F hP ho hinc n hn hv
    rw [ho] at hv
    obtain ⟨ha, hb⟩ := hP n hv
    refine ⟨?_, ?_⟩
    · intro p hp
      rw [hpar n hn] at hp
      rw [ho]; exact ha p hp
    · simp only [OrdEq, parentOrds] at hb ⊢
      rw [hpar n hn, ho, hinc]
      simp only [ho]
      exact hb
  have H1u := H1 updateField (wf_pinv_update hs) hou (fun _ => rfl)
  have H1d := H1 drawField (wf_pinv_draw hs) hod (fun n => by simp [drawField, (hord n).2.2])
  have H2 : ∀ m, ∀ c ∈ (g.node m).children, ¬ FullInv g m → c.node ≠ B →
      ((s.node m).update_order).toNat < ((s.node c.node).update_order).toNat := by
    intro m c hc _ hcB
    obtain ⟨d, hd, hdc⟩ := hchild m c hc hcB
    have := wf_rank hs hd
    rwa [hdc] at this
  have H3 : ∀ n, ∀ p ∈ (g.node n).parents, ∃ c ∈ (g.node p.node).children, c.node = n :=
    fun n p hp => adjSym_child_of_parent hsym hp
  obtain ⟨he, hPu, hPd, hBu, hBd, hvu, hvd⟩ :=
    RecalculateTraversalOrder_spec fuel g B t (fun n => ((s.node n).update_order).toNat)
      H1u H1d H2 H3 h
  have hstrip := eraseOrders_strip he
  have hpt : ∀ n, (t.node n).parents = (g.node n).parents := fun n => strip_parents (hstrip n)
  have hct : ∀ n, (t.node n).children = (g.node n).children :=
    fun n => strip_children (hstrip n)
  have hparB : ∀ p ∈ (g.node B).parents,
      (t.node p.node).update_order ≠ -1 ∧ (t.node p.node).draw_order ≠ -1 := by
    intro p hp
    rw [← hpt] at hp
    exact ⟨(hPu B hBu).1 p hp, (hPd B hBd).1 p hp⟩
  have hsu : ∀ n, (s.node n).update_order ≠ -1 → (t.node n).update_order ≠ -1 := by
    intro n hn
    apply hvu n
    rw [hou]; exact hn
  have hsd : ∀ n, (s.node n).draw_order ≠ -1 → (t.node n).draw_order ≠ -1 := by
    intro n hn
    apply hvd n
    rw [hod]; exact hn
  refine ⟨⟨?_, ?_, ?_, fun n hn => (hPu n hn).2, fun n hn => (hPd n hn).2⟩, he, hsu, hsd,
    hBu, hBd, hparB⟩
  · intro a b
    rw [hct, hpt]; exact hsym a b
  · intro a
    rw [hct, hpt]; exact hnd a
  · intro n hn
    have hg : Connected g n := by
      unfold Connected at hn ⊢
      rw [hpt, hct] at hn; exact hn
    rcases hconn n hg with h1 | h1 | ⟨p, hp, hpn⟩
    · exact ⟨hsu n (hs.valid n h1).1, hsd n (hs.valid n h1).2⟩
    · rw [h1]; exact ⟨hBu, hBd⟩
    · rw [← hpn]; exact hparB p hp


/-! ### `addConn` and `removeConn` -/

theorem addConn_fst (n : NodeId) (l : List NodeConnection) :
    (addConn n l).1 = true ↔ findConn l n = none := by
  induction l with
  | nil => simp [addConn, findConn]
  | cons d ds ih =>
    simp only [addConn, findConn]
    by_cases hd : d.node = n
    · simp [hd]
    · simp [hd, ih]

theorem findConn_addConn (n : NodeId) (l : List NodeConnection) (b : NodeId) :
    findConn (addConn n l).2 b = if b = n then some (bump (findConn l n)) else findConn l b := by
  induction l with
  | nil =>
    by_cases hb : b = n
    · simp [addConn, findConn, hb, bump]
    · have hb2 : ¬ n = b := fun e => hb e.symm
      simp [addConn, findConn, hb, hb2]
  | cons d ds ih =>
    simp only [addConn]
    by_cases hd : d.node = n
    · simp only [hd, ite_true, findConn]
      by_cases hb : b = n
      · simp [hb, bump]
      · have hb2 : ¬ n = b := fun e => hb e.symm
        simp [hb, hb2]
    · simp only [hd, ite_false, findConn]
      by_cases hdb : d.node = b
      · have : b ≠ n := fun e => hd (hdb.trans e)
        simp [hdb, this]
      · simp only [hdb, ite_false]
        exact ih

theorem addConn_nodes (n : NodeId) (l : List NodeConnection) :
    (addConn n l).2.map (fun c => c.node) =
      if (addConn n l).1 then l.map (fun c => c.node) ++ [n] else l.map (fun c => c.node) := by
  induction l with
  | nil => simp [addConn]
  | cons d ds ih =>
    simp only [addConn]
    by_cases hd : d.node = n
    · simp [hd]
    · simp only [hd, ite_false, List.map_cons, ih]
      split <;> simp

theorem addConn_nodup (n : NodeId) (l : List NodeConnection)
    (h : (l.map (fun c => c.node)).Nodup) : ((addConn n l).2.map (fun c => c.node)).Nodup := by
  rw [addConn_nodes]
  split
  · rename_i h1
    have := (findConn_eq_none).1 ((addConn_fst n l).1 h1)
    refine List.Nodup.append h (List.nodup_singleton _) ?_
    intro a ha hb
    simp only [List.mem_singleton] at hb
    subst hb
    exact this ha
  · exact h

theorem addConn_mem_node (n : NodeId) (l : List NodeConnection) (c : NodeConnection)
    (h : c ∈ (addConn n l).2) : c.node = n ∨ ∃ d ∈ l, d.node = c.node := by
  have h1 : c.node ∈ (addConn n l).2.map (fun c => c.node) := List.mem_map_of_mem _ h
  rw [addConn_nodes] at h1
  split at h1
  · rcases List.mem_append.1 h1 with h2 | h2
    · right; simpa using h2
    · left; simpa using h2
  · right; simpa using h1

theorem addConn_has (n : NodeId) (l : List NodeConnection) :
    ∃ c ∈ (addConn n l).2, c.node = n := by
  have := findConn_addConn n l n
  simp only [ite_true] at this
  exact ⟨_, mem_of_findConn this, rfl⟩

theorem removeConn_spec (n : NodeId) :
    ∀ (l : List NodeConnection) (r : Bool) (l2 : List NodeConnection),
      (l.map (fun c => c.node)).Nodup → removeConn n l = some (r, l2) →
      (∀ b, findConn l2 b = if b = n then drop (findConn l n) else findConn l b) ∧
      (r = true ↔ findConn l n = some 1) ∧
      l2.map (fun c => c.node) =
        (if r then (l.map (fun c => c.node)).erase n else l.map (fun c => c.node)) := by
  intro l
  induction l with
  | nil => intro r l2 _ h; simp [removeConn] at h
  | cons d ds ih =>
    intro r l2 hnd h
    simp only [List.map_cons, List.nodup_cons] at hnd
    simp only [removeConn] at h
    by_cases hd : d.node = n
    · simp only [hd, ite_true] at h
      have hnot : findConn ds n = none := by
        rw [findConn_eq_none, ← hd]; exact hnd.1
      by_cases hk : d.conn_count = 1
      · simp only [hk, ite_true, Option.some.injEq, Prod.mk.injEq] at h
        obtain ⟨rfl, rfl⟩ := h
        refine ⟨?_, by simp [findConn, hd, hk], by simp [hd]⟩
        intro b
        by_cases hb : b = n
        · subst hb; simp [findConn, hd, hk, drop, hnot]
        · have : ¬ n = b := fun e => hb e.symm
          simp [findConn, hd, hb, this]
      · simp only [hk, ite_false, Option.some.injEq, Prod.mk.injEq] at h
        obtain ⟨rfl, rfl⟩ := h
        refine ⟨?_, by simp [findConn, hd, hk], by simp [hd]⟩
        intro b
        by_cases hb : b = n
        · subst hb; simp [findConn, hd, hk, drop]
        · have : ¬ n = b := fun e => hb e.symm
          simp [findConn, hd, hb, this]
    · simp only [hd, ite_false] at h
      cases hr : removeConn n ds with
      | none => simp [hr] at h
      | some q =>
        simp only [hr, Option.some.injEq, Prod.mk.injEq] at h
        obtain ⟨rfl, rfl⟩ := h
        obtain ⟨h1, h2, h3⟩ := ih q.1 q.2 hnd.2 hr
        refine ⟨?_, by simpa [findConn, hd] using h2, ?_⟩
        · intro b
          simp only [findConn, hd, ite_false]
          by_cases hdb : d.node = b
          · have : b ≠ n := fun e => hd (hdb.trans e)
            simp [hdb, this]
          · simp only [hdb, ite_false]; exact h1 b
        · simp only [List.map_cons, h3]
          split
          · rw [List.erase_cons_tail]
            simpa using hd
          · rfl

theorem removeConn_nodup (n : NodeId) (l : List NodeConnection) (r : Bool)
    (l2 : List NodeConnection) (hnd : (l.map (fun c => c.node)).Nodup)
    (h : removeConn n l = some (r, l2)) : (l2.map (fun c => c.node)).Nodup := by
  rw [(removeConn_spec n l r l2 hnd h).2.2]
  split
  · exact hnd.erase n
  · exact hnd

theorem removeConn_mem_node (n : NodeId) (l : List NodeConnection) (r : Bool)
    (l2 : List NodeConnection) (hnd : (l.map (fun c => c.node)).Nodup)
    (h : removeConn n l = some (r, l2)) (c : NodeConnection) (hc : c ∈ l2) :
    ∃ d ∈ l, d.node = c.node := by
  have h1 : c.node ∈ l2.map (fun c => c.node) := List.mem_map_of_mem _ hc
  rw [(removeConn_spec n l r l2 hnd h).2.2] at h1
  split at h1
  · have := List.mem_of_mem_erase h1
    simpa using this
  · simpa using h1


theorem connectEdge_node (s : Editor) (A : NodeId) (j : Nat) (B : NodeId) (i : Nat)
    (n : NodeId) :
    (connectEdge s A j B i).node n =
      { s.node n with
        parents := if n = B then (addConn A (s.node B).parents).2 else (s.node n).parents
        children := if n = A then (addConn B (s.node A).children).2 else (s.node n).children
        pin_outputs :=
          if n = A then (s.node A).pin_outputs.modify
            (fun o => ⟨o.pin, o.connections ++ [(s.node B).pin_inputs.getD i default]⟩) j
          else (s.node n).pin_outputs } := by
  by_cases hA : n = A <;> by_cases hB : n = B
  · subst hA; subst hB
    simp [connectEdge, AddParent, AddChild, Editor.pushConnection, Editor.setLinks, Editor.setChildren, Editor.setParents, setNode_node]
  · subst hA
    simp [connectEdge, AddParent, AddChild, Editor.pushConnection, Editor.setLinks, Editor.setChildren, Editor.setParents, setNode_node, hB]
  · subst hB
    have hA2 : ¬ A = n := fun e => hA e.symm
    simp [connectEdge, AddParent, AddChild, Editor.pushConnection, Editor.setLinks, Editor.setChildren, Editor.setParents, setNode_node, hA, hA2]
  · simp [connectEdge, AddParent, AddChild, Editor.pushConnection, Editor.setLinks, Editor.setChildren, Editor.setParents, setNode_node, hA, hB]

theorem disconnectEdge_node (s : Editor) (A : NodeId) (j : Nat) (B : NodeId) (i : Nat)
    (cs ps : List NodeConnection) (n : NodeId) :
    (disconnectEdge s A j B i cs ps).node n =
      { s.node n with
        parents := if n = B then ps else (s.node n).parents
        children := if n = A then cs else (s.node n).children
        pin_outputs :=
          if n = A then (s.node A).pin_outputs.modify
            (fun o => ⟨o.pin, o.connections.erase ((s.node B).pin_inputs.getD i default)⟩) j
          else (s.node n).pin_outputs } := by
  by_cases hA : n = A <;> by_cases hB : n = B
  · subst hA; subst hB
    simp [disconnectEdge, Editor.eraseConnection, Editor.setLinks, Editor.setChildren, Editor.setParents, setNode_node]
  · subst hA
    simp [disconnectEdge, Editor.eraseConnection, Editor.setLinks, Editor.setChildren, Editor.setParents, setNode_node, hB]
  · subst hB
    have hA2 : ¬ A = n := fun e => hA e.symm
    simp [disconnectEdge, Editor.eraseConnection, Editor.setLinks, Editor.setChildren, Editor.setParents, setNode_node, hA, hA2]
  · simp [disconnectEdge, Editor.eraseConnection, Editor.setLinks, Editor.setChildren, Editor.setParents, setNode_node, hA, hB]

theorem Connect_eq (fuel : Nat) (s : Editor) (A : NodeId) (pco : PinId) (B : NodeId)
    (pci : PinId) :
    Connect fuel s A pco B pci =
      if (s.pin pci).dir ≠ PinDir.input then Res.assertFail s
      else if (s.pin pco).dir ≠ PinDir.output then Res.assertFail s
      else if (s.pin pco).type ≠ (s.pin pci).type then Res.assertFail s
      else
        match FindPinInput s B pci, FindPinOutput s A pco with
        | some i, some j =>
          if connectRearranged s A j B i = true then
            match RecalculateTraversalOrder fuel (connectEdge s A j B i) B true true with
            | none => Res.outOfFuel
            | some s5 => Res.ok true s5
          else Res.ok true (connectEdge s A j B i)
        | _, _ => Res.assertFail s := rfl

theorem connectRearranged_eq (s : Editor) (A : NodeId) (j : Nat) (B : NodeId) (i : Nat) :
    connectRearranged s A j B i =
      ((addConn A (s.node B).parents).1 || (addConn B (s.node A).children).1) := by
  by_cases hAB : B = A
  · subst hAB
    simp [connectRearranged, AddParent, AddChild, Editor.pushConnection, Editor.setLinks, Editor.setChildren, Editor.setParents, setNode_node]
  · simp [connectRearranged, AddParent, AddChild, Editor.pushConnection, Editor.setLinks, Editor.setChildren, Editor.setParents, setNode_node, hAB]

/-- A successful `Connect`, taken apart. -/
theorem Connect_ok {fuel : Nat} {s t : Editor} {A B : NodeId} {pco pci : PinId}
    (h : okState (Connect fuel s A pco B pci) = some t) :
    (s.pin pci).dir = PinDir.input ∧ (s.pin pco).dir = PinDir.output ∧
    (s.pin pco).type = (s.pin pci).type ∧
    ∃ i j, FindPinInput s B pci = some i ∧ FindPinOutput s A pco = some j ∧
      (if ((addConn A (s.node B).parents).1 || (addConn B (s.node A).children).1) = true then
        RecalculateTraversalOrder fuel (connectEdge s A j B i) B true true = some t
       else t = connectEdge s A j B i) := by
  rw [Connect_eq] at h
  split at h
  · simp [okState] at h
  split at h
  · simp [okState] at h
  split at h
  · simp [okState] at h
  rename_i h1 h2 h3
  refine ⟨not_not.1 h1, not_not.1 h2, not_not.1 h3, ?_⟩
  split at h
  · rename_i i j hi hj
    refine ⟨i, j, hi, hj, ?_⟩
    rw [connectRearranged_eq] at h
    split
    · rename_i hr
      rw [if_pos hr] at h
      split at h
      · simp [okState] at h
      · rename_i s5 h5
        simp only [okState, Option.some.injEq] at h
        subst h
        exact h5
    · rename_i hr
      rw [if_neg hr] at h
      simp only [okState, Option.some.injEq] at h
      exact h.symm
  · simp [okState] at h

theorem Disconnect_eq (fuel : Nat) (s : Editor) (A : NodeId) (pco : PinId) (B : NodeId)
    (pci : PinId) :
    Disconnect fuel s A pco B pci =
      if (s.pin pci).dir ≠ PinDir.input then Res.assertFail s
      else if (s.pin pco).dir ≠ PinDir.output then Res.assertFail s
      else if (s.pin pco).type ≠ (s.pin pci).type then Res.assertFail s
      else
        match FindPinInput s B pci, FindPinOutput s A pco with
        | some i, some j =>
          let x := (s.node B).pin_inputs.getD i default
          if x ∉ ((s.node A).pin_outputs.getD j default).connections then Res.assertFail s
          else
            let s1 := s.eraseConnection A j x
            let l : Link := ⟨(B, i), (A, j)⟩
            if l ∉ s1.links then Res.assertFail s1
            else
              let s2 := s1.setLinks (s1.links.erase l)
              match removeConn B (s.node A).children with
              | none => Res.assertFail s2
              | some (r1, cs) =>
                let s3 := s2.setChildren A cs
                match removeConn A (s.node B).parents with
                | none => Res.assertFail s3
                | some (r2, ps) =>
                  if (r1 || r2) = true then
                    match RecalculateTraversalOrder fuel (disconnectEdge s A j B i cs ps) B
                        true true with
                    | none => Res.outOfFuel
                    | some s5 => Res.ok true s5
                  else Res.ok true (disconnectEdge s A j B i cs ps)
        | _, _ => Res.assertFail s := by
  have hch : ∀ (j : Nat) (x : PinInput) (L : List Link),
      (((s.eraseConnection A j x).setLinks L).node A).children = (s.node A).children := by
    intro j x L
    simp [Editor.eraseConnection, Editor.setLinks, setNode_node]
  have hpar : ∀ (j : Nat) (x : PinInput) (L : List Link) (cs : List NodeConnection),
      ((((s.eraseConnection A j x).setLinks L).setChildren A cs).node B).parents =
        (s.node B).parents := by
    intro j x L cs
    by_cases hAB : B = A
    · subst hAB
      simp [Editor.eraseConnection, Editor.setLinks, Editor.setChildren, setNode_node]
    · simp [Editor.eraseConnection, Editor.setLinks, Editor.setChildren, setNode_node, hAB]
  unfold Disconnect
  simp only [hch, hpar]
  rfl

/-- A successful `Disconnect`, taken apart. -/
theorem Disconnect_ok {fuel : Nat} {s t : Editor} {A B : NodeId} {pco pci : PinId}
    (h : okState (Disconnect fuel s A pco B pci) = some t) :
    (s.pin pci).dir = PinDir.input ∧ (s.pin pco).dir = PinDir.output ∧
    (s.pin pco).type = (s.pin pci).type ∧
    ∃ i j r1 cs r2 ps, FindPinInput s B pci = some i ∧ FindPinOutput s A pco = some j ∧
      (s.node B).pin_inputs.getD i default ∈
        ((s.node A).pin_outputs.getD j default).connections ∧
      (⟨(B, i), (A, j)⟩ : Link) ∈ s.links ∧
      removeConn B (s.node A).children = some (r1, cs) ∧
      removeConn A (s.node B).parents = some (r2, ps) ∧
      (if (r1 || r2) = true then
        RecalculateTraversalOrder fuel (disconnectEdge s A j B i cs ps) B true true = some t
       else t = disconnectEdge s A j B i cs ps) := by
  rw [Disconnect_eq] at h
  split at h
  · simp [okState] at h
  split at h
  · simp [okState] at h
  split at h
  · simp [okState] at h
  rename_i h1 h2 h3
  refine ⟨not_not.1 h1, not_not.1 h2, not_not.1 h3, ?_⟩
  split at h
  · rename_i i j hi hj
    simp only at h
    split at h
    · simp [okState] at h
    rename_i hx
    split at h
    · simp [okState] at h
    rename_i hl
    split at h
    · simp [okState] at h
    rename_i r1 cs hr1
    split at h
    · simp [okState] at h
    rename_i r2 ps hr2
    refine ⟨i, j, r1, cs, r2, ps, hi, hj, not_not.1 hx, ?_, hr1, hr2, ?_⟩
    · have := not_not.1 hl
      simpa [Editor.eraseConnection, Editor.setNode] using this
    · split
      · rename_i hr
        rw [if_pos hr] at h
        split at h
        · simp [okState] at h
        · rename_i s5 h5
          simp only [okState, Option.some.injEq] at h
          subst h
          exact h5
      · rename_i hr
        rw [if_neg hr] at h
        simp only [okState, Option.some.injEq] at h
        exact h.symm
  · simp [okState] at h


theorem parentOrds_eq_of_nodes {F : OrderField} {s g : Editor} {n : NodeId}
    (hord : ∀ m, g.ord F m = s.ord F m)
    (hp : (g.node n).parents.map (fun c => c.node) = (s.node n).parents.map (fun c => c.node)) :
    parentOrds F g n = parentOrds F s n := by
  have e1 : parentOrds F g n =
      ((g.node n).parents.map (fun c => c.node)).map (fun m => g.ord F m) := by
    simp [parentOrds, List.map_map, Function.comp]
  have e2 : parentOrds F s n =
      ((s.node n).parents.map (fun c => c.node)).map (fun m => s.ord F m) := by
    simp [parentOrds, List.map_map, Function.comp]
  rw [e1, e2, hp]
  apply List.map_congr_left
  intro m _
  exact hord m

/-- A state with the same orders and the same neighbours as a consistent one is
consistent. -/
theorem WF_of_same_nodes {s g : Editor} (hs : WF s)
    (hord : ∀ n, (g.node n).update_order = (s.node n).update_order ∧
      (g.node n).draw_order = (s.node n).draw_order ∧
      (g.node n).is_visual = (s.node n).is_visual)
    (hp : ∀ n, (g.node n).parents.map (fun c => c.node) =
      (s.node n).parents.map (fun c => c.node))
    (hc : ∀ n, (g.node n).children.map (fun c => c.node) =
      (s.node n).children.map (fun c => c.node))
    (hsym : AdjSym g) (hnd : AdjNodup g) : WF g := by
  have hconn : ∀ n, Connected g n → Connected s n := by
    intro n hn
    rcases hn with h | h
    · left
      intro e
      have := hp n
      rw [e] at this
      simp only [List.map_nil, List.map_eq_nil_iff] at this
      exact h this
    · right
      intro e
      have := hc n
      rw [e] at this
      simp only [List.map_nil, List.map_eq_nil_iff] at this
      exact h this
  refine ⟨hsym, hnd, ?_, ?_, ?_⟩
  · intro n hn
    rw [(hord n).1, (hord n).2.1]
    exact hs.valid n (hconn n hn)
  · intro n hn
    rw [(hord n).1] at hn
    have := hs.upd n hn
    simp only [OrdEq] at this ⊢
    rw [parentOrds_eq_of_nodes (F := updateField) (fun m => (hord m).1) (hp n)]
    have e : g.ord updateField n = s.ord updateField n := (hord n).1
    rw [e]; exact this
  · intro n hn
    rw [(hord n).2.1] at hn
    have := hs.drw n hn
    simp only [OrdEq] at this ⊢
    rw [parentOrds_eq_of_nodes (F := drawField) (fun m => (hord m).2.1) (hp n)]
    have e : g.ord drawField n = s.ord drawField n := (hord n).2.1
    have e2 : drawField.inc (g.node n) = drawField.inc (s.node n) := by
      simp [drawField, (hord n).2.2]
    rw [e, e2]; exact this

theorem connectEdge_sym {s : Editor} (hs : AdjSym s) (A : NodeId) (j : Nat) (B : NodeId)
    (i : Nat) : AdjSym (connectEdge s A j B i) := by
  intro a b
  simp only [connectEdge_node]
  by_cases ha : a = A <;> by_cases hb : b = B
  · subst ha; subst hb
    simp only [ite_true, findConn_addConn, hs a b]
  · subst ha
    simp only [ite_true, hb, ite_false, findConn_addConn, hs a b]
  · subst hb
    simp only [ite_true, ha, ite_false, findConn_addConn, hs a b]
  · simp only [ha, hb, ite_false, hs a b]

theorem connectEdge_nodup {s : Editor} (hs : AdjNodup s) (A : NodeId) (j : Nat) (B : NodeId)
    (i : Nat) : AdjNodup (connectEdge s A j B i) := by
  intro a
  simp only [connectEdge_node]
  refine ⟨?_, ?_⟩
  · split
    · exact addConn_nodup _ _ (hs A).1
    · exact (hs a).1
  · split
    · exact addConn_nodup _ _ (hs B).2
    · exact (hs a).2

/-- `Connect` keeps the invariant, keeps computed orders computed, and leaves both
endpoints computed. -/
theorem Connect_WF {fuel : Nat} {s t : Editor} {A B : NodeId} {pco pci : PinId}
    (hs : WF s) (h : okState (Connect fuel s A pco B pci) = some t) :
    WF t ∧
      (∀ n, (s.node n).update_order ≠ -1 → (t.node n).update_order ≠ -1) ∧
      (∀ n, (s.node n).draw_order ≠ -1 → (t.node n).draw_order ≠ -1) ∧
      ((t.node A).update_order ≠ -1 ∧ (t.node A).draw_order ≠ -1) ∧
      ((t.node B).update_order ≠ -1 ∧ (t.node B).draw_order ≠ -1) ∧
      ∃ i j, FindPinInput s B pci = some i ∧ FindPinOutput s A pco = some j ∧
        t.eraseOrders = (connectEdge s A j B i).eraseOrders ∧
        (¬ ((addConn A (s.node B).parents).1 || (addConn B (s.node A).children).1) = true →
          t = connectEdge s A j B i) := by
  obtain ⟨_, _, _, i, j, hfi, hfj, hres⟩ := Connect_ok h
  have hord : ∀ n, ((connectEdge s A j B i).node n).update_order = (s.node n).update_order ∧
      ((connectEdge s A j B i).node n).draw_order = (s.node n).draw_order ∧
      ((connectEdge s A j B i).node n).is_visual = (s.node n).is_visual := by
    intro n; simp [connectEdge_node]
  have hsym := connectEdge_sym hs.sym A j B i
  have hnd := connectEdge_nodup hs.nodup A j B i
  split at hres
  · -- the graph was rearranged
    have hpar : ∀ n, n ≠ B → ((connectEdge s A j B i).node n).parents = (s.node n).parents := by
      intro n hn; simp [connectEdge_node, hn]
    have hchild : ∀ m, ∀ c ∈ ((connectEdge s A j B i).node m).children, c.node ≠ B →
        ∃ d ∈ (s.node m).children, d.node = c.node := by
      intro m c hc hcB
      simp only [connectEdge_node] at hc
      split at hc
      · rename_i hm
        subst hm
        rcases addConn_mem_node _ _ _ hc with e | e
        · exact absurd e hcB
        · exact e
      · exact ⟨c, hc, rfl⟩
    have hAB : ∃ p ∈ ((connectEdge s A j B i).node B).parents, p.node = A := by
      simp only [connectEdge_node, ite_true]
      exact addConn_has A _
    have hconn : ∀ n, Connected (connectEdge s A j B i) n →
        Connected s n ∨ n = B ∨ ∃ p ∈ ((connectEdge s A j B i).node B).parents, p.node = n := by
      intro n hn
      by_cases hnB : n = B
      · exact Or.inr (Or.inl hnB)
      · by_cases hnA : n = A
        · subst hnA; exact Or.inr (Or.inr hAB)
        · left
          unfold Connected at hn ⊢
          simpa [connectEdge_node, hnA, hnB] using hn
    rename_i hrr
    obtain ⟨hw, hfr, hu, hd, hBu, hBd, hpB⟩ :=
      WF_after_recalc hs hord hpar hchild hsym hnd hconn hres
    obtain ⟨p, hp, hpA⟩ := hAB
    have := hpB p hp
    rw [hpA] at this
    exact ⟨hw, hu, hd, this, ⟨hBu, hBd⟩, i, j, hfi, hfj, hfr, fun hn => absurd hrr hn⟩
  · -- both adjacency entries existed already
    rename_i hr
    subst hres
    simp only [Bool.or_eq_true, not_or, Bool.not_eq_true] at hr
    have hp : ∀ n, ((connectEdge s A j B i).node n).parents.map (fun c => c.node) =
        (s.node n).parents.map (fun c => c.node) := by
      intro n
      simp only [connectEdge_node]
      split
      · rename_i hn; subst hn
        rw [addConn_nodes, hr.1]; simp
      · rfl
    have hc : ∀ n, ((connectEdge s A j B i).node n).children.map (fun c => c.node) =
        (s.node n).children.map (fun c => c.node) := by
      intro n
      simp only [connectEdge_node]
      split
      · rename_i hn; subst hn
        rw [addConn_nodes, hr.2]; simp
      · rfl
    have hw := WF_of_same_nodes hs hord hp hc hsym hnd
    have hcA : Connected s A := by
      right
      intro e
      have := hr.2
      rw [e] at this
      simp [addConn] at this
    have hcB : Connected s B := by
      left
      intro e
      have := hr.1
      rw [e] at this
      simp [addConn] at this
    refine ⟨hw, ?_, ?_, ?_, ?_⟩
    · intro n hn; rw [(hord n).1]; exact hn
    · intro n hn; rw [(hord n).2.1]; exact hn
    · rw [(hord A).1, (hord A).2.1]; exact hs.valid A hcA
    · refine ⟨?_, i, j, hfi, hfj, rfl, fun _ => rfl⟩
      rw [(hord B).1, (hord B).2.1]; exact hs.valid B hcB


theorem removeConn_ne_nil {n : NodeId} {l : List NodeConnection} {q : Bool × List NodeConnection}
    (h : removeConn n l = some q) : l ≠ [] := by
  intro e; subst e; simp [removeConn] at h

theorem disconnectEdge_sym {s : Editor} (hs : AdjSym s) (hn : AdjNodup s) (A : NodeId) (j : Nat)
    (B : NodeId) (i : Nat) {r1 r2 : Bool} {cs ps : List NodeConnection}
    (h1 : removeConn B (s.node A).children = some (r1, cs))
    (h2 : removeConn A (s.node B).parents = some (r2, ps)) :
    AdjSym (disconnectEdge s A j B i cs ps) := by
  have e1 := (removeConn_spec B _ r1 cs (hn A).1 h1).1
  have e2 := (removeConn_spec A _ r2 ps (hn B).2 h2).1
  intro a b
  simp only [disconnectEdge_node]
  by_cases ha : a = A <;> by_cases hb : b = B
  · subst ha; subst hb
    simp only [ite_true, e1, e2, hs a b]
  · subst ha
    simp only [ite_true, hb, ite_false, e1, hs a b]
  · subst hb
    simp only [ite_true, ha, ite_false, e2, hs a b]
  · simp only [ha, hb, ite_false, hs a b]

theorem disconnectEdge_nodup {s : Editor} (hn : AdjNodup s) (A : NodeId) (j : Nat)
    (B : NodeId) (i : Nat) {r1 r2 : Bool} {cs ps : List NodeConnection}
    (h1 : removeConn B (s.node A).children = some (r1, cs))
    (h2 : removeConn A (s.node B).parents = some (r2, ps)) :
    AdjNodup (disconnectEdge s A j B i cs ps) := by
  intro a
  simp only [disconnectEdge_node]
  refine ⟨?_, ?_⟩
  · split
    · exact removeConn_nodup _ _ _ _ (hn A).1 h1
    · exact (hn a).1
  · split
    · exact removeConn_nodup _ _ _ _ (hn B).2 h2
    · exact (hn a).2

/-- `Disconnect` keeps the invariant and keeps computed orders computed. -/
theorem Disconnect_WF {fuel : Nat} {s t : Editor} {A B : NodeId} {pco pci : PinId}
    (hs : WF s) (h : okState (Disconnect fuel s A pco B pci) = some t) :
    WF t ∧
      (∀ n, (s.node n).update_order ≠ -1 → (t.node n).update_order ≠ -1) ∧
      (∀ n, (s.node n).draw_order ≠ -1 → (t.node n).draw_order ≠ -1) ∧
      ∃ i j r1 cs r2 ps, FindPinInput s B pci = some i ∧ FindPinOutput s A pco = some j ∧
        (s.node B).pin_inputs.getD i default ∈
          ((s.node A).pin_outputs.getD j default).connections ∧
        (⟨(B, i), (A, j)⟩ : Link) ∈ s.links ∧
        removeConn B (s.node A).children = some (r1, cs) ∧
        removeConn A (s.node B).parents = some (r2, ps) ∧
        t.eraseOrders = (disconnectEdge s A j B i cs ps).eraseOrders ∧
        (¬ (r1 || r2) = true → t = disconnectEdge s A j B i cs ps) := by
  obtain ⟨_, _, _, i, j, r1, cs, r2, ps, hfi, hfj, hx, hl, hr1, hr2, hres⟩ := Disconnect_ok h
  have hord : ∀ n,
      ((disconnectEdge s A j B i cs ps).node n).update_order = (s.node n).update_order ∧
      ((disconnectEdge s A j B i cs ps).node n).draw_order = (s.node n).draw_order ∧
      ((disconnectEdge s A j B i cs ps).node n).is_visual = (s.node n).is_visual := by
    intro n; simp [disconnectEdge_node]
  have hsym := disconnectEdge_sym hs.sym hs.nodup A j B i hr1 hr2
  have hnd := disconnectEdge_nodup hs.nodup A j B i hr1 hr2
  split at hres
  · have hpar : ∀ n, n ≠ B →
        ((disconnectEdge s A j B i cs ps).node n).parents = (s.node n).parents := by
      intro n hn; simp [disconnectEdge_node, hn]
    have hchild : ∀ m, ∀ c ∈ ((disconnectEdge s A j B i cs ps).node m).children, c.node ≠ B →
        ∃ d ∈ (s.node m).children, d.node = c.node := by
      intro m c hc _
      simp only [disconnectEdge_node] at hc
      split at hc
      · rename_i hm
        subst hm
        exact removeConn_mem_node _ _ _ _ (hs.nodup m).1 hr1 c hc
      · exact ⟨c, hc, rfl⟩
    have hconn : ∀ n, Connected (disconnectEdge s A j B i cs ps) n →
        Connected s n ∨ n = B ∨
          ∃ p ∈ ((disconnectEdge s A j B i cs ps).node B).parents, p.node = n := by
      intro n hn
      left
      unfold Connected at hn ⊢
      simp only [disconnectEdge_node] at hn
      rcases hn with hn | hn
      · left
        split at hn
        · rename_i e; subst e; exact removeConn_ne_nil hr2
        · exact hn
      · right
        split at hn
        · rename_i e; subst e; exact removeConn_ne_nil hr1
        · exact hn
    rename_i hrr
    obtain ⟨hw, hfr, hu, hd, _, _, _⟩ :=
      WF_after_recalc hs hord hpar hchild hsym hnd hconn hres
    exact ⟨hw, hu, hd, i, j, r1, cs, r2, ps, hfi, hfj, hx, hl, hr1, hr2, hfr,
      fun hn => absurd hrr hn⟩
  · rename_i hr
    subst hres
    simp only [Bool.or_eq_true, not_or, Bool.not_eq_true] at hr
    have hp : ∀ n, ((disconnectEdge s A j B i cs ps).node n).parents.map (fun c => c.node) =
        (s.node n).parents.map (fun c => c.node) := by
      intro n
      simp only [disconnectEdge_node]
      split
      · rename_i hn; subst hn
        rw [(removeConn_spec A _ r2 ps (hs.nodup n).2 hr2).2.2, hr.2]; simp
      · rfl
    have hc : ∀ n, ((disconnectEdge s A j B i cs ps).node n).children.map (fun c => c.node) =
        (s.node n).children.map (fun c => c.node) := by
      intro n
      simp only [disconnectEdge_node]
      split
      · rename_i hn; subst hn
        rw [(removeConn_spec B _ r1 cs (hs.nodup n).1 hr1).2.2, hr.1]; simp
      · rfl
    refine ⟨WF_of_same_nodes hs hord hp hc hsym hnd, ?_, ?_,
      i, j, r1, cs, r2, ps, hfi, hfj, hx, hl, hr1, hr2, rfl, fun _ => rfl⟩
    · intro n hn; rw [(hord n).1]; exact hn
    · intro n hn; rw [(hord n).2.1]; exact hn

theorem fresh_wf {s : Editor} (h : Fresh s) : WF s := by
  refine ⟨?_, ?_, ?_, ?_, ?_⟩
  · intro a b; rw [(h.2 a).2.1, (h.2 b).1]; rfl
  · intro a; rw [(h.2 a).2.1, (h.2 a).1]; simp
  · intro n hn
    rcases hn with hn | hn
    · exact absurd (h.2 n).1 hn
    · exact absurd (h.2 n).2.1 hn
  · intro n hn; exact absurd (h.2 n).2.2.1 hn
  · intro n hn; exact absurd (h.2 n).2.2.2.1 hn

/-- One successful call keeps the invariant, keeps computed orders computed, and leaves
the endpoints of the call computed. -/
theorem applyOp_WF {s t : Editor} {fuel : Nat} {op : Op} (hs : WF s)
    (h : applyOp s fuel op = some t) :
    WF t ∧
      (∀ n, (s.node n).update_order ≠ -1 → (t.node n).update_order ≠ -1) ∧
      (∀ n, (s.node n).draw_order ≠ -1 → (t.node n).draw_order ≠ -1) ∧
      (∀ n ∈ op.endpoints, (t.node n).update_order ≠ -1 ∧ (t.node n).draw_order ≠ -1) := by
  cases op with
  | connect a pco b pci =>
    obtain ⟨hw, hu, hd, hA, hB, _⟩ := Connect_WF hs h
    refine ⟨hw, hu, hd, ?_⟩
    intro n hn
    simp only [Op.endpoints, List.mem_cons, List.mem_singleton, List.not_mem_nil,
      or_false] at hn
    rcases hn with e | e
    · subst e; exact hA
    · subst e; exact hB
  | disconnect a pco b pci =>
    obtain ⟨hw, hu, hd, _⟩ := Disconnect_WF hs h
    refine ⟨hw, hu, hd, ?_⟩
    intro n hn
    obtain ⟨_, _, _, i, j, r1, cs, r2, ps, _, _, _, _, hr1, hr2, _⟩ := Disconnect_ok h
    simp only [Op.endpoints, List.mem_cons, List.mem_singleton, List.not_mem_nil,
      or_false] at hn
    have hv : (s.node n).update_order ≠ -1 ∧ (s.node n).draw_order ≠ -1 := by
      rcases hn with e | e
      · subst e; exact hs.valid _ (Or.inr (removeConn_ne_nil hr1))
      · subst e; exact hs.valid _ (Or.inl (removeConn_ne_nil hr2))
    exact ⟨hu n hv.1, hd n hv.2⟩

/-- A sequence of successful calls keeps the invariant and leaves every node that was
an endpoint of one of the calls with computed orders. -/
theorem run_WF : ∀ (ops : List (Nat × Op)) (s t : Editor), WF s → run s ops = some t →
    WF t ∧
      (∀ n, (s.node n).update_order ≠ -1 → (t.node n).update_order ≠ -1) ∧
      (∀ n, (s.node n).draw_order ≠ -1 → (t.node n).draw_order ≠ -1) ∧
      (∀ q ∈ ops, ∀ n ∈ q.2.endpoints,
        (t.node n).update_order ≠ -1 ∧ (t.node n).draw_order ≠ -1) := by
  intro ops
  induction ops with
  | nil =>
    intro s t hs h
    simp only [run, Option.some.injEq] at h
    subst h
    exact ⟨hs, fun _ h => h, fun _ h => h, by simp⟩
  | cons q qs ih =>
    intro s t hs h
    obtain ⟨fuel, op⟩ := q
    simp only [run] at h
    cases h1 : applyOp s fuel op with
    | none => simp [h1] at h
    | some s1 =>
      simp only [h1] at h
      obtain ⟨hw1, hu1, hd1, he1⟩ := applyOp_WF hs h1
      obtain ⟨hw, hu, hd, he⟩ := ih s1 t hw1 h
      refine ⟨hw, fun n hn => hu n (hu1 n hn), fun n hn => hd n (hd1 n hn), ?_⟩
      intro q hq n hn
      rcases List.mem_cons.1 hq with e | e
      · subst e
        exact ⟨hu n (he1 n hn).1, hd n (he1 n hn).2⟩
      · exact he q e n hn

theorem foldl_max_of_le (l : List Int) (a x : Int) (h : a ≤ x) :
    (x :: l).foldl max a = l.foldl max x := by
  simp [List.foldl_cons, max_eq_right h]

/-- In a consistent state a computed update order follows the rule of the claim. -/
theorem wf_update_rule {s : Editor} (h : WF s) (n : NodeId)
    (hn : (s.node n).update_order ≠ -1) : (s.node n).update_order = updateOrderRule s n := by
  have heq := h.upd n hn
  have hp := (wf_pinv_update h n hn).1
  simp only [OrdEq, parentOrds] at heq
  unfold updateOrderRule
  have e : (fun p : NodeConnection => s.ord updateField p.node) =
      (fun p : NodeConnection => (s.node p.node).update_order) := rfl
  rw [e] at heq
  cases hl : (s.node n).parents with
  | nil =>
    rw [hl] at heq
    simpa [updateField, Editor.ord] using heq
  | cons p ps =>
    rw [hl] at heq
    simp only [List.map_cons] at heq ⊢
    have hpv : (s.node p.node).update_order ≠ -1 := hp p (by rw [hl]; exact List.mem_cons_self _ _)
    have h0 : 0 ≤ (s.node p.node).update_order :=
      ordEq_nonneg updateField_lawful (h.upd _ hpv)
    rw [foldl_max_of_le _ _ _ (by simp only [updateField]; omega)] at heq
    have e2 : s.ord updateField n = (s.node n).update_order := rfl
    have e3 : updateField.inc (s.node n) = 1 := rfl
    rw [e2, e3] at heq
    omega

/-- In a consistent state a computed draw order follows the rule of the claim. -/
theorem wf_draw_rule {s : Editor} (h : WF s) (n : NodeId)
    (hn : (s.node n).draw_order ≠ -1) : (s.node n).draw_order = drawOrderRule s n := by
  have heq := h.drw n hn
  have hp := (wf_pinv_draw h n hn).1
  simp only [OrdEq, parentOrds] at heq
  unfold drawOrderRule
  have e : (fun p : NodeConnection => s.ord drawField p.node) =
      (fun p : NodeConnection => (s.node p.node).draw_order) := rfl
  rw [e] at heq
  have e2 : s.ord drawField n = (s.node n).draw_order := rfl
  have e3 : drawField.inc (s.node n) = if (s.node n).is_visual then 1 else 0 := rfl
  cases hl : (s.node n).parents with
  | nil =>
    rw [hl] at heq
    rw [e2, e3] at heq
    simpa [drawField] using heq
  | cons p ps =>
    rw [hl] at heq
    simp only [List.map_cons] at heq ⊢
    have hpv : (s.node p.node).draw_order ≠ -1 := hp p (by rw [hl]; exact List.mem_cons_self _ _)
    have h0 : 0 ≤ (s.node p.node).draw_order :=
      ordEq_nonneg drawField_lawful (h.drw _ hpv)
    rw [foldl_max_of_le _ _ _ (by simp only [drawField]; omega)] at heq
    rw [e2, e3] at heq
    exact heq


theorem demo_fresh : Fresh demo :=
  ⟨rfl, fun _ => ⟨rfl, rfl, rfl, rfl, by simp [demo]⟩⟩

/-- C4. `Connect` between two pins of differing value type fails: in both overloads the
call stops at an assertion before anything is written, so the state is the one it
was called with. -/
theorem connect_type_mismatch (fuel : Nat) (s : Editor) (parent : NodeId) (pin_co : PinId)
    (child : NodeId) (pin_ci : PinId) (h : (s.pin pin_co).type ≠ (s.pin pin_ci).type) :
    Connect fuel s parent pin_co child pin_ci = Res.assertFail s ∧
    ConnectPins fuel s pin_co pin_ci = Res.assertFail s := by
  have h2 : ∀ a b, Connect fuel s a pin_co b pin_ci = Res.assertFail s := by
    intro a b
    by_cases h1 : (s.pin pin_ci).dir ≠ PinDir.input
    · rw [Connect_eq, if_pos h1]
    · by_cases h3 : (s.pin pin_co).dir ≠ PinDir.output
      · rw [Connect_eq, if_neg h1, if_pos h3]
      · rw [Connect_eq, if_neg h1, if_neg h3, if_pos h]
  refine ⟨h2 _ _, ?_⟩
  unfold ConnectPins
  split
  · exact h2 _ _
  · rfl

theorem connect_type_mismatch_witness :
    (demo.pin 2).type ≠ (demo.pin 40).type ∧
    Connect 5 demo 0 2 10 40 = Res.assertFail demo ∧
    ConnectPins 5 demo 2 40 = Res.assertFail demo :=
  ⟨by decide, connect_type_mismatch 5 demo 0 2 10 40 (by decide)⟩

/-- C5. `Connect` called with two pins of the same direction (two outputs or two inputs,
in either argument position) fails: in both overloads the call stops at an assertion
before anything is written, so the state is the one it was called with. -/
theorem connect_same_direction (fuel : Nat) (s : Editor) (parent : NodeId) (pin_co : PinId)
    (child : NodeId) (pin_ci : PinId) (h : (s.pin pin_co).dir = (s.pin pin_ci).dir) :
    Connect fuel s parent pin_co child pin_ci = Res.assertFail s ∧
    ConnectPins fuel s pin_co pin_ci = Res.assertFail s := by
  have h2 : ∀ a b, Connect fuel s a pin_co b pin_ci = Res.assertFail s := by
    intro a b
    by_cases h1 : (s.pin pin_ci).dir ≠ PinDir.input
    · rw [Connect_eq, if_pos h1]
    · have h3 : (s.pin pin_co).dir ≠ PinDir.output := by
        rw [h, not_not.1 h1]; decide
      rw [Connect_eq, if_neg h1, if_pos h3]
  refine ⟨h2 _ _, ?_⟩
  unfold ConnectPins
  split
  · exact h2 _ _
  · rfl

theorem connect_same_direction_witness :
    ((demo.pin 2).dir = PinDir.output ∧ (demo.pin 6).dir = PinDir.output ∧
      Connect 5 demo 0 2 1 6 = Res.assertFail demo ∧
      ConnectPins 5 demo 2 6 = Res.assertFail demo) ∧
    ((demo.pin 0).dir = PinDir.input ∧ (demo.pin 4).dir = PinDir.input ∧
      Connect 5 demo 0 0 1 4 = Res.assertFail demo ∧
      ConnectPins 5 demo 0 4 = Res.assertFail demo) :=
  ⟨⟨by decide, by decide, connect_same_direction 5 demo 0 2 1 6 (by decide)⟩,
   ⟨by decide, by decide, connect_same_direction 5 demo 0 0 1 4 (by decide)⟩⟩


theorem countP_erase_of_mem {α : Type} [DecidableEq α] (p : α → Bool) (a : α) :
    ∀ l : List α, a ∈ l → (l.erase a).countP p + (if p a = true then 1 else 0) = l.countP p := by
  intro l
  induction l with
  | nil => intro h; simp at h
  | cons b bs ih =>
    intro h
    by_cases hb : b = a
    · subst hb
      simp [List.countP_cons]
    · have hmem : a ∈ bs := by
        rcases List.mem_cons.1 h with e | e
        · exact absurd e.symm hb
        · exact e
      have := ih hmem
      rw [List.erase_cons_tail (by simpa using hb)]
      simp only [List.countP_cons]
      omega

theorem connectEdge_links (s : Editor) (A : NodeId) (j : Nat) (B : NodeId) (i : Nat) :
    (connectEdge s A j B i).links = s.links ++ [⟨(B, i), (A, j)⟩] := by
  simp [connectEdge, AddParent, AddChild, Editor.pushConnection, Editor.setLinks, Editor.setChildren, Editor.setParents, Editor.setNode]

theorem disconnectEdge_links (s : Editor) (A : NodeId) (j : Nat) (B : NodeId) (i : Nat)
    (cs ps : List NodeConnection) :
    (disconnectEdge s A j B i cs ps).links = s.links.erase ⟨(B, i), (A, j)⟩ := by
  simp [disconnectEdge, Editor.eraseConnection, Editor.setLinks, Editor.setChildren, Editor.setParents, Editor.setNode]

theorem eraseOrders_links {s t : Editor} (h : t.eraseOrders = s.eraseOrders) :
    t.links = s.links := by
  have := congrArg Editor.links h
  simpa [Editor.eraseOrders] using this

theorem linkInv_of_eraseOrders {s t : Editor} (h : t.eraseOrders = s.eraseOrders)
    (hs : LinkInv s) : LinkInv t := by
  intro a b
  have h1 : linkCount t a b = linkCount s a b := by
    simp only [linkCount, eraseOrders_links h]
  rw [strip_children (eraseOrders_strip h a), h1]
  exact hs a b

theorem connectEdge_linkInv {s : Editor} (hs : LinkInv s) (A : NodeId) (j : Nat) (B : NodeId)
    (i : Nat) : LinkInv (connectEdge s A j B i) := by
  intro a b
  have hc : linkCount (connectEdge s A j B i) a b =
      linkCount s a b + (if a = A ∧ b = B then 1 else 0) := by
    simp only [linkCount, connectEdge_links, List.countP_append, List.countP_cons,
      List.countP_nil, Bool.and_eq_true, decide_eq_true_eq, zero_add]
    by_cases h : a = A ∧ b = B
    · rw [if_pos h, if_pos ⟨h.1.symm, h.2.symm⟩]
    · rw [if_neg h, if_neg (fun e => h ⟨e.1.symm, e.2.symm⟩)]
  have hsab := hs a b
  simp only [connectEdge_node]
  by_cases ha : a = A
  · subst ha
    simp only [ite_true, findConn_addConn]
    by_cases hb : b = B
    · subst hb
      rw [hc, hsab]
      simp only [and_self, ite_true]
      by_cases h0 : linkCount s a b = 0
      · simp [h0, bump]
      · simp [h0, bump]
    · rw [hc, hsab]
      simp [hb]
  · rw [hc, if_neg ha, hsab]
    simp [ha]

theorem disconnectEdge_linkInv {s : Editor} (hs : LinkInv s) (hn : AdjNodup s) (A : NodeId)
    (j : Nat) (B : NodeId) (i : Nat) {r1 : Bool} {cs ps : List NodeConnection}
    (h1 : removeConn B (s.node A).children = some (r1, cs))
    (hl : (⟨(B, i), (A, j)⟩ : Link) ∈ s.links) :
    LinkInv (disconnectEdge s A j B i cs ps) := by
  have e1 := (removeConn_spec B _ r1 cs (hn A).1 h1).1
  intro a b
  have hc : linkCount (disconnectEdge s A j B i cs ps) a b +
      (if a = A ∧ b = B then 1 else 0) = linkCount s a b := by
    simp only [linkCount, disconnectEdge_links]
    have := countP_erase_of_mem
      (fun l : Link => decide (l.second.1 = a) && decide (l.first.1 = b)) _ _ hl
    simp only [Bool.and_eq_true, decide_eq_true_eq] at this
    by_cases h : a = A ∧ b = B
    · rw [if_pos h]
      rw [if_pos ⟨h.1.symm, h.2.symm⟩] at this
      exact this
    · rw [if_neg h]
      rw [if_neg (fun e => h ⟨e.1.symm, e.2.symm⟩)] at this
      exact this
  have hsab := hs a b
  simp only [disconnectEdge_node]
  by_cases ha : a = A
  · subst ha
    simp only [ite_true, e1]
    by_cases hb : b = B
    · subst hb
      simp only [and_self, ite_true] at hc
      rw [hsab, ← hc]
      simp only [ite_true, Nat.add_one_ne_zero, ite_false, drop]
      by_cases h0 : linkCount (disconnectEdge s a j b i cs ps) a b = 0
      · simp [h0]
      · simp [h0]
    · simp only [hb, and_false, ite_false, add_zero] at hc
      rw [hc, hsab]
      simp [hb]
  · simp only [ha, false_and, ite_false, add_zero] at hc
    rw [hc, if_neg ha, hsab]


theorem applyOp_linkInv {s t : Editor} {fuel : Nat} {op : Op} (hs : WF s) (hl : LinkInv s)
    (h : applyOp s fuel op = some t) : LinkInv t := by
  cases op with
  | connect a pco b pci =>
    obtain ⟨_, _, _, _, _, i, j, _, _, hfr, _⟩ := Connect_WF hs h
    exact linkInv_of_eraseOrders hfr (connectEdge_linkInv hl a j b i)
  | disconnect a pco b pci =>
    obtain ⟨_, _, _, i, j, r1, cs, r2, ps, _, _, _, hlk, hr1, _, hfr, _⟩ := Disconnect_WF hs h
    exact linkInv_of_eraseOrders hfr (disconnectEdge_linkInv hl hs.nodup a j b i hr1 hlk)

theorem run_linkInv : ∀ (ops : List (Nat × Op)) (s t : Editor), WF s → LinkInv s →
    run s ops = some t → LinkInv t := by
  intro ops
  induction ops with
  | nil =>
    intro s t _ hl h
    simp only [run, Option.some.injEq] at h
    subst h; exact hl
  | cons q qs ih =>
    intro s t hs hl h
    obtain ⟨fuel, op⟩ := q
    simp only [run] at h
    cases h1 : applyOp s fuel op with
    | none => simp [h1] at h
    | some s1 =>
      simp only [h1] at h
      exact ih s1 t (applyOp_WF hs h1).1 (applyOp_linkInv hs hl h1) h

theorem fresh_linkInv {s : Editor} (h : Fresh s) : LinkInv s := by
  intro a b
  simp [linkCount, h.1, (h.2 a).2.1, findConn]

theorem mem_iff_findConn {l : List NodeConnection} (hnd : (l.map (fun c => c.node)).Nodup)
    (n : NodeId) (k : Nat) : (⟨n, k⟩ : NodeConnection) ∈ l ↔ findConn l n = some k :=
  ⟨fun h => findConn_of_mem_nodup hnd h, mem_of_findConn⟩

/-- C7. Adjacency symmetry: in every state reached from fresh nodes by successful
`Connect` / `Disconnect` calls, `a` lists `b` as a child with count `k` exactly when `b`
lists `a` as a parent with count `k`, and then `k` is the number of links recorded
between an output pin of `a` and an input pin of `b`. -/
theorem adjacency_symmetry (s : Editor) (ops : List (Nat × Op)) (t : Editor)
    (hs : Fresh s) (h : run s ops = some t) (a b : NodeId) (k : Nat) :
    ((⟨b, k⟩ : NodeConnection) ∈ (t.node a).children ↔
      (⟨a, k⟩ : NodeConnection) ∈ (t.node b).parents) ∧
    ((⟨b, k⟩ : NodeConnection) ∈ (t.node a).children → k = linkCount t a b) := by
  obtain ⟨hw, _⟩ := run_WF ops s t (fresh_wf hs) h
  have hl := run_linkInv ops s t (fresh_wf hs) (fresh_linkInv hs) h
  refine ⟨?_, ?_⟩
  · rw [mem_iff_findConn (hw.nodup a).1, mem_iff_findConn (hw.nodup b).2, hw.sym a b]
  · intro hm
    have h1 := (mem_iff_findConn (hw.nodup a).1 b k).1 hm
    rw [hl a b] at h1
    split at h1
    · simp at h1
    · simpa using h1.symm

theorem adjacency_symmetry_witness :
    ∃ t, run demo [(5, Op.connect 0 2 1 4), (5, Op.connect 0 3 1 5),
        (5, Op.connect 1 6 2 8), (5, Op.disconnect 1 6 2 8)] = some t ∧
      (t.node 0).children = [⟨1, 2⟩] ∧ (t.node 1).parents = [⟨0, 2⟩] ∧
      (t.node 1).children = [] ∧ linkCount t 0 1 = 2 ∧
      (((⟨1, 2⟩ : NodeConnection) ∈ (t.node 0).children ↔
        (⟨0, 2⟩ : NodeConnection) ∈ (t.node 1).parents) ∧
       ((⟨1, 2⟩ : NodeConnection) ∈ (t.node 0).children → 2 = linkCount t 0 1)) := by
  have h : (run demo [(5, Op.connect 0 2 1 4), (5, Op.connect 0 3 1 5),
        (5, Op.connect 1 6 2 8), (5, Op.disconnect 1 6 2 8)]).map
      (fun t => ((t.node 0).children, (t.node 1).parents, (t.node 1).children,
        linkCount t 0 1)) = some ([⟨1, 2⟩], [⟨0, 2⟩], [], 2) := by decide
  obtain ⟨t, ht, ho⟩ := Option.map_eq_some'.1 h
  simp only [Prod.mk.injEq] at ho
  exact ⟨t, ht, ho.1, ho.2.1, ho.2.2.1, ho.2.2.2,
    adjacency_symmetry demo _ t demo_fresh ht 0 1 2⟩


theorem entriesFor_of_findConn {l : List NodeConnection}
    (hnd : (l.map (fun c => c.node)).Nodup) (n : NodeId) :
    entriesFor l n = match findConn l n with
      | some k => [⟨n, k⟩]
      | none => [] := by
  induction l with
  | nil => simp [entriesFor, findConn]
  | cons d ds ih =>
    simp only [List.map_cons, List.nodup_cons] at hnd
    by_cases hd : d.node = n
    · have hnot : findConn ds n = none := by
        rw [findConn_eq_none, ← hd]; exact hnd.1
      have h2 := ih hnd.2
      rw [hnot] at h2
      simp only [entriesFor] at h2 ⊢
      have hf : findConn (d :: ds) n = some d.conn_count := by simp [findConn, hd]
      have hdec : decide (d.node = n) = true := by simp [hd]
      rw [hf, List.filter_cons, if_pos hdec, h2]
      subst hd
      rfl
    · have h2 := ih hnd.2
      simp only [entriesFor] at h2 ⊢
      have hf : findConn (d :: ds) n = findConn ds n := by simp [findConn, hd]
      have hdec : ¬ decide (d.node = n) = true := by simp [hd]
      rw [hf, List.filter_cons, if_neg hdec]
      exact h2

theorem connect_findConn {s t : Editor} {fuel : Nat} {A B : NodeId} {pco pci : PinId}
    (hs : WF s) (h : applyOp s fuel (Op.connect A pco B pci) = some t) :
    findConn (t.node A).children B = some (bump (findConn (s.node A).children B)) := by
  obtain ⟨_, _, _, _, _, i, j, _, _, hfr, _⟩ := Connect_WF hs h
  rw [strip_children (eraseOrders_strip hfr A)]
  simp [connectEdge_node, findConn_addConn]

theorem disconnect_findConn {s t : Editor} {fuel : Nat} {A B : NodeId} {pco pci : PinId}
    (hs : WF s) (h : applyOp s fuel (Op.disconnect A pco B pci) = some t) :
    findConn (t.node A).children B = drop (findConn (s.node A).children B) ∧
    (findConn (s.node A).children B ≠ some 1 →
      applyOp s 0 (Op.disconnect A pco B pci) = some t ∧
      ∀ n, (t.node n).update_order = (s.node n).update_order ∧
        (t.node n).draw_order = (s.node n).draw_order) := by
  obtain ⟨hd1, hd2, hd3, _⟩ := Disconnect_ok h
  obtain ⟨_, _, _, i, j, r1, cs, r2, ps, hfi, hfj, hx, hl, hr1, hr2, hfr, heq⟩ :=
    Disconnect_WF hs h
  have e1 := removeConn_spec B _ r1 cs (hs.nodup A).1 hr1
  have e2 := removeConn_spec A _ r2 ps (hs.nodup B).2 hr2
  refine ⟨?_, ?_⟩
  · rw [strip_children (eraseOrders_strip hfr A)]
    simp [disconnectEdge_node, e1.1]
  · intro hne
    have h1 : r1 = false := by
      cases r1
      · rfl
      · exact absurd (e1.2.1.1 rfl) hne
    have h2 : r2 = false := by
      cases r2
      · rfl
      · exact absurd ((hs.sym A B).trans (e2.2.1.1 rfl)) hne
    have ht := heq (by simp [h1, h2])
    refine ⟨?_, ?_⟩
    · simp only [applyOp]
      rw [Disconnect_eq, if_neg (not_not.2 hd1), if_neg (not_not.2 hd2),
        if_neg (not_not.2 hd3)]
      have hl2 : ¬ (⟨(B, i), (A, j)⟩ : Link) ∉
          (s.eraseConnection A j ((s.node B).pin_inputs.getD i default)).links := by
        simpa [Editor.eraseConnection, Editor.setNode] using hl
      simp only [hfi, hfj, hr1, hr2, if_neg (not_not.2 hx), if_neg hl2, h1, h2,
        Bool.or_self, Bool.false_eq_true, ite_false, okState, ht]
    · intro n
      rw [ht]
      simp [disconnectEdge_node]


theorem connects_count (A B : NodeId) :
    ∀ (conns : List (Nat × PinId × PinId)) (s t : Editor), WF s →
      run s (connectCalls A B conns) = some t →
      WF t ∧
      (findConn (t.node A).children B).getD 0 =
        (findConn (s.node A).children B).getD 0 + conns.length ∧
      (conns ≠ [] → findConn (t.node A).children B ≠ none) := by
  intro conns
  induction conns with
  | nil =>
    intro s t hs h
    simp only [connectCalls, List.map_nil, run, Option.some.injEq] at h
    subst h
    exact ⟨hs, by simp, fun h => absurd rfl h⟩
  | cons c cs ih =>
    intro s t hs h
    simp only [connectCalls, List.map_cons, run] at h
    cases h1 : applyOp s c.1 (Op.connect A c.2.1 B c.2.2) with
    | none => simp [h1] at h
    | some s1 =>
      simp only [h1] at h
      have hw1 := (applyOp_WF hs h1).1
      have hc1 := connect_findConn hs h1
      obtain ⟨hw, hcount, hne⟩ := ih s1 t hw1 h
      refine ⟨hw, ?_, ?_⟩
      · rw [hcount, hc1]
        cases findConn (s.node A).children B <;> simp [bump] <;> omega
      · intro _
        cases cs with
        | nil =>
          simp only [connectCalls, List.map_nil, run, Option.some.injEq] at h
          subst h
          rw [hc1]; simp
        | cons d ds => exact hne (by simp)

theorem disconnects_count (A B : NodeId) :
    ∀ (discs : List (Nat × PinId × PinId)) (t u : Editor), WF t →
      findConn (t.node A).children B = some (discs.length + 1) →
      run t (disconnectCalls A B discs) = some u →
      WF u ∧ findConn (u.node A).children B = some 1 ∧
      run t (disconnectCalls A B (discs.map (fun d => (0, d.2)))) = some u ∧
      ∀ n, (u.node n).update_order = (t.node n).update_order ∧
        (u.node n).draw_order = (t.node n).draw_order := by
  intro discs
  induction discs with
  | nil =>
    intro t u ht hc h
    simp only [disconnectCalls, List.map_nil, run, Option.some.injEq] at h
    subst h
    exact ⟨ht, by simpa using hc, by simp [disconnectCalls, run], fun _ => ⟨rfl, rfl⟩⟩
  | cons d ds ih =>
    intro t u ht hc h
    simp only [disconnectCalls, List.map_cons, run] at h
    cases h1 : applyOp t d.1 (Op.disconnect A d.2.1 B d.2.2) with
    | none => simp [h1] at h
    | some t1 =>
      simp only [h1] at h
      have hw1 := (applyOp_WF ht h1).1
      obtain ⟨hd1, hd2⟩ := disconnect_findConn ht h1
      have hne : findConn (t.node A).children B ≠ some 1 := by
        rw [hc]; simp
      obtain ⟨hz, hord⟩ := hd2 hne
      have hc1 : findConn (t1.node A).children B = some (ds.length + 1) := by
        rw [hd1, hc]; simp [drop]
      obtain ⟨hw, hone, hrun, hord2⟩ := ih t1 u hw1 hc1 h
      refine ⟨hw, hone, ?_, ?_⟩
      · simp only [disconnectCalls, List.map_cons, List.map_map, run, hz]
        simpa [disconnectCalls, List.map_map] using hrun
      · intro n
        exact ⟨(hord2 n).1.trans (hord n).1, (hord2 n).2.trans (hord n).2⟩

/-- C6. Connection reference counting: from a reachable state in which `parent` has no
entry for `child`, after `N ≥ 1` successful `Connect` calls between the two the parent
has exactly one children entry for the child and the child exactly one parents entry
for the parent, each with count `N`; after any `N - 1` successful `Disconnect` calls
between them both entries are there with count 1, these calls run no order
recalculation (they succeed with recursion bound 0 and leave all orders as they were);
one more successful `Disconnect` removes both entries. -/
theorem connection_counting (s0 : Editor) (pre : List (Nat × Op)) (s : Editor)
    (parent child : NodeId) (conns discs : List (Nat × PinId × PinId)) (t u : Editor)
    (h0 : Fresh s0) (hpre : run s0 pre = some s)
    (hnone : findConn (s.node parent).children child = none)
    (hN : 1 ≤ conns.length)
    (hc : run s (connectCalls parent child conns) = some t)
    (hlen : discs.length + 1 = conns.length)
    (hd : run t (disconnectCalls parent child discs) = some u) :
    (entriesFor (t.node parent).children child = [⟨child, conns.length⟩] ∧
      entriesFor (t.node child).parents parent = [⟨parent, conns.length⟩]) ∧
    (entriesFor (u.node parent).children child = [⟨child, 1⟩] ∧
      entriesFor (u.node child).parents parent = [⟨parent, 1⟩]) ∧
    (run t (disconnectCalls parent child (discs.map (fun d => (0, d.2)))) = some u ∧
      ∀ n, (u.node n).update_order = (t.node n).update_order ∧
        (u.node n).draw_order = (t.node n).draw_order) ∧
    (∀ fuel pin_co pin_ci v,
      applyOp u fuel (Op.disconnect parent pin_co child pin_ci) = some v →
      entriesFor (v.node parent).children child = [] ∧
      entriesFor (v.node child).parents parent = []) := by
  have hs : WF s := (run_WF pre s0 s (fresh_wf h0) hpre).1
  obtain ⟨ht, hcount, hne⟩ := connects_count parent child conns s t hs hc
  have hcne : conns ≠ [] := by
    intro e; rw [e] at hN; simp at hN
  have hct : findConn (t.node parent).children child = some conns.length := by
    have h1 := hne hcne
    rw [hnone] at hcount
    cases hf : findConn (t.node parent).children child with
    | none => exact absurd hf h1
    | some k =>
      rw [hf] at hcount
      simp at hcount
      rw [hcount]
  obtain ⟨hu, hone, hrun, hord⟩ :=
    disconnects_count parent child discs t u ht (by rw [hct, hlen]) hd
  refine ⟨⟨?_, ?_⟩, ⟨?_, ?_⟩, ⟨hrun, hord⟩, ?_⟩
  · rw [entriesFor_of_findConn (ht.nodup parent).1, hct]
  · rw [entriesFor_of_findConn (ht.nodup child).2, ← ht.sym, hct]
  · rw [entriesFor_of_findConn (hu.nodup parent).1, hone]
  · rw [entriesFor_of_findConn (hu.nodup child).2, ← hu.sym, hone]
  · intro fuel pco pci v hv
    have hv1 := (disconnect_findConn hu hv).1
    have hwv := (applyOp_WF hu hv).1
    rw [hone] at hv1
    simp only [drop, ite_true] at hv1
    refine ⟨?_, ?_⟩
    · rw [entriesFor_of_findConn (hwv.nodup parent).1, hv1]
    · rw [entriesFor_of_findConn (hwv.nodup child).2, ← hwv.sym, hv1]


theorem connection_counting_witness :
    ∃ t u v, run demo (connectCalls 0 1 [(5, 2, 4), (5, 3, 5), (5, 2, 5)]) = some t ∧
      run t (disconnectCalls 0 1 [(5, 2, 5), (5, 2, 4)]) = some u ∧
      applyOp u 5 (Op.disconnect 0 3 1 5) = some v ∧
      (entriesFor (t.node 0).children 1 = [⟨1, 3⟩] ∧
        entriesFor (t.node 1).parents 0 = [⟨0, 3⟩]) ∧
      (entriesFor (u.node 0).children 1 = [⟨1, 1⟩] ∧
        entriesFor (u.node 1).parents 0 = [⟨0, 1⟩]) ∧
      (run t (disconnectCalls 0 1 [(0, 2, 5), (0, 2, 4)]) = some u ∧
        ∀ n, (u.node n).update_order = (t.node n).update_order ∧
          (u.node n).draw_order = (t.node n).draw_order) ∧
      (entriesFor (v.node 0).children 1 = [] ∧ entriesFor (v.node 1).parents 0 = []) := by
  have h1 : (run demo (connectCalls 0 1 [(5, 2, 4), (5, 3, 5), (5, 2, 5)])).isSome = true := by
    decide
  obtain ⟨t, ht⟩ := Option.isSome_iff_exists.1 h1
  have h2 : ((run demo (connectCalls 0 1 [(5, 2, 4), (5, 3, 5), (5, 2, 5)])).bind
      (fun t => run t (disconnectCalls 0 1 [(5, 2, 5), (5, 2, 4)]))).isSome = true := by decide
  rw [ht, Option.some_bind] at h2
  obtain ⟨u, hu⟩ := Option.isSome_iff_exists.1 h2
  have h3 : (((run demo (connectCalls 0 1 [(5, 2, 4), (5, 3, 5), (5, 2, 5)])).bind
      (fun t => run t (disconnectCalls 0 1 [(5, 2, 5), (5, 2, 4)]))).bind
      (fun u => applyOp u 5 (Op.disconnect 0 3 1 5))).isSome = true := by decide
  rw [ht, Option.some_bind, hu, Option.some_bind] at h3
  obtain ⟨v, hv⟩ := Option.isSome_iff_exists.1 h3
  obtain ⟨ha, hb, hc, hd⟩ := connection_counting demo [] demo 0 1
    [(5, 2, 4), (5, 3, 5), (5, 2, 5)] [(5, 2, 5), (5, 2, 4)] t u demo_fresh rfl rfl
    (by decide) ht rfl hu
  exact ⟨t, u, v, ht, hu, hv, ha, hb, hc, hd 5 3 5 v hv⟩


theorem ancestor_cases {s : Editor} {a n : NodeId} (h : Ancestor s a n) :
    ∃ p ∈ (s.node n).parents, a = p.node ∨ Ancestor s a p.node := by
  cases h with
  | parent hp => exact ⟨_, hp, Or.inl rfl⟩
  | step hp ha => exact ⟨_, hp, Or.inr ha⟩

theorem walkLoop_spec {s0 : Editor} {f : Frame → NodeId → Res Frame Unit}
    (hf : WalkSpec s0 f) :
    ∀ (ps : List NodeConnection) (last : Int) (fr : Frame), FrameInv s0 fr →
      WalkPost s0 fr (fun fr2 => ∀ p ∈ ps, AncClean s0 fr2 p.node) (walkLoop f ps last fr) := by
  intro ps
  induction ps with
  | nil =>
    intro last fr hfr
    simp only [walkLoop, WalkPost]
    exact ⟨hfr, fun _ h => h, by simp⟩
  | cons p ps ih =>
    intro last fr hfr
    simp only [walkLoop]
    by_cases hlast : ¬ last ≤ (fr.ed.node p.node).update_order
    · rw [if_pos hlast]
      exact hfr
    · rw [if_neg hlast]
      have h1 := hf fr p.node hfr
      cases hc : f fr p.node with
      | ok u fr1 =>
        rw [hc] at h1
        simp only [WalkPost] at h1
        obtain ⟨hi1, hm1, ha1⟩ := h1
        have h2 := ih (fr.ed.node p.node).update_order fr1 hi1
        simp only
        cases hw : walkLoop f ps (fr.ed.node p.node).update_order fr1 with
        | ok u2 fr2 =>
          rw [hw] at h2
          simp only [WalkPost] at h2 ⊢
          obtain ⟨hi2, hm2, ha2⟩ := h2
          refine ⟨hi2, fun n hn => hm2 n (hm1 n hn), ?_⟩
          intro q hq
          rcases List.mem_cons.1 hq with e | e
          · subst e
            exact ⟨hm2 _ ha1.1, fun a ha => hm2 _ (ha1.2 a ha)⟩
          · exact ha2 q e
        | assertFail fr2 =>
          rw [hw] at h2
          exact h2
        | outOfFuel => trivial
      | assertFail fr1 =>
        rw [hc] at h1
        exact h1
      | outOfFuel => trivial

theorem UpdateVisibleNodeGraph_spec (s0 : Editor) (fuel : Nat) :
    WalkSpec s0 (UpdateVisibleNodeGraph fuel) := by
  induction fuel with
  | zero => intro fr n _; simp only [UpdateVisibleNodeGraph]; trivial
  | succ k ih =>
    intro fr n hfr
    simp only [UpdateVisibleNodeGraph]
    have h1 := walkLoop_spec ih (fr.ed.node n).parents (-1) fr hfr
    cases hw : walkLoop (UpdateVisibleNodeGraph k) (fr.ed.node n).parents (-1) fr with
    | ok u fr1 =>
      rw [hw] at h1
      simp only [WalkPost] at h1
      obtain ⟨hi1, hm1, ha1⟩ := h1
      have hanc : ∀ a, Ancestor s0 a n → (fr1.ed.node a).dirty = false := by
        intro a ha
        obtain ⟨p, hp, hap⟩ := ancestor_cases ha
        rw [← (hfr.same n).1] at hp
        rcases hap with e | e
        · rw [e]; exact (ha1 p hp).1
        · exact (ha1 p hp).2 a e
      simp only
      by_cases hd : (fr1.ed.node n).dirty = true
      · rw [if_pos hd]
        simp only [WalkPost]
        have hnotin : n ∉ fr1.calls := by
          intro hmem
          have := hi1.clean n hmem
          rw [this] at hd
          exact absurd hd (by decide)
        have hd0 : (s0.node n).dirty = true := by
          by_contra hne
          have := hi1.stays n (by simpa using hne)
          rw [this] at hd
          exact absurd hd (by decide)
        have hnode : ∀ m, ((if ((fr1.ed.setNode n
            { fr1.ed.node n with dirty := false }).node n).is_visual = true then
              ({ fr1.ed.setNode n { fr1.ed.node n with dirty := false } with
                nodes_to_draw := (fr1.ed.setNode n
                  { fr1.ed.node n with dirty := false }).nodes_to_draw ++ [n] } : Editor)
            else fr1.ed.setNode n { fr1.ed.node n with dirty := false }).node m) =
            if m = n then { fr1.ed.node n with dirty := false } else fr1.ed.node m := by
          intro m
          split <;> simp [setNode_node]
        refine ⟨⟨?_, ?_, ?_, ?_, ?_, ?_, ?_, ?_⟩, ?_, ?_, ?_⟩
        · intro m
          simp only [hnode]
          by_cases hm : m = n
          · subst hm; simpa using hi1.same m
          · simpa [hm] using hi1.same m
        · split <;> simpa [Editor.setNode] using hi1.lists
        · exact List.Nodup.append hi1.nodup (List.nodup_singleton n)
            (by intro a ha hb; simp at hb; subst hb; exact hnotin ha)
        · intro m hm
          simp only [hnode]
          by_cases hmn : m = n
          · simp [hmn]
          · simp only [hmn, ite_false]
            rcases List.mem_append.1 hm with e | e
            · exact hi1.clean m e
            · simp at e; exact absurd e hmn
        · intro m hm
          simp only [hnode]
          by_cases hmn : m = n
          · simp [hmn]
          · simp only [hmn, ite_false]; exact hi1.stays m hm
        · intro m hm0 hm
          simp only [hnode] at hm
          by_cases hmn : m = n
          · simp [hmn]
          · simp only [hmn, ite_false] at hm
            exact List.mem_append_left _ (hi1.logged m hm0 hm)
        · intro pre m post hsplit a ha hda
          rcases List.eq_nil_or_concat post with e | ⟨post2, x, e⟩
          · subst e
            have h3 : pre = fr1.calls ∧ m = n := by
              have := List.append_inj' hsplit (by simp)
              exact ⟨this.1.symm, by simpa using this.2.symm⟩
            obtain ⟨h4, h5⟩ := h3
            subst h5
            rw [h4]
            exact hi1.logged a hda (hanc a ha)
          · subst e
            have h3 : fr1.calls = pre ++ m :: post2 := by
              have : fr1.calls ++ [n] = (pre ++ m :: post2) ++ [x] := by
                simpa [List.concat_eq_append] using hsplit
              exact (List.append_inj' this (by simp)).1
            exact hi1.ordered pre m post2 h3 a ha hda
        · have hv : ((fr1.ed.setNode n { fr1.ed.node n with dirty := false }).node n).is_visual =
              (s0.node n).is_visual := by
            simpa [setNode_node] using (hi1.same n).2.1
          rw [hv]
          by_cases hvis : (s0.node n).is_visual = true
          · simp only [hvis, ite_true, List.filter_append, List.filter_cons, List.filter_nil]
            simp [Editor.setNode, hi1.drawn]
          · simp only [hvis, List.filter_append, List.filter_cons, List.filter_nil]
            simp [Editor.setNode, hi1.drawn]
        · intro m hm
          simp only [hnode]
          by_cases hmn : m = n
          · simp [hmn]
          · simp only [hmn, ite_false]; exact hm1 m hm
        · simp [hnode]
        · intro a ha
          simp only [hnode]
          by_cases han : a = n
          · simp [han]
          · simp only [han, ite_false]; exact hanc a ha
      · rw [if_neg hd]
        simp only [WalkPost]
        exact ⟨hi1, hm1, by simpa using hd, hanc⟩
    | assertFail fr1 =>
      rw [hw] at h1
      exact h1
    | outOfFuel => trivial


theorem seedDirty_spec : ∀ (l : List NodeId) (s : Editor),
    (∀ n, (seedDirty l s).node n =
      if n ∈ l then { s.node n with dirty := true } else s.node n) ∧
    (seedDirty l s).visible_nodes = s.visible_nodes ∧
    (seedDirty l s).nodes_update_over_time = s.nodes_update_over_time ∧
    (seedDirty l s).nodes_to_draw = s.nodes_to_draw ∧
    (seedDirty l s).links = s.links := by
  intro l
  induction l with
  | nil => intro s; simp [seedDirty]
  | cons a as ih =>
    intro s
    simp only [seedDirty]
    obtain ⟨h1, h2, h3, h4, h5⟩ := ih (s.setNode a { s.node a with dirty := true })
    refine ⟨?_, by simpa [Editor.setNode] using h2, by simpa [Editor.setNode] using h3,
      by simpa [Editor.setNode] using h4, by simpa [Editor.setNode] using h5⟩
    intro n
    rw [h1 n]
    by_cases hn : n = a
    · subst hn
      by_cases hm : n ∈ as <;> simp [hm, setNode_node]
    · by_cases hm : n ∈ as <;> simp [hm, hn, setNode_node]

theorem dirtySeedPhase_node (s : Editor) (n : NodeId) :
    (dirtySeedPhase s).node n =
      if n ∈ s.nodes_update_over_time then { s.node n with dirty := true } else s.node n := by
  simp only [dirtySeedPhase]
  rw [(seedDirty_spec _ _).1 n]

theorem dirtySeedPhase_parents (s : Editor) (n : NodeId) :
    ((dirtySeedPhase s).node n).parents = (s.node n).parents := by
  rw [dirtySeedPhase_node]; split <;> rfl

theorem dirtySeedPhase_update_order (s : Editor) (n : NodeId) :
    ((dirtySeedPhase s).node n).update_order = (s.node n).update_order := by
  rw [dirtySeedPhase_node]; split <;> rfl

theorem dirtySeedPhase_is_visual (s : Editor) (n : NodeId) :
    ((dirtySeedPhase s).node n).is_visual = (s.node n).is_visual := by
  rw [dirtySeedPhase_node]; split <;> rfl

theorem dirtySeedPhase_lists (s : Editor) :
    (dirtySeedPhase s).visible_nodes = s.visible_nodes ∧
    (dirtySeedPhase s).nodes_update_over_time = s.nodes_update_over_time ∧
    (dirtySeedPhase s).nodes_to_draw = [] := by
  simp only [dirtySeedPhase]
  obtain ⟨_, h2, h3, h4, _⟩ :=
    seedDirty_spec s.nodes_update_over_time { s with nodes_to_draw := [] }
  exact ⟨h2, h3, h4⟩

theorem ancestor_congr {s t : Editor} (h : ∀ n, (t.node n).parents = (s.node n).parents)
    {a n : NodeId} (ha : Ancestor s a n) : Ancestor t a n := by
  induction ha with
  | parent hp => exact Ancestor.parent (by rw [h]; exact hp)
  | step hp _ ih => exact Ancestor.step (by rw [h]; exact hp) ih

theorem frameInv_init (s0 : Editor) : FrameInv s0 ⟨s0, []⟩ := by
  refine ⟨fun _ => ⟨rfl, rfl, rfl⟩, ⟨rfl, rfl⟩, List.nodup_nil, ?_, fun _ h => h, ?_, ?_, ?_⟩
  · intro n hn; simp at hn
  · intro n h1 h2
    simp only at h2
    rw [h1] at h2
    exact absurd h2 (by decide)
  · intro pre n post h
    simp at h
  · simp

theorem visitLoop_spec (s0 : Editor) (fuel : Nat) :
    ∀ (vs : List NodeId) (fr : Frame), FrameInv s0 fr →
      WalkPost s0 fr (fun fr2 => ∀ v ∈ vs, AncClean s0 fr2 v) (visitLoop fuel vs fr) := by
  intro vs
  induction vs with
  | nil =>
    intro fr hfr
    simp only [visitLoop, WalkPost]
    exact ⟨hfr, fun _ h => h, by simp⟩
  | cons v vs ih =>
    intro fr hfr
    simp only [visitLoop]
    have h1 := UpdateVisibleNodeGraph_spec s0 fuel fr v hfr
    cases hc : UpdateVisibleNodeGraph fuel fr v with
    | ok u fr1 =>
      rw [hc] at h1
      simp only [WalkPost] at h1
      obtain ⟨hi1, hm1, ha1⟩ := h1
      have h2 := ih fr1 hi1
      simp only
      cases hw : visitLoop fuel vs fr1 with
      | ok u2 fr2 =>
        rw [hw] at h2
        simp only [WalkPost] at h2 ⊢
        obtain ⟨hi2, hm2, ha2⟩ := h2
        refine ⟨hi2, fun n hn => hm2 n (hm1 n hn), ?_⟩
        intro q hq
        rcases List.mem_cons.1 hq with e | e
        · subst e
          exact ⟨hm2 _ ha1.1, fun a ha => hm2 _ (ha1.2 a ha)⟩
        · exact ha2 q e
      | assertFail fr2 =>
        rw [hw] at h2
        exact h2
      | outOfFuel => trivial
    | assertFail fr1 =>
      rw [hc] at h1
      exact h1
    | outOfFuel => trivial

/-- What one call of `Editor::Update` guarantees of the frame it ends in. -/
theorem Update_spec (fuel : Nat) (s : Editor) :
    WalkPost (dirtySeedPhase s) ⟨dirtySeedPhase s, []⟩
      (fun fr2 => ∀ v ∈ s.visible_nodes, AncClean (dirtySeedPhase s) fr2 v)
      (Update fuel s) := by
  have := visitLoop_spec (dirtySeedPhase s) fuel (dirtySeedPhase s).visible_nodes
    ⟨dirtySeedPhase s, []⟩ (frameInv_init _)
  rw [(dirtySeedPhase_lists s).1] at this
  simp only [Update, (dirtySeedPhase_lists s).1]
  exact this


theorem walkLoop_fuel {s0 : Editor} {r : NodeId → Nat} {k : Nat}
    {f : Frame → NodeId → Res Frame Unit} (hspec : WalkSpec s0 f)
    (hf : ∀ fr m, FrameInv s0 fr → r m < k → f fr m ≠ Res.outOfFuel) :
    ∀ (ps : List NodeConnection) (last : Int) (fr : Frame), FrameInv s0 fr →
      (∀ p ∈ ps, r p.node < k) → walkLoop f ps last fr ≠ Res.outOfFuel := by
  intro ps
  induction ps with
  | nil => intro last fr _ _; simp [walkLoop]
  | cons p ps ih =>
    intro last fr hfr hps
    simp only [walkLoop]
    by_cases hlast : ¬ last ≤ (fr.ed.node p.node).update_order
    · rw [if_pos hlast]; simp
    · rw [if_neg hlast]
      have h1 := hspec fr p.node hfr
      have h2 := hf fr p.node hfr (hps p (List.mem_cons_self _ _))
      cases hc : f fr p.node with
      | ok u fr1 =>
        rw [hc] at h1
        simp only [WalkPost] at h1
        exact ih _ fr1 h1.1 (fun q hq => hps q (List.mem_cons_of_mem _ hq))
      | assertFail fr1 => simp
      | outOfFuel => exact absurd hc h2

/-- On a ranked (acyclic) graph the walk of node `n` needs no more recursion depth
than the rank of `n`. -/
theorem UpdateVisibleNodeGraph_fuel {s0 : Editor} {r : NodeId → Nat} (hr : Ranked s0 r) :
    ∀ (fuel : Nat) (fr : Frame) (n : NodeId), FrameInv s0 fr → r n < fuel →
      UpdateVisibleNodeGraph fuel fr n ≠ Res.outOfFuel := by
  intro fuel
  induction fuel with
  | zero => intro fr n _ h; omega
  | succ k ih =>
    intro fr n hfr hn
    simp only [UpdateVisibleNodeGraph]
    have hps : ∀ p ∈ (fr.ed.node n).parents, r p.node < k := by
      intro p hp
      rw [(hfr.same n).1] at hp
      have := hr n p hp
      omega
    have h1 := walkLoop_fuel (UpdateVisibleNodeGraph_spec s0 k) ih
      (fr.ed.node n).parents (-1) fr hfr hps
    cases hw : walkLoop (UpdateVisibleNodeGraph k) (fr.ed.node n).parents (-1) fr with
    | ok u fr1 =>
      simp only
      split <;> simp
    | assertFail fr1 => simp
    | outOfFuel => exact absurd hw h1

theorem walkLoop_no_abort {s0 : Editor} {f : Frame → NodeId → Res Frame Unit}
    (hspec : WalkSpec s0 f)
    (hf : ∀ fr m fr2, FrameInv s0 fr → f fr m ≠ Res.assertFail fr2) :
    ∀ (ps : List NodeConnection) (last : Int) (fr : Frame) (fr2 : Frame), FrameInv s0 fr →
      List.Chain (fun a b : Int => a ≤ b) last
        (ps.map (fun p => (s0.node p.node).update_order)) →
      walkLoop f ps last fr ≠ Res.assertFail fr2 := by
  intro ps
  induction ps with
  | nil => intro last fr fr2 _ _; simp [walkLoop]
  | cons p ps ih =>
    intro last fr fr2 hfr hch
    simp only [List.map_cons, List.chain_cons] at hch
    simp only [walkLoop]
    have e : (fr.ed.node p.node).update_order = (s0.node p.node).update_order :=
      (hfr.same p.node).2.2
    rw [e]
    rw [if_neg (not_not.2 hch.1)]
    have h1 := hspec fr p.node hfr
    cases hc : f fr p.node with
    | ok u fr1 =>
      rw [hc] at h1
      simp only [WalkPost] at h1
      exact ih _ fr1 fr2 h1.1 hch.2
    | assertFail fr1 => exact absurd hc (hf fr p.node fr1 hfr)
    | outOfFuel => simp

/-- With every parents list sorted by update order no assertion of the walk fails. -/
theorem UpdateVisibleNodeGraph_no_abort {s0 : Editor} (hsort : ParentsSorted s0) :
    ∀ (fuel : Nat) (fr : Frame) (n : NodeId) (fr2 : Frame), FrameInv s0 fr →
      UpdateVisibleNodeGraph fuel fr n ≠ Res.assertFail fr2 := by
  intro fuel
  induction fuel with
  | zero => intro fr n fr2 _; simp [UpdateVisibleNodeGraph]
  | succ k ih =>
    intro fr n fr2 hfr
    simp only [UpdateVisibleNodeGraph]
    have hch := hsort n
    rw [← (hfr.same n).1] at hch
    have h1 := fun fr3 => walkLoop_no_abort (UpdateVisibleNodeGraph_spec s0 k) ih
      (fr.ed.node n).parents (-1) fr fr3 hfr hch
    cases hw : walkLoop (UpdateVisibleNodeGraph k) (fr.ed.node n).parents (-1) fr with
    | ok u fr1 =>
      simp only
      split <;> simp
    | assertFail fr1 => exact absurd hw (h1 fr1)
    | outOfFuel => simp

theorem visitLoop_fuel {s0 : Editor} {r : NodeId → Nat} (hr : Ranked s0 r) (fuel : Nat) :
    ∀ (vs : List NodeId) (fr : Frame), FrameInv s0 fr → (∀ v ∈ vs, r v < fuel) →
      visitLoop fuel vs fr ≠ Res.outOfFuel := by
  intro vs
  induction vs with
  | nil => intro fr _ _; simp [visitLoop]
  | cons v vs ih =>
    intro fr hfr hvs
    simp only [visitLoop]
    have h1 := UpdateVisibleNodeGraph_spec s0 fuel fr v hfr
    have h2 := UpdateVisibleNodeGraph_fuel hr fuel fr v hfr (hvs v (List.mem_cons_self _ _))
    cases hc : UpdateVisibleNodeGraph fuel fr v with
    | ok u fr1 =>
      rw [hc] at h1
      simp only [WalkPost] at h1
      exact ih fr1 h1.1 (fun q hq => hvs q (List.mem_cons_of_mem _ hq))
    | assertFail fr1 => simp
    | outOfFuel => exact absurd hc h2

theorem visitLoop_no_abort {s0 : Editor} (hsort : ParentsSorted s0) (fuel : Nat) :
    ∀ (vs : List NodeId) (fr fr2 : Frame), FrameInv s0 fr →
      visitLoop fuel vs fr ≠ Res.assertFail fr2 := by
  intro vs
  induction vs with
  | nil => intro fr fr2 _; simp [visitLoop]
  | cons v vs ih =>
    intro fr fr2 hfr
    simp only [visitLoop]
    have h1 := UpdateVisibleNodeGraph_spec s0 fuel fr v hfr
    cases hc : UpdateVisibleNodeGraph fuel fr v with
    | ok u fr1 =>
      rw [hc] at h1
      simp only [WalkPost] at h1
      exact ih fr1 fr2 h1.1
    | assertFail fr1 =>
      exact absurd hc (UpdateVisibleNodeGraph_no_abort hsort fuel fr v fr1 hfr)
    | outOfFuel => simp

theorem ranked_seed {s : Editor} {r : NodeId → Nat} (hr : Ranked s r) :
    Ranked (dirtySeedPhase s) r := by
  intro n p hp
  rw [dirtySeedPhase_parents] at hp
  exact hr n p hp

theorem sorted_seed {s : Editor} (h : ParentsSorted s) : ParentsSorted (dirtySeedPhase s) := by
  intro n
  rw [dirtySeedPhase_parents]
  simp only [dirtySeedPhase_update_order]
  exact h n

/-- On a ranked (acyclic) graph `Update` ends, by returning or at an assertion, when
the recursion bound exceeds the ranks of the visible nodes. -/
theorem Update_ends {s : Editor} {r : NodeId → Nat} (hr : Ranked s r) {fuel : Nat}
    (hfuel : ∀ v ∈ s.visible_nodes, r v < fuel) :
    ∃ fr, Update fuel s = Res.ok () fr ∨ Update fuel s = Res.assertFail fr := by
  have h := visitLoop_fuel (ranked_seed hr) fuel (dirtySeedPhase s).visible_nodes
    ⟨dirtySeedPhase s, []⟩ (frameInv_init _)
    (by rw [(dirtySeedPhase_lists s).1]; exact hfuel)
  cases hu : Update fuel s with
  | ok u fr => exact ⟨fr, Or.inl rfl⟩
  | assertFail fr => exact ⟨fr, Or.inr rfl⟩
  | outOfFuel => exact absurd hu h

/-- If moreover the parents lists are sorted by update order, `Update` returns. -/
theorem Update_returns {s : Editor} {r : NodeId → Nat} (hr : Ranked s r)
    (hsort : ParentsSorted s) {fuel : Nat} (hfuel : ∀ v ∈ s.visible_nodes, r v < fuel) :
    ∃ fr, Update fuel s = Res.ok () fr := by
  obtain ⟨fr, h | h⟩ := Update_ends hr hfuel
  · exact ⟨fr, h⟩
  · exact absurd h (visitLoop_no_abort (sorted_seed hsort) fuel _ _ fr (frameInv_init _))


/-- In a consistent state the update order ranks the graph. -/
theorem wf_ranked {s : Editor} (h : WF s) :
    Ranked s (fun n => ((s.node n).update_order).toNat) := by
  intro n p hp
  obtain ⟨c, hc, hcn⟩ := adjSym_child_of_parent h.sym hp
  have := wf_rank h hc
  rw [hcn] at this
  exact this

theorem demoNodes_fresh : Fresh demoNodes := by
  refine ⟨rfl, ?_⟩
  intro n
  simp only [demoNodes, CreateAndAdd, setNode_node]
  by_cases h3 : n = 3
  · subst h3; simp [demo, Editor.setNode]
  by_cases h2 : n = 2
  · subst h2; simp [demo, Editor.setNode]
  by_cases h1 : n = 1
  · subst h1; simp [demo, Editor.setNode]
  by_cases h0 : n = 0
  · subst h0; simp [demo, Editor.setNode]
  simp [demo, Editor.setNode, h0, h1, h2, h3, Function.update_apply]

/-- C8. At-most-once evaluation: on a ranked (acyclic) graph, for every visible set, a
call of `Editor::Update` with a recursion bound above the ranks of the visible nodes
ends, and the log of node computations it made holds each node at most once. -/
theorem at_most_once (s : Editor) (r : NodeId → Nat) (fuel : Nat) (hr : Ranked s r)
    (hfuel : ∀ v ∈ s.visible_nodes, r v < fuel) :
    ∃ fr, (Update fuel s = Res.ok () fr ∨ Update fuel s = Res.assertFail fr) ∧
      ∀ n, fr.calls.count n ≤ 1 := by
  obtain ⟨fr, h⟩ := Update_ends hr hfuel
  refine ⟨fr, h, ?_⟩
  have hspec := Update_spec fuel s
  have hinv : FrameInv (dirtySeedPhase s) fr := by
    rcases h with h | h
    · rw [h] at hspec; exact hspec.1
    · rw [h] at hspec; exact hspec
  exact fun n => List.nodup_iff_count_le_one.1 hinv.nodup n

theorem at_most_once_witness :
    ∃ t, run demoNodes demoWiring = some t ∧
      frameLog (Update 5 t) = some ([0, 2, 1, 3], [1, 3]) ∧
      ∃ fr, (Update 5 t = Res.ok () fr ∨ Update 5 t = Res.assertFail fr) ∧
        ∀ n, fr.calls.count n ≤ 1 := by
  have h : (run demoNodes demoWiring).map (fun t => (frameLog (Update 5 t),
      t.visible_nodes, ordersOf t 4)) =
      some (some ([0, 2, 1, 3], [1, 3]), [1, 3], [(0, 0), (1, 1), (0, 0), (1, 1)]) := by
    decide
  obtain ⟨t, ht, ho⟩ := Option.map_eq_some'.1 h
  simp only [Prod.mk.injEq] at ho
  obtain ⟨ho1, ho2, ho3⟩ := ho
  have hw : WF t := (run_WF _ _ t (fresh_wf demoNodes_fresh) ht).1
  refine ⟨t, ht, ho1, at_most_once t _ 5 (wf_ranked hw) ?_⟩
  intro v hv
  rw [ho2] at hv
  simp only [ordersOf, List.range, List.range.loop, List.map_cons, List.map_nil,
    List.cons.injEq, Prod.mk.injEq, and_true] at ho3
  simp only [List.mem_cons, List.mem_singleton, List.not_mem_nil, or_false] at hv
  rcases hv with e | e
  · subst e
    show ((t.node 1).update_order).toNat < 5
    rw [ho3.2.1.1]; decide
  · subst e
    show ((t.node 3).update_order).toNat < 5
    rw [ho3.2.2.2.1]; decide


theorem demoPair_fresh : Fresh demoPair := by
  refine ⟨rfl, ?_⟩
  intro n
  simp only [demoPair, CreateAndAdd, setNode_node]
  by_cases h1 : n = 1
  · subst h1; simp [demo, Editor.setNode]
  by_cases h0 : n = 0
  · subst h0; simp [demo, Editor.setNode]
  simp [demo, Editor.setNode, h0, h1, Function.update_apply]

/-- C9. Dependency-ordered evaluation: on a ranked (acyclic) graph a call of
`Editor::Update` ends, and in the log of node computations every ancestor of a logged
node that was dirty when the walk of the visible nodes began stands before that node;
every node of the draw list is visual. -/
theorem dependency_order (s : Editor) (r : NodeId → Nat) (fuel : Nat) (hr : Ranked s r)
    (hfuel : ∀ v ∈ s.visible_nodes, r v < fuel) :
    ∃ fr, (Update fuel s = Res.ok () fr ∨ Update fuel s = Res.assertFail fr) ∧
      (∀ pre n post, fr.calls = pre ++ n :: post →
        ∀ a, Ancestor s a n → ((dirtySeedPhase s).node a).dirty = true → a ∈ pre) ∧
      (∀ n ∈ fr.ed.nodes_to_draw, (s.node n).is_visual = true) := by
  obtain ⟨fr, h⟩ := Update_ends hr hfuel
  refine ⟨fr, h, ?_, ?_⟩
  all_goals
    have hspec := Update_spec fuel s
    have hinv : FrameInv (dirtySeedPhase s) fr := by
      rcases h with h | h
      · rw [h] at hspec; exact hspec.1
      · rw [h] at hspec; exact hspec
  · intro pre n post hsplit a ha hd
    exact hinv.ordered pre n post hsplit a
      (ancestor_congr (fun m => dirtySeedPhase_parents s m) ha) hd
  · intro n hn
    rw [hinv.drawn, (dirtySeedPhase_lists s).2.2, List.nil_append] at hn
    have := (List.mem_filter.1 hn).2
    rw [dirtySeedPhase_is_visual] at this
    exact this

theorem dependency_order_witness :
    ∃ t, run demoPair [(5, Op.connect 0 2 1 4)] = some t ∧
      t.visible_nodes = [1] ∧ (t.node 0).is_visual = false ∧ (t.node 1).is_visual = true ∧
      frameLog (Update 5 t) = some ([0, 1], [1]) ∧
      ∃ fr, (Update 5 t = Res.ok () fr ∨ Update 5 t = Res.assertFail fr) ∧
        (∀ pre n post, fr.calls = pre ++ n :: post →
          ∀ a, Ancestor t a n → ((dirtySeedPhase t).node a).dirty = true → a ∈ pre) ∧
        (∀ n ∈ fr.ed.nodes_to_draw, (t.node n).is_visual = true) := by
  have h : (run demoPair [(5, Op.connect 0 2 1 4)]).map (fun t => (frameLog (Update 5 t),
      t.visible_nodes, (t.node 1).update_order, (t.node 0).is_visual,
      (t.node 1).is_visual)) =
      some (some ([0, 1], [1]), [1], 1, false, true) := by
    decide
  obtain ⟨t, ht, ho⟩ := Option.map_eq_some'.1 h
  simp only [Prod.mk.injEq] at ho
  obtain ⟨ho1, ho2, ho3, ho4, ho5⟩ := ho
  have hw : WF t := (run_WF _ _ t (fresh_wf demoPair_fresh) ht).1
  refine ⟨t, ht, ho2, ho4, ho5, ho1, dependency_order t _ 5 (wf_ranked hw) ?_⟩
  intro v hv
  rw [ho2] at hv
  simp only [List.mem_singleton] at hv
  subst hv
  show ((t.node 1).update_order).toNat < 5
  rw [ho3]; decide


theorem setNode_eraseF {F : OrderField} (hF : F.Lawful) (s : Editor) (X : NodeId) (v : Int) :
    (s.setNode X (F.set (s.node X) v)).eraseF F = s.eraseF F := by
  simp only [Editor.eraseF, Editor.setNode]
  congr 1
  funext n
  by_cases hn : n = X
  · subst hn; simp [hF.set_set]
  · simp [Function.update_apply, hn]

theorem maxLoop_frame {F : OrderField} {f : Editor → NodeId → Option (Int × Editor)}
    (hf : ∀ s X v t, f s X = some (v, t) → t.eraseF F = s.eraseF F) :
    ∀ (l : List NodeConnection) (acc : Int) (s : Editor) (m : Int) (t : Editor),
      maxLoop f l acc s = some (m, t) → t.eraseF F = s.eraseF F := by
  intro l
  induction l with
  | nil =>
    intro acc s m t h
    simp only [maxLoop, Option.some.injEq, Prod.mk.injEq] at h
    rw [h.2]
  | cons c cs ih =>
    intro acc s m t h
    simp only [maxLoop] at h
    cases hc : f s c.node with
    | none => simp [hc] at h
    | some q =>
      obtain ⟨v, sa⟩ := q
      simp only [hc] at h
      exact (ih _ sa m t h).trans (hf s c.node v sa hc)

theorem eachLoop_frame {F : OrderField} {f : Editor → NodeId → Option (Int × Editor)}
    (hf : ∀ s X v t, f s X = some (v, t) → t.eraseF F = s.eraseF F) :
    ∀ (l : List NodeConnection) (s : Editor) (t : Editor),
      eachLoop f l s = some t → t.eraseF F = s.eraseF F := by
  intro l
  induction l with
  | nil =>
    intro s t h
    simp only [eachLoop, Option.some.injEq] at h
    rw [h]
  | cons c cs ih =>
    intro s t h
    simp only [eachLoop] at h
    cases hc : f s c.node with
    | none => simp [hc] at h
    | some q =>
      obtain ⟨v, sa⟩ := q
      simp only [hc] at h
      exact (ih sa t h).trans (hf s c.node v sa hc)

/-- A recalculation changes nothing but the field it computes. -/
theorem recalcOrder_frame {F : OrderField} (hF : F.Lawful) (fuel : Nat) :
    ∀ s X v t, recalcOrder F fuel s X = some (v, t) → t.eraseF F = s.eraseF F := by
  induction fuel with
  | zero => intro s X v t h; simp [recalcOrder] at h
  | succ k ih =>
    intro s X v t h
    simp only [recalcOrder] at h
    by_cases hX : F.get (s.node X) ≠ -1
    · rw [if_pos hX] at h
      simp only [Option.some.injEq, Prod.mk.injEq] at h
      rw [h.2]
    · rw [if_neg hX] at h
      cases h1 : maxLoop (recalcOrder F k) (s.node X).parents F.init s with
      | none => simp [h1] at h
      | some q =>
        obtain ⟨m, s1⟩ := q
        simp only [h1] at h
        have e1 := maxLoop_frame ih _ _ _ _ _ h1
        have e2 := setNode_eraseF hF s1 X (m + F.inc (s1.node X))
        generalize s1.setNode X (F.set (s1.node X) (m + F.inc (s1.node X))) = s2 at h e2
        cases h3 : eachLoop (recalcOrder F k) (s2.node X).children s2 with
        | none => simp [h3] at h
        | some s3 =>
          simp only [h3, Option.some.injEq, Prod.mk.injEq] at h
          obtain ⟨_, rfl⟩ := h
          exact (eachLoop_frame ih _ _ _ h3).trans (e2.trans e1)

/-- `RecalculateTraversalOrder` changes nothing but order fields. -/
theorem RecalculateTraversalOrder_frame {fuel : Nat} {g t : Editor} {X : NodeId}
    (h : RecalculateTraversalOrder fuel g X true true = some t) :
    t.eraseOrders = g.eraseOrders := by
  simp only [RecalculateTraversalOrder, ite_true] at h
  cases hinv : InvalidateChildren fuel g X true true with
  | none => simp [hinv] at h
  | some gi =>
    simp only [hinv] at h
    cases hu : RecalculateUpdateOrder fuel gi X with
    | none => simp [hu] at h
    | some ru =>
      obtain ⟨vu, gu⟩ := ru
      simp only [hu, Option.map_some'] at h
      cases hd : RecalculateDrawOrder fuel gu X with
      | none => simp [hd] at h
      | some rd =>
        obtain ⟨vd, t1⟩ := rd
        simp only [hd, Option.map_some', Option.some.injEq] at h
        subst h
        rw [RecalculateUpdateOrder_eq] at hu
        rw [RecalculateDrawOrder_eq] at hd
        exact (eraseOrders_of_eraseF drawField_lawful
            (recalcOrder_frame drawField_lawful fuel _ _ _ _ hd)).trans
          ((eraseOrders_of_eraseF updateField_lawful
            (recalcOrder_frame updateField_lawful fuel _ _ _ _ hu)).trans
            (InvalidateChildren_spec fuel g X gi hinv).1.1)

/-- A successful `Connect` or `Disconnect` leaves the editor's node lists alone. -/
theorem applyOp_lists {s t : Editor} {fuel : Nat} {op : Op}
    (h : applyOp s fuel op = some t) :
    t.nodes_update_over_time = s.nodes_update_over_time ∧
    t.visible_nodes = s.visible_nodes := by
  have key : ∀ g : Editor, t.eraseOrders = g.eraseOrders →
      g.nodes_update_over_time = s.nodes_update_over_time →
      g.visible_nodes = s.visible_nodes →
      t.nodes_update_over_time = s.nodes_update_over_time ∧
      t.visible_nodes = s.visible_nodes := by
    intro g he h1 h2
    have e1 := congrArg Editor.nodes_update_over_time he
    have e2 := congrArg Editor.visible_nodes he
    simp only [Editor.eraseOrders] at e1 e2
    exact ⟨e1.trans h1, e2.trans h2⟩
  cases op with
  | connect a pco b pci =>
    obtain ⟨_, _, _, i, j, _, _, hres⟩ := Connect_ok h
    have h1 : (connectEdge s a j b i).nodes_update_over_time = s.nodes_update_over_time := by
      simp [connectEdge, AddParent, AddChild, Editor.pushConnection, Editor.setLinks,
        Editor.setChildren, Editor.setParents, Editor.setNode]
    have h2 : (connectEdge s a j b i).visible_nodes = s.visible_nodes := by
      simp [connectEdge, AddParent, AddChild, Editor.pushConnection, Editor.setLinks,
        Editor.setChildren, Editor.setParents, Editor.setNode]
    split at hres
    · exact key _ (RecalculateTraversalOrder_frame hres) h1 h2
    · subst hres; exact ⟨h1, h2⟩
  | disconnect a pco b pci =>
    obtain ⟨_, _, _, i, j, r1, cs, r2, ps, _, _, _, _, _, _, hres⟩ := Disconnect_ok h
    have h1 : (disconnectEdge s a j b i cs ps).nodes_update_over_time =
        s.nodes_update_over_time := by
      simp [disconnectEdge, Editor.eraseConnection, Editor.setLinks,
        Editor.setChildren, Editor.setParents, Editor.setNode]
    have h2 : (disconnectEdge s a j b i cs ps).visible_nodes = s.visible_nodes := by
      simp [disconnectEdge, Editor.eraseConnection, Editor.setLinks,
        Editor.setChildren, Editor.setParents, Editor.setNode]
    split at hres
    · exact key _ (RecalculateTraversalOrder_frame hres) h1 h2
    · subst hres; exact ⟨h1, h2⟩


theorem frameLog_some {res : Res Frame Unit} {x : List NodeId × List NodeId}
    (h : frameLog res = some x) :
    ∃ fr, res = Res.ok () fr ∧ x = (fr.calls, fr.ed.nodes_to_draw) := by
  cases res with
  | ok u fr =>
    simp only [frameLog, Option.some.injEq] at h
    exact ⟨fr, rfl, h.symm⟩
  | assertFail fr => simp [frameLog] at h
  | outOfFuel => simp [frameLog] at h

theorem CreateAndAdd_over_time (s0 : Editor) (node_id : Nat) (T : NodeId) (obj : IEventNode)
    (hobj : obj.updates_over_time = true) :
    T ∈ (CreateAndAdd s0 node_id (some (T, obj))).1.nodes_update_over_time := by
  simp only [CreateAndAdd]
  have h1 : ∀ e : Editor, e.node T = { obj with id := node_id } →
      (e.node T).updates_over_time = true := by
    intro e he; rw [he]; exact hobj
  split <;> simp [setNode_node, Editor.setNode, hobj]

/-- What holds of a time-driven node in a frame that returns: a node `T` created
through `CreateAndAdd` with `updates_over_time = true` is registered in
`nodes_update_over_time`, and calls of `Connect`, `Disconnect` and `Update` leave it
registered; whatever its dirty flag, the dirty-seed phase of `Update` hands the walk of
the visible nodes a state in which `T` is dirty; and if `T` is visible or an ancestor of
a visible node, a frame that returns has invoked its computation exactly once. On a
ranked graph with sorted parents lists the frame does return. -/
theorem time_driven_returned (s0 : Editor) (node_id : Nat) (T : NodeId) (obj : IEventNode)
    (s : Editor) (fuel : Nat) (fr : Frame)
    (hobj : obj.updates_over_time = true) (hT : T ∈ s.nodes_update_over_time)
    (hvis : T ∈ s.visible_nodes ∨ ∃ v ∈ s.visible_nodes, Ancestor s T v)
    (hok : Update fuel s = Res.ok () fr) :
    T ∈ (CreateAndAdd s0 node_id (some (T, obj))).1.nodes_update_over_time ∧
    (∀ f op t, applyOp s f op = some t → T ∈ t.nodes_update_over_time) ∧
    T ∈ fr.ed.nodes_update_over_time ∧
    ((dirtySeedPhase s).node T).dirty = true ∧
    fr.calls.count T = 1 ∧
    (∀ r f, Ranked s r → ParentsSorted s → (∀ v ∈ s.visible_nodes, r v < f) →
      ∃ fr2, Update f s = Res.ok () fr2) := by
  have hspec := Update_spec fuel s
  rw [hok] at hspec
  simp only [WalkPost] at hspec
  obtain ⟨hinv, _, hclean⟩ := hspec
  have hdirty : ((dirtySeedPhase s).node T).dirty = true := by
    rw [dirtySeedPhase_node, if_pos hT]
  have hTclean : (fr.ed.node T).dirty = false := by
    rcases hvis with h | ⟨v, hv, ha⟩
    · exact (hclean T h).1
    · exact (hclean v hv).2 T (ancestor_congr (fun m => dirtySeedPhase_parents s m) ha)
  refine ⟨CreateAndAdd_over_time s0 node_id T obj hobj, ?_, ?_, hdirty, ?_, ?_⟩
  · intro f op t h
    rw [(applyOp_lists h).1]; exact hT
  · rw [hinv.lists.2, (dirtySeedPhase_lists s).2.1]; exact hT
  · exact List.count_eq_one_of_mem hinv.nodup (hinv.logged T hdirty hTclean)
  · intro r f hr hsort hf
    exact Update_returns hr hsort hf

/-- Two consistent states with the same graph agree on every order that is computed
in the first. -/
theorem orders_unique {s t : Editor} (hs : WF s) (ht : WF t)
    (hadj : ∀ n, (t.node n).parents = (s.node n).parents ∧
      (t.node n).is_visual = (s.node n).is_visual)
    (hvu : ∀ n, (s.node n).update_order ≠ -1 → (t.node n).update_order ≠ -1)
    (hvd : ∀ n, (s.node n).draw_order ≠ -1 → (t.node n).draw_order ≠ -1) :
    ∀ n, ((s.node n).update_order ≠ -1 → (t.node n).update_order = (s.node n).update_order) ∧
      ((s.node n).draw_order ≠ -1 → (t.node n).draw_order = (s.node n).draw_order) := by
  have key : ∀ k n, ((s.node n).update_order).toNat = k →
      ((s.node n).update_order ≠ -1 → (t.node n).update_order = (s.node n).update_order) ∧
      ((s.node n).draw_order ≠ -1 → (t.node n).draw_order = (s.node n).draw_order) := by
    intro k
    induction k using Nat.strong_induction_on with
    | _ k ih =>
      intro n hk
      have hpar : ∀ p ∈ (s.node n).parents,
          (t.node p.node).update_order = (s.node p.node).update_order ∧
          (t.node p.node).draw_order = (s.node p.node).draw_order := by
        intro p hp
        obtain ⟨c, hc, hcn⟩ := adjSym_child_of_parent hs.sym hp
        have hr := wf_rank hs hc
        rw [hcn, hk] at hr
        have hvp := hs.valid _ (connected_of_child hc)
        have := ih _ hr p.node rfl
        exact ⟨this.1 hvp.1, this.2 hvp.2⟩
      have hpo : ∀ F : OrderField, (∀ p ∈ (s.node n).parents, t.ord F p.node = s.ord F p.node) →
          parentOrds F t n = parentOrds F s n := by
        intro F hF
        simp only [parentOrds, (hadj n).1]
        exact List.map_congr_left hF
      refine ⟨?_, ?_⟩
      · intro hn
        have e1 := ht.upd n (hvu n hn)
        have e2 := hs.upd n hn
        simp only [OrdEq] at e1 e2
        rw [hpo updateField (fun p hp => (hpar p hp).1)] at e1
        have e3 : updateField.inc (t.node n) = updateField.inc (s.node n) := rfl
        rw [e3, ← e2] at e1
        exact e1
      · intro hn
        have e1 := ht.drw n (hvd n hn)
        have e2 := hs.drw n hn
        simp only [OrdEq] at e1 e2
        rw [hpo drawField (fun p hp => (hpar p hp).2)] at e1
        have e3 : drawField.inc (t.node n) = drawField.inc (s.node n) := by
          simp [drawField, (hadj n).2]
        rw [e3, ← e2] at e1
        exact e1
  intro n
  exact key _ n rfl

theorem removeConn_addConn (n : NodeId) :
    ∀ l : List NodeConnection, (l.map (fun c => c.node)).Nodup → findConn l n ≠ some 0 →
      removeConn n (addConn n l).2 = some ((addConn n l).1, l) := by
  intro l
  induction l with
  | nil => intro _ _; simp [addConn, removeConn]
  | cons d ds ih =>
    intro hnd h0
    simp only [List.map_cons, List.nodup_cons] at hnd
    simp only [addConn]
    by_cases hd : d.node = n
    · have hk : d.conn_count ≠ 0 := by
        intro e
        apply h0
        simp [findConn, hd, e]
      simp only [hd, ite_true, removeConn]
      rw [if_neg (by omega)]
      simp only [Nat.add_sub_cancel, Option.some.injEq, Prod.mk.injEq, true_and,
        List.cons.injEq, and_true]
      cases d
      simp only at hd
      simp [hd]
    · have h0' : findConn ds n ≠ some 0 := by
        simpa [findConn, hd] using h0
      simp only [hd, ite_false, removeConn]
      rw [ih hnd.2 h0']

theorem findSlot_modify {p : PinId} (f : PinOutput → PinOutput) (hf : ∀ o, (f o).pin = o.pin) :
    ∀ (l : List PinOutput) (j : Nat),
      findSlot (fun x => decide (x.pin = p)) (l.modify f j) =
        findSlot (fun x => decide (x.pin = p)) l := by
  intro l
  induction l with
  | nil => intro j; cases j <;> simp [List.modify, findSlot]
  | cons o os ih =>
    intro j
    cases j with
    | zero => simp [List.modify, findSlot, hf]
    | succ j =>
      have := ih j
      simp only [List.modify] at this
      simp [List.modify, findSlot, List.modifyTailIdx, this]

theorem modify_erase_push (x : PinInput) :
    ∀ (l : List PinOutput) (j : Nat), x ∉ (l.getD j default).connections →
      (l.modify (fun o => ⟨o.pin, o.connections ++ [x]⟩) j).modify
        (fun o => ⟨o.pin, o.connections.erase x⟩) j = l := by
  intro l
  induction l with
  | nil => intro j _; cases j <;> simp [List.modify]
  | cons o os ih =>
    intro j hx
    cases j with
    | zero =>
      simp only [List.getD_cons_zero] at hx
      simp only [List.modify, List.modifyHead, List.modifyTailIdx]
      simp [List.erase_append_right _ hx]
    | succ j =>
      simp only [List.getD_cons_succ] at hx
      have := ih j hx
      simp only [List.modify] at this ⊢
      simp [List.modifyTailIdx, this]

theorem getD_modify_push (x : PinInput) :
    ∀ (l : List PinOutput) (j : Nat), j < l.length →
      x ∈ ((l.modify (fun o => ⟨o.pin, o.connections ++ [x]⟩) j).getD j default).connections := by
  intro l
  induction l with
  | nil => intro j hj; simp at hj
  | cons o os ih =>
    intro j hj
    cases j with
    | zero => simp [List.modify, List.modifyHead, List.modifyTailIdx]
    | succ j =>
      have := ih j (by simpa using hj)
      simp only [List.modify] at this ⊢
      simpa [List.modifyTailIdx] using this

theorem findSlot_lt {α : Type} (p : α → Bool) :
    ∀ (l : List α) (i : Nat), findSlot p l = some i → i < l.length := by
  intro l
  induction l with
  | nil => intro i h; simp [findSlot] at h
  | cons a as ih =>
    intro i h
    simp only [findSlot] at h
    split at h
    · simp only [Option.some.injEq] at h
      subst h; simp
    · cases hf : findSlot p as with
      | none => simp [hf] at h
      | some k =>
        simp only [hf, Option.map_some', Option.some.injEq] at h
        subst h
        have := ih k hf
        simp; omega


theorem strip_eq_iff (a b : IEventNode) :
    a.strip = b.strip ↔
      a.id = b.id ∧ a.is_visual = b.is_visual ∧ a.updates_over_time = b.updates_over_time ∧
      a.dirty = b.dirty ∧ a.parents = b.parents ∧ a.children = b.children ∧
      a.pin_inputs = b.pin_inputs ∧ a.pin_outputs = b.pin_outputs := by
  cases a; cases b
  simp [IEventNode.strip]

theorem eraseOrders_eq_iff (s t : Editor) :
    t.eraseOrders = s.eraseOrders ↔
      (∀ n, (t.node n).strip = (s.node n).strip) ∧ t.pin = s.pin ∧ t.nodes = s.nodes ∧
      t.links = s.links ∧ t.visible_nodes = s.visible_nodes ∧
      t.nodes_update_over_time = s.nodes_update_over_time ∧
      t.nodes_to_draw = s.nodes_to_draw ∧ t.pins_to_nodes = s.pins_to_nodes := by
  cases s; cases t
  simp only [Editor.eraseOrders, Editor.mk.injEq]
  constructor
  · rintro ⟨h1, h2⟩
    exact ⟨fun n => congrFun h1 n, h2⟩
  · rintro ⟨h1, h2⟩
    exact ⟨funext h1, h2⟩

/-- Connecting a pin pair that was not linked and disconnecting it again restores
everything but the order fields. -/
theorem roundtrip_erased {s s1 s2 : Editor} (hs : WF s) (hl : LinkInv s)
    {A B : NodeId} {pco pci : PinId} {i j : Nat}
    (hfi : FindPinInput s B pci = some i) (hfj : FindPinOutput s A pco = some j)
    (h1 : s1.eraseOrders = (connectEdge s A j B i).eraseOrders)
    (hx : (s.node B).pin_inputs.getD i default ∉
      ((s.node A).pin_outputs.getD j default).connections)
    (hlk : (⟨(B, i), (A, j)⟩ : Link) ∉ s.links)
    {i2 j2 : Nat} {r1 r2 : Bool} {cs ps : List NodeConnection}
    (hfi2 : FindPinInput s1 B pci = some i2) (hfj2 : FindPinOutput s1 A pco = some j2)
    (hr1 : removeConn B (s1.node A).children = some (r1, cs))
    (hr2 : removeConn A (s1.node B).parents = some (r2, ps))
    (h2 : s2.eraseOrders = (disconnectEdge s1 A j2 B i2 cs ps).eraseOrders) :
    s2.eraseOrders = s.eraseOrders := by
  obtain ⟨e1n, e1p, e1ns, e1l, e1v, e1t, e1d, e1pn⟩ := (eraseOrders_eq_iff _ _).1 h1
  have hn1 : ∀ n, (s1.node n).id = (s.node n).id ∧
      (s1.node n).is_visual = (s.node n).is_visual ∧
      (s1.node n).updates_over_time = (s.node n).updates_over_time ∧
      (s1.node n).dirty = (s.node n).dirty ∧
      (s1.node n).parents =
        (if n = B then (addConn A (s.node B).parents).2 else (s.node n).parents) ∧
      (s1.node n).children =
        (if n = A then (addConn B (s.node A).children).2 else (s.node n).children) ∧
      (s1.node n).pin_inputs = (s.node n).pin_inputs ∧
      (s1.node n).pin_outputs =
        (if n = A then (s.node A).pin_outputs.modify
            (fun o => ⟨o.pin, o.connections ++ [(s.node B).pin_inputs.getD i default]⟩) j
          else (s.node n).pin_outputs) := by
    intro n
    have := (strip_eq_iff _ _).1 (e1n n)
    simpa [connectEdge_node] using this
  have hi2 : i2 = i := by
    have : FindPinInput s1 B pci = FindPinInput s B pci := by
      simp only [FindPinInput, (hn1 B).2.2.2.2.2.2.1]
    rw [this, hfi] at hfi2
    exact (Option.some.inj hfi2).symm
  have hj2 : j2 = j := by
    have : FindPinOutput s1 A pco = FindPinOutput s A pco := by
      simp only [FindPinOutput, (hn1 A).2.2.2.2.2.2.2, ite_true]
      exact findSlot_modify
        (fun o => ⟨o.pin, o.connections ++ [(s.node B).pin_inputs.getD i default]⟩)
        (fun _ => rfl) _ _
    rw [this, hfj] at hfj2
    exact (Option.some.inj hfj2).symm
  subst hi2; subst hj2
  have hc0 : findConn (s.node A).children B ≠ some 0 := by
    rw [hl A B]
    split
    · simp
    · rename_i h; intro e; exact h (Option.some.inj e)
  have hp0 : findConn (s.node B).parents A ≠ some 0 := by
    rw [← hs.sym A B]; exact hc0
  have hcs : cs = (s.node A).children := by
    rw [(hn1 A).2.2.2.2.2.1, if_pos rfl, removeConn_addConn B _ (hs.nodup A).1 hc0] at hr1
    simp only [Option.some.injEq, Prod.mk.injEq] at hr1
    exact hr1.2.symm
  have hps : ps = (s.node B).parents := by
    rw [(hn1 B).2.2.2.2.1, if_pos rfl, removeConn_addConn A _ (hs.nodup B).2 hp0] at hr2
    simp only [Option.some.injEq, Prod.mk.injEq] at hr2
    exact hr2.2.symm
  rw [h2]
  apply (eraseOrders_eq_iff _ _).2
  refine ⟨?_, ?_, ?_, ?_, ?_, ?_, ?_, ?_⟩
  · intro n
    apply (strip_eq_iff _ _).2
    obtain ⟨a1, a2, a3, a4, a5, a6, a7, a8⟩ := hn1 n
    simp only [disconnectEdge_node]
    refine ⟨a1, a2, a3, a4, ?_, ?_, a7, ?_⟩
    · by_cases hnB : n = B
      · simp [hnB, hps]
      · simp [hnB, a5]
    · by_cases hnA : n = A
      · simp [hnA, hcs]
      · simp [hnA, a6]
    · by_cases hnA : n = A
      · subst hnA
        simp only [ite_true, (hn1 n).2.2.2.2.2.2.2, (hn1 B).2.2.2.2.2.2.1]
        exact modify_erase_push _ _ _ hx
      · simp [hnA, a8]
  · simpa [disconnectEdge, Editor.eraseConnection, Editor.setLinks, Editor.setChildren,
      Editor.setParents, Editor.setNode] using e1p
  · simpa [disconnectEdge, Editor.eraseConnection, Editor.setLinks, Editor.setChildren,
      Editor.setParents, Editor.setNode] using e1ns
  · rw [disconnectEdge_links, e1l, connectEdge_links, List.erase_append_right _ hlk]
    simp
  · simpa [disconnectEdge, Editor.eraseConnection, Editor.setLinks, Editor.setChildren,
      Editor.setParents, Editor.setNode] using e1v
  · simpa [disconnectEdge, Editor.eraseConnection, Editor.setLinks, Editor.setChildren,
      Editor.setParents, Editor.setNode] using e1t
  · simpa [disconnectEdge, Editor.eraseConnection, Editor.setLinks, Editor.setChildren,
      Editor.setParents, Editor.setNode] using e1d
  · simpa [disconnectEdge, Editor.eraseConnection, Editor.setLinks, Editor.setChildren,
      Editor.setParents, Editor.setNode] using e1pn


theorem shielded_of_strip {s t : Editor} {P : NodeId → Prop}
    (h : ∀ n, (t.node n).strip = (s.node n).strip) (hs : Shielded s P) : Shielded t P := by
  intro m c hc
  rw [strip_parents (h m), strip_children (h m)] at hc
  exact hs m c hc

theorem maxLoop_untouched {F : OrderField} (hF : F.Lawful) {P : NodeId → Prop}
    {f : Editor → NodeId → Option (Int × Editor)}
    (hfr : ∀ s X v t, f s X = some (v, t) → t.eraseF F = s.eraseF F)
    (hf : ∀ s X v t, Shielded s P → ¬ P X → f s X = some (v, t) →
      ∀ n, P n → t.node n = s.node n) :
    ∀ (l : List NodeConnection) (acc : Int) (s : Editor) (m : Int) (t : Editor),
      Shielded s P → (∀ c ∈ l, ¬ P c.node) → maxLoop f l acc s = some (m, t) →
      ∀ n, P n → t.node n = s.node n := by
  intro l
  induction l with
  | nil =>
    intro acc s m t _ _ h
    simp only [maxLoop, Option.some.injEq, Prod.mk.injEq] at h
    intro n _; rw [h.2]
  | cons c cs ih =>
    intro acc s m t hs hl h
    simp only [maxLoop] at h
    cases hc : f s c.node with
    | none => simp [hc] at h
    | some q =>
      obtain ⟨v, sa⟩ := q
      simp only [hc] at h
      have h1 := hf s c.node v sa hs (hl c (List.mem_cons_self _ _)) hc
      have hsa := shielded_of_strip (eraseF_strip hF (hfr s c.node v sa hc)) hs
      have h2 := ih _ sa m t hsa (fun d hd => hl d (List.mem_cons_of_mem _ hd)) h
      intro n hn
      rw [h2 n hn, h1 n hn]

theorem eachLoop_untouched {F : OrderField} (hF : F.Lawful) {P : NodeId → Prop}
    {f : Editor → NodeId → Option (Int × Editor)}
    (hfr : ∀ s X v t, f s X = some (v, t) → t.eraseF F = s.eraseF F)
    (hf : ∀ s X v t, Shielded s P → ¬ P X → f s X = some (v, t) →
      ∀ n, P n → t.node n = s.node n) :
    ∀ (l : List NodeConnection) (s : Editor) (t : Editor),
      Shielded s P → (∀ c ∈ l, ¬ P c.node) → eachLoop f l s = some t →
      ∀ n, P n → t.node n = s.node n := by
  intro l
  induction l with
  | nil =>
    intro s t _ _ h
    simp only [eachLoop, Option.some.injEq] at h
    intro n _; rw [h]
  | cons c cs ih =>
    intro s t hs hl h
    simp only [eachLoop] at h
    cases hc : f s c.node with
    | none => simp [hc] at h
    | some q =>
      obtain ⟨v, sa⟩ := q
      simp only [hc] at h
      have h1 := hf s c.node v sa hs (hl c (List.mem_cons_self _ _)) hc
      have hsa := shielded_of_strip (eraseF_strip hF (hfr s c.node v sa hc)) hs
      have h2 := ih sa t hsa (fun d hd => hl d (List.mem_cons_of_mem _ hd)) h
      intro n hn
      rw [h2 n hn, h1 n hn]

/-- A recalculation started outside `P` leaves the nodes of `P` alone when no
adjacency list names a node of `P`. -/
theorem recalcOrder_untouched {F : OrderField} (hF : F.Lawful) {P : NodeId → Prop}
    (fuel : Nat) :
    ∀ s X v t, Shielded s P → ¬ P X → recalcOrder F fuel s X = some (v, t) →
      ∀ n, P n → t.node n = s.node n := by
  induction fuel with
  | zero => intro s X v t _ _ h; simp [recalcOrder] at h
  | succ k ih =>
    intro s X v t hs hX h
    simp only [recalcOrder] at h
    by_cases hv : F.get (s.node X) ≠ -1
    · rw [if_pos hv] at h
      simp only [Option.some.injEq, Prod.mk.injEq] at h
      intro n _; rw [h.2]
    · rw [if_neg hv] at h
      cases h1 : maxLoop (recalcOrder F k) (s.node X).parents F.init s with
      | none => simp [h1] at h
      | some q =>
        obtain ⟨m, s1⟩ := q
        simp only [h1] at h
        have hfr := recalcOrder_frame hF k
        have u1 := maxLoop_untouched hF hfr ih _ _ _ _ _ hs
          (fun c hc => hs X c (Or.inl hc)) h1
        have e1 := eraseF_strip hF (maxLoop_frame hfr _ _ _ _ _ h1)
        have hs1 := shielded_of_strip e1 hs
        have e2 := eraseF_strip hF (setNode_eraseF hF s1 X (m + F.inc (s1.node X)))
        have u2 : ∀ n, P n → (s1.setNode X (F.set (s1.node X) (m + F.inc (s1.node X)))).node n =
            s1.node n := by
          intro n hn
          have : n ≠ X := fun e => hX (e ▸ hn)
          simp [setNode_node, this]
        generalize s1.setNode X (F.set (s1.node X) (m + F.inc (s1.node X))) = s2 at h e2 u2
        have hs2 := shielded_of_strip e2 hs1
        cases h3 : eachLoop (recalcOrder F k) (s2.node X).children s2 with
        | none => simp [h3] at h
        | some s3 =>
          simp only [h3, Option.some.injEq, Prod.mk.injEq] at h
          obtain ⟨_, rfl⟩ := h
          have u3 := eachLoop_untouched hF hfr ih _ _ _ hs2
            (fun c hc => hs2 X c (Or.inr hc)) h3
          intro n hn
          rw [u3 n hn, u2 n hn, u1 n hn]

theorem node_eq_of_strip {a b : IEventNode} (h : a.strip = b.strip)
    (hu : a.update_order = b.update_order) (hd : a.draw_order = b.draw_order) : a = b := by
  cases a; cases b
  simp only [IEventNode.strip, IEventNode.mk.injEq] at h
  simp only at hu hd
  simp only [IEventNode.mk.injEq]
  exact ⟨h.1, h.2.1, h.2.2.1, hu, hd, h.2.2.2.2.2⟩

theorem invalidate_untouched {s t : Editor} {X : NodeId} {P : NodeId → Prop}
    (hi : IStep (fun n => n = X) s t) (hs : Shielded s P) (hX : ¬ P X) :
    ∀ n, P n → t.node n = s.node n := by
  intro n hn
  rcases hi.2.1 n with e | e
  · exact e
  · by_cases hf : FullInv s n
    · exact node_eq_of_strip (eraseOrders_strip hi.1 n) (e.1.trans hf.1.symm)
        (e.2.trans hf.2.symm)
    · exfalso
      rcases hi.2.2.2 n ⟨hf, e⟩ with h1 | ⟨m, _, c, hc, hcn⟩
      · exact hX (h1 ▸ hn)
      · rw [strip_children (eraseOrders_strip hi.1 m)] at hc
        exact hs m c (Or.inr hc) (hcn ▸ hn)

/-- `RecalculateTraversalOrder` started outside `P` leaves the nodes of `P` alone when
no adjacency list names a node of `P`. -/
theorem RecalculateTraversalOrder_untouched {fuel : Nat} {g t : Editor} {X : NodeId}
    {P : NodeId → Prop} (hs : Shielded g P) (hX : ¬ P X)
    (h : RecalculateTraversalOrder fuel g X true true = some t) :
    ∀ n, P n → t.node n = g.node n := by
  simp only [RecalculateTraversalOrder, ite_true] at h
  cases hinv : InvalidateChildren fuel g X true true with
  | none => simp [hinv] at h
  | some gi =>
    simp only [hinv] at h
    cases hu : RecalculateUpdateOrder fuel gi X with
    | none => simp [hu] at h
    | some ru =>
      obtain ⟨vu, gu⟩ := ru
      simp only [hu, Option.map_some'] at h
      cases hd : RecalculateDrawOrder fuel gu X with
      | none => simp [hd] at h
      | some rd =>
        obtain ⟨vd, t1⟩ := rd
        simp only [hd, Option.map_some', Option.some.injEq] at h
        subst h
        rw [RecalculateUpdateOrder_eq] at hu
        rw [RecalculateDrawOrder_eq] at hd
        have hi := (InvalidateChildren_spec fuel g X gi hinv).1
        have u1 := invalidate_untouched hi hs hX
        have hs1 := shielded_of_strip (eraseOrders_strip hi.1) hs
        have u2 := recalcOrder_untouched updateField_lawful fuel _ _ _ _ hs1 hX hu
        have hs2 := shielded_of_strip
          (eraseF_strip updateField_lawful (recalcOrder_frame updateField_lawful fuel _ _ _ _ hu))
          hs1
        have u3 := recalcOrder_untouched drawField_lawful fuel _ _ _ _ hs2 hX hd
        intro n hn
        rw [u3 n hn, u2 n hn, u1 n hn]


theorem countP_lt_of_imp {α : Type} (p q : α → Bool) :
    ∀ (l : List α) (x : α), x ∈ l → q x = true → p x = false →
      (∀ y ∈ l, p y = true → q y = true) → l.countP p < l.countP q := by
  intro l
  induction l with
  | nil => intro x hx; simp at hx
  | cons a as ih =>
    intro x hx hq hp himp
    simp only [List.countP_cons]
    have hrest : as.countP p ≤ as.countP q :=
      List.countP_mono_left (fun y hy => himp y (List.mem_cons_of_mem _ hy))
    rcases List.mem_cons.1 hx with e | e
    · subst e
      simp only [hq, hp, ite_true]
      simp only [Bool.false_eq_true, ite_false]
      omega
    · have h1 := ih x e hq hp (fun y hy => himp y (List.mem_cons_of_mem _ hy))
      have h2 := himp a (List.mem_cons_self _ _)
      by_cases ha : p a = true
      · rw [if_pos ha, if_pos (h2 ha)]; omega
      · rw [if_neg ha]
        by_cases hqa : q a = true
        · rw [if_pos hqa]; omega
        · rw [if_neg hqa]; omega

theorem supported_of_strip {s t : Editor} {L : List NodeId}
    (h : ∀ n, (t.node n).strip = (s.node n).strip) (hs : Supported s L) : Supported t L := by
  refine ⟨?_, ?_⟩
  · intro n hn
    apply hs.1 n
    unfold Connected at hn ⊢
    rw [strip_parents (h n), strip_children (h n)] at hn
    exact hn
  · intro m c hc
    rw [strip_parents (h m), strip_children (h m)] at hc
    exact hs.2 m c hc

theorem ranked_of_strip {s t : Editor} {r : NodeId → Nat}
    (h : ∀ n, (t.node n).strip = (s.node n).strip) (hs : Ranked s r) : Ranked t r := by
  intro n p hp
  rw [strip_parents (h n)] at hp
  exact hs n p hp

theorem validCount_mono {R : NodeId → Prop} {s t : Editor} (h : IStep R s t)
    (L : List NodeId) : validCount t L ≤ validCount s L := by
  apply List.countP_mono_left
  intro x _ hx
  simp only [decide_eq_true_eq] at hx ⊢
  exact fun hf => hx (istep_fullInv_mono h hf)

theorem invLoop_terminates {L : List NodeId} {k : Nat} {f : Editor → NodeId → Option Editor}
    (hspec : ∀ s X t, f s X = some t → IStep (fun n => n = X) s t ∧ FullInv t X)
    (hf : ∀ s Y, Supported s L → validCount s L < k → ∃ t, f s Y = some t) :
    ∀ (l : List NodeConnection) (s : Editor), Supported s L → validCount s L < k →
      ∃ t, invLoop f l s = some t := by
  intro l
  induction l with
  | nil => intro s _ _; exact ⟨s, rfl⟩
  | cons c cs ih =>
    intro s hs hk
    obtain ⟨sa, hsa⟩ := hf s c.node hs hk
    have hi := (hspec s c.node sa hsa).1
    have := ih sa (supported_of_strip (eraseOrders_strip hi.1) hs)
      (lt_of_le_of_lt (validCount_mono hi L) hk)
    simp only [invLoop, hsa]
    exact this

/-- `InvalidateChildren` returns on every graph with finite support when the recursion
bound exceeds the number of nodes that are not yet invalid. -/
theorem InvalidateChildren_terminates {L : List NodeId} :
    ∀ (fuel : Nat) (s : Editor) (X : NodeId), Supported s L → validCount s L < fuel →
      ∃ t, InvalidateChildren fuel s X true true = some t := by
  intro fuel
  induction fuel with
  | zero => intro s X _ h; omega
  | succ k ih =>
    intro s X hs hk
    simp only [InvalidateChildren, Bool.true_and, ite_true]
    by_cases hX : FullInv s X
    · have hcond : (!decide ((s.node X).update_order ≠ -1) &&
          !decide ((s.node X).draw_order ≠ -1)) = true := by
        simp [hX.1, hX.2]
      rw [if_pos hcond]
      exact ⟨s, rfl⟩
    · have hcond : ¬ (!decide ((s.node X).update_order ≠ -1) &&
          !decide ((s.node X).draw_order ≠ -1)) = true := by
        intro hc
        simp only [Bool.and_eq_true, Bool.not_eq_true', decide_eq_false_iff_not,
          not_not] at hc
        exact hX hc
      rw [if_neg hcond]
      generalize hs2 : (s.setUpdateOrder X (-1)).setDrawOrder X (-1) = s2
      have hnode : ∀ n, s2.node n =
          if n = X then { s.node X with update_order := -1, draw_order := -1 }
          else s.node n := by
        intro n
        subst hs2
        by_cases hn : n = X
        · subst hn; simp [Editor.setDrawOrder, Editor.setUpdateOrder, setNode_node]
        · simp [Editor.setDrawOrder, Editor.setUpdateOrder, setNode_node, hn]
      have hstrip : ∀ n, (s2.node n).strip = (s.node n).strip := by
        intro n
        rw [hnode]
        split
        · rename_i e; subst e; simp [IEventNode.strip]
        · rfl
      have hsup2 := supported_of_strip hstrip hs
      by_cases hXL : X ∈ L
      · have hlt : validCount s2 L < validCount s L := by
          apply countP_lt_of_imp _ _ L X hXL
          · simpa using hX
          · simp [FullInv, hnode]
          · intro y _ hy
            simp only [decide_eq_true_eq] at hy ⊢
            intro hf
            apply hy
            unfold FullInv at hf ⊢
            rw [hnode]
            split
            · simp
            · exact hf
        exact invLoop_terminates (fun a b c habc => InvalidateChildren_spec k a b c habc)
          (fun a b ha hb => ih a b ha hb) _ s2 hsup2 (by omega)
      · have hch : (s2.node X).children = [] := by
          rw [strip_children (hstrip X)]
          by_contra hne
          exact hXL (hs.1 X (Or.inr hne))
        rw [hch]
        exact ⟨s2, rfl⟩


theorem invalidCount_mono {F : OrderField} {s t : Editor} (h : Mono F s t) (L : List NodeId) :
    invalidCount F t L ≤ invalidCount F s L := by
  apply List.countP_mono_left
  intro x _ hx
  simp only [decide_eq_true_eq] at hx ⊢
  by_contra hne
  exact mono_valid h hne hx

theorem maxLoop_terminates {F : OrderField} (hF : F.Lawful) {r : NodeId → Nat} {R k : Nat}
    {L : List NodeId} {f : Editor → NodeId → Option (Int × Editor)} (hspec : CallSpec F f)
    (hf : ∀ s Y, PInv F s → Ranked s r → Supported s L →
      invalidCount F s L * (R + 1) + r Y < k → ∃ v t, f s Y = some (v, t)) :
    ∀ (l : List NodeConnection) (acc : Int) (s : Editor), PInv F s → Ranked s r →
      Supported s L → (∀ c ∈ l, invalidCount F s L * (R + 1) + r c.node < k) →
      ∃ m t, maxLoop f l acc s = some (m, t) := by
  intro l
  induction l with
  | nil => intro acc s _ _ _ _; exact ⟨acc, s, rfl⟩
  | cons c cs ih =>
    intro acc s hp hr hs hl
    obtain ⟨v, sa, hsa⟩ := hf s c.node hp hr hs (hl c (List.mem_cons_self _ _))
    obtain ⟨st, _, _⟩ := hspec s c.node v sa hp hsa
    have hstrip := eraseF_strip hF st.1
    have hmono := invalidCount_mono st.2.2.1 L
    have := ih (max acc v) sa st.2.1 (ranked_of_strip hstrip hr) (supported_of_strip hstrip hs)
      (by
        intro d hd
        have h1 := hl d (List.mem_cons_of_mem _ hd)
        have h2 : invalidCount F sa L * (R + 1) ≤ invalidCount F s L * (R + 1) :=
          Nat.mul_le_mul_right _ hmono
        omega)
    simp only [maxLoop, hsa]
    exact this

theorem eachLoop_terminates {F : OrderField} (hF : F.Lawful) {r : NodeId → Nat} {R k : Nat}
    {L : List NodeId} {f : Editor → NodeId → Option (Int × Editor)} (hspec : CallSpec F f)
    (hf : ∀ s Y, PInv F s → Ranked s r → Supported s L →
      invalidCount F s L * (R + 1) + r Y < k → ∃ v t, f s Y = some (v, t)) :
    ∀ (l : List NodeConnection) (s : Editor), PInv F s → Ranked s r →
      Supported s L → (∀ c ∈ l, invalidCount F s L * (R + 1) + r c.node < k) →
      ∃ t, eachLoop f l s = some t := by
  intro l
  induction l with
  | nil => intro s _ _ _ _; exact ⟨s, rfl⟩
  | cons c cs ih =>
    intro s hp hr hs hl
    obtain ⟨v, sa, hsa⟩ := hf s c.node hp hr hs (hl c (List.mem_cons_self _ _))
    obtain ⟨st, _, _⟩ := hspec s c.node v sa hp hsa
    have hstrip := eraseF_strip hF st.1
    have hmono := invalidCount_mono st.2.2.1 L
    have := ih sa st.2.1 (ranked_of_strip hstrip hr) (supported_of_strip hstrip hs)
      (by
        intro d hd
        have h1 := hl d (List.mem_cons_of_mem _ hd)
        have h2 : invalidCount F sa L * (R + 1) ≤ invalidCount F s L * (R + 1) :=
          Nat.mul_le_mul_right _ hmono
        omega)
    simp only [eachLoop, hsa]
    exact this

/-- On a ranked (acyclic) graph with finite support `L` and ranks at most `R` on `L`,
the recalculation of node `X` returns when the recursion bound exceeds
(number of nodes of `L` still to compute) * (R + 1) + rank of `X`. -/
theorem recalcOrder_terminates {F : OrderField} (hF : F.Lawful) {r : NodeId → Nat} {R : Nat}
    {L : List NodeId} (hR : ∀ n ∈ L, r n ≤ R) :
    ∀ (fuel : Nat) (s : Editor) (X : NodeId), PInv F s → Ranked s r → Supported s L →
      invalidCount F s L * (R + 1) + r X < fuel →
      ∃ v t, recalcOrder F fuel s X = some (v, t) := by
  intro fuel
  induction fuel with
  | zero => intro s X _ _ _ h; omega
  | succ k ih =>
    intro s X hp hr hs hk
    simp only [recalcOrder]
    by_cases hX : F.get (s.node X) ≠ -1
    · rw [if_pos hX]; exact ⟨_, _, rfl⟩
    · rw [if_neg hX]
      have hXinv : s.ord F X = -1 := not_not.1 hX
      have hspec := recalcOrder_spec hF k
      obtain ⟨m, s1, h1⟩ := maxLoop_terminates hF hspec ih (s.node X).parents F.init s hp hr hs
        (by
          intro p hpm
          have := hr X p hpm
          omega)
      obtain ⟨st1, hpv, hm⟩ := maxLoop_spec hF hspec _ _ _ _ _ hp h1
      have hstrip1 := eraseF_strip hF st1.1
      have hpar1 : (s1.node X).parents = (s.node X).parents := strip_parents (hstrip1 X)
      have hm2 : m = (parentOrds F s1 X).foldl max F.init := by
        rw [hm, parentOrds, hpar1]
      have hpv1 : ∀ p ∈ (s1.node X).parents, s1.ord F p.node ≠ -1 := by
        rw [hpar1]; exact hpv
      obtain ⟨e2, p2, m2, v2, _⟩ := set_step hF X st1.2.1 hpv1
      rw [← hm2] at e2 p2 m2 v2
      simp only [h1]
      generalize s1.setNode X (F.set (s1.node X) (m + F.inc (s1.node X))) = s2
        at e2 p2 m2 v2
      have hstrip2 : ∀ n, (s2.node n).strip = (s.node n).strip :=
        fun n => (eraseF_strip hF e2 n).trans (hstrip1 n)
      have hmono02 : Mono F s s2 := mono_trans st1.2.2.1 m2
      have hch : ∀ c ∈ (s2.node X).children,
          invalidCount F s2 L * (R + 1) + r c.node < k := by
        intro c hc
        rw [strip_children (hstrip2 X)] at hc
        have hXL : X ∈ L := hs.1 X (Or.inr (List.ne_nil_of_mem hc))
        have hcL : r c.node ≤ R := hR _ (hs.2 X c (Or.inr hc))
        have hlt : invalidCount F s2 L < invalidCount F s L := by
          apply countP_lt_of_imp _ _ L X hXL
          · simpa using hXinv
          · simpa using v2
          · intro y _ hy
            simp only [decide_eq_true_eq] at hy ⊢
            by_contra hne
            exact mono_valid hmono02 hne hy
        have h3 : (invalidCount F s2 L + 1) * (R + 1) ≤ invalidCount F s L * (R + 1) :=
          Nat.mul_le_mul_right _ hlt
        rw [Nat.succ_mul] at h3
        omega
      obtain ⟨s3, h3⟩ := eachLoop_terminates hF hspec ih (s2.node X).children s2 p2
        (ranked_of_strip hstrip2 hr) (supported_of_strip hstrip2 hs) hch
      simp only [h3]
      exact ⟨_, _, rfl⟩


/-- On a ranked graph with finite support `RecalculateTraversalOrder` returns when the
recursion bound exceeds (size of the support) * (R + 1) + rank of the start node. -/
theorem RecalculateTraversalOrder_terminates (fuel : Nat) (g : Editor) (X : NodeId)
    (r : NodeId → Nat) (R : Nat) (L : List NodeId)
    (H1u : ∀ n, n ≠ X → g.ord updateField n ≠ -1 →
      (∀ p ∈ (g.node n).parents, g.ord updateField p.node ≠ -1) ∧ OrdEq updateField g n)
    (H1d : ∀ n, n ≠ X → g.ord drawField n ≠ -1 →
      (∀ p ∈ (g.node n).parents, g.ord drawField p.node ≠ -1) ∧ OrdEq drawField g n)
    (H3 : ∀ n, ∀ p ∈ (g.node n).parents, ∃ c ∈ (g.node p.node).children, c.node = n)
    (hr : Ranked g r) (hs : Supported g L) (hR : ∀ n ∈ L, r n ≤ R)
    (hfuel : L.length * (R + 1) + r X < fuel) :
    ∃ t, RecalculateTraversalOrder fuel g X true true = some t := by
  have hlen : L.length ≤ L.length * (R + 1) := Nat.le_mul_of_pos_right _ (by omega)
  have hv : validCount g L < fuel := by
    have := List.countP_le_length (fun n => decide (¬ FullInv g n)) (l := L)
    unfold validCount
    omega
  obtain ⟨gi, hinv⟩ := InvalidateChildren_terminates fuel g X hs hv
  obtain ⟨hi, hXi⟩ := InvalidateChildren_spec fuel g X gi hinv
  have hPu := PInv_after_invalidate updateField_lawful hi hXi H1u H3
  have hPd := PInv_after_invalidate drawField_lawful hi hXi H1d H3
  have hstripi := eraseOrders_strip hi.1
  have hcount : ∀ (F : OrderField) (e : Editor),
      invalidCount F e L * (R + 1) + r X < fuel := by
    intro F e
    have h1 := List.countP_le_length (fun n => decide (e.ord F n = -1)) (l := L)
    have h2 : invalidCount F e L * (R + 1) ≤ L.length * (R + 1) :=
      Nat.mul_le_mul_right _ h1
    omega
  obtain ⟨vu, gu, hu⟩ := recalcOrder_terminates updateField_lawful hR fuel gi X hPu
    (ranked_of_strip hstripi hr) (supported_of_strip hstripi hs) (hcount _ _)
  obtain ⟨stu, _, _⟩ := recalcOrder_spec updateField_lawful fuel gi X vu gu hPu hu
  have hsu := eraseF_strip updateField_lawful stu.1
  have hPd2 : PInv drawField gu :=
    pinv_transfer drawField_lawful (eraseF_update_draw stu.1) hsu hPd
  obtain ⟨vd, t, hd⟩ := recalcOrder_terminates drawField_lawful hR fuel gu X hPd2
    (ranked_of_strip (fun n => (hsu n).trans (hstripi n)) hr)
    (supported_of_strip (fun n => (hsu n).trans (hstripi n)) hs) (hcount _ _)
  refine ⟨t, ?_⟩
  rw [← RecalculateUpdateOrder_eq] at hu
  rw [← RecalculateDrawOrder_eq] at hd
  simp [RecalculateTraversalOrder, hinv, hu, hd]

/-- The facts the recalculation needs of a state `g` whose adjacency differs from that
of the consistent state `s` only in the parents of `B`. -/
theorem hyps_after_edge {s g : Editor} {B : NodeId} (hs : WF s)
    (hord : ∀ n, (g.node n).update_order = (s.node n).update_order ∧
      (g.node n).draw_order = (s.node n).draw_order ∧
      (g.node n).is_visual = (s.node n).is_visual)
    (hpar : ∀ n, n ≠ B → (g.node n).parents = (s.node n).parents)
    (hsym : AdjSym g) :
    (∀ n, n ≠ B → g.ord updateField n ≠ -1 →
      (∀ p ∈ (g.node n).parents, g.ord updateField p.node ≠ -1) ∧ OrdEq updateField g n) ∧
    (∀ n, n ≠ B → g.ord drawField n ≠ -1 →
      (∀ p ∈ (g.node n).parents, g.ord drawField p.node ≠ -1) ∧ OrdEq drawField g n) ∧
    (∀ n, ∀ p ∈ (g.node n).parents, ∃ c ∈ (g.node p.node).children, c.node = n) := by
  have hou : ∀ n, g.ord updateField n = s.ord updateField n := fun n => (hord n).1
  have hod : ∀ n, g.ord drawField n = s.ord drawField n := fun n => (hord n).2.1
  have H1 : ∀ F : OrderField, PInv F s → (∀ n, g.ord F n = s.ord F n) →
      (∀ n, F.inc (g.node n) = F.inc (s.node n)) →
      ∀ n, n ≠ B → g.ord F n ≠ -1 →
      (∀ p ∈ (g.node n).parents, g.ord F p.node ≠ -1) ∧ OrdEq F g n := by
    intro F hP ho hinc n hn hv
    rw [ho] at hv
    obtain ⟨ha, hb⟩ := hP n hv
    refine ⟨?_, ?_⟩
    · intro p hp
      rw [hpar n hn] at hp
      rw [ho]; exact ha p hp
    · simp only [OrdEq, parentOrds] at hb ⊢
      rw [hpar n hn, ho, hinc]
      simp only [ho]
      exact hb
  exact ⟨H1 updateField (wf_pinv_update hs) hou (fun _ => rfl),
    H1 drawField (wf_pinv_draw hs) hod (fun n => by simp [drawField, (hord n).2.2]),
    fun n p hp => adjSym_child_of_parent hsym hp⟩

theorem removeConn_isSome (n : NodeId) :
    ∀ l : List NodeConnection, findConn l n ≠ none → ∃ q, removeConn n l = some q := by
  intro l
  induction l with
  | nil => intro h; simp [findConn] at h
  | cons d ds ih =>
    intro h
    simp only [removeConn]
    by_cases hd : d.node = n
    · simp only [hd, ite_true]
      split <;> exact ⟨_, rfl⟩
    · simp only [hd, ite_false]
      obtain ⟨q, hq⟩ := ih (by simpa [findConn, hd] using h)
      rw [hq]
      exact ⟨_, rfl⟩

/-- `Disconnect` returns `true` from a consistent state with finite support whenever its
assertions hold and the recursion bound is large enough. -/
theorem Disconnect_returns {s : Editor} (hs : WF s) {L : List NodeId} (hsup : Supported s L)
    {R : Nat} (hR : ∀ n ∈ L, ((s.node n).update_order).toNat ≤ R)
    {A B : NodeId} {pco pci : PinId} {i j : Nat}
    (hd1 : (s.pin pci).dir = PinDir.input) (hd2 : (s.pin pco).dir = PinDir.output)
    (hd3 : (s.pin pco).type = (s.pin pci).type)
    (hfi : FindPinInput s B pci = some i) (hfj : FindPinOutput s A pco = some j)
    (hx : (s.node B).pin_inputs.getD i default ∈
      ((s.node A).pin_outputs.getD j default).connections)
    (hl : (⟨(B, i), (A, j)⟩ : Link) ∈ s.links)
    (hc : findConn (s.node A).children B ≠ none)
    {fuel : Nat} (hfuel : (L.length + 1) * (R + 1) < fuel) :
    ∃ t, Disconnect fuel s A pco B pci = Res.ok true t := by
  obtain ⟨⟨r1, cs⟩, hr1⟩ := removeConn_isSome B _ hc
  obtain ⟨⟨r2, ps⟩, hr2⟩ := removeConn_isSome A (s.node B).parents
    (by rw [← hs.sym A B]; exact hc)
  rw [Disconnect_eq, if_neg (not_not.2 hd1), if_neg (not_not.2 hd2), if_neg (not_not.2 hd3)]
  have hl2 : ¬ (⟨(B, i), (A, j)⟩ : Link) ∉
      (s.eraseConnection A j ((s.node B).pin_inputs.getD i default)).links := by
    simpa [Editor.eraseConnection, Editor.setNode] using hl
  simp only [hfi, hfj, hr1, hr2, if_neg (not_not.2 hx), if_neg hl2]
  by_cases hrr : (r1 || r2) = true
  · rw [if_pos hrr]
    have hord : ∀ n,
        ((disconnectEdge s A j B i cs ps).node n).update_order = (s.node n).update_order ∧
        ((disconnectEdge s A j B i cs ps).node n).draw_order = (s.node n).draw_order ∧
        ((disconnectEdge s A j B i cs ps).node n).is_visual = (s.node n).is_visual := by
      intro n; simp [disconnectEdge_node]
    have hsym := disconnectEdge_sym hs.sym hs.nodup A j B i hr1 hr2
    have hpar : ∀ n, n ≠ B →
        ((disconnectEdge s A j B i cs ps).node n).parents = (s.node n).parents := by
      intro n hn; simp [disconnectEdge_node, hn]
    obtain ⟨H1u, H1d, H3⟩ := hyps_after_edge hs hord hpar hsym
    have hparsub : ∀ n, ∀ p ∈ ((disconnectEdge s A j B i cs ps).node n).parents,
        ∃ d ∈ (s.node n).parents, d.node = p.node := by
      intro n p hp
      simp only [disconnectEdge_node] at hp
      split at hp
      · rename_i e; subst e
        exact removeConn_mem_node _ _ _ _ (hs.nodup n).2 hr2 p hp
      · exact ⟨p, hp, rfl⟩
    have hchsub : ∀ n, ∀ c ∈ ((disconnectEdge s A j B i cs ps).node n).children,
        ∃ d ∈ (s.node n).children, d.node = c.node := by
      intro n c hcm
      simp only [disconnectEdge_node] at hcm
      split at hcm
      · rename_i e; subst e
        exact removeConn_mem_node _ _ _ _ (hs.nodup n).1 hr1 c hcm
      · exact ⟨c, hcm, rfl⟩
    have hrank : Ranked (disconnectEdge s A j B i cs ps)
        (fun n => ((s.node n).update_order).toNat) := by
      intro n p hp
      obtain ⟨d, hd, hdp⟩ := hparsub n p hp
      have := wf_ranked hs n d hd
      rw [hdp] at this
      exact this
    have hsup2 : Supported (disconnectEdge s A j B i cs ps) L := by
      refine ⟨?_, ?_⟩
      · intro n hn
        apply hsup.1 n
        rcases hn with hn | hn
        · obtain ⟨p, hp⟩ := List.exists_mem_of_ne_nil _ hn
          obtain ⟨d, hd, _⟩ := hparsub n p hp
          exact Or.inl (List.ne_nil_of_mem hd)
        · obtain ⟨c, hcm⟩ := List.exists_mem_of_ne_nil _ hn
          obtain ⟨d, hd, _⟩ := hchsub n c hcm
          exact Or.inr (List.ne_nil_of_mem hd)
      · intro m c hcm
        rcases hcm with hcm | hcm
        · obtain ⟨d, hd, hdc⟩ := hparsub m c hcm
          rw [← hdc]; exact hsup.2 m d (Or.inl hd)
        · obtain ⟨d, hd, hdc⟩ := hchsub m c hcm
          rw [← hdc]; exact hsup.2 m d (Or.inr hd)
    have hBL : B ∈ L := hsup.1 B (Or.inl (removeConn_ne_nil hr2))
    have hfuel2 : L.length * (R + 1) + ((s.node B).update_order).toNat < fuel := by
      have := hR B hBL
      rw [Nat.succ_mul] at hfuel
      omega
    obtain ⟨t, ht⟩ := RecalculateTraversalOrder_terminates fuel _ B _ R L H1u H1d H3 hrank
      hsup2 hR hfuel2
    simp only [ht]
    exact ⟨t, rfl⟩
  · rw [if_neg hrr]
    exact ⟨_, rfl⟩


/-- The adjacency of the state after a successful call, in terms of the state
before. -/
theorem applyOp_adj {s t : Editor} {fuel : Nat} {op : Op} (hs : WF s)
    (h : applyOp s fuel op = some t) :
    (∀ n, ∀ p ∈ (t.node n).parents,
      (∃ d ∈ (s.node n).parents, d.node = p.node) ∨ (n ∈ op.endpoints ∧ p.node ∈ op.endpoints)) ∧
    (∀ n, ∀ c ∈ (t.node n).children,
      (∃ d ∈ (s.node n).children, d.node = c.node) ∨
        (n ∈ op.endpoints ∧ c.node ∈ op.endpoints)) := by
  cases op with
  | connect a pco b pci =>
    obtain ⟨_, _, _, _, _, i, j, _, _, hfr, _⟩ := Connect_WF hs h
    have hstrip := eraseOrders_strip hfr
    refine ⟨?_, ?_⟩
    · intro n p hp
      rw [strip_parents (hstrip n)] at hp
      simp only [connectEdge_node] at hp
      split at hp
      · rename_i e
        subst e
        rcases addConn_mem_node _ _ _ hp with e | e
        · right; simp [Op.endpoints, e]
        · left; exact e
      · left; exact ⟨p, hp, rfl⟩
    · intro n c hc
      rw [strip_children (hstrip n)] at hc
      simp only [connectEdge_node] at hc
      split at hc
      · rename_i e
        subst e
        rcases addConn_mem_node _ _ _ hc with e | e
        · right; simp [Op.endpoints, e]
        · left; exact e
      · left; exact ⟨c, hc, rfl⟩
  | disconnect a pco b pci =>
    obtain ⟨_, _, _, i, j, r1, cs, r2, ps, _, _, _, _, hr1, hr2, hfr, _⟩ := Disconnect_WF hs h
    have hstrip := eraseOrders_strip hfr
    refine ⟨?_, ?_⟩
    · intro n p hp
      rw [strip_parents (hstrip n)] at hp
      simp only [disconnectEdge_node] at hp
      left
      split at hp
      · rename_i e; subst e
        exact removeConn_mem_node _ _ _ _ (hs.nodup n).2 hr2 p hp
      · exact ⟨p, hp, rfl⟩
    · intro n c hc
      rw [strip_children (hstrip n)] at hc
      simp only [disconnectEdge_node] at hc
      left
      split at hc
      · rename_i e; subst e
        exact removeConn_mem_node _ _ _ _ (hs.nodup n).1 hr1 c hc
      · exact ⟨c, hc, rfl⟩

theorem applyOp_supported {s t : Editor} {fuel : Nat} {op : Op} {L : List NodeId}
    (hs : WF s) (hsup : Supported s L) (h : applyOp s fuel op = some t) :
    Supported t (op.endpoints ++ L) := by
  obtain ⟨hp, hc⟩ := applyOp_adj hs h
  refine ⟨?_, ?_⟩
  · intro n hn
    rcases hn with hn | hn
    · obtain ⟨p, hpm⟩ := List.exists_mem_of_ne_nil _ hn
      rcases hp n p hpm with ⟨d, hd, _⟩ | ⟨e, _⟩
      · exact List.mem_append_right _ (hsup.1 n (Or.inl (List.ne_nil_of_mem hd)))
      · exact List.mem_append_left _ e
    · obtain ⟨c, hcm⟩ := List.exists_mem_of_ne_nil _ hn
      rcases hc n c hcm with ⟨d, hd, _⟩ | ⟨e, _⟩
      · exact List.mem_append_right _ (hsup.1 n (Or.inr (List.ne_nil_of_mem hd)))
      · exact List.mem_append_left _ e
  · intro m c hcm
    rcases hcm with hcm | hcm
    · rcases hp m c hcm with ⟨d, hd, hdc⟩ | ⟨_, e⟩
      · rw [← hdc]; exact List.mem_append_right _ (hsup.2 m d (Or.inl hd))
      · exact List.mem_append_left _ e
    · rcases hc m c hcm with ⟨d, hd, hdc⟩ | ⟨_, e⟩
      · rw [← hdc]; exact List.mem_append_right _ (hsup.2 m d (Or.inr hd))
      · exact List.mem_append_left _ e

theorem run_supported : ∀ (ops : List (Nat × Op)) (s t : Editor) (L : List NodeId),
    WF s → Supported s L → run s ops = some t → ∃ L2, Supported t L2 := by
  intro ops
  induction ops with
  | nil =>
    intro s t L _ hsup h
    simp only [run, Option.some.injEq] at h
    subst h; exact ⟨L, hsup⟩
  | cons q qs ih =>
    intro s t L hs hsup h
    obtain ⟨fuel, op⟩ := q
    simp only [run] at h
    cases h1 : applyOp s fuel op with
    | none => simp [h1] at h
    | some s1 =>
      simp only [h1] at h
      exact ih s1 t _ (applyOp_WF hs h1).1 (applyOp_supported hs hsup h1) h

theorem fresh_supported {s : Editor} (h : Fresh s) : Supported s [] := by
  refine ⟨?_, ?_⟩
  · intro n hn
    rcases hn with hn | hn
    · exact absurd (h.2 n).1 hn
    · exact absurd (h.2 n).2.1 hn
  · intro m c hc
    rw [(h.2 m).1, (h.2 m).2.1] at hc
    simp at hc

/-- A successful call leaves alone every node that is not one of its endpoints and has
no adjacency. -/
theorem applyOp_untouched {s t : Editor} {fuel : Nat} {op : Op} (hs : WF s)
    (h : applyOp s fuel op = some t) (n : NodeId) (hn : n ∉ op.endpoints)
    (hc : ¬ Connected s n) : t.node n = s.node n := by
  have hunlisted : ∀ m c, (c ∈ (s.node m).parents ∨ c ∈ (s.node m).children) → c.node ≠ n := by
    intro m c hcm e
    apply hc
    rcases hcm with hcm | hcm
    · obtain ⟨d, hd, _⟩ := adjSym_child_of_parent hs.sym hcm
      rw [e] at hd
      exact Or.inr (List.ne_nil_of_mem hd)
    · obtain ⟨d, hd, _⟩ := adjSym_parent_of_child hs.sym hcm
      rw [e] at hd
      exact Or.inl (List.ne_nil_of_mem hd)
  cases op with
  | connect a pco b pci =>
    simp only [Op.endpoints, List.mem_cons, List.mem_singleton, List.not_mem_nil, or_false,
      not_or] at hn
    obtain ⟨_, _, _, i, j, _, _, hres⟩ := Connect_ok h
    have hg : (connectEdge s a j b i).node n = s.node n := by
      simp [connectEdge_node, hn.1, hn.2]
    split at hres
    · have hsh : Shielded (connectEdge s a j b i) (fun m => m = n) := by
        intro m c hcm
        simp only [connectEdge_node] at hcm
        rcases hcm with hcm | hcm
        · split at hcm
          · rcases addConn_mem_node _ _ _ hcm with e | ⟨d, hd, hdc⟩
            · rw [e]; exact fun e2 => hn.1 e2.symm
            · rw [← hdc]; exact hunlisted _ d (Or.inl hd)
          · exact hunlisted m c (Or.inl hcm)
        · split at hcm
          · rcases addConn_mem_node _ _ _ hcm with e | ⟨d, hd, hdc⟩
            · rw [e]; exact fun e2 => hn.2 e2.symm
            · rw [← hdc]; exact hunlisted _ d (Or.inr hd)
          · exact hunlisted m c (Or.inr hcm)
      rw [RecalculateTraversalOrder_untouched hsh (fun e => hn.2 e.symm) hres n rfl, hg]
    · rw [hres, hg]
  | disconnect a pco b pci =>
    simp only [Op.endpoints, List.mem_cons, List.mem_singleton, List.not_mem_nil, or_false,
      not_or] at hn
    obtain ⟨_, _, _, i, j, r1, cs, r2, ps, _, _, _, _, hr1, hr2, hres⟩ := Disconnect_ok h
    have hg : (disconnectEdge s a j b i cs ps).node n = s.node n := by
      simp [disconnectEdge_node, hn.1, hn.2]
    split at hres
    · have hsh : Shielded (disconnectEdge s a j b i cs ps) (fun m => m = n) := by
        intro m c hcm
        simp only [disconnectEdge_node] at hcm
        rcases hcm with hcm | hcm
        · split at hcm
          · obtain ⟨d, hd, hdc⟩ := removeConn_mem_node _ _ _ _ (hs.nodup _).2 hr2 c hcm
            rw [← hdc]; exact hunlisted _ d (Or.inl hd)
          · exact hunlisted m c (Or.inl hcm)
        · split at hcm
          · obtain ⟨d, hd, hdc⟩ := removeConn_mem_node _ _ _ _ (hs.nodup _).1 hr1 c hcm
            rw [← hdc]; exact hunlisted _ d (Or.inr hd)
          · exact hunlisted m c (Or.inr hcm)
      rw [RecalculateTraversalOrder_untouched hsh (fun e => hn.2 e.symm) hres n rfl, hg]
    · rw [hres, hg]


theorem okState_some {res : Res Editor Bool} {t : Editor} (h : okState res = some t) :
    res = Res.ok true t := by
  cases res with
  | ok b u =>
    cases b
    · simp [okState] at h
    · simp only [okState, Option.some.injEq] at h
      rw [h]
  | assertFail u => simp [okState] at h
  | outOfFuel => simp [okState] at h

/-- C3 (as amended). Connect/disconnect round trip: in a state reached from fresh nodes,
after a successful `Connect` of a pin pair that was not linked yet, `Disconnect` of the
same pin pair returns `true` for every large enough recursion bound, and the state it
yields has the adjacency lists (entries, counts, order), the fan-out lists, the link
list and every other field except the orders identical to the state before the
`Connect`; every order that was computed before is identical; every node other than
the two endpoints is identical; an endpoint whose order was -1 before now holds the
value of a node without parents (update order 0, draw order 1 if visual, else 0). -/
theorem roundtrip_restores (s0 : Editor) (pre : List (Nat × Op)) (s : Editor)
    (parent : NodeId) (pin_co : PinId) (child : NodeId) (pin_ci : PinId) (fuel1 : Nat)
    (s1 : Editor) (h0 : Fresh s0) (hpre : run s0 pre = some s)
    (hc : Connect fuel1 s parent pin_co child pin_ci = Res.ok true s1)
    (hnew : linked s parent pin_co child pin_ci = false) :
    ∃ N, ∀ fuel2, N ≤ fuel2 →
      ∃ s2, Disconnect fuel2 s1 parent pin_co child pin_ci = Res.ok true s2 ∧
        s2.eraseOrders = s.eraseOrders ∧
        (∀ n, (s2.node n).parents = (s.node n).parents ∧
          (s2.node n).children = (s.node n).children ∧
          (s2.node n).pin_outputs = (s.node n).pin_outputs) ∧
        s2.links = s.links ∧
        (∀ n, (s.node n).update_order ≠ -1 →
          (s2.node n).update_order = (s.node n).update_order) ∧
        (∀ n, (s.node n).draw_order ≠ -1 →
          (s2.node n).draw_order = (s.node n).draw_order) ∧
        (∀ n, n ≠ parent → n ≠ child → s2.node n = s.node n) ∧
        (∀ n, n = parent ∨ n = child →
          ((s.node n).update_order = -1 → (s2.node n).update_order = 0) ∧
          ((s.node n).draw_order = -1 →
            (s2.node n).draw_order = if (s.node n).is_visual then 1 else 0)) := by
  have hs : WF s := (run_WF pre s0 s (fresh_wf h0) hpre).1
  have hl : LinkInv s := run_linkInv pre s0 s (fresh_wf h0) (fresh_linkInv h0) hpre
  obtain ⟨L, hsup⟩ := run_supported pre s0 s [] (fresh_wf h0) (fresh_supported h0) hpre
  have hap : applyOp s fuel1 (Op.connect parent pin_co child pin_ci) = some s1 := by
    simp [applyOp, hc, okState]
  obtain ⟨hd1, hd2, hd3, _⟩ := Connect_ok hap
  obtain ⟨hs1, hvu1, hvd1, _, _, i, j, hfi, hfj, hfr1, _⟩ := Connect_WF hs hap
  have hsup1 := applyOp_supported hs hsup hap
  obtain ⟨e1n, e1p, _, e1l, _, _, _, _⟩ := (eraseOrders_eq_iff _ _).1 hfr1
  -- the pin pair was not linked
  simp only [linked, hfi, hfj, Bool.or_eq_false_iff, decide_eq_false_iff_not] at hnew
  obtain ⟨hx, hlk⟩ := hnew
  -- the assertions of `Disconnect` hold in `s1`
  have hn1 : ∀ n, (s1.node n).pin_inputs = (s.node n).pin_inputs ∧
      (s1.node n).pin_outputs =
        (if n = parent then (s.node parent).pin_outputs.modify
            (fun o => ⟨o.pin, o.connections ++ [(s.node child).pin_inputs.getD i default]⟩) j
          else (s.node n).pin_outputs) := by
    intro n
    have := (strip_eq_iff _ _).1 (e1n n)
    simp only [connectEdge_node] at this
    exact ⟨this.2.2.2.2.2.2.1, this.2.2.2.2.2.2.2⟩
  have hfi1 : FindPinInput s1 child pin_ci = some i := by
    simp only [FindPinInput, (hn1 child).1]
    exact hfi
  have hfj1 : FindPinOutput s1 parent pin_co = some j := by
    simp only [FindPinOutput, (hn1 parent).2, ite_true]
    rw [findSlot_modify
      (fun o => ⟨o.pin, o.connections ++ [(s.node child).pin_inputs.getD i default]⟩)
      (fun _ => rfl)]
    exact hfj
  have hx1 : (s1.node child).pin_inputs.getD i default ∈
      ((s1.node parent).pin_outputs.getD j default).connections := by
    rw [(hn1 child).1, (hn1 parent).2, if_pos rfl]
    exact getD_modify_push _ _ _ (findSlot_lt _ _ _ hfj)
  have hl1 : (⟨(child, i), (parent, j)⟩ : Link) ∈ s1.links := by
    rw [e1l, connectEdge_links]; simp
  have hc1 : findConn (s1.node parent).children child ≠ none := by
    rw [connect_findConn hs hap]; simp
  have hpin1 : s1.pin = s.pin := by
    rw [e1p]
    simp [connectEdge, AddParent, AddChild, Editor.pushConnection, Editor.setLinks,
      Editor.setChildren, Editor.setParents, Editor.setNode]
  refine ⟨(((Op.connect parent pin_co child pin_ci).endpoints ++ L).length + 1) *
    ((((Op.connect parent pin_co child pin_ci).endpoints ++ L).map
      (fun n => ((s1.node n).update_order).toNat)).sum + 1) + 1, ?_⟩
  intro fuel2 hfuel2
  have hret : ∃ s2, Disconnect fuel2 s1 parent pin_co child pin_ci = Res.ok true s2 :=
    Disconnect_returns hs1 hsup1
      (R := (((Op.connect parent pin_co child pin_ci).endpoints ++ L).map
        (fun n => ((s1.node n).update_order).toNat)).sum)
      (fun n hn => List.le_sum_of_mem (List.mem_map_of_mem _ hn))
      (by rw [hpin1]; exact hd1) (by rw [hpin1]; exact hd2) (by rw [hpin1]; exact hd3)
      hfi1 hfj1 hx1 hl1 hc1 (by omega)
  obtain ⟨s2, hdis⟩ := hret
  have hap2 : applyOp s1 fuel2 (Op.disconnect parent pin_co child pin_ci) = some s2 := by
    simp [applyOp, hdis, okState]
  obtain ⟨hs2, hvu2, hvd2, i2, j2, r1, cs, r2, ps, hfi2, hfj2, _, _, hr1, hr2, hfr2, _⟩ :=
    Disconnect_WF hs1 hap2
  have herase : s2.eraseOrders = s.eraseOrders :=
    roundtrip_erased hs hl hfi hfj hfr1 hx hlk hfi2 hfj2 hr1 hr2 hfr2
  obtain ⟨e2n, _, _, e2l, _, _, _, _⟩ := (eraseOrders_eq_iff _ _).1 herase
  have hfields := fun n => (strip_eq_iff _ _).1 (e2n n)
  have huniq := orders_unique hs hs2
    (fun n => ⟨(hfields n).2.2.2.2.1, (hfields n).2.1⟩)
    (fun n hn => hvu2 n (hvu1 n hn)) (fun n hn => hvd2 n (hvd1 n hn))
  have hvalid2 : ∀ n, n = parent ∨ n = child →
      (s2.node n).update_order ≠ -1 ∧ (s2.node n).draw_order ≠ -1 := by
    intro n hn
    have := (applyOp_WF hs hap).2.2.2 n (by
      simp only [Op.endpoints, List.mem_cons, List.mem_singleton, List.not_mem_nil, or_false]
      exact hn)
    exact ⟨hvu2 n this.1, hvd2 n this.2⟩
  refine ⟨s2, hdis, herase, ?_, e2l, fun n => (huniq n).1, fun n => (huniq n).2, ?_, ?_⟩
  · intro n
    exact ⟨(hfields n).2.2.2.2.1, (hfields n).2.2.2.2.2.1, (hfields n).2.2.2.2.2.2.2⟩
  · intro n hnp hnc
    by_cases hcn : Connected s n
    · have hv := hs.valid n hcn
      exact node_eq_of_strip (e2n n) ((huniq n).1 hv.1) ((huniq n).2 hv.2)
    · have hne : n ∉ (Op.connect parent pin_co child pin_ci).endpoints := by
        simp [Op.endpoints, hnp, hnc]
      have hne2 : n ∉ (Op.disconnect parent pin_co child pin_ci).endpoints := by
        simp [Op.endpoints, hnp, hnc]
      have h1 := applyOp_untouched hs hap n hne hcn
      have hcn1 : ¬ Connected s1 n := by
        intro hcon
        have hadj := applyOp_adj hs hap
        rcases hcon with hcon | hcon
        · obtain ⟨p, hp⟩ := List.exists_mem_of_ne_nil _ hcon
          rcases hadj.1 n p hp with ⟨d, hd, _⟩ | ⟨e, _⟩
          · exact hcn (Or.inl (List.ne_nil_of_mem hd))
          · exact hne e
        · obtain ⟨c, hcm⟩ := List.exists_mem_of_ne_nil _ hcon
          rcases hadj.2 n c hcm with ⟨d, hd, _⟩ | ⟨e, _⟩
          · exact hcn (Or.inr (List.ne_nil_of_mem hd))
          · exact hne e
      rw [applyOp_untouched hs1 hap2 n hne2 hcn1, h1]
  · intro n hn
    obtain ⟨hv2u, hv2d⟩ := hvalid2 n hn
    refine ⟨?_, ?_⟩
    · intro hinv
      have hnc : (s.node n).parents = [] := by
        by_contra hne
        exact (hs.valid n (Or.inl hne)).1 hinv
      have := wf_update_rule hs2 n hv2u
      rw [this]
      unfold updateOrderRule
      rw [(hfields n).2.2.2.2.1, hnc]
      rfl
    · intro hinv
      have hnc : (s.node n).parents = [] := by
        by_contra hne
        exact (hs.valid n (Or.inl hne)).2 hinv
      have := wf_draw_rule hs2 n hv2d
      rw [this]
      unfold drawOrderRule
      rw [(hfields n).2.2.2.2.1, hnc, (hfields n).2.1]
      rfl


/-- C3 (as stated) fails: connecting the fresh nodes 0 and 1 and disconnecting them
again succeeds, but the update order of node 0, -1 before, is 0 afterwards (and so for
node 1 and the draw orders). -/
theorem roundtrip_counterexample :
    ∃ s1 s2, Connect 5 demo 0 2 1 4 = Res.ok true s1 ∧
      Disconnect 5 s1 0 2 1 4 = Res.ok true s2 ∧
      ordersOf demo 2 = [(-1, -1), (-1, -1)] ∧ ordersOf s2 2 = [(0, 0), (0, 1)] ∧
      (s2.node 0).update_order ≠ (demo.node 0).update_order := by
  have h : ((okState (Connect 5 demo 0 2 1 4)).bind
      (fun s1 => okState (Disconnect 5 s1 0 2 1 4))).map
      (fun s2 => (ordersOf s2 2, (s2.node 0).update_order)) =
      some ([(0, 0), (0, 1)], 0) := by decide
  obtain ⟨s2, hs2, ho⟩ := Option.map_eq_some'.1 h
  obtain ⟨s1, hs1, hs12⟩ := Option.bind_eq_some.1 hs2
  simp only [Prod.mk.injEq] at ho
  refine ⟨s1, s2, okState_some hs1, okState_some hs12, by decide, ho.1, ?_⟩
  rw [ho.2]
  decide

theorem roundtrip_restores_witness :
    ∃ s s1 s2, run demo [(5, Op.connect 0 2 1 4)] = some s ∧
      Connect 5 s 1 6 2 8 = Res.ok true s1 ∧ linked s 1 6 2 8 = false ∧
      Disconnect 5 s1 1 6 2 8 = Res.ok true s2 ∧
      ordersOf s 3 = [(0, 0), (1, 1), (-1, -1)] ∧
      ordersOf s1 3 = [(0, 0), (1, 1), (2, 1)] ∧
      ordersOf s2 3 = [(0, 0), (1, 1), (0, 0)] ∧
      graphOf s2 3 = graphOf s 3 ∧
      ∃ N, ∀ fuel2, N ≤ fuel2 →
        ∃ t, Disconnect fuel2 s1 1 6 2 8 = Res.ok true t ∧
          t.eraseOrders = s.eraseOrders ∧
          (∀ n, (t.node n).parents = (s.node n).parents ∧
            (t.node n).children = (s.node n).children ∧
            (t.node n).pin_outputs = (s.node n).pin_outputs) ∧
          t.links = s.links ∧
          (∀ n, (s.node n).update_order ≠ -1 →
            (t.node n).update_order = (s.node n).update_order) ∧
          (∀ n, (s.node n).draw_order ≠ -1 →
            (t.node n).draw_order = (s.node n).draw_order) ∧
          (∀ n, n ≠ 1 → n ≠ 2 → t.node n = s.node n) ∧
          (∀ n, n = 1 ∨ n = 2 →
            ((s.node n).update_order = -1 → (t.node n).update_order = 0) ∧
            ((s.node n).draw_order = -1 →
              (t.node n).draw_order = if (s.node n).is_visual then 1 else 0)) := by
  have h : (run demo [(5, Op.connect 0 2 1 4)]).map
      (fun s => (linked s 1 6 2 8, ordersOf s 3)) =
      some (false, [(0, 0), (1, 1), (-1, -1)]) := by decide
  obtain ⟨s, hs, ho⟩ := Option.map_eq_some'.1 h
  simp only [Prod.mk.injEq] at ho
  have h1 : ((run demo [(5, Op.connect 0 2 1 4)]).bind
      (fun s => okState (Connect 5 s 1 6 2 8))).map (fun s1 => ordersOf s1 3) =
      some [(0, 0), (1, 1), (2, 1)] := by decide
  rw [hs, Option.some_bind] at h1
  obtain ⟨s1, hs1, ho1⟩ := Option.map_eq_some'.1 h1
  have h2 : ((run demo [(5, Op.connect 0 2 1 4)]).bind
      (fun s => (okState (Connect 5 s 1 6 2 8)).bind
        (fun s1 => (okState (Disconnect 5 s1 1 6 2 8)).map
          (fun s2 => (ordersOf s2 3, decide (graphOf s2 3 = graphOf s 3)))))) =
      some ([(0, 0), (1, 1), (0, 0)], true) := by decide
  rw [hs, Option.some_bind, hs1, Option.some_bind] at h2
  obtain ⟨s2, hs2, ho2⟩ := Option.map_eq_some'.1 h2
  simp only [Prod.mk.injEq, decide_eq_true_eq] at ho2
  exact ⟨s, s1, s2, hs, okState_some hs1, ho.1, okState_some hs2, ho.2, ho1, ho2.1, ho2.2,
    roundtrip_restores demo [(5, Op.connect 0 2 1 4)] s 1 6 2 8 5 s1 demo_fresh hs
      (okState_some hs1) ho.1⟩

theorem boundLoop_spec {α : Type} [Inhabited α] (g : α → Bool) (a : List α)
    (hmono : ∀ i j, i ≤ j → j < a.length → g (a.getD j default) = true →
      g (a.getD i default) = true) :
    ∀ (fuel first count : Nat), count ≤ fuel → first + count ≤ a.length →
      (∀ i, i < first → g (a.getD i default) = true) →
      (∀ i, first + count ≤ i → i < a.length → g (a.getD i default) = false) →
      (∀ i, i < boundLoop g a fuel first count → g (a.getD i default) = true) ∧
      (∀ i, boundLoop g a fuel first count ≤ i → i < a.length →
        g (a.getD i default) = false) ∧
      boundLoop g a fuel first count ≤ a.length := by
  intro fuel
  induction fuel with
  | zero =>
    intro first count hc hlen hlo hhi
    have : count = 0 := by omega
    subst this
    exact ⟨by simpa [boundLoop] using hlo, by simpa [boundLoop] using hhi,
      by simpa [boundLoop] using hlen⟩
  | succ fuel ih =>
    intro first count hc hlen hlo hhi
    by_cases h0 : count = 0
    · subst h0
      exact ⟨by simpa [boundLoop] using hlo, by simpa [boundLoop] using hhi,
        by simpa [boundLoop] using hlen⟩
    · rw [boundLoop, if_neg h0]
      by_cases hg : g (a.getD (first + count / 2) default) = true
      · simp only [hg, if_true]
        have hdiv : count / 2 < count := Nat.div_lt_self (Nat.pos_of_ne_zero h0) (by decide)
        refine ih (first + count / 2 + 1) (count - (count / 2 + 1)) (by omega) (by omega) ?_ ?_
        · intro i hi
          exact hmono i (first + count / 2) (by omega) (by omega) hg
        · intro i hi hil
          exact hhi i (by omega) hil
      · simp only [hg]
        have hdiv : count / 2 < count := Nat.div_lt_self (Nat.pos_of_ne_zero h0) (by decide)
        refine ih first (count / 2) (by omega) (by omega) hlo ?_
        intro i hi hil
        by_contra hgi
        exact hg (hmono (first + count / 2) i hi hil (by simpa using hgi))


theorem getD_of_lt {α : Type} [Inhabited α] (a : List α) (i : Nat) (h : i < a.length) :
    a.getD i default = a.get ⟨i, h⟩ := by
  simp [List.getD, List.getElem?_eq_getElem h]

theorem sorted_pin_le {a : List PinToNode} (hs : a.Sorted (fun x y => x.pin ≤ y.pin))
    {i j : Nat} (hij : i ≤ j) (hj : j < a.length) :
    (a.getD i default).pin ≤ (a.getD j default).pin := by
  rw [getD_of_lt a i (by omega), getD_of_lt a j hj]
  rcases Nat.lt_or_eq_of_le hij with h | h
  · exact List.pairwise_iff_get.1 hs ⟨i, by omega⟩ ⟨j, hj⟩ h
  · subst h; exact Nat.le_refl _

theorem lower_bound_pins (a : List PinToNode) (hs : a.Sorted (fun x y => x.pin ≤ y.pin))
    (pin : PinId) :
    (∀ i, i < boundLoop (fun e => decide (e.pin < pin)) a a.length 0 a.length →
      (a.getD i default).pin < pin) ∧
    (∀ i, boundLoop (fun e => decide (e.pin < pin)) a a.length 0 a.length ≤ i → i < a.length →
      pin ≤ (a.getD i default).pin) ∧
    boundLoop (fun e => decide (e.pin < pin)) a a.length 0 a.length ≤ a.length := by
  have h := boundLoop_spec (fun e : PinToNode => decide (e.pin < pin)) a
    (by
      intro i j hij hj hg
      have := sorted_pin_le hs hij hj
      simp only [decide_eq_true_eq] at hg ⊢
      exact Nat.lt_of_le_of_lt this hg)
    a.length 0 a.length (Nat.le_refl _) (by omega) (by intro i hi; omega)
    (by intro i hi hil; omega)
  refine ⟨fun i hi => by simpa using h.1 i hi, fun i hi hil => ?_, h.2.2⟩
  have := h.2.1 i hi hil
  simpa using this

theorem MapPinToNode_spec (s : Editor)
    (hs : s.pins_to_nodes.Sorted (fun x y => x.pin ≤ y.pin)) :
    (∀ pin, pin ∉ s.pins_to_nodes.map (fun e => e.pin) → MapPinToNode s pin = none) ∧
    ((s.pins_to_nodes.map (fun e => e.pin)).Nodup →
      ∀ e ∈ s.pins_to_nodes, MapPinToNode s e.pin = some e.node) := by
  constructor
  · intro pin hpin
    unfold MapPinToNode
    simp only
    cases hget : s.pins_to_nodes.get?
        (boundLoop (fun e => decide (e.pin < pin)) s.pins_to_nodes s.pins_to_nodes.length 0
          s.pins_to_nodes.length) with
    | none => rfl
    | some e =>
      have hmem : e ∈ s.pins_to_nodes := List.get?_mem hget
      have hne : e.pin ≠ pin := fun h => hpin (h ▸ List.mem_map_of_mem _ hmem)
      simp [hne]
  · intro hnd e he
    obtain ⟨⟨k, hk⟩, hke⟩ := List.get_of_mem he
    obtain ⟨hlo, hhi, hlen⟩ := lower_bound_pins s.pins_to_nodes hs e.pin
    have hkD : s.pins_to_nodes.getD k default = e := by rw [getD_of_lt _ k hk]; exact hke
    have hit : boundLoop (fun x => decide (x.pin < e.pin)) s.pins_to_nodes
        s.pins_to_nodes.length 0 s.pins_to_nodes.length ≤ k := by
      by_contra hcon
      have := hlo k (by omega)
      rw [hkD] at this
      exact Nat.lt_irrefl _ this
    have hitlt : boundLoop (fun x => decide (x.pin < e.pin)) s.pins_to_nodes
        s.pins_to_nodes.length 0 s.pins_to_nodes.length < s.pins_to_nodes.length := by omega
    have h1 := hhi _ (Nat.le_refl _) hitlt
    have h2 := sorted_pin_le hs hit hk
    rw [hkD] at h2
    have hpin : (s.pins_to_nodes.getD (boundLoop (fun x => decide (x.pin < e.pin))
        s.pins_to_nodes s.pins_to_nodes.length 0 s.pins_to_nodes.length) default).pin = e.pin :=
      Nat.le_antisymm h2 h1
    have hinj := List.inj_on_of_nodup_map hnd
    have heq : s.pins_to_nodes.getD (boundLoop (fun x => decide (x.pin < e.pin))
        s.pins_to_nodes s.pins_to_nodes.length 0 s.pins_to_nodes.length) default = e := by
      apply hinj _ he hpin
      rw [getD_of_lt _ _ hitlt]
      exact List.get_mem _ _ _
    unfold MapPinToNode
    simp only
    have hget : s.pins_to_nodes.get? (boundLoop (fun x => decide (x.pin < e.pin))
        s.pins_to_nodes s.pins_to_nodes.length 0 s.pins_to_nodes.length) = some e := by
      rw [List.get?_eq_get hitlt, ← getD_of_lt _ _ hitlt, heq]
    rw [hget]
    simp


theorem CreateAndAdd_pins (s : Editor) (node_id : Nat) (node : NodeId) (obj : IEventNode) :
    (CreateAndAdd s node_id (some (node, obj))).1.pins_to_nodes =
      (s.pins_to_nodes ++ pinEntries node obj).insertionSort (fun a b => a.pin ≤ b.pin) := by
  unfold CreateAndAdd pinEntries
  simp only [Editor.setNode, Function.update_same]
  split_ifs <;> simp [List.append_assoc]

theorem CreateAndAdd_node (s : Editor) (node_id : Nat) (node : NodeId) (obj : IEventNode)
    (m : NodeId) :
    (CreateAndAdd s node_id (some (node, obj))).1.node m =
      if m = node then { obj with id := node_id } else s.node m := by
  unfold CreateAndAdd
  simp only [Editor.setNode, Function.update_same]
  split_ifs <;> simp_all [Function.update]

theorem CreateAndAdd_nodes (s : Editor) (node_id : Nat) (node : NodeId) (obj : IEventNode) :
    (CreateAndAdd s node_id (some (node, obj))).1.nodes = s.nodes ++ [node] := by
  unfold CreateAndAdd
  simp only [Editor.setNode, Function.update_same]
  split_ifs <;> simp

theorem pin_le_total : IsTotal PinToNode (fun a b => a.pin ≤ b.pin) :=
  ⟨fun a b => Nat.le_total a.pin b.pin⟩

theorem pin_le_trans : IsTrans PinToNode (fun a b => a.pin ≤ b.pin) :=
  ⟨fun _ _ _ h1 h2 => Nat.le_trans h1 h2⟩

theorem createAll_pins : ∀ (calls : List (Nat × Option (NodeId × IEventNode))) (s : Editor),
    s.pins_to_nodes.Sorted (fun a b => a.pin ≤ b.pin) →
    (createAll s calls).pins_to_nodes.Sorted (fun a b => a.pin ≤ b.pin) ∧
    (createAll s calls).pins_to_nodes.Perm (s.pins_to_nodes ++ allEntries calls) ∧
    (createAll s calls).nodes = s.nodes ++ addedNodes calls := by
  intro calls
  induction calls with
  | nil => intro s hs; simp [createAll, allEntries, addedNodes, hs]
  | cons c rest ih =>
    intro s hs
    obtain ⟨node_id, created⟩ := c
    cases created with
    | none =>
      have h1 : (CreateAndAdd s node_id none).1 = s := rfl
      simp only [createAll, allEntries, addedNodes, h1]
      exact ih s hs
    | some q =>
      obtain ⟨node, obj⟩ := q
      haveI := pin_le_total
      haveI := pin_le_trans
      have hsort : (CreateAndAdd s node_id (some (node, obj))).1.pins_to_nodes.Sorted
          (fun a b => a.pin ≤ b.pin) := by
        rw [CreateAndAdd_pins]
        exact List.sorted_insertionSort _ _
      obtain ⟨h1, h2, h3⟩ := ih _ hsort
      simp only [createAll, allEntries, addedNodes]
      refine ⟨h1, ?_, ?_⟩
      · refine h2.trans ?_
        rw [CreateAndAdd_pins, ← List.append_assoc]
        exact List.Perm.append_right _ (List.perm_insertionSort _ _)
      · rw [h3, CreateAndAdd_nodes]; simp

theorem createAll_node : ∀ (calls : List (Nat × Option (NodeId × IEventNode))) (s : Editor),
    (addedNodes calls).Nodup →
    (∀ node_id node obj, (node_id, some (node, obj)) ∈ calls →
      (createAll s calls).node node = { obj with id := node_id }) ∧
    (∀ m, m ∉ addedNodes calls → (createAll s calls).node m = s.node m) := by
  intro calls
  induction calls with
  | nil => intro s _; simp [createAll]
  | cons c rest ih =>
    intro s hnd
    obtain ⟨node_id, created⟩ := c
    cases created with
    | none =>
      have h1 : (CreateAndAdd s node_id none).1 = s := rfl
      simp only [createAll, addedNodes, h1] at hnd ⊢
      obtain ⟨ha, hb⟩ := ih s hnd
      refine ⟨?_, hb⟩
      intro id node obj hmem
      simp only [List.mem_cons, Prod.mk.injEq] at hmem
      rcases hmem with ⟨_, h⟩ | h
      · cases h
      · exact ha id node obj h
    | some q =>
      obtain ⟨node, obj⟩ := q
      simp only [createAll, addedNodes, List.nodup_cons] at hnd ⊢
      obtain ⟨ha, hb⟩ := ih (CreateAndAdd s node_id (some (node, obj))).1 hnd.2
      constructor
      · intro id n o hmem
        simp only [List.mem_cons, Prod.mk.injEq, Option.some.injEq] at hmem
        rcases hmem with ⟨h1, h2, h3⟩ | h
        · subst h1; subst h2; subst h3
          rw [hb _ hnd.1, CreateAndAdd_node, if_pos rfl]
        · exact ha id n o h
      · intro m hm
        simp only [List.mem_cons, not_or] at hm
        rw [hb m hm.2, CreateAndAdd_node, if_neg hm.1]

theorem allEntries_mem : ∀ (calls : List (Nat × Option (NodeId × IEventNode)))
    (node_id : Nat) (node : NodeId) (obj : IEventNode),
    (node_id, some (node, obj)) ∈ calls → ∀ e ∈ pinEntries node obj, e ∈ allEntries calls := by
  intro calls
  induction calls with
  | nil => intro _ _ _ h; cases h
  | cons c rest ih =>
    intro id node obj hmem e he
    obtain ⟨node_id, created⟩ := c
    simp only [List.mem_cons, Prod.mk.injEq] at hmem
    cases created with
    | none =>
      simp only [allEntries]
      rcases hmem with ⟨_, h⟩ | h
      · cases h
      · exact ih id node obj h e he
    | some q =>
      obtain ⟨n2, o2⟩ := q
      simp only [allEntries, List.mem_append]
      rcases hmem with ⟨_, h⟩ | h
      · simp only [Option.some.injEq, Prod.mk.injEq] at h
        obtain ⟨h1, h2⟩ := h
        subst h1; subst h2
        exact Or.inl he
      · exact Or.inr (ih id node obj h e he)

theorem addedNodes_mem : ∀ (calls : List (Nat × Option (NodeId × IEventNode))) (n : NodeId),
    n ∈ addedNodes calls → ∃ node_id obj, (node_id, some (n, obj)) ∈ calls := by
  intro calls
  induction calls with
  | nil => intro _ h; cases h
  | cons c rest ih =>
    intro n hn
    obtain ⟨node_id, created⟩ := c
    cases created with
    | none =>
      simp only [addedNodes] at hn
      obtain ⟨id, obj, h⟩ := ih n hn
      exact ⟨id, obj, List.mem_cons_of_mem _ h⟩
    | some q =>
      obtain ⟨n2, o2⟩ := q
      simp only [addedNodes, List.mem_cons] at hn
      rcases hn with h | h
      · subst h; exact ⟨node_id, o2, List.mem_cons_self _ _⟩
      · obtain ⟨id, obj, h2⟩ := ih n h
        exact ⟨id, obj, List.mem_cons_of_mem _ h2⟩

/-- C11. Pin index resolution: after any sequence of `CreateAndAdd` calls on an editor
whose pin index is empty, the pins of the added nodes being pairwise distinct, the index
is sorted by pin identity and is a rearrangement of the entries of the added nodes (one
per input pin and one per output pin of each); `MapPinToNode` returns the owning node for
every such entry and `nullptr` for every pin of no added node. With pairwise distinct
node addresses the entries are those of the pins the nodes hold in the final state. -/
theorem pin_index_resolution (s : Editor) (calls : List (Nat × Option (NodeId × IEventNode)))
    (hs : s.pins_to_nodes = []) (hd : ((allEntries calls).map (fun e => e.pin)).Nodup) :
    (createAll s calls).pins_to_nodes.Sorted (fun a b => a.pin ≤ b.pin) ∧
    (createAll s calls).pins_to_nodes.Perm (allEntries calls) ∧
    (∀ e ∈ allEntries calls, MapPinToNode (createAll s calls) e.pin = some e.node) ∧
    (∀ pin, pin ∉ (allEntries calls).map (fun e => e.pin) →
      MapPinToNode (createAll s calls) pin = none) ∧
    ((addedNodes calls).Nodup → ∀ n ∈ addedNodes calls,
      (∀ i ∈ ((createAll s calls).node n).pin_inputs,
        MapPinToNode (createAll s calls) i.pin = some n) ∧
      (∀ o ∈ ((createAll s calls).node n).pin_outputs,
        MapPinToNode (createAll s calls) o.pin = some n)) := by
  obtain ⟨h1, h2, _⟩ := createAll_pins calls s (by rw [hs]; exact List.sorted_nil)
  rw [hs, List.nil_append] at h2
  obtain ⟨hnone, hsome⟩ := MapPinToNode_spec (createAll s calls) h1
  have hnd : ((createAll s calls).pins_to_nodes.map (fun e => e.pin)).Nodup :=
    (List.Perm.nodup_iff (List.Perm.map _ h2)).2 hd
  have hfound : ∀ e ∈ allEntries calls, MapPinToNode (createAll s calls) e.pin = some e.node :=
    fun e he => hsome hnd e (h2.mem_iff.2 he)
  refine ⟨h1, h2, hfound, ?_, ?_⟩
  · intro pin hpin
    apply hnone
    intro hmem
    exact hpin ((List.Perm.mem_iff (List.Perm.map _ h2)).1 hmem)
  · intro hadd n hn
    obtain ⟨id, obj, hmem⟩ := addedNodes_mem calls n hn
    have hnode := (createAll_node calls s hadd).1 id n obj hmem
    rw [hnode]
    constructor
    · intro i hi
      exact hfound ⟨i.pin, n⟩ (allEntries_mem calls id n obj hmem _
        (by simp only [pinEntries, List.mem_append, List.mem_map]; exact Or.inl ⟨i, hi, rfl⟩))
    · intro o ho
      exact hfound ⟨o.pin, n⟩ (allEntries_mem calls id n obj hmem _
        (by simp only [pinEntries, List.mem_append, List.mem_map]; exact Or.inr ⟨o, ho, rfl⟩))


theorem pin_index_resolution_witness :
    (createAll demo demoCalls).pins_to_nodes =
      [⟨0, 0⟩, ⟨1, 0⟩, ⟨2, 0⟩, ⟨3, 0⟩, ⟨4, 1⟩, ⟨5, 1⟩, ⟨6, 1⟩, ⟨7, 1⟩] ∧
    MapPinToNode (createAll demo demoCalls) 6 = some 1 ∧
    MapPinToNode (createAll demo demoCalls) 8 = none ∧
    ((createAll demo demoCalls).pins_to_nodes.Sorted (fun a b => a.pin ≤ b.pin) ∧
    (createAll demo demoCalls).pins_to_nodes.Perm (allEntries demoCalls) ∧
    (∀ e ∈ allEntries demoCalls, MapPinToNode (createAll demo demoCalls) e.pin = some e.node) ∧
    (∀ pin, pin ∉ (allEntries demoCalls).map (fun e => e.pin) →
      MapPinToNode (createAll demo demoCalls) pin = none) ∧
    ((addedNodes demoCalls).Nodup → ∀ n ∈ addedNodes demoCalls,
      (∀ i ∈ ((createAll demo demoCalls).node n).pin_inputs,
        MapPinToNode (createAll demo demoCalls) i.pin = some n) ∧
      (∀ o ∈ ((createAll demo demoCalls).node n).pin_outputs,
        MapPinToNode (createAll demo demoCalls) o.pin = some n))) :=
  ⟨by decide, by decide, by decide, pin_index_resolution demo demoCalls rfl (by decide)⟩


/-- C12. Disconnect of a link that does not exist fails: in every state, for a pin pair
that is not linked (the input pin is not in the fan-out list of the output pin),
`Disconnect` stops at a failed assertion, in the very state it was called in: fan-out
lists, link list, adjacency lists with their counts and all order fields are
unchanged. -/
theorem disconnect_missing_link (fuel : Nat) (s : Editor) (parent : NodeId) (pin_co : PinId)
    (child : NodeId) (pin_ci : PinId) (h : inFanOut s parent pin_co child pin_ci = false) :
    Disconnect fuel s parent pin_co child pin_ci = Res.assertFail s := by
  rw [Disconnect_eq]
  by_cases h1 : (s.pin pin_ci).dir ≠ PinDir.input
  · rw [if_pos h1]
  rw [if_neg h1]
  by_cases h2 : (s.pin pin_co).dir ≠ PinDir.output
  · rw [if_pos h2]
  rw [if_neg h2]
  by_cases h3 : (s.pin pin_co).type ≠ (s.pin pin_ci).type
  · rw [if_pos h3]
  rw [if_neg h3]
  unfold inFanOut at h
  cases hi : FindPinInput s child pin_ci with
  | none => rfl
  | some i =>
    cases hj : FindPinOutput s parent pin_co with
    | none => rfl
    | some j =>
      rw [hi, hj] at h
      simp only [decide_eq_false_iff_not] at h
      simp only [if_pos h]

theorem disconnect_missing_link_witness :
    ∃ t, run demo [(5, Op.connect 0 2 1 4)] = some t ∧
      (t.pin 3).dir = PinDir.output ∧ (t.pin 5).dir = PinDir.input ∧
      (t.pin 3).type = (t.pin 5).type ∧
      inFanOut t 0 3 1 5 = false ∧ linked t 0 3 1 5 = false ∧
      Disconnect 5 t 0 3 1 5 = Res.assertFail t := by
  have h : (run demo [(5, Op.connect 0 2 1 4)]).map
      (fun t => ((t.pin 3).dir, (t.pin 5).dir, decide ((t.pin 3).type = (t.pin 5).type),
        inFanOut t 0 3 1 5, linked t 0 3 1 5)) =
      some (PinDir.output, PinDir.input, true, false, false) := by decide
  obtain ⟨t, ht, ho⟩ := Option.map_eq_some'.1 h
  simp only [Prod.mk.injEq, decide_eq_true_eq] at ho
  exact ⟨t, ht, ho.1, ho.2.1, ho.2.2.1, ho.2.2.2.1, ho.2.2.2.2,
    disconnect_missing_link 5 t 0 3 1 5 ho.2.2.2.1⟩


theorem onlyOn_refl (P : NodeId → Prop) (fr : Frame) : OnlyOn P fr fr :=
  ⟨fun _ => rfl, fun _ _ => rfl, fun _ h => Or.inl h, fun _ h => Or.inl h,
    rfl, rfl, rfl, rfl, rfl, rfl⟩

theorem undirty_parents {a b : IEventNode}
    (h : { a with dirty := false } = { b with dirty := false }) :
    a.parents = b.parents ∧ a.is_visual = b.is_visual ∧ a.update_order = b.update_order ∧
      a.draw_order = b.draw_order ∧ a.children = b.children := by
  have h1 := congrArg IEventNode.parents h
  have h2 := congrArg IEventNode.is_visual h
  have h3 := congrArg IEventNode.update_order h
  have h4 := congrArg IEventNode.draw_order h
  have h5 := congrArg IEventNode.children h
  exact ⟨h1, h2, h3, h4, h5⟩

theorem walkLoop_only {P : NodeId → Prop} {fr0 : Frame}
    {f : Frame → NodeId → Res Frame Unit}
    (hf : ∀ fr n, OnlyOn P fr0 fr → P n → ResP (OnlyOn P fr0) (f fr n)) :
    ∀ (ps : List NodeConnection) (last : Int) (fr : Frame), OnlyOn P fr0 fr →
      (∀ p ∈ ps, P p.node) → ResP (OnlyOn P fr0) (walkLoop f ps last fr) := by
  intro ps
  induction ps with
  | nil => intro last fr h _; exact h
  | cons p ps ih =>
    intro last fr h hP
    unfold walkLoop
    by_cases hc : ¬ (last ≤ (fr.ed.node p.node).update_order)
    · rw [if_pos hc]; exact h
    · rw [if_neg hc]
      have h1 := hf fr p.node h (hP p (List.mem_cons_self _ _))
      cases hres : f fr p.node with
      | ok u fr1 =>
        rw [hres] at h1
        exact ih _ fr1 h1 (fun q hq => hP q (List.mem_cons_of_mem _ hq))
      | assertFail fr1 => rw [hres] at h1; exact h1
      | outOfFuel => trivial

theorem UpdateVisibleNodeGraph_only {P : NodeId → Prop} {fr0 : Frame}
    (hP : ∀ n, P n → ∀ p ∈ (fr0.ed.node n).parents, P p.node) :
    ∀ (fuel : Nat) (fr : Frame) (n : NodeId), OnlyOn P fr0 fr → P n →
      ResP (OnlyOn P fr0) (UpdateVisibleNodeGraph fuel fr n) := by
  intro fuel
  induction fuel with
  | zero => intro fr n _ _; trivial
  | succ fuel ih =>
    intro fr n h hn
    unfold UpdateVisibleNodeGraph
    have hpar : (fr.ed.node n).parents = (fr0.ed.node n).parents :=
      (undirty_parents (h.fields n)).1
    have hw := walkLoop_only ih (fr.ed.node n).parents (-1) fr h
      (fun p hp => hP n hn p (hpar ▸ hp))
    cases hres : walkLoop (UpdateVisibleNodeGraph fuel) (fr.ed.node n).parents (-1) fr with
    | ok u fr1 =>
      rw [hres] at hw
      simp only
      by_cases hd : (fr1.ed.node n).dirty = true
      · rw [if_pos hd]
        have hw1 : OnlyOn P fr0 fr1 := hw
        refine ⟨?_, ?_, ?_, ?_, ?_⟩
        · intro m
          have hm := hw1.fields m
          by_cases hmn : m = n
          · subst hmn
            split_ifs <;> simp [Editor.setNode] <;> simpa using hm
          · split_ifs <;> simp [Editor.setNode, Function.update_noteq hmn] <;> simpa using hm
        · intro m hm
          have hmn : m ≠ n := fun e => hm (e ▸ hn)
          have := hw1.rest m hm
          split_ifs <;> simp [Editor.setNode, Function.update_noteq hmn] <;> simpa using this
        · intro m hm
          simp only [List.mem_append, List.mem_singleton] at hm
          rcases hm with hm | hm
          · exact hw1.logged m hm
          · exact Or.inr (hm ▸ hn)
        · intro m hm
          split_ifs at hm
          · simp only [List.mem_append, List.mem_singleton] at hm
            rcases hm with hm | hm
            · exact hw1.drawn m (by simpa [Editor.setNode] using hm)
            · exact Or.inr (hm ▸ hn)
          · exact hw1.drawn m (by simpa [Editor.setNode] using hm)
        · have := hw1.lists
          split_ifs <;> simpa [Editor.setNode] using this
      · rw [if_neg hd]; exact hw
    | assertFail fr1 => rw [hres] at hw; exact hw
    | outOfFuel => trivial

theorem visitLoop_only {P : NodeId → Prop} {fr0 : Frame}
    (hP : ∀ n, P n → ∀ p ∈ (fr0.ed.node n).parents, P p.node) (fuel : Nat) :
    ∀ (vs : List NodeId) (fr : Frame), OnlyOn P fr0 fr → (∀ v ∈ vs, P v) →
      ResP (OnlyOn P fr0) (visitLoop fuel vs fr) := by
  intro vs
  induction vs with
  | nil => intro fr h _; exact h
  | cons v vs ih =>
    intro fr h hv
    unfold visitLoop
    have h1 := UpdateVisibleNodeGraph_only hP fuel fr v h (hv v (List.mem_cons_self _ _))
    cases hres : UpdateVisibleNodeGraph fuel fr v with
    | ok u fr1 =>
      rw [hres] at h1
      exact ih fr1 h1 (fun w hw => hv w (List.mem_cons_of_mem _ hw))
    | assertFail fr1 => rw [hres] at h1; exact h1
    | outOfFuel => trivial

theorem ancestor_of_parent {s : Editor} {n v : NodeId} (ha : Ancestor s n v)
    {p : NodeConnection} (hp : p ∈ (s.node n).parents) : Ancestor s p.node v := by
  revert hp
  induction ha with
  | parent hq => intro hp; exact Ancestor.step hq (Ancestor.parent hp)
  | step hq _ ih => intro hp; exact Ancestor.step hq (ih hp)

/-- The walk of a frame touches only the visible nodes and their ancestors. -/
theorem Update_only (fuel : Nat) (s : Editor) :
    ResP (OnlyOn (fun n => n ∈ s.visible_nodes ∨ ∃ v ∈ s.visible_nodes, Ancestor s n v)
      ⟨dirtySeedPhase s, []⟩) (Update fuel s) := by
  unfold Update
  apply visitLoop_only
  · intro n hn p hp
    have hp2 : p ∈ (s.node n).parents := by
      have := dirtySeedPhase_parents s n
      simp only at hp
      rw [this] at hp
      exact hp
    rcases hn with hn | ⟨v, hv, ha⟩
    · exact Or.inr ⟨n, hn, Ancestor.parent hp2⟩
    · exact Or.inr ⟨v, hv, ancestor_of_parent ha hp2⟩
  · exact onlyOn_refl _ _
  · intro v hv
    rw [(dirtySeedPhase_lists s).1] at hv
    exact Or.inl hv


theorem frameEditor_some {res : Res Frame Unit} {e : Editor} (h : frameEditor res = some e) :
    ∃ fr, res = Res.ok () fr ∧ fr.ed = e := by
  cases res with
  | ok u fr => exact ⟨fr, rfl, by simpa [frameEditor] using h⟩
  | assertFail fr => simp [frameEditor] at h
  | outOfFuel => simp [frameEditor] at h

theorem draw_edge {s : Editor}
    (hinv : ∀ n, (s.node n).parents ≠ [] → (s.node n).draw_order = drawOrderRule s n)
    {n : NodeId} {p : NodeConnection} (hp : p ∈ (s.node n).parents) :
    (s.node p.node).draw_order + (if (s.node n).is_visual then 1 else 0) ≤
      (s.node n).draw_order := by
  have hne : (s.node n).parents ≠ [] := List.ne_nil_of_mem hp
  rw [hinv n hne]
  unfold drawOrderRule
  have hmem : (s.node p.node).draw_order ∈
      (s.node n).parents.map (fun p => (s.node p.node).draw_order) :=
    List.mem_map_of_mem (fun p => (s.node p.node).draw_order) hp
  cases hl : (s.node n).parents.map (fun p => (s.node p.node).draw_order) with
  | nil => rw [hl] at hmem; cases hmem
  | cons x xs =>
    rw [hl] at hmem
    simp only
    have : (s.node p.node).draw_order ≤ xs.foldl max x := by
      rcases List.mem_cons.1 hmem with h | h
      · rw [h]; exact foldl_max_ge_init xs x
      · exact foldl_max_ge_mem xs x _ h
    omega

theorem draw_ancestor {s : Editor}
    (hinv : ∀ n, (s.node n).parents ≠ [] → (s.node n).draw_order = drawOrderRule s n)
    {a n : NodeId} (h : Ancestor s a n) :
    (s.node a).draw_order + (if (s.node n).is_visual then 1 else 0) ≤
      (s.node n).draw_order := by
  induction h with
  | parent hp => exact draw_edge hinv hp
  | @step a n p hp _ ih =>
    have h1 := draw_edge hinv hp
    have h2 : (0 : Int) ≤ (if (s.node p.node).is_visual then 1 else 0) := by
      split_ifs <;> decide
    omega

theorem draw_le_total (s : Editor) :
    IsTotal NodeId (fun a b => (s.node a).draw_order ≤ (s.node b).draw_order) :=
  ⟨fun a b => le_total (s.node a).draw_order (s.node b).draw_order⟩

theorem draw_le_trans (s : Editor) :
    IsTrans NodeId (fun a b => (s.node a).draw_order ≤ (s.node b).draw_order) :=
  ⟨fun _ _ _ h1 h2 => le_trans h1 h2⟩

theorem Draw_sorted (s : Editor) :
    (Draw s).Sorted (fun a b => (s.node a).draw_order ≤ (s.node b).draw_order) ∧
    (Draw s).Perm s.nodes_to_draw := by
  haveI := draw_le_total s
  haveI := draw_le_trans s
  exact ⟨List.sorted_insertionSort _ _, List.perm_insertionSort _ _⟩

theorem Update_onlyOn {s : Editor} {fuel : Nat} {fr : Frame}
    (hend : Update fuel s = Res.ok () fr ∨ Update fuel s = Res.assertFail fr) :
    OnlyOn (fun n => n ∈ s.visible_nodes ∨ ∃ v ∈ s.visible_nodes, Ancestor s n v)
      ⟨dirtySeedPhase s, []⟩ fr := by
  have h := Update_only fuel s
  rcases hend with he | he <;> (rw [he] at h; exact h)

theorem Update_fields {s : Editor} {fuel : Nat} {fr : Frame}
    (hend : Update fuel s = Res.ok () fr ∨ Update fuel s = Res.assertFail fr) (n : NodeId) :
    (fr.ed.node n).parents = (s.node n).parents ∧
    (fr.ed.node n).is_visual = (s.node n).is_visual ∧
    (fr.ed.node n).update_order = (s.node n).update_order ∧
    (fr.ed.node n).draw_order = (s.node n).draw_order ∧
    (fr.ed.node n).children = (s.node n).children := by
  have h3 := undirty_parents ((Update_onlyOn hend).fields n)
  simp only [dirtySeedPhase_node] at h3
  split_ifs at h3 <;> exact h3

theorem Update_draws_visual {s : Editor} {fuel : Nat} {fr : Frame}
    (hend : Update fuel s = Res.ok () fr ∨ Update fuel s = Res.assertFail fr) :
    fr.ed.nodes_to_draw = fr.calls.filter (fun n => (s.node n).is_visual) := by
  have h := Update_spec fuel s
  have h2 : FrameInv (dirtySeedPhase s) fr := by
    rcases hend with he | he
    · rw [he] at h; exact h.1
    · rw [he] at h; exact h
  have h3 := h2.drawn
  rw [(dirtySeedPhase_lists s).2.2, List.nil_append] at h3
  rw [h3]
  congr 1
  funext n
  rw [dirtySeedPhase_is_visual]

/-- C13. Draw order respects dependencies: after a frame of `Update` in a state where
every node with parents holds the draw order of the draw-order rule, `Draw` calls
`n->Draw()` on a rearrangement of the frame's draw list that is in non-decreasing
draw order, and every ancestor of a drawn node that is itself in the draw list has a
strictly smaller draw order and is drawn before it, never at or after it. -/
theorem draw_respects_dependencies (s : Editor) (fuel : Nat) (fr : Frame)
    (hinv : ∀ n, (s.node n).parents ≠ [] → (s.node n).draw_order = drawOrderRule s n)
    (hok : Update fuel s = Res.ok () fr) :
    (Draw fr.ed).Sorted (fun a b => (fr.ed.node a).draw_order ≤ (fr.ed.node b).draw_order) ∧
    (Draw fr.ed).Perm fr.ed.nodes_to_draw ∧
    (∀ n, (fr.ed.node n).draw_order = (s.node n).draw_order) ∧
    (∀ pre n post, Draw fr.ed = pre ++ n :: post → ∀ a ∈ Draw fr.ed, Ancestor s a n →
      (s.node a).draw_order < (s.node n).draw_order ∧ a ∈ pre ∧ a ∉ n :: post) := by
  obtain ⟨hsorted, hperm⟩ := Draw_sorted fr.ed
  have hf := Update_fields (Or.inl hok)
  refine ⟨hsorted, hperm, fun n => (hf n).2.2.2.1, ?_⟩
  intro pre n post hd a ha hanc
  have hn : n ∈ fr.ed.nodes_to_draw := by
    apply hperm.mem_iff.1
    rw [hd]; simp
  rw [Update_draws_visual (Or.inl hok)] at hn
  have hvis : (s.node n).is_visual = true := by
    simpa using (List.mem_filter.1 hn).2
  have hlt : (s.node a).draw_order < (s.node n).draw_order := by
    have := draw_ancestor hinv hanc
    rw [hvis] at this
    simp only [if_true] at this
    omega
  have hnot : a ∉ n :: post := by
    intro hmem
    rw [hd] at hsorted
    have h1 := (List.pairwise_append.1 hsorted).2.1
    have h2 := (List.pairwise_cons.1 h1).1
    rcases List.mem_cons.1 hmem with h | h
    · rw [h] at hlt; exact lt_irrefl _ hlt
    · have := h2 a h
      rw [(hf n).2.2.2.1, (hf a).2.2.2.1] at this
      omega
  refine ⟨hlt, ?_, hnot⟩
  rw [hd] at ha
  rcases List.mem_append.1 ha with h | h
  · exact h
  · exact absurd h hnot


theorem draw_respects_dependencies_witness :
    ∃ t fr, run demoNodes [(5, Op.connect 5 22 1 4)] = some t ∧
      Update 5 t = Res.ok () fr ∧
      fr.ed.nodes_to_draw = [5, 1, 3] ∧ Draw fr.ed = [3, 5, 1] ∧ Ancestor t 5 1 ∧
      (∀ n, (t.node n).parents ≠ [] → (t.node n).draw_order = drawOrderRule t n) ∧
      ((Draw fr.ed).Sorted
          (fun a b => (fr.ed.node a).draw_order ≤ (fr.ed.node b).draw_order) ∧
        (Draw fr.ed).Perm fr.ed.nodes_to_draw ∧
        (∀ n, (fr.ed.node n).draw_order = (t.node n).draw_order) ∧
        (∀ pre n post, Draw fr.ed = pre ++ n :: post → ∀ a ∈ Draw fr.ed, Ancestor t a n →
          (t.node a).draw_order < (t.node n).draw_order ∧ a ∈ pre ∧ a ∉ n :: post)) := by
  have h : (run demoNodes [(5, Op.connect 5 22 1 4)]).map
      (fun t => ((frameEditor (Update 5 t)).map (fun e => (e.nodes_to_draw, Draw e)),
        (t.node 1).parents)) =
      some (some ([5, 1, 3], [3, 5, 1]), [⟨5, 1⟩]) := by decide
  obtain ⟨t, ht, ho⟩ := Option.map_eq_some'.1 h
  simp only [Prod.mk.injEq] at ho
  obtain ⟨ho1, ho2⟩ := ho
  obtain ⟨e, he, hx⟩ := Option.map_eq_some'.1 ho1
  obtain ⟨fr, hfr, hed⟩ := frameEditor_some he
  subst hed
  simp only [Prod.mk.injEq] at hx
  have hwf : WF t := (run_WF _ demoNodes t (fresh_wf demoNodes_fresh) ht).1
  have hinv : ∀ n, (t.node n).parents ≠ [] → (t.node n).draw_order = drawOrderRule t n :=
    fun n hne => wf_draw_rule hwf n (hwf.valid n (Or.inl hne)).2
  have hanc : Ancestor t 5 1 := Ancestor.parent (p := ⟨5, 1⟩) (by rw [ho2]; simp)
  exact ⟨t, fr, ht, hfr, hx.1, hx.2, hanc, hinv,
    draw_respects_dependencies t 5 fr hinv hfr⟩


/-- What a frame leaves outside the observed subgraph: in one call of `Update`, ended
by its return or at the assertion of the parent loop, a node that is neither visible nor
an ancestor of a visible node is not evaluated, not added to the draw list, and is dirty
afterwards if it is registered as time-driven and otherwise as dirty as before; when
the call returns, every visible node and every ancestor of a visible node is clean.
The call returns on every ranked graph whose parents lists are sorted by update order. -/
theorem observed_subgraph_ended (s : Editor) (fuel : Nat) (fr : Frame)
    (hend : Update fuel s = Res.ok () fr ∨ Update fuel s = Res.assertFail fr) :
    (∀ n, n ∉ s.visible_nodes → (∀ v ∈ s.visible_nodes, ¬ Ancestor s n v) →
      n ∉ fr.calls ∧ n ∉ fr.ed.nodes_to_draw ∧
      (fr.ed.node n).dirty =
        (if n ∈ s.nodes_update_over_time then true else (s.node n).dirty)) ∧
    (Update fuel s = Res.ok () fr →
      ∀ n, (n ∈ s.visible_nodes ∨ ∃ v ∈ s.visible_nodes, Ancestor s n v) →
        (fr.ed.node n).dirty = false) ∧
    (∀ r f, Ranked s r → ParentsSorted s → (∀ v ∈ s.visible_nodes, r v < f) →
      ∃ fr2, Update f s = Res.ok () fr2) := by
  have honly := Update_onlyOn hend
  refine ⟨?_, ?_, ?_⟩
  · intro n hn1 hn2
    have hP : ¬ (n ∈ s.visible_nodes ∨ ∃ v ∈ s.visible_nodes, Ancestor s n v) := by
      rintro (h | ⟨v, hv, ha⟩)
      · exact hn1 h
      · exact hn2 v hv ha
    refine ⟨?_, ?_, ?_⟩
    · intro hc
      rcases honly.logged n hc with h | h
      · cases h
      · exact hP h
    · intro hc
      rcases honly.drawn n hc with h | h
      · simp only [(dirtySeedPhase_lists s).2.2] at h
        cases h
      · exact hP h
    · rw [honly.rest n hP]
      simp only [dirtySeedPhase_node]
      split_ifs <;> rfl
  · intro hok n hn
    have h := Update_spec fuel s
    rw [hok] at h
    have hclean := h.2.2
    have hanc : ∀ a v, Ancestor s a v → Ancestor (dirtySeedPhase s) a v := fun a v ha =>
      ancestor_congr (fun m => dirtySeedPhase_parents s m) ha
    rcases hn with hn | ⟨v, hv, ha⟩
    · exact (hclean n hn).1
    · exact (hclean v hv).2 n (hanc n v ha)
  · intro r f hr hsort hf
    exact Update_returns hr hsort hf

theorem walkLoop_ok_chain {f : Frame → NodeId → Res Frame Unit}
    (hf : ∀ fr n fr2, f fr n = Res.ok () fr2 →
      ∀ m, (fr2.ed.node m).update_order = (fr.ed.node m).update_order) :
    ∀ (ps : List NodeConnection) (last : Int) (fr fr2 : Frame),
      walkLoop f ps last fr = Res.ok () fr2 →
      List.Chain (fun a b : Int => a ≤ b) last
        (ps.map (fun p => (fr.ed.node p.node).update_order)) ∧
      ∀ m, (fr2.ed.node m).update_order = (fr.ed.node m).update_order := by
  intro ps
  induction ps with
  | nil =>
    intro last fr fr2 h
    simp only [walkLoop, Res.ok.injEq, true_and] at h
    subst h
    exact ⟨List.Chain.nil, fun _ => rfl⟩
  | cons p ps ih =>
    intro last fr fr2 h
    unfold walkLoop at h
    by_cases hc : ¬ (last ≤ (fr.ed.node p.node).update_order)
    · rw [if_pos hc] at h; cases h
    · rw [if_neg hc] at h
      cases hres : f fr p.node with
      | ok u fr1 =>
        rw [hres] at h
        have h1 := hf fr p.node fr1 hres
        obtain ⟨i1, i2⟩ := ih _ fr1 fr2 h
        refine ⟨?_, fun m => (i2 m).trans (h1 m)⟩
        simp only [List.map_cons]
        refine List.Chain.cons (not_not.1 hc) ?_
        have e : ps.map (fun p => (fr.ed.node p.node).update_order) =
            ps.map (fun p => (fr1.ed.node p.node).update_order) :=
          List.map_congr_left (fun q _ => (h1 q.node).symm)
        rw [e]
        exact i1
      | assertFail fr1 => rw [hres] at h; cases h
      | outOfFuel => rw [hres] at h; cases h

theorem UpdateVisibleNodeGraph_ok_order (fuel : Nat) (fr : Frame) (n : NodeId) (fr2 : Frame)
    (h : UpdateVisibleNodeGraph fuel fr n = Res.ok () fr2) :
    ∀ m, (fr2.ed.node m).update_order = (fr.ed.node m).update_order := by
  have h1 : ResP (OnlyOn (fun _ => True) fr) (UpdateVisibleNodeGraph fuel fr n) :=
    UpdateVisibleNodeGraph_only (fun _ _ _ _ => trivial) fuel fr n (onlyOn_refl _ _) trivial
  rw [h] at h1
  exact fun m => (undirty_parents (h1.fields m)).2.2.1

/-- A call of `UpdateVisibleNodeGraph` that returns found the parents list of its node
in non-decreasing update order. -/
theorem UpdateVisibleNodeGraph_ok_sorted (fuel : Nat) (fr : Frame) (n : NodeId) (fr2 : Frame)
    (h : UpdateVisibleNodeGraph fuel fr n = Res.ok () fr2) :
    List.Chain (fun a b : Int => a ≤ b) (-1)
      ((fr.ed.node n).parents.map (fun p => (fr.ed.node p.node).update_order)) := by
  cases fuel with
  | zero => simp [UpdateVisibleNodeGraph] at h
  | succ k =>
    unfold UpdateVisibleNodeGraph at h
    cases hres : walkLoop (UpdateVisibleNodeGraph k) (fr.ed.node n).parents (-1) fr with
    | ok u fr1 =>
      exact (walkLoop_ok_chain (fun a b c hc => UpdateVisibleNodeGraph_ok_order k a b c hc)
        _ _ _ _ hres).1
    | assertFail fr1 => rw [hres] at h; cases h
    | outOfFuel => rw [hres] at h; cases h

theorem visitLoop_ok_sorted (fuel : Nat) :
    ∀ (vs : List NodeId) (fr fr2 : Frame), visitLoop fuel vs fr = Res.ok () fr2 →
      (∀ m, (fr.ed.node m).parents = (fr2.ed.node m).parents ∧
        (fr2.ed.node m).update_order = (fr.ed.node m).update_order) ∧
      ∀ v ∈ vs, List.Chain (fun a b : Int => a ≤ b) (-1)
        ((fr.ed.node v).parents.map (fun p => (fr.ed.node p.node).update_order)) := by
  intro vs
  induction vs with
  | nil =>
    intro fr fr2 h
    simp only [visitLoop, Res.ok.injEq, true_and] at h
    subst h
    exact ⟨fun _ => ⟨rfl, rfl⟩, fun v hv => by cases hv⟩
  | cons v vs ih =>
    intro fr fr2 h
    unfold visitLoop at h
    cases hres : UpdateVisibleNodeGraph fuel fr v with
    | ok u fr1 =>
      rw [hres] at h
      have h1 : ResP (OnlyOn (fun _ => True) fr) (UpdateVisibleNodeGraph fuel fr v) :=
        UpdateVisibleNodeGraph_only (fun _ _ _ _ => trivial) fuel fr v (onlyOn_refl _ _)
          trivial
      rw [hres] at h1
      have hf : ∀ m, (fr1.ed.node m).parents = (fr.ed.node m).parents ∧
          (fr1.ed.node m).update_order = (fr.ed.node m).update_order :=
        fun m => ⟨(undirty_parents (h1.fields m)).1, (undirty_parents (h1.fields m)).2.2.1⟩
      obtain ⟨i1, i2⟩ := ih fr1 fr2 h
      refine ⟨fun m => ⟨(hf m).1.symm.trans (i1 m).1, (i1 m).2.trans (hf m).2⟩, ?_⟩
      intro w hw
      rcases List.mem_cons.1 hw with e | e
      · rw [e]; exact UpdateVisibleNodeGraph_ok_sorted fuel fr v fr1 hres
      · have := i2 w e
        rw [(hf w).1] at this
        have e2 : (fr.ed.node w).parents.map (fun p => (fr1.ed.node p.node).update_order) =
            (fr.ed.node w).parents.map (fun p => (fr.ed.node p.node).update_order) :=
          List.map_congr_left (fun q _ => (hf q.node).2)
        rw [e2] at this
        exact this
    | assertFail fr1 => rw [hres] at h; cases h
    | outOfFuel => rw [hres] at h; cases h

/-- A frame that returns found the parents list of every visible node in non-decreasing
update order. -/
theorem Update_ok_sorted {s : Editor} {fuel : Nat} {fr : Frame}
    (h : Update fuel s = Res.ok () fr) :
    ∀ v ∈ s.visible_nodes, List.Chain (fun a b : Int => a ≤ b) (-1)
      ((s.node v).parents.map (fun p => (s.node p.node).update_order)) := by
  intro v hv
  unfold Update at h
  have := (visitLoop_ok_sorted fuel _ _ _ h).2 v
    (by rw [(dirtySeedPhase_lists s).1]; exact hv)
  simp only [dirtySeedPhase_parents, dirtySeedPhase_update_order] at this
  exact this

theorem frameAborted_some {res : Res Frame Unit} {x : List NodeId}
    (h : frameAborted res = some x) : ∃ fr, res = Res.assertFail fr ∧ fr.calls = x := by
  cases res with
  | ok u fr => simp [frameAborted] at h
  | assertFail fr => exact ⟨fr, rfl, by simpa [frameAborted] using h⟩
  | outOfFuel => simp [frameAborted] at h

/-- C15 fails on the code: after the successful calls `Connect` 0 -> 3, 1 -> 3 and
2 -> 0 on fresh nodes (an acyclic graph), the parents list of node 3 is [0, 1] with the
update orders [1, 0], so it is not in non-decreasing update order, and the frame that
walks the visible node 3 stops at the failed assertion of the parent loop after the
computations of the nodes 1, 2 and 0; with no recursion bound does the frame return. -/
theorem parents_not_sorted :
    ∃ t fr, run demoNodes unsortedWiring = some t ∧
      (∃ r, Ranked t r) ∧
      t.visible_nodes = [1, 3] ∧
      (t.node 3).parents = [⟨0, 1⟩, ⟨1, 1⟩] ∧
      (t.node 3).parents.map (fun p => (t.node p.node).update_order) = [1, 0] ∧
      ¬ ParentsSorted t ∧
      Update 5 t = Res.assertFail fr ∧ fr.calls = [1, 2, 0] ∧
      ∀ fuel fr2, Update fuel t ≠ Res.ok () fr2 := by
  have h : (run demoNodes unsortedWiring).map
      (fun t => (t.visible_nodes, (t.node 3).parents,
        (t.node 3).parents.map (fun p => (t.node p.node).update_order),
        frameAborted (Update 5 t))) =
      some ([1, 3], [⟨0, 1⟩, ⟨1, 1⟩], [1, 0], some [1, 2, 0]) := by decide
  obtain ⟨t, ht, ho⟩ := Option.map_eq_some'.1 h
  simp only [Prod.mk.injEq] at ho
  obtain ⟨ho1, ho2, ho3, ho4⟩ := ho
  obtain ⟨fr, hfr, hc⟩ := frameAborted_some ho4
  have hwf : WF t := (run_WF _ demoNodes t (fresh_wf demoNodes_fresh) ht).1
  refine ⟨t, fr, ht, ⟨_, wf_ranked hwf⟩, ho1, ho2, ho3, ?_, hfr, hc, ?_⟩
  · intro hs
    have h3 := hs 3
    rw [ho3] at h3
    simp only [List.chain_cons] at h3
    exact absurd h3.2.1 (by decide)
  · intro fuel fr2 hok
    have h3 := Update_ok_sorted hok 3 (by rw [ho1]; simp)
    rw [ho3] at h3
    simp only [List.chain_cons] at h3
    exact absurd h3.2.1 (by decide)


theorem descendant_congr {s t : Editor} (h : ∀ n, (t.node n).children = (s.node n).children)
    {a n : NodeId} (ha : Descendant s a n) : Descendant t a n := by
  induction ha with
  | child hc => exact Descendant.child (by rw [h]; exact hc)
  | step hc _ ih => exact Descendant.step (by rw [h]; exact hc) ih

theorem eraseOrders_children {s t : Editor} (h : t.eraseOrders = s.eraseOrders) (n : NodeId) :
    (t.node n).children = (s.node n).children :=
  strip_children (eraseOrders_strip h n)

theorem invEff_refl (ru rd : Bool) (R : NodeId → Prop) (s : Editor) : InvEff ru rd R s s :=
  ⟨rfl, fun _ _ => rfl, fun _ _ => rfl, fun _ h => absurd rfl h,
    fun _ => ⟨fun h => absurd rfl h, fun h => absurd rfl h⟩⟩

theorem invEff_trans {ru rd : Bool} {R1 R2 R : NodeId → Prop} {s t u : Editor}
    (h1 : InvEff ru rd R1 s t) (h2 : InvEff ru rd R2 t u)
    (hR1 : ∀ n, R1 n → R n) (hR2 : ∀ n, R2 n → R n) : InvEff ru rd R s u := by
  refine ⟨h2.frame.trans h1.frame, ?_, ?_, ?_, ?_⟩
  · intro hf n; rw [h2.upd hf n, h1.upd hf n]
  · intro hf n; rw [h2.drw hf n, h1.drw hf n]
  · intro n hn
    by_cases ht : t.node n = s.node n
    · exact hR2 n (h2.within n (fun e => hn (e.trans ht)))
    · exact hR1 n (h1.within n ht)
  · intro n
    constructor
    · intro hn
      by_cases ht : (u.node n).update_order = (t.node n).update_order
      · rw [ht] at hn ⊢
        exact (h1.cleared n).1 hn
      · exact (h2.cleared n).1 ht
    · intro hn
      by_cases ht : (u.node n).draw_order = (t.node n).draw_order
      · rw [ht] at hn ⊢
        exact (h1.cleared n).2 hn
      · exact (h2.cleared n).2 ht

theorem invLoop_eff {ru rd : Bool} {f : Editor → NodeId → Option Editor}
    (hf : ∀ s Y t, f s Y = some t → InvEff ru rd (fun n => n = Y ∨ Descendant s Y n) s t) :
    ∀ (l : List NodeConnection) (s t : Editor), invLoop f l s = some t →
      InvEff ru rd (fun n => ∃ c ∈ l, n = c.node ∨ Descendant s c.node n) s t := by
  intro l
  induction l with
  | nil =>
    intro s t h
    simp only [invLoop, Option.some.injEq] at h
    subst h
    exact invEff_refl _ _ _ _
  | cons c cs ih =>
    intro s t h
    simp only [invLoop] at h
    cases h1 : f s c.node with
    | none => rw [h1] at h; cases h
    | some s1 =>
      rw [h1] at h
      have e1 := hf s c.node s1 h1
      have e2 := ih s1 t h
      refine invEff_trans e1 e2 ?_ ?_
      · intro n hn
        exact ⟨c, List.mem_cons_self _ _, hn⟩
      · rintro n ⟨d, hd, hn⟩
        refine ⟨d, List.mem_cons_of_mem _ hd, ?_⟩
        rcases hn with hn | hn
        · exact Or.inl hn
        · exact Or.inr (descendant_congr
            (fun m => (eraseOrders_children e1.frame m).symm) hn)

theorem invalidated_node (s : Editor) (X : NodeId) (ru rd : Bool) (n : NodeId) :
    ((s.setUpdateOrder X (if ru then -1 else (s.node X).update_order)).setDrawOrder X
      (if rd then -1 else
        ((s.setUpdateOrder X (if ru then -1 else (s.node X).update_order)).node X).draw_order)
      ).node n =
      if n = X then
        { s.node X with
          update_order := if ru then -1 else (s.node X).update_order
          draw_order := if rd then -1 else (s.node X).draw_order }
      else s.node n := by
  by_cases hn : n = X
  · subst hn; simp [Editor.setDrawOrder, Editor.setUpdateOrder, setNode_node]
  · simp [Editor.setDrawOrder, Editor.setUpdateOrder, setNode_node, hn]

theorem invalidated_eff (s : Editor) (X : NodeId) (ru rd : Bool) :
    InvEff ru rd (fun n => n = X) s
      ((s.setUpdateOrder X (if ru then -1 else (s.node X).update_order)).setDrawOrder X
        (if rd then -1 else
          ((s.setUpdateOrder X (if ru then -1 else (s.node X).update_order)).node X).draw_order)) := by
  refine ⟨?_, ?_, ?_, ?_, ?_⟩
  · rw [eraseOrders_eq_iff]
    refine ⟨?_, rfl, rfl, rfl, rfl, rfl, rfl, rfl⟩
    intro n
    rw [invalidated_node]
    split
    · rename_i e; subst e; simp [IEventNode.strip]
    · rfl
  · intro hf n
    rw [invalidated_node]
    split
    · rename_i e; subst e; simp [hf]
    · rfl
  · intro hf n
    rw [invalidated_node]
    split
    · rename_i e; subst e; simp [hf]
    · rfl
  · intro n hn
    by_contra hne
    apply hn
    rw [invalidated_node, if_neg hne]
  · intro n
    rw [invalidated_node]
    split
    · rename_i e; subst e
      constructor
      · intro h
        cases ru <;> simp_all
      · intro h
        cases rd <;> simp_all
    · exact ⟨fun h => absurd rfl h, fun h => absurd rfl h⟩

theorem InvalidateChildren_succ (k : Nat) (s : Editor) (X : NodeId) (ru rd : Bool) :
    InvalidateChildren (k + 1) s X ru rd =
      if (!(ru && decide ((s.node X).update_order ≠ -1)) &&
          !(rd && decide ((s.node X).draw_order ≠ -1))) = true then some s
      else
        invLoop (fun t c => InvalidateChildren k t c ru rd)
          (((s.setUpdateOrder X (if ru then -1 else (s.node X).update_order)).setDrawOrder X
            (if rd then -1 else
              ((s.setUpdateOrder X (if ru then -1 else (s.node X).update_order)).node
                X).draw_order)).node X).children
          ((s.setUpdateOrder X (if ru then -1 else (s.node X).update_order)).setDrawOrder X
            (if rd then -1 else
              ((s.setUpdateOrder X (if ru then -1 else (s.node X).update_order)).node
                X).draw_order)) := rfl

/-- The effect of `InvalidateChildren` with any flag pair. -/
theorem InvalidateChildren_eff (ru rd : Bool) (fuel : Nat) :
    ∀ s X t, InvalidateChildren fuel s X ru rd = some t →
      InvEff ru rd (fun n => n = X ∨ Descendant s X n) s t := by
  induction fuel with
  | zero => intro s X t h; simp [InvalidateChildren] at h
  | succ k ih =>
    intro s X t h
    rw [InvalidateChildren_succ] at h
    by_cases hcond : (!(ru && decide ((s.node X).update_order ≠ -1)) &&
        !(rd && decide ((s.node X).draw_order ≠ -1))) = true
    · rw [if_pos hcond] at h
      simp only [Option.some.injEq] at h
      subst h
      exact invEff_refl _ _ _ _
    · rw [if_neg hcond] at h
      have e1 := invalidated_eff s X ru rd
      have e2 := invLoop_eff ih _ _ _ h
      refine invEff_trans e1 e2 ?_ ?_
      · intro n hn; exact Or.inl hn
      · rintro n ⟨c, hc, hn⟩
        have hch := eraseOrders_children e1.frame
        rw [hch X] at hc
        rcases hn with hn | hn
        · exact Or.inr (hn ▸ Descendant.child hc)
        · exact Or.inr (Descendant.step hc
            (descendant_congr (fun m => (hch m).symm) hn))


theorem pending_of_eff {ru rd : Bool} {R : NodeId → Prop} {s t : Editor}
    (h : InvEff ru rd R s t) (n : NodeId)
    (hn : ((ru && decide ((t.node n).update_order ≠ -1)) ||
      (rd && decide ((t.node n).draw_order ≠ -1))) = true) :
    ((ru && decide ((s.node n).update_order ≠ -1)) ||
      (rd && decide ((s.node n).draw_order ≠ -1))) = true := by
  simp only [Bool.or_eq_true, Bool.and_eq_true, decide_eq_true_eq] at hn ⊢
  rcases hn with ⟨h1, h2⟩ | ⟨h1, h2⟩
  · left
    refine ⟨h1, ?_⟩
    by_contra hc
    have : (t.node n).update_order ≠ (s.node n).update_order := by
      rw [hc]; exact h2
    exact h2 ((h.cleared n).1 this)
  · right
    refine ⟨h1, ?_⟩
    by_contra hc
    have : (t.node n).draw_order ≠ (s.node n).draw_order := by
      rw [hc]; exact h2
    exact h2 ((h.cleared n).2 this)

theorem pendingCount_mono {ru rd : Bool} {R : NodeId → Prop} {s t : Editor}
    (h : InvEff ru rd R s t) (L : List NodeId) :
    pendingCount ru rd t L ≤ pendingCount ru rd s L := by
  apply List.countP_mono_left
  intro x _ hx
  exact pending_of_eff h x hx

theorem invLoop_total {ru rd : Bool} {L : List NodeId} {k : Nat}
    {f : Editor → NodeId → Option Editor}
    (hspec : ∀ s Y t, f s Y = some t →
      InvEff ru rd (fun n => n = Y ∨ Descendant s Y n) s t)
    (hf : ∀ s Y, Supported s L → pendingCount ru rd s L < k → ∃ t, f s Y = some t) :
    ∀ (l : List NodeConnection) (s : Editor), Supported s L → pendingCount ru rd s L < k →
      ∃ t, invLoop f l s = some t := by
  intro l
  induction l with
  | nil => intro s _ _; exact ⟨s, rfl⟩
  | cons c cs ih =>
    intro s hs hk
    obtain ⟨sa, hsa⟩ := hf s c.node hs hk
    have hi := hspec s c.node sa hsa
    have := ih sa (supported_of_strip (eraseOrders_strip hi.frame) hs)
      (lt_of_le_of_lt (pendingCount_mono hi L) hk)
    simp only [invLoop, hsa]
    exact this

/-- `InvalidateChildren`, with any flag pair, returns on every graph with finite
support, cyclic or not, when the recursion bound exceeds the number of nodes it would
still invalidate. -/
theorem InvalidateChildren_total (ru rd : Bool) {L : List NodeId} :
    ∀ (fuel : Nat) (s : Editor) (X : NodeId), Supported s L →
      pendingCount ru rd s L < fuel → ∃ t, InvalidateChildren fuel s X ru rd = some t := by
  intro fuel
  induction fuel with
  | zero => intro s X _ h; omega
  | succ k ih =>
    intro s X hs hk
    rw [InvalidateChildren_succ]
    by_cases hcond : (!(ru && decide ((s.node X).update_order ≠ -1)) &&
        !(rd && decide ((s.node X).draw_order ≠ -1))) = true
    · rw [if_pos hcond]; exact ⟨s, rfl⟩
    · rw [if_neg hcond]
      have e1 := invalidated_eff s X ru rd
      have hsup2 := supported_of_strip (eraseOrders_strip e1.frame) hs
      have hch := eraseOrders_children e1.frame X
      rw [hch]
      cases hcs : (s.node X).children with
      | nil => exact ⟨_, rfl⟩
      | cons c cs =>
        rw [← hcs]
        have hXL : X ∈ L := hs.1 X (Or.inr (by rw [hcs]; simp))
        have hlt : pendingCount ru rd
            ((s.setUpdateOrder X (if ru then -1 else (s.node X).update_order)).setDrawOrder X
              (if rd then -1 else
                ((s.setUpdateOrder X (if ru then -1 else (s.node X).update_order)).node
                  X).draw_order)) L < pendingCount ru rd s L := by
          apply countP_lt_of_imp _ _ L X hXL
          · revert hcond
            generalize (ru && decide ((s.node X).update_order ≠ -1)) = a
            generalize (rd && decide ((s.node X).draw_order ≠ -1)) = b
            cases a <;> cases b <;> simp
          · rw [invalidated_node, if_pos rfl]
            cases ru <;> cases rd <;> simp_all
          · intro y _ hy
            exact pending_of_eff e1 y hy
        exact invLoop_total (InvalidateChildren_eff ru rd k) (fun s Y h1 h2 => ih s Y h1 h2)
          _ _ hsup2 (by omega)


theorem pendingCount_le (ru rd : Bool) (s : Editor) (L : List NodeId) :
    pendingCount ru rd s L ≤ L.length := List.countP_le_length _

/-- C16. Invalidation touches only what was requested: a call of `InvalidateChildren`
that returns leaves every update order unchanged when `recalc_update` is false and
every draw order unchanged when `recalc_draw` is false, changes no node but `node` and
its descendants, leaves the sentinel -1 in every field it changes, returns at once
(recursion bound 1, state unchanged) when `node` holds -1 in every requested field, and
changes neither adjacency nor dirty flags nor anything but order fields. The call
returns on every graph with finite support once the recursion bound exceeds the
number of nodes. -/
theorem invalidate_only_requested (fuel : Nat) (s : Editor) (node : NodeId)
    (recalc_update recalc_draw : Bool) (t : Editor)
    (h : InvalidateChildren fuel s node recalc_update recalc_draw = some t) :
    (recalc_update = false → ∀ n, (t.node n).update_order = (s.node n).update_order) ∧
    (recalc_draw = false → ∀ n, (t.node n).draw_order = (s.node n).draw_order) ∧
    (∀ n, t.node n ≠ s.node n → n = node ∨ Descendant s node n) ∧
    (∀ n,
      ((t.node n).update_order ≠ (s.node n).update_order → (t.node n).update_order = -1) ∧
      ((t.node n).draw_order ≠ (s.node n).draw_order → (t.node n).draw_order = -1)) ∧
    ((recalc_update = true → (s.node node).update_order = -1) →
      (recalc_draw = true → (s.node node).draw_order = -1) →
      t = s ∧ InvalidateChildren 1 s node recalc_update recalc_draw = some s) ∧
    (∀ n, (t.node n).parents = (s.node n).parents ∧
      (t.node n).children = (s.node n).children ∧ (t.node n).dirty = (s.node n).dirty) ∧
    t.eraseOrders = s.eraseOrders ∧
    (∀ L, Supported s L → ∀ k, L.length < k →
      ∃ u, InvalidateChildren k s node recalc_update recalc_draw = some u) := by
  have e := InvalidateChildren_eff recalc_update recalc_draw fuel s node t h
  refine ⟨e.upd, e.drw, e.within, e.cleared, ?_, ?_, e.frame, ?_⟩
  · intro hu hd
    have hcond : (!(recalc_update && decide ((s.node node).update_order ≠ -1)) &&
        !(recalc_draw && decide ((s.node node).draw_order ≠ -1))) = true := by
      cases recalc_update <;> cases recalc_draw <;> simp_all
    constructor
    · cases fuel with
      | zero => simp [InvalidateChildren] at h
      | succ k =>
        rw [InvalidateChildren_succ, if_pos hcond] at h
        exact (Option.some.inj h).symm
    · rw [InvalidateChildren_succ, if_pos hcond]
  · intro n
    have := (strip_eq_iff _ _).1 (eraseOrders_strip e.frame n)
    exact ⟨this.2.2.2.2.1, this.2.2.2.2.2.1, this.2.2.2.1⟩
  · intro L hL k hk
    exact InvalidateChildren_total recalc_update recalc_draw k s node hL
      (lt_of_le_of_lt (pendingCount_le _ _ _ _) hk)

theorem invalidate_only_requested_witness :
    ∃ s t, run demo [(5, Op.connect 0 2 1 4), (5, Op.connect 1 6 2 8)] = some s ∧
      InvalidateChildren 5 s 1 true false = some t ∧
      ordersOf s 3 = [(0, 0), (1, 1), (2, 1)] ∧ ordersOf t 3 = [(0, 0), (-1, 1), (-1, 1)] ∧
      ((true = false → ∀ n, (t.node n).update_order = (s.node n).update_order) ∧
      (false = false → ∀ n, (t.node n).draw_order = (s.node n).draw_order) ∧
      (∀ n, t.node n ≠ s.node n → n = 1 ∨ Descendant s 1 n) ∧
      (∀ n,
        ((t.node n).update_order ≠ (s.node n).update_order → (t.node n).update_order = -1) ∧
        ((t.node n).draw_order ≠ (s.node n).draw_order → (t.node n).draw_order = -1)) ∧
      ((true = true → (s.node 1).update_order = -1) →
        (false = true → (s.node 1).draw_order = -1) →
        t = s ∧ InvalidateChildren 1 s 1 true false = some s) ∧
      (∀ n, (t.node n).parents = (s.node n).parents ∧
        (t.node n).children = (s.node n).children ∧ (t.node n).dirty = (s.node n).dirty) ∧
      t.eraseOrders = s.eraseOrders ∧
      (∀ L, Supported s L → ∀ k, L.length < k →
        ∃ u, InvalidateChildren k s 1 true false = some u)) := by
  have h : ((run demo [(5, Op.connect 0 2 1 4), (5, Op.connect 1 6 2 8)]).bind
      (fun s => (InvalidateChildren 5 s 1 true false).map
        (fun t => (ordersOf s 3, ordersOf t 3)))) =
      some ([(0, 0), (1, 1), (2, 1)], [(0, 0), (-1, 1), (-1, 1)]) := by decide
  obtain ⟨s, hs, h2⟩ := Option.bind_eq_some.1 h
  obtain ⟨t, ht, ho⟩ := Option.map_eq_some'.1 h2
  simp only [Prod.mk.injEq] at ho
  exact ⟨s, t, hs, ht, ho.1, ho.2, invalidate_only_requested 5 s 1 true false t ht⟩


theorem keeps_refl (F : OrderField) (s : Editor) : Keeps F s s := ⟨rfl, fun _ h => h⟩

theorem keeps_trans {F : OrderField} {s t u : Editor} (h1 : Keeps F s t) (h2 : Keeps F t u) :
    Keeps F s u := ⟨h2.1.trans h1.1, fun n hn => h2.2 n (h1.2 n hn)⟩

theorem maxLoop_keeps {F : OrderField} {f : Editor → NodeId → Option (Int × Editor)}
    (hf : ∀ s X v t, f s X = some (v, t) → Keeps F s t) :
    ∀ (l : List NodeConnection) (acc : Int) (s : Editor) (m : Int) (t : Editor),
      maxLoop f l acc s = some (m, t) → Keeps F s t ∧ acc ≤ m := by
  intro l
  induction l with
  | nil =>
    intro acc s m t h
    simp only [maxLoop, Option.some.injEq, Prod.mk.injEq] at h
    rw [← h.1, ← h.2]
    exact ⟨keeps_refl _ _, le_refl _⟩
  | cons c cs ih =>
    intro acc s m t h
    simp only [maxLoop] at h
    cases hc : f s c.node with
    | none => simp [hc] at h
    | some q =>
      obtain ⟨v, sa⟩ := q
      simp only [hc] at h
      obtain ⟨k1, k2⟩ := ih _ sa m t h
      exact ⟨keeps_trans (hf s c.node v sa hc) k1, le_trans (le_max_left _ _) k2⟩

theorem eachLoop_keeps {F : OrderField} {f : Editor → NodeId → Option (Int × Editor)}
    (hf : ∀ s X v t, f s X = some (v, t) → Keeps F s t) :
    ∀ (l : List NodeConnection) (s : Editor) (t : Editor),
      eachLoop f l s = some t → Keeps F s t := by
  intro l
  induction l with
  | nil =>
    intro s t h
    simp only [eachLoop, Option.some.injEq] at h
    rw [← h]
    exact keeps_refl _ _
  | cons c cs ih =>
    intro s t h
    simp only [eachLoop] at h
    cases hc : f s c.node with
    | none => simp [hc] at h
    | some q =>
      obtain ⟨v, sa⟩ := q
      simp only [hc] at h
      exact keeps_trans (hf s c.node v sa hc) (ih sa t h)

theorem setNode_keeps {F : OrderField} (hF : F.Lawful) (s : Editor) (X : NodeId) (v : Int)
    (hv : v ≠ -1) :
    Keeps F s (s.setNode X (F.set (s.node X) v)) ∧
      (s.setNode X (F.set (s.node X) v)).ord F X ≠ -1 := by
  have hX : (s.setNode X (F.set (s.node X) v)).ord F X = v := by
    simp [Editor.ord, setNode_node, hF.get_set]
  refine ⟨⟨setNode_eraseF hF s X v, ?_⟩, by rw [hX]; exact hv⟩
  intro n hn
  by_cases hnX : n = X
  · subst hnX; rw [hX]; exact hv
  · simpa [Editor.ord, setNode_node, hnX] using hn

/-- In any state, a recalculation that returns changed nothing but its field, kept
every computed value computed, and computed the node it was called on. -/
theorem recalcOrder_keeps {F : OrderField} (hF : F.Lawful) (fuel : Nat) :
    ∀ s X v t, recalcOrder F fuel s X = some (v, t) → Keeps F s t ∧ t.ord F X ≠ -1 := by
  induction fuel with
  | zero => intro s X v t h; simp [recalcOrder] at h
  | succ k ih =>
    intro s X v t h
    simp only [recalcOrder] at h
    by_cases hX : F.get (s.node X) ≠ -1
    · rw [if_pos hX] at h
      simp only [Option.some.injEq, Prod.mk.injEq] at h
      rw [← h.2]
      exact ⟨keeps_refl _ _, hX⟩
    · rw [if_neg hX] at h
      cases h1 : maxLoop (recalcOrder F k) (s.node X).parents F.init s with
      | none => simp [h1] at h
      | some q =>
        obtain ⟨m, s1⟩ := q
        simp only [h1] at h
        obtain ⟨k1, hm⟩ := maxLoop_keeps (fun s X v t h => (ih s X v t h).1) _ _ _ _ _ h1
        have hv : m + F.inc (s1.node X) ≠ -1 := by
          have := hF.inc_nonneg (s1.node X)
          omega
        obtain ⟨k2, hX2⟩ := setNode_keeps hF s1 X _ hv
        generalize s1.setNode X (F.set (s1.node X) (m + F.inc (s1.node X))) = s2 at h k2 hX2
        cases h3 : eachLoop (recalcOrder F k) (s2.node X).children s2 with
        | none => simp [h3] at h
        | some s3 =>
          simp only [h3, Option.some.injEq, Prod.mk.injEq] at h
          obtain ⟨_, rfl⟩ := h
          have k3 := eachLoop_keeps (fun s X v t h => (ih s X v t h).1) _ _ _ h3
          exact ⟨keeps_trans k1 (keeps_trans k2 k3), k3.2 X hX2⟩

theorem invalidCount_keeps {F : OrderField} {s t : Editor} (h : Keeps F s t) (L : List NodeId) :
    invalidCount F t L ≤ invalidCount F s L := by
  apply List.countP_mono_left
  intro x _ hx
  simp only [decide_eq_true_eq] at hx ⊢
  by_contra hne
  exact h.2 x hne hx

theorem maxLoop_total {F : OrderField} (hF : F.Lawful) {r : NodeId → Nat} {R k : Nat}
    {L : List NodeId} {f : Editor → NodeId → Option (Int × Editor)}
    (hspec : ∀ s X v t, f s X = some (v, t) → Keeps F s t)
    (hf : ∀ s Y, Ranked s r → Supported s L →
      invalidCount F s L * (R + 1) + r Y < k → ∃ v t, f s Y = some (v, t)) :
    ∀ (l : List NodeConnection) (acc : Int) (s : Editor), Ranked s r →
      Supported s L → (∀ c ∈ l, invalidCount F s L * (R + 1) + r c.node < k) →
      ∃ m t, maxLoop f l acc s = some (m, t) := by
  intro l
  induction l with
  | nil => intro acc s _ _ _; exact ⟨acc, s, rfl⟩
  | cons c cs ih =>
    intro acc s hr hs hl
    obtain ⟨v, sa, hsa⟩ := hf s c.node hr hs (hl c (List.mem_cons_self _ _))
    have st := hspec s c.node v sa hsa
    have hstrip := eraseF_strip hF st.1
    have hmono := invalidCount_keeps st L
    have := ih (max acc v) sa (ranked_of_strip hstrip hr) (supported_of_strip hstrip hs)
      (by
        intro d hd
        have h1 := hl d (List.mem_cons_of_mem _ hd)
        have h2 : invalidCount F sa L * (R + 1) ≤ invalidCount F s L * (R + 1) :=
          Nat.mul_le_mul_right _ hmono
        omega)
    simp only [maxLoop, hsa]
    exact this

theorem eachLoop_total {F : OrderField} (hF : F.Lawful) {r : NodeId → Nat} {R k : Nat}
    {L : List NodeId} {f : Editor → NodeId → Option (Int × Editor)}
    (hspec : ∀ s X v t, f s X = some (v, t) → Keeps F s t)
    (hf : ∀ s Y, Ranked s r → Supported s L →
      invalidCount F s L * (R + 1) + r Y < k → ∃ v t, f s Y = some (v, t)) :
    ∀ (l : List NodeConnection) (s : Editor), Ranked s r →
      Supported s L → (∀ c ∈ l, invalidCount F s L * (R + 1) + r c.node < k) →
      ∃ t, eachLoop f l s = some t := by
  intro l
  induction l with
  | nil => intro s _ _ _; exact ⟨s, rfl⟩
  | cons c cs ih =>
    intro s hr hs hl
    obtain ⟨v, sa, hsa⟩ := hf s c.node hr hs (hl c (List.mem_cons_self _ _))
    have st := hspec s c.node v sa hsa
    have hstrip := eraseF_strip hF st.1
    have hmono := invalidCount_keeps st L
    have := ih sa (ranked_of_strip hstrip hr) (supported_of_strip hstrip hs)
      (by
        intro d hd
        have h1 := hl d (List.mem_cons_of_mem _ hd)
        have h2 : invalidCount F sa L * (R + 1) ≤ invalidCount F s L * (R + 1) :=
          Nat.mul_le_mul_right _ hmono
        omega)
    simp only [eachLoop, hsa]
    exact this

/-- In any state of a ranked (acyclic) graph with finite support `L` and ranks at most
`R` on `L`, the recalculation of node `X` returns when the recursion bound exceeds
(number of nodes of `L` still to compute) * (R + 1) + rank of `X`. -/
theorem recalcOrder_total {F : OrderField} (hF : F.Lawful) {r : NodeId → Nat} {R : Nat}
    {L : List NodeId} (hR : ∀ n ∈ L, r n ≤ R) :
    ∀ (fuel : Nat) (s : Editor) (X : NodeId), Ranked s r → Supported s L →
      invalidCount F s L * (R + 1) + r X < fuel →
      ∃ v t, recalcOrder F fuel s X = some (v, t) := by
  intro fuel
  induction fuel with
  | zero => intro s X _ _ h; omega
  | succ k ih =>
    intro s X hr hs hk
    simp only [recalcOrder]
    by_cases hX : F.get (s.node X) ≠ -1
    · rw [if_pos hX]; exact ⟨_, _, rfl⟩
    · rw [if_neg hX]
      have hXinv : s.ord F X = -1 := not_not.1 hX
      have hspec : ∀ s X v t, recalcOrder F k s X = some (v, t) → Keeps F s t :=
        fun s X v t h => (recalcOrder_keeps hF k s X v t h).1
      obtain ⟨m, s1, h1⟩ := maxLoop_total hF hspec ih (s.node X).parents F.init s hr hs
        (by
          intro p hpm
          have := hr X p hpm
          omega)
      obtain ⟨k1, hm⟩ := maxLoop_keeps hspec _ _ _ _ _ h1
      have hv : m + F.inc (s1.node X) ≠ -1 := by
        have := hF.inc_nonneg (s1.node X)
        omega
      obtain ⟨k2, hX2⟩ := setNode_keeps hF s1 X _ hv
      simp only [h1]
      generalize s1.setNode X (F.set (s1.node X) (m + F.inc (s1.node X))) = s2 at k2 hX2
      have k02 := keeps_trans k1 k2
      have hstrip2 : ∀ n, (s2.node n).strip = (s.node n).strip := eraseF_strip hF k02.1
      have hch : ∀ c ∈ (s2.node X).children,
          invalidCount F s2 L * (R + 1) + r c.node < k := by
        intro c hc
        rw [strip_children (hstrip2 X)] at hc
        have hXL : X ∈ L := hs.1 X (Or.inr (List.ne_nil_of_mem hc))
        have hcL : r c.node ≤ R := hR _ (hs.2 X c (Or.inr hc))
        have hlt : invalidCount F s2 L < invalidCount F s L := by
          apply countP_lt_of_imp _ _ L X hXL
          · simpa using hXinv
          · simpa using hX2
          · intro y _ hy
            simp only [decide_eq_true_eq] at hy ⊢
            by_contra hne
            exact k02.2 y hne hy
        have h3 : (invalidCount F s2 L + 1) * (R + 1) ≤ invalidCount F s L * (R + 1) :=
          Nat.mul_le_mul_right _ hlt
        rw [Nat.succ_mul] at h3
        omega
      obtain ⟨s3, h3⟩ := eachLoop_total hF hspec ih (s2.node X).children s2
        (ranked_of_strip hstrip2 hr) (supported_of_strip hstrip2 hs) hch
      simp only [h3]
      exact ⟨_, _, rfl⟩


theorem invalidCount_le (F : OrderField) (s : Editor) (L : List NodeId) :
    invalidCount F s L ≤ L.length := List.countP_le_length _

/-- On a ranked (acyclic) graph with finite support, in any state and for any flag
pair, `RecalculateTraversalOrder` returns when the recursion bound exceeds
(size of the support) * (R + 1) + rank of the start node. -/
theorem RecalculateTraversalOrder_total (fuel : Nat) (g : Editor) (X : NodeId) (ru rd : Bool)
    (r : NodeId → Nat) (R : Nat) (L : List NodeId)
    (hr : Ranked g r) (hs : Supported g L) (hR : ∀ n ∈ L, r n ≤ R)
    (hfuel : L.length * (R + 1) + r X < fuel) :
    ∃ t, RecalculateTraversalOrder fuel g X ru rd = some t := by
  have hlen : L.length ≤ L.length * (R + 1) := Nat.le_mul_of_pos_right _ (by omega)
  obtain ⟨gi, hinv⟩ := InvalidateChildren_total ru rd fuel g X hs
    (lt_of_le_of_lt (pendingCount_le _ _ _ _) (by omega))
  have hstrip1 := eraseOrders_strip (InvalidateChildren_eff ru rd fuel g X gi hinv).frame
  have hr1 := ranked_of_strip hstrip1 hr
  have hs1 := supported_of_strip hstrip1 hs
  have hbound : ∀ (F : OrderField) (s : Editor),
      invalidCount F s L * (R + 1) + r X < fuel := by
    intro F s
    have h1 : invalidCount F s L * (R + 1) ≤ L.length * (R + 1) :=
      Nat.mul_le_mul_right _ (invalidCount_le F s L)
    omega
  have hupd : ∃ gu, (if ru = true then (RecalculateUpdateOrder fuel gi X).map Prod.snd
      else some gi) = some gu ∧ ∀ n, (gu.node n).strip = (gi.node n).strip := by
    by_cases hru : ru = true
    · rw [if_pos hru, RecalculateUpdateOrder_eq]
      obtain ⟨v, gu, hu⟩ := recalcOrder_total updateField_lawful hR fuel gi X hr1 hs1
        (hbound _ _)
      exact ⟨gu, by rw [hu]; rfl,
        eraseF_strip updateField_lawful (recalcOrder_frame updateField_lawful fuel _ _ _ _ hu)⟩
    · rw [if_neg hru]; exact ⟨gi, rfl, fun _ => rfl⟩
  obtain ⟨gu, hu, hstrip2⟩ := hupd
  have hr2 := ranked_of_strip hstrip2 hr1
  have hs2 := supported_of_strip hstrip2 hs1
  unfold RecalculateTraversalOrder
  simp only [hinv, hu]
  by_cases hrd : rd = true
  · rw [if_pos hrd, RecalculateDrawOrder_eq]
    obtain ⟨v, gd, hd⟩ := recalcOrder_total drawField_lawful hR fuel gu X hr2 hs2 (hbound _ _)
    exact ⟨gd, by rw [hd]; rfl⟩
  · rw [if_neg hrd]; exact ⟨gu, rfl⟩

/-- C17. Termination on DAGs: on every graph with finite support that has a ranking
(parents rank below children, so no cycle), in any state, `RecalculateTraversalOrder`
returns for every node and flag pair once the recursion bound is large enough, and
`UpdateVisibleNodeGraph` ends (by returning or at the assertion of its parent loop);
`InvalidateChildren` returns on every graph with finite support, ranked or not. -/
theorem termination_on_dags (s : Editor) (L : List NodeId) (hfin : Supported s L) :
    (∀ r, Ranked s r → ∀ node recalc_update recalc_draw, ∃ N, ∀ fuel, N ≤ fuel →
      ∃ t, RecalculateTraversalOrder fuel s node recalc_update recalc_draw = some t) ∧
    (∀ r, Ranked s r → ∀ node, ∃ N, ∀ fuel, N ≤ fuel →
      ∃ fr, UpdateVisibleNodeGraph fuel ⟨s, []⟩ node = Res.ok () fr ∨
        UpdateVisibleNodeGraph fuel ⟨s, []⟩ node = Res.assertFail fr) ∧
    (∀ node recalc_update recalc_draw, ∃ N, ∀ fuel, N ≤ fuel →
      ∃ t, InvalidateChildren fuel s node recalc_update recalc_draw = some t) := by
  refine ⟨?_, ?_, ?_⟩
  · intro r hr node ru rd
    refine ⟨L.length * ((L.map r).sum + 1) + r node + 1, ?_⟩
    intro fuel hfuel
    exact RecalculateTraversalOrder_total fuel s node ru rd r (L.map r).sum L hr hfin
      (fun n hn => List.le_sum_of_mem (List.mem_map_of_mem _ hn)) (by omega)
  · intro r hr node
    refine ⟨r node + 1, ?_⟩
    intro fuel hfuel
    have h := UpdateVisibleNodeGraph_fuel hr fuel ⟨s, []⟩ node (frameInv_init s) (by omega)
    cases hres : UpdateVisibleNodeGraph fuel ⟨s, []⟩ node with
    | ok u fr => exact ⟨fr, Or.inl rfl⟩
    | assertFail fr => exact ⟨fr, Or.inr rfl⟩
    | outOfFuel => exact absurd hres h
  · intro node ru rd
    refine ⟨L.length + 1, ?_⟩
    intro fuel hfuel
    exact InvalidateChildren_total ru rd fuel s node hfin
      (lt_of_le_of_lt (pendingCount_le _ _ _ _) (by omega))

theorem termination_on_dags_witness :
    ∃ t L, run demoNodes demoWiring = some t ∧ Supported t L ∧
      Ranked t (fun n => ((t.node n).update_order).toNat) ∧
      (t.node 1).parents = [⟨0, 1⟩, ⟨2, 1⟩] ∧
      ((∀ r, Ranked t r → ∀ node recalc_update recalc_draw, ∃ N, ∀ fuel, N ≤ fuel →
        ∃ u, RecalculateTraversalOrder fuel t node recalc_update recalc_draw = some u) ∧
      (∀ r, Ranked t r → ∀ node, ∃ N, ∀ fuel, N ≤ fuel →
        ∃ fr, UpdateVisibleNodeGraph fuel ⟨t, []⟩ node = Res.ok () fr ∨
          UpdateVisibleNodeGraph fuel ⟨t, []⟩ node = Res.assertFail fr) ∧
      (∀ node recalc_update recalc_draw, ∃ N, ∀ fuel, N ≤ fuel →
        ∃ u, InvalidateChildren fuel t node recalc_update recalc_draw = some u)) := by
  have h : (run demoNodes demoWiring).map (fun t => (t.node 1).parents) =
      some [⟨0, 1⟩, ⟨2, 1⟩] := by decide
  obtain ⟨t, ht, ho⟩ := Option.map_eq_some'.1 h
  have hwf0 := fresh_wf demoNodes_fresh
  have hwf : WF t := (run_WF _ demoNodes t hwf0 ht).1
  obtain ⟨L, hL⟩ := run_supported _ demoNodes t [] hwf0 (fresh_supported demoNodes_fresh) ht
  exact ⟨t, L, ht, hL, wf_ranked hwf, ho, termination_on_dags t L hL⟩

theorem maxLoop_unfounded {F : OrderField} {C : NodeId → Prop}
    {f : Editor → NodeId → Option (Int × Editor)}
    (hf1 : ∀ s X, Unfounded F C s → C X → f s X = none)
    (hf2 : ∀ s X v t, Unfounded F C s → f s X = some (v, t) → Unfounded F C t) :
    ∀ (l : List NodeConnection) (acc : Int) (s : Editor), Unfounded F C s →
      ((∃ c ∈ l, C c.node) → maxLoop f l acc s = none) ∧
      (∀ m t, maxLoop f l acc s = some (m, t) → Unfounded F C t) := by
  intro l
  induction l with
  | nil =>
    intro acc s hs
    constructor
    · rintro ⟨c, hc, _⟩
      cases hc
    · intro m t h
      simp only [maxLoop, Option.some.injEq, Prod.mk.injEq] at h
      rw [← h.2]; exact hs
  | cons c cs ih =>
    intro acc s hs
    cases hc : f s c.node with
    | none =>
      have e : maxLoop f (c :: cs) acc s = none := by simp only [maxLoop, hc]
      rw [e]
      exact ⟨fun _ => rfl, fun m t h => by cases h⟩
    | some q =>
      obtain ⟨v, sa⟩ := q
      have e : maxLoop f (c :: cs) acc s = maxLoop f cs (max acc v) sa := by
        simp only [maxLoop, hc]
      rw [e]
      have hsa := hf2 s c.node v sa hs hc
      obtain ⟨i1, i2⟩ := ih (max acc v) sa hsa
      refine ⟨?_, i2⟩
      rintro ⟨d, hd, hCd⟩
      rcases List.mem_cons.1 hd with e | e
      · subst e
        have := hf1 s d.node hs hCd
        rw [this] at hc; cases hc
      · exact i1 ⟨d, e, hCd⟩

theorem eachLoop_unfounded {F : OrderField} {C : NodeId → Prop}
    {f : Editor → NodeId → Option (Int × Editor)}
    (hf2 : ∀ s X v t, Unfounded F C s → f s X = some (v, t) → Unfounded F C t) :
    ∀ (l : List NodeConnection) (s t : Editor), Unfounded F C s →
      eachLoop f l s = some t → Unfounded F C t := by
  intro l
  induction l with
  | nil =>
    intro s t hs h
    simp only [eachLoop, Option.some.injEq] at h
    rw [← h]; exact hs
  | cons c cs ih =>
    intro s t hs h
    simp only [eachLoop] at h
    cases hc : f s c.node with
    | none => simp [hc] at h
    | some q =>
      obtain ⟨v, sa⟩ := q
      simp only [hc] at h
      exact ih sa t (hf2 s c.node v sa hs hc) h

/-- A recalculation entered on a node of an unfounded set returns for no recursion
bound, and a recalculation that returns leaves the set unfounded. -/
theorem recalcOrder_unfounded {F : OrderField} {C : NodeId → Prop} (fuel : Nat) :
    ∀ s X, Unfounded F C s →
      (C X → recalcOrder F fuel s X = none) ∧
      (∀ v t, recalcOrder F fuel s X = some (v, t) → Unfounded F C t) := by
  induction fuel with
  | zero =>
    intro s X _
    exact ⟨fun _ => rfl, fun v t h => by simp [recalcOrder] at h⟩
  | succ k ih =>
    intro s X hs
    have hf1 : ∀ s X, Unfounded F C s → C X → recalcOrder F k s X = none :=
      fun s X h hX => (ih s X h).1 hX
    have hf2 : ∀ s X v t, Unfounded F C s → recalcOrder F k s X = some (v, t) →
        Unfounded F C t := fun s X v t h hr => (ih s X h).2 v t hr
    simp only [recalcOrder]
    by_cases hX : F.get (s.node X) ≠ -1
    · rw [if_pos hX]
      constructor
      · intro hC; exact absurd (hs X hC).1 hX
      · intro v t h
        simp only [Option.some.injEq, Prod.mk.injEq] at h
        rw [← h.2]; exact hs
    · rw [if_neg hX]
      obtain ⟨m1, m2⟩ := maxLoop_unfounded hf1 hf2 (s.node X).parents F.init s hs
      cases h1 : maxLoop (recalcOrder F k) (s.node X).parents F.init s with
      | none => exact ⟨fun _ => rfl, fun v t h => by cases h⟩
      | some q =>
        obtain ⟨m, s1⟩ := q
        have hs1 := m2 m s1 h1
        have hXC : ¬ C X := by
          intro hC
          have := m1 (hs X hC).2
          rw [this] at h1; cases h1
        have hs2 : Unfounded F C (s1.setNode X (F.set (s1.node X) (m + F.inc (s1.node X)))) := by
          intro z hz
          have hzX : z ≠ X := fun e => hXC (e ▸ hz)
          have := hs1 z hz
          simpa [Editor.ord, setNode_node, hzX] using this
        simp only
        generalize s1.setNode X (F.set (s1.node X) (m + F.inc (s1.node X))) = s2 at hs2
        refine ⟨fun hC => absurd hC hXC, ?_⟩
        intro v t h
        cases h3 : eachLoop (recalcOrder F k) (s2.node X).children s2 with
        | none => simp [h3] at h
        | some s3 =>
          simp only [h3, Option.some.injEq, Prod.mk.injEq] at h
          rw [← h.2]
          exact eachLoop_unfounded hf2 _ _ _ hs2 h3


theorem ancestor_rank {s : Editor} {r : NodeId → Nat} (hr : Ranked s r) {a n : NodeId}
    (h : Ancestor s a n) : r a < r n := by
  induction h with
  | parent hp => exact hr _ _ hp
  | step hp _ ih => exact lt_trans ih (hr _ _ hp)

theorem ancestor_trans {s : Editor} {a b c : NodeId} (h1 : Ancestor s a b)
    (h2 : Ancestor s b c) : Ancestor s a c := by
  induction h2 with
  | parent hp => exact Ancestor.step hp h1
  | step hp _ ih => exact Ancestor.step hp (ih h1)

theorem wf_no_self {s : Editor} (h : WF s) (a : NodeId) : ¬ Ancestor s a a :=
  fun ha => lt_irrefl _ (ancestor_rank (wf_ranked h) ha)

theorem addConn_keeps (n : NodeId) (l : List NodeConnection) {d : NodeConnection}
    (hd : d ∈ l) : ∃ c ∈ (addConn n l).2, c.node = d.node := by
  obtain ⟨k, hk⟩ := findConn_of_mem hd
  have h := findConn_addConn n l d.node
  by_cases e : d.node = n
  · rw [if_pos e] at h
    exact ⟨_, mem_of_findConn h, rfl⟩
  · rw [if_neg e, hk] at h
    exact ⟨_, mem_of_findConn h, rfl⟩

theorem connectEdge_child_kept (s : Editor) (A : NodeId) (j : Nat) (B : NodeId) (i : Nat)
    {a : NodeId} {d : NodeConnection} (hd : d ∈ (s.node a).children) :
    ∃ c ∈ ((connectEdge s A j B i).node a).children, c.node = d.node := by
  simp only [connectEdge_node]
  split
  · rename_i e; subst e
    exact addConn_keeps B _ hd
  · exact ⟨d, hd, rfl⟩

/-- After the invalidation started by `Connect` on the child, every descendant of a
fully invalid node is fully invalid. -/
theorem invalidated_descendants {s gi : Editor} (hs : WF s) {A B : NodeId} {i j : Nat}
    {R : NodeId → Prop} (hi : IStep R (connectEdge s A j B i) gi) :
    ∀ a z, Ancestor s a z → FullInv gi a → FullInv gi z := by
  have key : ∀ (n : NodeId) (p : NodeConnection), p ∈ (s.node n).parents →
      FullInv gi p.node → FullInv gi n := by
    intro n p hp hfull
    obtain ⟨c, hc, hcn⟩ := adjSym_child_of_parent hs.sym hp
    have hvalid := hs.valid p.node (connected_of_child hc)
    have hnot : ¬ FullInv (connectEdge s A j B i) p.node := by
      intro hf
      apply hvalid.1
      have := hf.1
      simpa [connectEdge_node] using this
    obtain ⟨c2, hc2, hc2n⟩ := connectEdge_child_kept s A j B i hc
    rw [← eraseOrders_children hi.1 p.node] at hc2
    have := hi.2.2.1 p.node ⟨hnot, hfull⟩ c2 hc2
    rw [hc2n, hcn] at this
    exact this
  intro a z h
  induction h with
  | parent hp => exact key _ _ hp
  | step hp _ ih => exact fun hfull => key _ _ hp (ih hfull)

/-- After the invalidation started by `Connect(parent, _, child, _)` when `child` is
`parent` itself or an ancestor of it, the nodes on the cycle are an unfounded set. -/
theorem unfounded_after_invalidate {s gi : Editor} (hs : WF s) {A B : NodeId} {i j : Nat}
    {R : NodeId → Prop} (hi : IStep R (connectEdge s A j B i) gi) (hB : FullInv gi B)
    (hcyc : A = B ∨ Ancestor s B A) :
    Unfounded updateField (onCycle s A B) gi := by
  intro z hz
  constructor
  · have hfull : FullInv gi z := by
      rcases hz.1 with e | e
      · rw [e]; exact hB
      · exact invalidated_descendants hs hi B z e hB
    exact hfull.1
  · have hpar : (gi.node z).parents = ((connectEdge s A j B i).node z).parents :=
      strip_parents (eraseOrders_strip hi.1 z)
    rw [hpar]
    simp only [connectEdge_node]
    by_cases hzB : z = B
    · rw [if_pos hzB]
      obtain ⟨c, hc, hcA⟩ := addConn_has A (s.node B).parents
      refine ⟨c, hc, ?_⟩
      rw [hcA]
      refine ⟨?_, Or.inl rfl⟩
      rcases hcyc with e | e
      · exact Or.inl e
      · exact Or.inr e
    · rw [if_neg hzB]
      have hanc : Ancestor s B z := by
        rcases hz.1 with e | e
        · exact absurd e hzB
        · exact e
      obtain ⟨p, hp, hpB⟩ := ancestor_cases hanc
      refine ⟨p, hp, ?_, ?_⟩
      · rcases hpB with e | e
        · exact Or.inl e.symm
        · exact Or.inr e
      · right
        rcases hz.2 with e | e
        · rw [← e]; exact Ancestor.parent hp
        · exact ancestor_of_parent e hp

/-- In a consistent state, a `Connect` that passes validation and whose edge closes a
cycle returns for no recursion bound: after the invalidation the cycle is an unfounded
set and the recalculation of the child never finishes. -/
theorem connect_closing_cycle {s : Editor} (hs : WF s) {A B : NodeId} {pco pci : PinId}
    {i j : Nat}
    (hd1 : (s.pin pci).dir = PinDir.input) (hd2 : (s.pin pco).dir = PinDir.output)
    (hd3 : (s.pin pco).type = (s.pin pci).type)
    (hfi : FindPinInput s B pci = some i) (hfj : FindPinOutput s A pco = some j)
    (hcyc : A = B ∨ Ancestor s B A) :
    (∀ fuel, Connect fuel s A pco B pci = Res.outOfFuel) ∧
    (∀ fuel gi, InvalidateChildren fuel (connectEdge s A j B i) B true true = some gi →
      (∀ z, onCycle s A B z → (gi.node z).update_order = -1) ∧
      ∀ fuel2, RecalculateUpdateOrder fuel2 gi B = none) := by
  have hBC : onCycle s A B B := by
    refine ⟨Or.inl rfl, ?_⟩
    rcases hcyc with e | e
    · exact Or.inl e.symm
    · exact Or.inr e
  have hinv : ∀ fuel gi,
      InvalidateChildren fuel (connectEdge s A j B i) B true true = some gi →
      (∀ z, onCycle s A B z → (gi.node z).update_order = -1) ∧
      ∀ fuel2, RecalculateUpdateOrder fuel2 gi B = none := by
    intro fuel gi h
    obtain ⟨hi, hB⟩ := InvalidateChildren_spec fuel _ _ _ h
    have hu := unfounded_after_invalidate hs hi hB hcyc
    refine ⟨fun z hz => (hu z hz).1, ?_⟩
    intro fuel2
    rw [RecalculateUpdateOrder_eq]
    exact (recalcOrder_unfounded fuel2 gi B hu).1 hBC
  refine ⟨?_, hinv⟩
  intro fuel
  have hnew : findConn (s.node B).parents A = none := by
    cases hf : findConn (s.node B).parents A with
    | none => rfl
    | some k =>
      exfalso
      have hp : Ancestor s A B := Ancestor.parent (p := ⟨A, k⟩) (mem_of_findConn hf)
      rcases hcyc with e | e
      · rw [e] at hp; exact wf_no_self hs B hp
      · exact wf_no_self hs B (ancestor_trans e hp)
  have hrr : connectRearranged s A j B i = true := by
    rw [connectRearranged_eq, (addConn_fst A (s.node B).parents).2 hnew]
    rfl
  rw [Connect_eq, if_neg (not_not.2 hd1), if_neg (not_not.2 hd2), if_neg (not_not.2 hd3)]
  simp only [hfi, hfj, if_pos hrr]
  have hnone : RecalculateTraversalOrder fuel (connectEdge s A j B i) B true true = none := by
    unfold RecalculateTraversalOrder
    cases h : InvalidateChildren fuel (connectEdge s A j B i) B true true with
    | none => rfl
    | some gi =>
      simp only [if_true]
      rw [(hinv fuel gi h).2 fuel]
      rfl
  rw [hnone]


theorem connectEdge_supported {s : Editor} {L : List NodeId} (hs : Supported s L)
    (A : NodeId) (j : Nat) (B : NodeId) (i : Nat) :
    Supported (connectEdge s A j B i) (A :: B :: L) := by
  have hmem : ∀ m c, (c ∈ ((connectEdge s A j B i).node m).parents ∨
      c ∈ ((connectEdge s A j B i).node m).children) → c.node ∈ A :: B :: L := by
    intro m c hc
    simp only [connectEdge_node] at hc
    rcases hc with hc | hc
    · split at hc
      · rcases addConn_mem_node _ _ _ hc with e | ⟨d, hd, hdn⟩
        · rw [e]; simp
        · rw [← hdn]
          exact List.mem_cons_of_mem _ (List.mem_cons_of_mem _ (hs.2 B d (Or.inl hd)))
      · exact List.mem_cons_of_mem _ (List.mem_cons_of_mem _ (hs.2 m c (Or.inl hc)))
    · split at hc
      · rcases addConn_mem_node _ _ _ hc with e | ⟨d, hd, hdn⟩
        · rw [e]; simp
        · rw [← hdn]
          exact List.mem_cons_of_mem _ (List.mem_cons_of_mem _ (hs.2 A d (Or.inr hd)))
      · exact List.mem_cons_of_mem _ (List.mem_cons_of_mem _ (hs.2 m c (Or.inr hc)))
  refine ⟨?_, hmem⟩
  intro n hn
  by_cases hA : n = A
  · rw [hA]; simp
  by_cases hB : n = B
  · rw [hB]; simp
  apply List.mem_cons_of_mem _ (List.mem_cons_of_mem _ _)
  apply hs.1
  unfold Connected at hn ⊢
  simpa [connectEdge_node, hA, hB] using hn

/-- C19. Cycles are unhandled: in every state reached from fresh nodes by successful
calls, a `Connect` that passes validation (directions, types, both pins found) and
whose edge `parent -> child` closes a cycle (`child` is `parent` itself or an ancestor
of it) returns for no recursion bound. The invalidation it starts does return once the
bound is large enough; after it every node on the cycle has update order -1, and the
recalculation of the update order of `child` then returns for no recursion bound. -/
theorem cycles_unhandled (s0 : Editor) (pre : List (Nat × Op)) (s : Editor)
    (parent : NodeId) (pin_co : PinId) (child : NodeId) (pin_ci : PinId) (i j : Nat)
    (h0 : Fresh s0) (hpre : run s0 pre = some s)
    (hd1 : (s.pin pin_ci).dir = PinDir.input) (hd2 : (s.pin pin_co).dir = PinDir.output)
    (hd3 : (s.pin pin_co).type = (s.pin pin_ci).type)
    (hfi : FindPinInput s child pin_ci = some i) (hfj : FindPinOutput s parent pin_co = some j)
    (hcyc : parent = child ∨ Ancestor s child parent) :
    (∀ fuel, Connect fuel s parent pin_co child pin_ci = Res.outOfFuel) ∧
    (∃ N, ∀ fuel, N ≤ fuel →
      ∃ gi, InvalidateChildren fuel (connectEdge s parent j child i) child true true =
        some gi) ∧
    (∀ fuel gi,
      InvalidateChildren fuel (connectEdge s parent j child i) child true true = some gi →
      (∀ z, onCycle s parent child z → (gi.node z).update_order = -1) ∧
      ∀ fuel2, RecalculateUpdateOrder fuel2 gi child = none) := by
  have hwf0 := fresh_wf h0
  have hwf : WF s := (run_WF pre s0 s hwf0 hpre).1
  obtain ⟨L, hL⟩ := run_supported pre s0 s [] hwf0 (fresh_supported h0) hpre
  obtain ⟨h1, h2⟩ := connect_closing_cycle hwf hd1 hd2 hd3 hfi hfj hcyc
  refine ⟨h1, ⟨(parent :: child :: L).length + 1, ?_⟩, h2⟩
  intro fuel hfuel
  exact InvalidateChildren_total true true fuel _ child
    (connectEdge_supported hL parent j child i)
    (lt_of_le_of_lt (pendingCount_le _ _ _ _) (by omega))

theorem cycles_unhandled_witness :
    ∃ s, run demo [(5, Op.connect 0 2 1 4)] = some s ∧
      (s.node 1).parents = [⟨0, 1⟩] ∧ Ancestor s 0 1 ∧
      ((∀ fuel, Connect fuel s 1 6 0 0 = Res.outOfFuel) ∧
      (∃ N, ∀ fuel, N ≤ fuel →
        ∃ gi, InvalidateChildren fuel (connectEdge s 1 0 0 0) 0 true true = some gi) ∧
      (∀ fuel gi,
        InvalidateChildren fuel (connectEdge s 1 0 0 0) 0 true true = some gi →
        (∀ z, onCycle s 1 0 z → (gi.node z).update_order = -1) ∧
        ∀ fuel2, RecalculateUpdateOrder fuel2 gi 0 = none)) := by
  have h : (run demo [(5, Op.connect 0 2 1 4)]).map
      (fun s => ((s.pin 0).dir, (s.pin 6).dir, decide ((s.pin 6).type = (s.pin 0).type))) =
      some (PinDir.input, PinDir.output, true) := by decide
  have h2 : (run demo [(5, Op.connect 0 2 1 4)]).map
      (fun s => (FindPinInput s 0 0, FindPinOutput s 1 6, (s.node 1).parents)) =
      some (some 0, some 0, [⟨0, 1⟩]) := by decide
  obtain ⟨s, hs, ho⟩ := Option.map_eq_some'.1 h
  rw [hs] at h2
  simp only [Option.map_some', Option.some.injEq, Prod.mk.injEq, decide_eq_true_eq] at h2 ho
  obtain ⟨ho1, ho2, ho3⟩ := ho
  obtain ⟨ho4, ho5, ho6⟩ := h2
  have hanc : Ancestor s 0 1 := Ancestor.parent (p := ⟨0, 1⟩) (by rw [ho6]; simp)
  exact ⟨s, hs, ho6, hanc,
    cycles_unhandled demo [(5, Op.connect 0 2 1 4)] s 1 6 0 0 0 0 demo_fresh hs
      ho1 ho2 ho3 ho4 ho5 (Or.inr hanc)⟩


theorem findSlot_none {α : Type} (p : α → Bool) :
    ∀ l : List α, findSlot p l = none ↔ ∀ x ∈ l, p x = false := by
  intro l
  induction l with
  | nil => simp [findSlot]
  | cons x xs ih =>
    simp only [findSlot, List.mem_cons, forall_eq_or_imp]
    by_cases hx : p x = true
    · simp [hx]
    · simp only [hx, Bool.false_eq_true, if_false, Option.map_eq_none', ih]
      simp only [Bool.not_eq_true] at hx
      simp [hx]

theorem findSlot_first {α : Type} [Inhabited α] (p : α → Bool) :
    ∀ (l : List α) (i : Nat), findSlot p l = some i →
      i < l.length ∧ p (l.getD i default) = true ∧ ∀ k, k < i → p (l.getD k default) = false := by
  intro l
  induction l with
  | nil => intro i h; simp [findSlot] at h
  | cons x xs ih =>
    intro i h
    simp only [findSlot] at h
    by_cases hx : p x = true
    · rw [if_pos hx] at h
      simp only [Option.some.injEq] at h
      subst h
      exact ⟨by simp, by simpa using hx, fun k hk => by omega⟩
    · rw [if_neg hx] at h
      obtain ⟨i2, hi2, e⟩ := Option.map_eq_some'.1 h
      subst e
      obtain ⟨h1, h2, h3⟩ := ih i2 hi2
      refine ⟨by simp; omega, by simpa using h2, ?_⟩
      intro k hk
      cases k with
      | zero => simpa using hx
      | succ k => simpa using h3 k (by omega)

theorem Connect_found (fuel : Nat) {s : Editor} {A B : NodeId} {pco pci : PinId} {i j : Nat}
    (hd1 : (s.pin pci).dir = PinDir.input) (hd2 : (s.pin pco).dir = PinDir.output)
    (hd3 : (s.pin pco).type = (s.pin pci).type)
    (hfi : FindPinInput s B pci = some i) (hfj : FindPinOutput s A pco = some j) :
    Connect fuel s A pco B pci =
      if connectRearranged s A j B i = true then
        match RecalculateTraversalOrder fuel (connectEdge s A j B i) B true true with
        | none => Res.outOfFuel
        | some s5 => Res.ok true s5
      else Res.ok true (connectEdge s A j B i) := by
  rw [Connect_eq, if_neg (not_not.2 hd1), if_neg (not_not.2 hd2), if_neg (not_not.2 hd3)]
  simp only [hfi, hfj]

theorem Connect_missing (fuel : Nat) {s : Editor} {A B : NodeId} {pco pci : PinId}
    (h : FindPinInput s B pci = none ∨ FindPinOutput s A pco = none) :
    Connect fuel s A pco B pci = Res.assertFail s := by
  rw [Connect_eq]
  split_ifs
  · rfl
  · rfl
  · rfl
  · rcases h with h | h
    · rw [h]
    · rw [h]
      cases FindPinInput s B pci <;> rfl

theorem ranked_node_congr {s t : Editor} {r : NodeId → Nat}
    (h : ∀ n, (t.node n).parents = (s.node n).parents) (hs : Ranked s r) : Ranked t r := by
  intro n p hp
  rw [h n] at hp
  exact hs n p hp


/-- C18 (as stated) fails. For the output pin 2 of node 0 and the input pin 0, of equal
type, pin 0 is not an input pin of node 1: `Connect(0, 2, 1, 0)` changes nothing, but
it stops at the failed assertion and does not return false. And for node 0 connected
to itself both pins are found, yet the call returns for no recursion bound. -/
theorem ownership_counterexample :
    ((demo.pin 0).dir = PinDir.input ∧ (demo.pin 2).dir = PinDir.output ∧
      (demo.pin 2).type = (demo.pin 0).type ∧ FindPinInput demo 1 0 = none ∧
      Connect 5 demo 0 2 1 0 = Res.assertFail demo ∧
      ∀ t, Connect 5 demo 0 2 1 0 ≠ Res.ok false t) ∧
    (FindPinInput demo 0 0 = some 0 ∧ FindPinOutput demo 0 2 = some 0 ∧
      ∀ fuel t, Connect fuel demo 0 2 0 0 ≠ Res.ok true t) := by
  have h1 : Connect 5 demo 0 2 1 0 = Res.assertFail demo :=
    Connect_missing 5 (Or.inl (by decide))
  refine ⟨⟨by decide, by decide, by decide, by decide, h1, ?_⟩, by decide, by decide, ?_⟩
  · intro t e
    rw [h1] at e
    cases e
  · intro fuel t e
    have h2 : ∀ k, Connect k demo 0 2 0 0 = Res.outOfFuel :=
      (connect_closing_cycle (fresh_wf demo_fresh) (by decide) (by decide) (by decide)
        (by decide : FindPinInput demo 0 0 = some 0)
        (by decide : FindPinOutput demo 0 2 = some 0) (Or.inl rfl)).1
    rw [h2 fuel] at e
    cases e

/-- C18 (as amended). Ownership validation is atomic: for type-compatible pins of
correct directions, when `pin_ci` is not one of the child's input pins or `pin_co` is
not one of the parent's output pins (`FindPinInput` / `FindPinOutput` give the first
matching slot, or null when no slot matches), `Connect` stops at the failed assertion
`assert(pin_in && pin_out)` in the state it was called in. When both pins are found the
call fails no assertion and does not return false; when it returns, it returns true
with exactly one entry appended to the fan-out of the output pin and exactly one link
appended; and it returns, for every large enough recursion bound, when the graph with
the new edge has a ranking (no cycle) and finite support. In the build without
assertions the call returns false in the state it was called in when a pin is not
found, and does what the build with assertions does when both are found. -/
theorem ownership_validation (fuel : Nat) (s : Editor) (parent : NodeId) (pin_co : PinId)
    (child : NodeId) (pin_ci : PinId)
    (hd1 : (s.pin pin_ci).dir = PinDir.input) (hd2 : (s.pin pin_co).dir = PinDir.output)
    (hd3 : (s.pin pin_co).type = (s.pin pin_ci).type) :
    ((FindPinInput s child pin_ci = none ↔ ∀ x ∈ (s.node child).pin_inputs, x.pin ≠ pin_ci) ∧
      (FindPinOutput s parent pin_co = none ↔
        ∀ x ∈ (s.node parent).pin_outputs, x.pin ≠ pin_co)) ∧
    ((FindPinInput s child pin_ci = none ∨ FindPinOutput s parent pin_co = none) →
      Connect fuel s parent pin_co child pin_ci = Res.assertFail s) ∧
    (∀ i j, FindPinInput s child pin_ci = some i → FindPinOutput s parent pin_co = some j →
      (i < (s.node child).pin_inputs.length ∧
        ((s.node child).pin_inputs.getD i default).pin = pin_ci ∧
        ∀ k, k < i → ((s.node child).pin_inputs.getD k default).pin ≠ pin_ci) ∧
      (j < (s.node parent).pin_outputs.length ∧
        ((s.node parent).pin_outputs.getD j default).pin = pin_co ∧
        ∀ k, k < j → ((s.node parent).pin_outputs.getD k default).pin ≠ pin_co) ∧
      (∀ u, Connect fuel s parent pin_co child pin_ci ≠ Res.assertFail u) ∧
      (∀ t, Connect fuel s parent pin_co child pin_ci ≠ Res.ok false t) ∧
      (∀ t, Connect fuel s parent pin_co child pin_ci = Res.ok true t →
        (∀ n, (t.node n).pin_outputs =
          if n = parent then (s.node parent).pin_outputs.modify
            (fun o => ⟨o.pin, o.connections ++ [(s.node child).pin_inputs.getD i default]⟩) j
          else (s.node n).pin_outputs) ∧
        t.links = s.links ++ [⟨(child, i), (parent, j)⟩]) ∧
      (∀ r L, Ranked (connectEdge s parent j child i) r → Supported s L →
        ∃ N, ∀ k, N ≤ k → ∃ t, Connect k s parent pin_co child pin_ci = Res.ok true t)) ∧
    (((FindPinInput s child pin_ci = none ∨ FindPinOutput s parent pin_co = none) →
        ConnectNoAssert fuel s parent pin_co child pin_ci = Res.ok false s) ∧
      (∀ i j, FindPinInput s child pin_ci = some i → FindPinOutput s parent pin_co = some j →
        ConnectNoAssert fuel s parent pin_co child pin_ci =
          Connect fuel s parent pin_co child pin_ci)) := by
  refine ⟨⟨?_, ?_⟩, fun h => Connect_missing fuel h, ?_, ?_⟩
  · unfold FindPinInput
    rw [findSlot_none]
    simp
  · unfold FindPinOutput
    rw [findSlot_none]
    simp
  intro i j hfi hfj
  have hform := fun k => Connect_found k hd1 hd2 hd3 hfi hfj
  refine ⟨?_, ?_, ?_, ?_, ?_, ?_⟩
  · obtain ⟨h1, h2, h3⟩ := findSlot_first _ _ _ hfi
    exact ⟨h1, by simpa using h2, fun k hk => by simpa using h3 k hk⟩
  · obtain ⟨h1, h2, h3⟩ := findSlot_first _ _ _ hfj
    exact ⟨h1, by simpa using h2, fun k hk => by simpa using h3 k hk⟩
  · intro u e
    rw [hform] at e
    split_ifs at e
    cases hr : RecalculateTraversalOrder fuel (connectEdge s parent j child i) child
        true true with
    | none => rw [hr] at e; cases e
    | some s5 => rw [hr] at e; cases e
  · intro t e
    rw [hform] at e
    split_ifs at e
    · cases hr : RecalculateTraversalOrder fuel (connectEdge s parent j child i) child
        true true with
      | none => rw [hr] at e; cases e
      | some s5 => rw [hr] at e; cases e
    · cases e
  · intro t e
    have he : t.eraseOrders = (connectEdge s parent j child i).eraseOrders := by
      rw [hform] at e
      split_ifs at e
      · cases hr : RecalculateTraversalOrder fuel (connectEdge s parent j child i) child
          true true with
        | none => rw [hr] at e; cases e
        | some s5 =>
          rw [hr] at e
          cases e
          exact RecalculateTraversalOrder_frame hr
      · cases e; rfl
    constructor
    · intro n
      have h1 := ((strip_eq_iff _ _).1 (eraseOrders_strip he n)).2.2.2.2.2.2.2
      rw [h1, connectEdge_node]
    · rw [eraseOrders_links he, connectEdge_links]
  · intro r L hr hL
    have hsup := connectEdge_supported hL parent j child i
    refine ⟨(parent :: child :: L).length * (((parent :: child :: L).map r).sum + 1) +
      r child + 1, ?_⟩
    intro k hk
    rw [hform]
    split_ifs
    · obtain ⟨t, ht⟩ := RecalculateTraversalOrder_total k (connectEdge s parent j child i)
        child true true r ((parent :: child :: L).map r).sum (parent :: child :: L) hr hsup
        (fun n hn => List.le_sum_of_mem (List.mem_map_of_mem _ hn)) (by omega)
      exact ⟨t, by rw [ht]⟩
    · exact ⟨_, rfl⟩
  · constructor
    · intro h
      unfold ConnectNoAssert
      rcases h with h | h
      · rw [h]
      · rw [h]
        cases FindPinInput s child pin_ci <;> rfl
    · intro i j hfi hfj
      rw [Connect_found fuel hd1 hd2 hd3 hfi hfj]
      unfold ConnectNoAssert
      simp only [hfi, hfj]

theorem ownership_validation_witness :
    (demo.pin 4).dir = PinDir.input ∧ (demo.pin 2).dir = PinDir.output ∧
    (demo.pin 2).type = (demo.pin 4).type ∧
    FindPinInput demo 1 4 = some 0 ∧ FindPinOutput demo 0 2 = some 0 ∧
    Ranked (connectEdge demo 0 0 1 0) (fun n => n) ∧ Supported demo [] ∧
    (∃ N, ∀ k, N ≤ k → ∃ t, Connect k demo 0 2 1 4 = Res.ok true t) ∧
    (∃ t, Connect 5 demo 0 2 1 4 = Res.ok true t ∧
      (t.node 0).pin_outputs = [⟨2, [⟨4⟩]⟩, ⟨3, []⟩] ∧ t.links = [⟨(1, 0), (0, 0)⟩]) ∧
    (((FindPinInput demo 1 4 = none ↔ ∀ x ∈ (demo.node 1).pin_inputs, x.pin ≠ 4) ∧
      (FindPinOutput demo 0 2 = none ↔ ∀ x ∈ (demo.node 0).pin_outputs, x.pin ≠ 2)) ∧
    ((FindPinInput demo 1 4 = none ∨ FindPinOutput demo 0 2 = none) →
      Connect 5 demo 0 2 1 4 = Res.assertFail demo) ∧
    (∀ i j, FindPinInput demo 1 4 = some i → FindPinOutput demo 0 2 = some j →
      (i < (demo.node 1).pin_inputs.length ∧
        ((demo.node 1).pin_inputs.getD i default).pin = 4 ∧
        ∀ k, k < i → ((demo.node 1).pin_inputs.getD k default).pin ≠ 4) ∧
      (j < (demo.node 0).pin_outputs.length ∧
        ((demo.node 0).pin_outputs.getD j default).pin = 2 ∧
        ∀ k, k < j → ((demo.node 0).pin_outputs.getD k default).pin ≠ 2) ∧
      (∀ u, Connect 5 demo 0 2 1 4 ≠ Res.assertFail u) ∧
      (∀ t, Connect 5 demo 0 2 1 4 ≠ Res.ok false t) ∧
      (∀ t, Connect 5 demo 0 2 1 4 = Res.ok true t →
        (∀ n, (t.node n).pin_outputs =
          if n = 0 then (demo.node 0).pin_outputs.modify
            (fun o => ⟨o.pin, o.connections ++ [(demo.node 1).pin_inputs.getD i default]⟩) j
          else (demo.node n).pin_outputs) ∧
        t.links = demo.links ++ [⟨(1, i), (0, j)⟩]) ∧
      (∀ r L, Ranked (connectEdge demo 0 j 1 i) r → Supported demo L →
        ∃ N, ∀ k, N ≤ k → ∃ t, Connect k demo 0 2 1 4 = Res.ok true t)) ∧
    (((FindPinInput demo 1 4 = none ∨ FindPinOutput demo 0 2 = none) →
        ConnectNoAssert 5 demo 0 2 1 4 = Res.ok false demo) ∧
      (∀ i j, FindPinInput demo 1 4 = some i → FindPinOutput demo 0 2 = some j →
        ConnectNoAssert 5 demo 0 2 1 4 = Connect 5 demo 0 2 1 4))) := by
  have hr : Ranked (connectEdge demo 0 0 1 0) (fun n => n) := by
    intro n p hp
    simp only [connectEdge_node] at hp
    by_cases hn : n = 1
    · subst hn
      have : p = ⟨0, 1⟩ := by simpa [demo, addConn] using hp
      subst this
      decide
    · rw [if_neg hn] at hp
      simp [demo] at hp
  have hs : Supported demo [] := fresh_supported demo_fresh
  have hthm := ownership_validation 5 demo 0 2 1 4 (by decide) (by decide) (by decide)
  have hfi : FindPinInput demo 1 4 = some 0 := by decide
  have hfj : FindPinOutput demo 0 2 = some 0 := by decide
  have hok : (okState (Connect 5 demo 0 2 1 4)).map
      (fun t => ((t.node 0).pin_outputs, t.links)) =
      some ([⟨2, [⟨4⟩]⟩, ⟨3, []⟩], [⟨(1, 0), (0, 0)⟩]) := by decide
  obtain ⟨t, ht, ho⟩ := Option.map_eq_some'.1 hok
  simp only [Prod.mk.injEq] at ho
  exact ⟨by decide, by decide, by decide, hfi, hfj, hr, hs,
    (hthm.2.2.1 0 0 hfi hfj).2.2.2.2.2 _ _ hr hs,
    ⟨t, okState_some ht, ho.1, ho.2⟩, hthm⟩


theorem Update_calls_nodup {s : Editor} {fuel : Nat} {fr : Frame}
    (hend : Update fuel s = Res.ok () fr ∨ Update fuel s = Res.assertFail fr) :
    fr.calls.Nodup := by
  have h := Update_spec fuel s
  have h2 : FrameInv (dirtySeedPhase s) fr := by
    rcases hend with he | he
    · rw [he] at h; exact h.1
    · rw [he] at h; exact h
  exact h2.nodup

theorem Update_forgets_draw_list (fuel : Nat) (s : Editor) (old : List NodeId) :
    Update fuel { s with nodes_to_draw := old } = Update fuel s := rfl

/-- C21. Draw list is exactly this frame's re-evaluated visual nodes: after a call of
`Update`, ended by its return or at the assertion of the parent loop, `nodes_to_draw`
contains no node twice, is the log of this call's computations restricted to the visual
nodes (so a node is in it if and only if it is visual and its computation was invoked
during this call), and does not depend on what the list held before the call. The call
returns on every ranked graph whose parents lists are sorted by update order. -/
theorem draw_list_exact (s : Editor) (fuel : Nat) (fr : Frame)
    (hend : Update fuel s = Res.ok () fr ∨ Update fuel s = Res.assertFail fr) :
    fr.ed.nodes_to_draw.Nodup ∧
    fr.ed.nodes_to_draw = fr.calls.filter (fun n => (s.node n).is_visual) ∧
    (∀ n, n ∈ fr.ed.nodes_to_draw ↔ ((s.node n).is_visual = true ∧ n ∈ fr.calls)) ∧
    (∀ n, (fr.ed.node n).is_visual = (s.node n).is_visual) ∧
    (∀ old, Update fuel { s with nodes_to_draw := old } = Update fuel s) ∧
    (∀ n ∈ s.nodes_to_draw, n ∉ fr.calls → n ∉ fr.ed.nodes_to_draw) ∧
    (∀ r f, Ranked s r → ParentsSorted s → (∀ v ∈ s.visible_nodes, r v < f) →
      ∃ fr2, Update f s = Res.ok () fr2) := by
  have hd := Update_draws_visual hend
  have hiff : ∀ n, n ∈ fr.ed.nodes_to_draw ↔ ((s.node n).is_visual = true ∧ n ∈ fr.calls) := by
    intro n
    rw [hd, List.mem_filter]
    exact ⟨fun h => ⟨h.2, h.1⟩, fun h => ⟨h.2, h.1⟩⟩
  refine ⟨?_, hd, hiff, fun n => (Update_fields hend n).2.1, fun _ => rfl, ?_, ?_⟩
  · rw [hd]
    exact (Update_calls_nodup hend).filter _
  · intro n _ hn hmem
    exact hn ((hiff n).1 hmem).2
  · intro r f hr hsort hf
    exact Update_returns hr hsort hf

theorem draw_list_exact_witness :
    ∃ t fr, (run demoNodes demoWiring).bind (fun u => frameEditor (Update 5 u)) = some t ∧
      t.nodes_to_draw = [1, 3] ∧ (t.node 1).is_visual = true ∧
      Update 5 t = Res.ok () fr ∧ fr.calls = [2] ∧ (t.node 2).is_visual = false ∧
      fr.ed.nodes_to_draw = [] ∧
      (fr.ed.nodes_to_draw.Nodup ∧
      fr.ed.nodes_to_draw = fr.calls.filter (fun n => (t.node n).is_visual) ∧
      (∀ n, n ∈ fr.ed.nodes_to_draw ↔ ((t.node n).is_visual = true ∧ n ∈ fr.calls)) ∧
      (∀ n, (fr.ed.node n).is_visual = (t.node n).is_visual) ∧
      (∀ old, Update 5 { t with nodes_to_draw := old } = Update 5 t) ∧
      (∀ n ∈ t.nodes_to_draw, n ∉ fr.calls → n ∉ fr.ed.nodes_to_draw) ∧
      (∀ r f, Ranked t r → ParentsSorted t → (∀ v ∈ t.visible_nodes, r v < f) →
        ∃ fr2, Update f t = Res.ok () fr2)) := by
  have h : ((run demoNodes demoWiring).bind (fun u => frameEditor (Update 5 u))).map
      (fun t => (frameLog (Update 5 t), t.nodes_to_draw)) =
      some (some ([2], []), [1, 3]) := by decide
  have h2 : ((run demoNodes demoWiring).bind (fun u => frameEditor (Update 5 u))).map
      (fun t => ((t.node 1).is_visual, (t.node 2).is_visual)) = some (true, false) := by
    decide
  obtain ⟨t, ht, ho⟩ := Option.map_eq_some'.1 h
  rw [ht] at h2
  simp only [Option.map_some', Option.some.injEq, Prod.mk.injEq] at h2 ho
  obtain ⟨ho1, ho2⟩ := ho
  obtain ⟨fr, hfr, hx⟩ := frameLog_some ho1
  simp only [Prod.mk.injEq] at hx
  exact ⟨t, fr, ht, ho2, h2.1, hfr, hx.1.symm, h2.2, hx.2.symm,
    draw_list_exact t 5 fr (Or.inl hfr)⟩

theorem timedNodes_fresh : Fresh timedNodes := by
  refine ⟨rfl, ?_⟩
  intro n
  simp only [timedNodes, CreateAndAdd, setNode_node]
  by_cases h3 : n = 3
  · subst h3; simp [demo, Editor.setNode]
  by_cases h2 : n = 2
  · subst h2; simp [demo, Editor.setNode]
  by_cases h1 : n = 1
  · subst h1; simp [demo, Editor.setNode]
  by_cases h0 : n = 0
  · subst h0; simp [demo, Editor.setNode]
  simp [demo, Editor.setNode, h0, h1, h2, h3, Function.update_apply]

theorem abortedFrame_some {k : Nat} {res : Res Frame Unit} {x : List NodeId × List Bool}
    (h : abortedFrame k res = some x) :
    ∃ fr, res = Res.assertFail fr ∧ fr.calls = x.1 ∧
      (List.range k).map (fun n => (fr.ed.node n).dirty) = x.2 := by
  cases res with
  | ok u fr => simp [abortedFrame] at h
  | assertFail fr =>
    simp only [abortedFrame, Option.some.injEq] at h
    subst h
    exact ⟨fr, rfl, rfl, rfl⟩
  | outOfFuel => simp [abortedFrame] at h

/-- C10 fails on the code: the nodes 0, 1, 2, 3 are created through `CreateAndAdd`, node 3
visual and with `updates_over_time = true`, and wired by the successful calls `Connect`
0 -> 3, 1 -> 3, 2 -> 0 (an acyclic graph). Node 3 is registered as time-driven, is
visible, and is dirty after the dirty-seed phase; yet the frame stops at the failed
assertion of the parent loop after the computations of the nodes 1, 2 and 0: the
computation of node 3 is not invoked, node 3 is left dirty, and with no recursion bound
does the frame return. -/
theorem time_driven_not_computed :
    ∃ t fr, run timedNodes unsortedWiring = some t ∧
      (∃ r, Ranked t r) ∧
      3 ∈ (CreateAndAdd demo 3
        (some (3, { demo.node 3 with updates_over_time := true }))).1.nodes_update_over_time ∧
      3 ∈ t.nodes_update_over_time ∧ 3 ∈ t.visible_nodes ∧
      ((dirtySeedPhase t).node 3).dirty = true ∧
      Update 5 t = Res.assertFail fr ∧ fr.calls = [1, 2, 0] ∧ fr.calls.count 3 = 0 ∧
      (fr.ed.node 3).dirty = true ∧
      ∀ fuel fr2, Update fuel t ≠ Res.ok () fr2 := by
  have h : (run timedNodes unsortedWiring).map
      (fun t => (t.visible_nodes, t.nodes_update_over_time,
        (t.node 3).parents.map (fun p => (t.node p.node).update_order))) =
      some ([1, 3], [3], [1, 0]) := by decide
  have h2 : (run timedNodes unsortedWiring).map (fun t => abortedFrame 4 (Update 5 t)) =
      some (some ([1, 2, 0], [false, false, false, true])) := by decide
  obtain ⟨t, ht, ho⟩ := Option.map_eq_some'.1 h
  rw [ht] at h2
  simp only [Option.map_some', Option.some.injEq] at h2
  simp only [Prod.mk.injEq] at ho
  obtain ⟨ho1, ho2, ho3⟩ := ho
  have ho4 := h2
  obtain ⟨fr, hfr, hc, hd⟩ := abortedFrame_some ho4
  have hwf : WF t := (run_WF _ timedNodes t (fresh_wf timedNodes_fresh) ht).1
  have h3 : (fr.ed.node 3).dirty = true := by
    have := congrArg (fun l => l.getD 3 false) hd
    simpa [List.range_succ] using this
  refine ⟨t, fr, ht, ⟨_, wf_ranked hwf⟩, ?_, by rw [ho2]; simp, by rw [ho1]; simp, ?_, hfr,
    hc, by rw [hc]; decide, h3, ?_⟩
  · exact CreateAndAdd_over_time demo 3 3 _ rfl
  · rw [dirtySeedPhase_node, if_pos (by rw [ho2]; simp)]
  · intro fuel fr2 hok
    have h3 := Update_ok_sorted hok 3 (by rw [ho1]; simp)
    rw [ho3] at h3
    simp only [List.chain_cons] at h3
    exact absurd h3.2.1 (by decide)

/-- C14 fails on the code: after `CreateAndAdd` of the nodes 0, 1, 2, 3 and the
successful calls `Connect` 0 -> 3, 1 -> 3, 2 -> 0 (an acyclic graph), node 3 is visible,
but the frame stops at the failed assertion of the parent loop before the computation
of node 3: node 3 is still dirty in the state the frame leaves, and with no recursion
bound does the frame return. -/
theorem observed_left_dirty :
    ∃ t fr, run demoNodes unsortedWiring = some t ∧
      (∃ r, Ranked t r) ∧
      3 ∈ t.visible_nodes ∧
      Update 5 t = Res.assertFail fr ∧ 3 ∉ fr.calls ∧ (fr.ed.node 3).dirty = true ∧
      ∀ fuel fr2, Update fuel t ≠ Res.ok () fr2 := by
  have h : (run demoNodes unsortedWiring).map
      (fun t => (t.visible_nodes,
        (t.node 3).parents.map (fun p => (t.node p.node).update_order))) =
      some ([1, 3], [1, 0]) := by decide
  have h2 : (run demoNodes unsortedWiring).map (fun t => abortedFrame 4 (Update 5 t)) =
      some (some ([1, 2, 0], [false, false, false, true])) := by decide
  obtain ⟨t, ht, ho⟩ := Option.map_eq_some'.1 h
  rw [ht] at h2
  simp only [Option.map_some', Option.some.injEq] at h2
  simp only [Prod.mk.injEq] at ho
  obtain ⟨ho1, ho3⟩ := ho
  have ho4 := h2
  obtain ⟨fr, hfr, hc, hd⟩ := abortedFrame_some ho4
  have hwf : WF t := (run_WF _ demoNodes t (fresh_wf demoNodes_fresh) ht).1
  have h3 : (fr.ed.node 3).dirty = true := by
    have := congrArg (fun l => l.getD 3 false) hd
    simpa [List.range_succ] using this
  refine ⟨t, fr, ht, ⟨_, wf_ranked hwf⟩, by rw [ho1]; simp, hfr, by rw [hc]; decide, h3, ?_⟩
  intro fuel fr2 hok
  have h3 := Update_ok_sorted hok 3 (by rw [ho1]; simp)
  rw [ho3] at h3
  simp only [List.chain_cons] at h3
  exact absurd h3.2.1 (by decide)

end Seam
